import Mathlib

/-!
Sequence containers: `SimpleVector`, `SinglyLinkedList`, `DoublyLinkedList`.

A shallow embedding of the three container templates of the repository
(`simpleVector.h`, `singlyLinkedList.h`, `doublyLinkedList.h`) and of the
position checks of `baseContainer.h`.

Conventions of the embedding.

* A C++ member function that may throw returns `Except Error _`.
  `Error.OutOfRange` is `std::out_of_range`, `Error.AllocationFailure` is
  `std::bad_alloc`, and `Error.Undefined` marks executions whose behaviour is
  undefined in C++ (a null or dangling dereference, a read of a raw slot).
* `size_type` values are natural numbers.  A container of `n` elements occupies
  at least `n` bytes of storage, so the counters stay far below `2^64` and no
  `size_type` computation of the code wraps.
* `mem : Bool` is the answer of the allocator to the (single) storage request an
  operation may make; `mv : T → T` is the value a move of `T` leaves in its
  source (`id` for `int` and every other type whose move is a copy).
* Counting loops are structural recursions on their trip count.
* Of each pair of overloads taking `const T&` and `T&&` the first is embedded; the
  second differs in moving from its argument, which is no part of the container.
* The nodes of the linked lists live in an explicit heap, passed to and returned
  by every operation next to the list object itself.
-/

/-- The failures an operation can end in. -/
inductive Error where
  | OutOfRange
  | AllocationFailure
  | Undefined
  deriving DecidableEq, Repr

deriving instance DecidableEq for Except

/-! ## `baseContainer.h` -/

namespace BaseContainer

/-- `check_index(idx, size)`: throws `std::out_of_range` when `idx >= size`. -/
def check_index (idx size : Nat) : Except Error Unit :=
  if idx ≥ size then .error .OutOfRange else .ok ()

/-- `check_position(pos, size)`: throws `std::out_of_range` when `pos > size`. -/
def check_position (pos size : Nat) : Except Error Unit :=
  if pos > size then .error .OutOfRange else .ok ()

end BaseContainer

/-! ## `simpleVector.h` -/

/-- The three data members of `SimpleVector<T>`.  `data_` is `none` for
`nullptr`; otherwise it is the block returned by `::operator new`, one entry per
slot, `none` for a slot that holds no live object. -/
structure SimpleVector (T : Type) where
  size_ : Nat
  capacity_ : Nat
  data_ : Option (List (Option T))
  deriving DecidableEq, Repr

namespace SimpleVector

variable {T : Type}

/-- Read `d[i]`: the block must exist and slot `i` must hold a live object. -/
def load (d : Option (List (Option T))) (i : Nat) : Except Error T :=
  match d with
  | none => .error .Undefined
  | some b =>
    match b[i]? with
    | some (some x) => .ok x
    | _ => .error .Undefined

/-- Placement new `new (&d[i]) T(x)`: slot `i` must lie inside the block. -/
def construct_at (d : Option (List (Option T))) (i : Nat) (x : T) :
    Except Error (Option (List (Option T))) :=
  match d with
  | none => .error .Undefined
  | some b => if i < b.length then .ok (some (b.set i (some x))) else .error .Undefined

/-- Assignment `d[i] = x` to the live object in slot `i`. -/
def assign_at (d : Option (List (Option T))) (i : Nat) (x : T) :
    Except Error (Option (List (Option T))) :=
  match d with
  | none => .error .Undefined
  | some b =>
    match b[i]? with
    | some (some _) => .ok (some (b.set i (some x)))
    | _ => .error .Undefined

/-- Destructor call `d[i].~T()`: the slot must hold a live object and is raw
afterwards. -/
def destroy_at (d : Option (List (Option T))) (i : Nat) :
    Except Error (Option (List (Option T))) :=
  match d with
  | none => .error .Undefined
  | some b =>
    match b[i]? with
    | some (some _) => .ok (some (b.set i none))
    | _ => .error .Undefined

/-- Move construction inside one block, `new (&d[dst]) T(std::move(d[src]))`:
the source stays live and holds `mv x`. -/
def move_construct (mv : T → T) (d : Option (List (Option T))) (dst src : Nat) :
    Except Error (Option (List (Option T))) := do
  let x ← load d src
  let d ← construct_at d dst x
  assign_at d src (mv x)

/-- Move assignment inside one block, `d[dst] = std::move(d[src])`. -/
def move_assign (mv : T → T) (d : Option (List (Option T))) (dst src : Nat) :
    Except Error (Option (List (Option T))) := do
  let x ← load d src
  let d ← assign_at d dst x
  assign_at d src (mv x)

/-- The allocation `static_cast<T*>(::operator new(n * sizeof(T)))`: a block of
`n` raw slots, or `std::bad_alloc`.  The byte count is taken as exact here;
`operator_new_sized` takes the product in `size_t`. -/
def operator_new (mem : Bool) (n : Nat) : Except Error (Option (List (Option T))) :=
  if mem then .ok (some (List.replicate n none)) else .error .AllocationFailure

/-- The loop `for (; i < size_; ++i) new (&new_data[i]) T(std::move(data_[i]))`
of `change_capacity`, with `k` iterations left.  The old block is destroyed and
released right after the loop and every old slot is read once, so the values the
moves leave behind in it are not recorded. -/
def relocate (old : Option (List (Option T))) :
    Nat → Nat → Option (List (Option T)) → Except Error (Option (List (Option T)))
  | 0, _, new_data => .ok new_data
  | k + 1, i, new_data => do
    let x ← load old i
    let new_data ← construct_at new_data i x
    relocate old k (i + 1) new_data

/-- `change_capacity(new_capacity)`.  The `catch` branch is the one of a throwing
element constructor and is not reachable for the element types modelled here.
The destructor loop over the old block cannot fail after `relocate` has read each
of its slots, and the old block is not part of the resulting state. -/
def change_capacity (mem : Bool) (s : SimpleVector T) (new_capacity : Nat) :
    Except Error (SimpleVector T) :=
  if new_capacity = s.capacity_ then .ok s
  else if new_capacity < s.size_ then .ok s
  else do
    let new_data ←
      if new_capacity > 0 then do
        let raw ← operator_new mem new_capacity
        relocate s.data_ s.size_ 0 raw
      else pure none
    pure { s with data_ := new_data, capacity_ := new_capacity }

/-- The value `static_cast<size_type>(capacity_ * GROWTH_FACTOR)` with
`GROWTH_FACTOR = 1.5`: the product is exact in `double` for every capacity below
`2^53`, and the cast truncates it. -/
def grown (capacity : Nat) : Nat := capacity * 3 / 2

/-- `ensure_capacity(required_capacity)`. -/
def ensure_capacity (mem : Bool) (s : SimpleVector T) (required_capacity : Nat) :
    Except Error (SimpleVector T) :=
  if required_capacity ≤ s.capacity_ then .ok s
  else
    let new_capacity := if s.capacity_ = 0 then 1 else grown s.capacity_
    let new_capacity := if new_capacity < required_capacity then required_capacity
      else new_capacity
    change_capacity mem s new_capacity

/-- `SimpleVector()`. -/
def empty_vector : SimpleVector T := { size_ := 0, capacity_ := 0, data_ := none }

/-- `size()`. -/
def size (s : SimpleVector T) : Nat := s.size_

/-- `empty()`. -/
def empty (s : SimpleVector T) : Bool := s.size_ == 0

/-- The loop of `destroy_elements`, `k` iterations left. -/
def destroy_range : Nat → Nat → Option (List (Option T)) →
    Except Error (Option (List (Option T)))
  | 0, _, d => .ok d
  | k + 1, i, d => do
    let d ← destroy_at d i
    destroy_range k (i + 1) d

/-- `destroy_elements()`. -/
def destroy_elements (s : SimpleVector T) : Except Error (Option (List (Option T))) :=
  match s.data_ with
  | none => .ok none
  | some b => destroy_range s.size_ 0 (some b)

/-- `clear()`. -/
def clear (s : SimpleVector T) : Except Error (SimpleVector T) := do
  let d ← destroy_elements s
  pure { s with data_ := d, size_ := 0 }

/-- `push_back(const T& value)`. -/
def push_back (mem : Bool) (s : SimpleVector T) (value : T) :
    Except Error (SimpleVector T) := do
  let s ← ensure_capacity mem s (s.size_ + 1)
  let d ← construct_at s.data_ s.size_ value
  pure { s with data_ := d, size_ := s.size_ + 1 }

/-- The loop `for (i = size_; i > pos; --i) data_[i] = std::move(data_[i - 1])`
of `insert`, entered with loop variable `i`. -/
def shift_right (mv : T → T) (pos : Nat) :
    Nat → Option (List (Option T)) → Except Error (Option (List (Option T)))
  | 0, d => .ok d
  | i + 1, d =>
    if i + 1 > pos then do
      let d ← move_assign mv d (i + 1) i
      shift_right mv pos i d
    else .ok d

/-- `insert(size_type pos, const T& value)`. -/
def insert (mv : T → T) (mem : Bool) (s : SimpleVector T) (pos : Nat) (value : T) :
    Except Error (SimpleVector T) := do
  BaseContainer.check_position pos s.size_
  let s ← ensure_capacity mem s (s.size_ + 1)
  if pos = s.size_ then
    let d ← construct_at s.data_ s.size_ value
    pure { s with data_ := d, size_ := s.size_ + 1 }
  else
    let d ← move_construct mv s.data_ s.size_ (s.size_ - 1)
    let d ← shift_right mv pos s.size_ d
    let d ← assign_at d pos value
    pure { s with data_ := d, size_ := s.size_ + 1 }

/-- The loop `for (i = pos; i < size_ - 1; ++i)` of `erase`, `k` iterations left:
`new (&data_[i]) T(std::move(data_[i + 1])); data_[i + 1].~T();`. -/
def shift_left (mv : T → T) :
    Nat → Nat → Option (List (Option T)) → Except Error (Option (List (Option T)))
  | 0, _, d => .ok d
  | k + 1, i, d => do
    let d ← move_construct mv d i (i + 1)
    let d ← destroy_at d (i + 1)
    shift_left mv k (i + 1) d

/-- `erase(size_type pos)`. -/
def erase (mv : T → T) (s : SimpleVector T) (pos : Nat) : Except Error (SimpleVector T) := do
  BaseContainer.check_index pos s.size_
  let d ← destroy_at s.data_ pos
  let d ← shift_left mv (s.size_ - 1 - pos) pos d
  pure { s with data_ := d, size_ := s.size_ - 1 }

/-- `operator[](size_type idx)`, as a read of the referenced element. -/
def index (s : SimpleVector T) (idx : Nat) : Except Error T := do
  BaseContainer.check_index idx s.size_
  load s.data_ idx

/-- The loop of `print`, `k` iterations left; the stream is the list of the
chunks written so far. -/
def print_loop (render : T → String) (s : SimpleVector T) :
    Nat → Nat → List String → Except Error (List String)
  | 0, _, os => .ok os
  | k + 1, i, os => do
    let x ← load s.data_ i
    let os := os ++ [render x]
    let os := if i ≠ s.size_ - 1 then os ++ [" "] else os
    print_loop render s k (i + 1) os

/-- `print(os)`: the chunks written to the stream, in order. -/
def print (render : T → String) (s : SimpleVector T) : Except Error (List String) :=
  print_loop render s s.size_ 0 []

end SimpleVector

/-! ## Node storage of the linked lists -/

/-- A node pointer, owning (`std::unique_ptr<Node>`) or not (`Node*`): `none` is
`nullptr`, `some a` is the address `a`. -/
abbrev Ptr := Option Nat

/-- The free store for nodes of type `N`: cell `a` is `some n` while a node lives
at address `a`, and `none` once it has been deleted. -/
abbrev Heap (N : Type) := List (Option N)

namespace Heap

variable {N : Type}

/-- The node `*p`; a null or dangling `p` has no node. -/
def deref (h : Heap N) (p : Ptr) : Except Error N :=
  match p with
  | none => .error .Undefined
  | some a =>
    match h[a]? with
    | some (some n) => .ok n
    | _ => .error .Undefined

/-- An assignment to members of `*p`, `f` giving the new member values. -/
def modify (h : Heap N) (p : Ptr) (f : N → N) : Except Error (Heap N) :=
  match p with
  | none => .error .Undefined
  | some a =>
    match h[a]? with
    | some (some n) => .ok (h.set a (some (f n)))
    | _ => .error .Undefined

/-- The allocation of `std::make_unique<Node>(...)`: the node is placed at an
address not used before, or `std::bad_alloc` is thrown. -/
def make_unique (mem : Bool) (h : Heap N) (n : N) : Except Error (Nat × Heap N) :=
  if mem then .ok (h.length, h ++ [some n]) else .error .AllocationFailure

/-- The destruction of the node owned by a `unique_ptr` holding `p`: the node is
deleted, and its destructor destroys its own `next` in the same way.  No more
than `fuel` nodes can be alive. -/
def destroy (next : N → Ptr) : Nat → Heap N → Ptr → Except Error (Heap N)
  | _, h, none => .ok h
  | 0, _, some _ => .error .Undefined
  | fuel + 1, h, some a =>
    match h[a]? with
    | some (some n) => destroy next fuel (h.set a none) (next n)
    | _ => .error .Undefined

end Heap

/-- The value of the `size_type` expression `n - 1`. -/
def size_pred (n : Nat) : Nat := if n = 0 then 2 ^ 64 - 1 else n - 1

/-- The pointer to the first of the cells `cs` (address and value of each node,
in list order), or `q` when there is none. -/
def link {T : Type} (cs : List (Nat × T)) (q : Ptr) : Ptr :=
  match cs with
  | [] => q
  | c :: _ => some c.1

/-- The pointer to the last of the cells `cs`, or `b` when there is none. -/
def back {T : Type} (b : Ptr) (cs : List (Nat × T)) : Ptr :=
  match cs.getLast? with
  | none => b
  | some c => some c.1

/-! ## `singlyLinkedList.h` -/

/-- `SinglyLinkedList<T>::Node`. -/
structure SinglyLinkedList.Node (T : Type) where
  data : T
  next : Ptr
  deriving DecidableEq, Repr

/-- The three data members of `SinglyLinkedList<T>`; the nodes live in a
`Heap (SinglyLinkedList.Node T)`. -/
structure SinglyLinkedList where
  head_ : Ptr
  tail_ : Ptr
  size_ : Nat
  deriving DecidableEq, Repr

namespace SinglyLinkedList

variable {T : Type}

/-- `SinglyLinkedList()`. -/
def empty_list : SinglyLinkedList := { head_ := none, tail_ := none, size_ := 0 }

/-- `size()`. -/
def size (l : SinglyLinkedList) : Nat := l.size_

/-- `empty()`. -/
def empty (l : SinglyLinkedList) : Bool := l.size_ == 0

/-- The loop `while (head_) head_ = std::move(head_->next);` of `clear`: each
round takes the successor out of the head node and deletes that node.  Every
round deletes a live node, so the heap size bounds the number of rounds. -/
def clear_loop : Nat → Heap (Node T) → Ptr → Except Error (Heap (Node T) × Ptr)
  | _, h, none => .ok (h, none)
  | 0, _, some _ => .error .Undefined
  | fuel + 1, h, some a => do
    let n ← h.deref (some a)
    clear_loop fuel (h.set a none) n.next

/-- `clear()`. -/
def clear (h : Heap (Node T)) (l : SinglyLinkedList) :
    Except Error (Heap (Node T) × SinglyLinkedList) := do
  let (h, head) ← clear_loop h.length h l.head_
  pure (h, { head_ := head, tail_ := none, size_ := 0 })

/-- `push_back(const T& value)`. -/
def push_back (mem : Bool) (h : Heap (Node T)) (l : SinglyLinkedList) (value : T) :
    Except Error (Heap (Node T) × SinglyLinkedList) := do
  let (raw_ptr, h) ← Heap.make_unique mem h (Node.mk value none)
  if l.head_ = none then
    pure (h, { head_ := some raw_ptr, tail_ := some raw_ptr, size_ := l.size_ + 1 })
  else
    -- `tail_->next = std::move(new_node)` destroys what `tail_->next` owned
    let t ← h.deref l.tail_
    let h ← h.modify l.tail_ (fun n => { n with next := some raw_ptr })
    let h ← Heap.destroy Node.next h.length h t.next
    pure (h, { head_ := l.head_, tail_ := some raw_ptr, size_ := l.size_ + 1 })

/-- `push_front(const T& value)`. -/
def push_front (mem : Bool) (h : Heap (Node T)) (l : SinglyLinkedList) (value : T) :
    Except Error (Heap (Node T) × SinglyLinkedList) := do
  -- `Node(value, std::move(head_))`
  let (a, h) ← Heap.make_unique mem h (Node.mk value l.head_)
  pure (h, { head_ := some a, tail_ := if l.tail_ = none then some a else l.tail_,
             size_ := l.size_ + 1 })

/-- `k` rounds of `current = current->next.get()`. -/
def advance (h : Heap (Node T)) : Nat → Ptr → Except Error Ptr
  | 0, p => .ok p
  | k + 1, p => do
    let n ← h.deref p
    advance h k n.next

/-- `get_node_at(idx)`. -/
def get_node_at (h : Heap (Node T)) (l : SinglyLinkedList) (idx : Nat) : Except Error Ptr :=
  advance h idx l.head_

/-- `insert_middle(pos, value)`; the loop runs `pos - 1` rounds, in `size_type`
arithmetic. -/
def insert_middle (mem : Bool) (h : Heap (Node T)) (l : SinglyLinkedList) (pos : Nat)
    (value : T) : Except Error (Heap (Node T) × SinglyLinkedList) := do
  let prev ← advance h (size_pred pos) l.head_
  -- `Node(value, std::move(prev->next))`
  let p ← h.deref prev
  let (a, h) ← Heap.make_unique mem h (Node.mk value p.next)
  -- `prev->next = std::move(new_node)`
  let h ← h.modify prev (fun n => { n with next := some a })
  pure (h, { l with size_ := l.size_ + 1 })

/-- `insert(size_type pos, const T& value)`. -/
def insert (mem : Bool) (h : Heap (Node T)) (l : SinglyLinkedList) (pos : Nat) (value : T) :
    Except Error (Heap (Node T) × SinglyLinkedList) := do
  BaseContainer.check_position pos l.size_
  if pos = 0 then push_front mem h l value
  else if pos = l.size_ then push_back mem h l value
  else insert_middle mem h l pos value

/-- `erase(size_type pos)`. -/
def erase (h : Heap (Node T)) (l : SinglyLinkedList) (pos : Nat) :
    Except Error (Heap (Node T) × SinglyLinkedList) := do
  BaseContainer.check_index pos l.size_
  if pos = 0 then
    -- `head_ = std::move(head_->next)`: the old head node is deleted
    let n ← h.deref l.head_
    let h ← h.modify l.head_ (fun n => { n with next := none })
    let h ← Heap.destroy Node.next h.length h l.head_
    let head := n.next
    pure (h, { head_ := head, tail_ := if head = none then none else l.tail_,
               size_ := l.size_ - 1 })
  else
    let prev ← advance h (pos - 1) l.head_
    -- `auto node_to_erase = std::move(prev->next)`
    let p ← h.deref prev
    let node_to_erase := p.next
    let h ← h.modify prev (fun n => { n with next := none })
    -- `prev->next = std::move(node_to_erase->next)`
    let e ← h.deref node_to_erase
    let h ← h.modify node_to_erase (fun n => { n with next := none })
    let h ← h.modify prev (fun n => { n with next := e.next })
    -- `if (!prev->next) tail_ = prev`
    let p ← h.deref prev
    let tail := if p.next = none then prev else l.tail_
    -- `node_to_erase` goes out of scope
    let h ← Heap.destroy Node.next h.length h node_to_erase
    pure (h, { head_ := l.head_, tail_ := tail, size_ := l.size_ - 1 })

/-- `operator[](size_type idx)`, as a read of the referenced element. -/
def index (h : Heap (Node T)) (l : SinglyLinkedList) (idx : Nat) : Except Error T := do
  BaseContainer.check_index idx l.size_
  let p ← get_node_at h l idx
  let n ← h.deref p
  pure n.data

/-- The loop of `print`; the stream is the list of the chunks written so far.  A
chain of live nodes that ends has at most as many nodes as the heap has cells,
which bounds the rounds. -/
def print_loop (render : T → String) (h : Heap (Node T)) :
    Nat → Ptr → List String → Except Error (List String)
  | _, none, os => .ok os
  | 0, some _, _ => .error .Undefined
  | fuel + 1, some a, os => do
    let n ← h.deref (some a)
    let os := os ++ [render n.data]
    let os := if n.next ≠ none then os ++ [" "] else os
    print_loop render h fuel n.next os

/-- `print(os)`: the chunks written to the stream, in order. -/
def print (render : T → String) (h : Heap (Node T)) (l : SinglyLinkedList) :
    Except Error (List String) :=
  print_loop render h h.length l.head_ []

end SinglyLinkedList

/-! ## `doublyLinkedList.h` -/

/-- `DoublyLinkedList<T>::Node`. -/
structure DoublyLinkedList.Node (T : Type) where
  data : T
  next : Ptr
  prev : Ptr
  deriving DecidableEq, Repr

/-- The three data members of `DoublyLinkedList<T>`; the nodes live in a
`Heap (DoublyLinkedList.Node T)`. -/
structure DoublyLinkedList where
  head_ : Ptr
  tail_ : Ptr
  size_ : Nat
  deriving DecidableEq, Repr

namespace DoublyLinkedList

variable {T : Type}

/-- `DoublyLinkedList()`. -/
def empty_list : DoublyLinkedList := { head_ := none, tail_ := none, size_ := 0 }

/-- `size()`. -/
def size (l : DoublyLinkedList) : Nat := l.size_

/-- `empty()`. -/
def empty (l : DoublyLinkedList) : Bool := l.size_ == 0

/-- The loop `while (head_) head_ = std::move(head_->next);` of `clear`. -/
def clear_loop : Nat → Heap (Node T) → Ptr → Except Error (Heap (Node T) × Ptr)
  | _, h, none => .ok (h, none)
  | 0, _, some _ => .error .Undefined
  | fuel + 1, h, some a => do
    let n ← h.deref (some a)
    clear_loop fuel (h.set a none) n.next

/-- `clear()`. -/
def clear (h : Heap (Node T)) (l : DoublyLinkedList) :
    Except Error (Heap (Node T) × DoublyLinkedList) := do
  let (h, head) ← clear_loop h.length h l.head_
  pure (h, { head_ := head, tail_ := none, size_ := 0 })

/-- `push_back(const T& value)`. -/
def push_back (mem : Bool) (h : Heap (Node T)) (l : DoublyLinkedList) (value : T) :
    Except Error (Heap (Node T) × DoublyLinkedList) := do
  -- `Node(value, tail_)`
  let (raw_ptr, h) ← Heap.make_unique mem h (Node.mk value none l.tail_)
  if l.head_ = none then
    pure (h, { head_ := some raw_ptr, tail_ := some raw_ptr, size_ := l.size_ + 1 })
  else
    -- `tail_->next = std::move(new_node)` destroys what `tail_->next` owned
    let t ← h.deref l.tail_
    let h ← h.modify l.tail_ (fun n => { n with next := some raw_ptr })
    let h ← Heap.destroy Node.next h.length h t.next
    pure (h, { head_ := l.head_, tail_ := some raw_ptr, size_ := l.size_ + 1 })

/-- `push_front(const T& value)`. -/
def push_front (mem : Bool) (h : Heap (Node T)) (l : DoublyLinkedList) (value : T) :
    Except Error (Heap (Node T) × DoublyLinkedList) := do
  let (a, h) ← Heap.make_unique mem h (Node.mk value none none)
  if l.head_ ≠ none then
    -- `new_node->next = std::move(head_)`
    let h ← h.modify (some a) (fun n => { n with next := l.head_ })
    -- `new_node->next->prev = new_node.get()`
    let n ← h.deref (some a)
    let h ← h.modify n.next (fun m => { m with prev := some a })
    pure (h, { head_ := some a, tail_ := l.tail_, size_ := l.size_ + 1 })
  else
    pure (h, { head_ := some a, tail_ := some a, size_ := l.size_ + 1 })

/-- `k` rounds of `current = current->next.get()`. -/
def advance (h : Heap (Node T)) : Nat → Ptr → Except Error Ptr
  | 0, p => .ok p
  | k + 1, p => do
    let n ← h.deref p
    advance h k n.next

/-- `k` rounds of `current = current->prev`. -/
def retreat (h : Heap (Node T)) : Nat → Ptr → Except Error Ptr
  | 0, p => .ok p
  | k + 1, p => do
    let n ← h.deref p
    retreat h k n.prev

/-- `get_node_at(idx)`: forward from `head_` for `idx < size_ / 2`, otherwise
backward from `tail_`; the loop `for (i = size_ - 1; i > idx; --i)` runs
`(size_ - 1) - idx` rounds when `idx` is below `size_ - 1`, and none otherwise. -/
def get_node_at (h : Heap (Node T)) (l : DoublyLinkedList) (idx : Nat) : Except Error Ptr :=
  if idx < l.size_ / 2 then advance h idx l.head_
  else retreat h (size_pred l.size_ - idx) l.tail_

/-- `insert_middle(pos, value)`. -/
def insert_middle (mem : Bool) (h : Heap (Node T)) (l : DoublyLinkedList) (pos : Nat)
    (value : T) : Except Error (Heap (Node T) × DoublyLinkedList) := do
  let current ← get_node_at h l pos
  -- `Node(value, current->prev)`
  let c ← h.deref current
  let (a, h) ← Heap.make_unique mem h (Node.mk value none c.prev)
  -- `new_node->next = std::move(current->prev->next)`
  let c ← h.deref current
  let p ← h.deref c.prev
  let h ← h.modify c.prev (fun n => { n with next := none })
  let h ← h.modify (some a) (fun n => { n with next := p.next })
  -- `current->prev = new_node.get()`
  let h ← h.modify current (fun n => { n with prev := some a })
  -- `new_node->next->prev = new_node.get()`
  let n ← h.deref (some a)
  let h ← h.modify n.next (fun m => { m with prev := some a })
  -- `new_node->prev->next = std::move(new_node)`
  let n ← h.deref (some a)
  let h ← h.modify n.prev (fun m => { m with next := some a })
  pure (h, { l with size_ := l.size_ + 1 })

/-- `insert(size_type pos, const T& value)`. -/
def insert (mem : Bool) (h : Heap (Node T)) (l : DoublyLinkedList) (pos : Nat) (value : T) :
    Except Error (Heap (Node T) × DoublyLinkedList) := do
  BaseContainer.check_position pos l.size_
  if pos = 0 then push_front mem h l value
  else if pos = l.size_ then push_back mem h l value
  else insert_middle mem h l pos value

/-- `erase_front()`. -/
def erase_front (h : Heap (Node T)) (l : DoublyLinkedList) :
    Except Error (Heap (Node T) × DoublyLinkedList) := do
  -- `head_ = std::move(head_->next)`: the old head node is deleted
  let n ← h.deref l.head_
  let h ← h.modify l.head_ (fun m => { m with next := none })
  let h ← Heap.destroy Node.next h.length h l.head_
  let head := n.next
  if head ≠ none then
    let h ← h.modify head (fun m => { m with prev := none })
    pure (h, { head_ := head, tail_ := l.tail_, size_ := l.size_ - 1 })
  else
    pure (h, { head_ := head, tail_ := none, size_ := l.size_ - 1 })

/-- `erase_back()`. -/
def erase_back (h : Heap (Node T)) (l : DoublyLinkedList) :
    Except Error (Heap (Node T) × DoublyLinkedList) := do
  let t ← h.deref l.tail_
  if t.prev ≠ none then
    -- `tail_ = tail_->prev; tail_->next.reset();`
    let tail := t.prev
    let n ← h.deref tail
    let h ← h.modify tail (fun m => { m with next := none })
    let h ← Heap.destroy Node.next h.length h n.next
    pure (h, { head_ := l.head_, tail_ := tail, size_ := l.size_ - 1 })
  else
    -- `head_.reset(); tail_ = nullptr;`
    let h ← Heap.destroy Node.next h.length h l.head_
    pure (h, { head_ := none, tail_ := none, size_ := l.size_ - 1 })

/-- `erase_middle(pos)`. -/
def erase_middle (h : Heap (Node T)) (l : DoublyLinkedList) (pos : Nat) :
    Except Error (Heap (Node T) × DoublyLinkedList) := do
  let node_to_erase ← get_node_at h l pos
  -- `node_to_erase->next->prev = node_to_erase->prev`
  let e ← h.deref node_to_erase
  let h ← h.modify e.next (fun m => { m with prev := e.prev })
  -- `node_to_erase->prev->next = std::move(node_to_erase->next)`: the node that
  -- `node_to_erase->prev->next` owned is deleted
  let e ← h.deref node_to_erase
  let h ← h.modify node_to_erase (fun m => { m with next := none })
  let p ← h.deref e.prev
  let h ← h.modify e.prev (fun m => { m with next := e.next })
  let h ← Heap.destroy Node.next h.length h p.next
  pure (h, { l with size_ := l.size_ - 1 })

/-- `erase(size_type pos)`. -/
def erase (h : Heap (Node T)) (l : DoublyLinkedList) (pos : Nat) :
    Except Error (Heap (Node T) × DoublyLinkedList) := do
  BaseContainer.check_index pos l.size_
  if pos = 0 then erase_front h l
  else if pos = l.size_ - 1 then erase_back h l
  else erase_middle h l pos

/-- `operator[](size_type idx)`, as a read of the referenced element. -/
def index (h : Heap (Node T)) (l : DoublyLinkedList) (idx : Nat) : Except Error T := do
  BaseContainer.check_index idx l.size_
  let p ← get_node_at h l idx
  let n ← h.deref p
  pure n.data

/-- The loop of `print`; the stream is the list of the chunks written so far. -/
def print_loop (render : T → String) (h : Heap (Node T)) :
    Nat → Ptr → List String → Except Error (List String)
  | _, none, os => .ok os
  | 0, some _, _ => .error .Undefined
  | fuel + 1, some a, os => do
    let n ← h.deref (some a)
    let os := os ++ [render n.data]
    let os := if n.next ≠ none then os ++ [" "] else os
    print_loop render h fuel n.next os

/-- `print(os)`: the chunks written to the stream, in order. -/
def print (render : T → String) (h : Heap (Node T)) (l : DoublyLinkedList) :
    Except Error (List String) :=
  print_loop render h h.length l.head_ []

end DoublyLinkedList

/-! ## Reading a container back -/

/-- Re-reading through `operator[]`: the values of `c[i]`, `c[i + 1]`, ... for
`k` consecutive indices, `index` being the `operator[]` of the container. -/
def read_from {T : Type} (index : Nat → Except Error T) : Nat → Nat → Except Error (List T)
  | 0, _ => .ok []
  | k + 1, i => do
    let x ← index i
    let rest ← read_from index k (i + 1)
    pure (x :: rest)

/-- The elements `c[0], ..., c[size() - 1]` of a vector. -/
def SimpleVector.contents {T : Type} (s : SimpleVector T) : Except Error (List T) :=
  read_from (SimpleVector.index s) s.size 0

/-- The elements `c[0], ..., c[size() - 1]` of a singly linked list. -/
def SinglyLinkedList.contents {T : Type} (h : Heap (SinglyLinkedList.Node T))
    (l : SinglyLinkedList) : Except Error (List T) :=
  read_from (SinglyLinkedList.index h l) l.size 0

/-- The elements `c[0], ..., c[size() - 1]` of a doubly linked list. -/
def DoublyLinkedList.contents {T : Type} (h : Heap (DoublyLinkedList.Node T))
    (l : DoublyLinkedList) : Except Error (List T) :=
  read_from (DoublyLinkedList.index h l) l.size 0

/-- The iteration `for (it = begin(); it != end(); ++it)` over a singly linked
list, from the iterator `it` on: `*it` is `node_->data`, `++it` is
`node_ = node_->next.get()`, and `end()` is the null iterator.  The values read
are collected; the heap size bounds the rounds. -/
def SinglyLinkedList.iterate {T : Type} (h : Heap (SinglyLinkedList.Node T)) :
    Nat → Ptr → Except Error (List T)
  | _, none => .ok []
  | 0, some _ => .error .Undefined
  | fuel + 1, some a => do
    let n ← h.deref (some a)
    let rest ← SinglyLinkedList.iterate h fuel n.next
    pure (n.data :: rest)

/-- The forward traversal of a singly linked list from `begin()`. -/
def SinglyLinkedList.forward {T : Type} (h : Heap (SinglyLinkedList.Node T))
    (l : SinglyLinkedList) : Except Error (List T) :=
  SinglyLinkedList.iterate h h.length l.head_

/-- The iteration `for (it = begin(); it != end(); ++it)` over a doubly linked
list, from the iterator `it` on. -/
def DoublyLinkedList.iterate {T : Type} (h : Heap (DoublyLinkedList.Node T)) :
    Nat → Ptr → Except Error (List T)
  | _, none => .ok []
  | 0, some _ => .error .Undefined
  | fuel + 1, some a => do
    let n ← h.deref (some a)
    let rest ← DoublyLinkedList.iterate h fuel n.next
    pure (n.data :: rest)

/-- The forward traversal of a doubly linked list from `begin()`. -/
def DoublyLinkedList.forward {T : Type} (h : Heap (DoublyLinkedList.Node T))
    (l : DoublyLinkedList) : Except Error (List T) :=
  DoublyLinkedList.iterate h h.length l.head_

/-! ## Abstraction: the element sequence a container state holds -/

/-- The vector state `s` satisfies the class invariant and holds the element
sequence `xs`: `size_` is the length of `xs`, the block has `capacity_` slots,
slot `i` holds `xs[i]` for `i < size_` and is raw from `size_` on. -/
def SimpleVector.Holds {T : Type} (s : SimpleVector T) (xs : List T) : Prop :=
  s.size_ = xs.length ∧ xs.length ≤ s.capacity_ ∧
  match s.data_ with
  | none => s.capacity_ = 0
  | some b => b.length = s.capacity_ ∧ ∀ i, i < s.capacity_ → b[i]? = some xs[i]?

/-- The nodes of the cells `cs` are alive in `h`, each holding its value and
owning its successor, the last one owning `q`. -/
def SinglyLinkedList.Seg {T : Type} (h : Heap (SinglyLinkedList.Node T)) :
    List (Nat × T) → Ptr → Prop
  | [], _ => True
  | c :: cs, q => h[c.1]? = some (some ⟨c.2, link cs q⟩) ∧ SinglyLinkedList.Seg h cs q

/-- The list `l` over the heap `h` is well formed and its nodes are, from the
head on, the cells `cells`: `head_` owns a null-terminated chain of distinct
live nodes, `tail_` points to the last of them and `size_` counts them. -/
structure SinglyLinkedList.WellFormed {T : Type} (h : Heap (SinglyLinkedList.Node T))
    (l : SinglyLinkedList) (cells : List (Nat × T)) : Prop where
  head : l.head_ = link cells none
  tail : l.tail_ = back none cells
  size : l.size_ = cells.length
  chain : SinglyLinkedList.Seg h cells none
  nodup : (cells.map Prod.fst).Nodup

/-- The nodes of the cells `cs` are alive in `h`, each holding its value, owning
its successor (the last one owning `q`) and pointing back to its predecessor (the
first one to `b`). -/
def DoublyLinkedList.Seg {T : Type} (h : Heap (DoublyLinkedList.Node T)) :
    Ptr → List (Nat × T) → Ptr → Prop
  | _, [], _ => True
  | b, c :: cs, q =>
    h[c.1]? = some (some ⟨c.2, link cs q, b⟩) ∧ DoublyLinkedList.Seg h (some c.1) cs q

/-- The list `l` over the heap `h` is well formed and its nodes are, from the
head on, the cells `cells`. -/
structure DoublyLinkedList.WellFormed {T : Type} (h : Heap (DoublyLinkedList.Node T))
    (l : DoublyLinkedList) (cells : List (Nat × T)) : Prop where
  head : l.head_ = link cells none
  tail : l.tail_ = back none cells
  size : l.size_ = cells.length
  chain : DoublyLinkedList.Seg h none cells none
  nodup : (cells.map Prod.fst).Nodup


/-! ## `main.cpp`: the demonstration run -/

/-- The loop `for (int i = 0; i < 10; ++i) c.push_back(i);` of
`runDemo<SimpleVector<int>>`, `k` rounds left, loop variable `i`. -/
def SimpleVector.fill : Nat → Int → SimpleVector Int → Except Error (SimpleVector Int)
  | 0, _, c => .ok c
  | k + 1, i, c => do
    let c ← SimpleVector.push_back true c i
    SimpleVector.fill k (i + 1) c

/-- The container of `runDemo<SimpleVector<int>>` after `c.erase(6)`: ten
`push_back`s on `Container c;`, then `c.erase(2); c.erase(4); c.erase(6);`. -/
def SimpleVector.runDemo_erased : Except Error (SimpleVector Int) := do
  let c ← SimpleVector.fill 10 0 SimpleVector.empty_vector
  let c ← SimpleVector.erase id c 2
  let c ← SimpleVector.erase id c 4
  SimpleVector.erase id c 6

/-- The loop `for (int i = 0; i < 10; ++i) c.push_back(i);` of
`runDemo<SinglyLinkedList<int>>`. -/
def SinglyLinkedList.fill : Nat → Int → Heap (SinglyLinkedList.Node Int) → SinglyLinkedList →
    Except Error (Heap (SinglyLinkedList.Node Int) × SinglyLinkedList)
  | 0, _, h, c => .ok (h, c)
  | k + 1, i, h, c => do
    let (h, c) ← SinglyLinkedList.push_back true h c i
    SinglyLinkedList.fill k (i + 1) h c

/-- The container of `runDemo<SinglyLinkedList<int>>` after `c.erase(6)`. -/
def SinglyLinkedList.runDemo_erased :
    Except Error (Heap (SinglyLinkedList.Node Int) × SinglyLinkedList) := do
  let (h, c) ← SinglyLinkedList.fill 10 0 [] SinglyLinkedList.empty_list
  let (h, c) ← SinglyLinkedList.erase h c 2
  let (h, c) ← SinglyLinkedList.erase h c 4
  SinglyLinkedList.erase h c 6

/-- The loop `for (int i = 0; i < 10; ++i) c.push_back(i);` of
`runDemo<DoublyLinkedList<int>>`. -/
def DoublyLinkedList.fill : Nat → Int → Heap (DoublyLinkedList.Node Int) → DoublyLinkedList →
    Except Error (Heap (DoublyLinkedList.Node Int) × DoublyLinkedList)
  | 0, _, h, c => .ok (h, c)
  | k + 1, i, h, c => do
    let (h, c) ← DoublyLinkedList.push_back true h c i
    DoublyLinkedList.fill k (i + 1) h c

/-- The container of `runDemo<DoublyLinkedList<int>>` after `c.erase(6)`. -/
def DoublyLinkedList.runDemo_erased :
    Except Error (Heap (DoublyLinkedList.Node Int) × DoublyLinkedList) := do
  let (h, c) ← DoublyLinkedList.fill 10 0 [] DoublyLinkedList.empty_list
  let (h, c) ← DoublyLinkedList.erase h c 2
  let (h, c) ← DoublyLinkedList.erase h c 4
  DoublyLinkedList.erase h c 6

/-! ## Sessions: sequences of interface calls -/

/-- A call of the container interface of `BaseContainer<T>`. -/
inductive Op (T : Type) where
  | push_back (value : T)
  | insert (pos : Nat) (value : T)
  | erase (pos : Nat)
  | clear
  | index (idx : Nat)
  | size
  | empty

/-- What a call gives back to its caller: nothing, the element `operator[]`
refers to, the value of `size()` or of `empty()`, or the exception thrown. -/
inductive Outcome (T : Type) where
  | done
  | value (x : T)
  | count (n : Nat)
  | flag (b : Bool)
  | thrown (e : Error)

/-- What a client sees after a call: its outcome, `size()`, the elements read
back through `operator[]`, and the chunks `print` writes. -/
structure Observation (T : Type) where
  outcome : Outcome T
  size : Nat
  contents : Except Error (List T)
  printed : Except Error (List String)

/-- The outcome of a call that returns `void`. -/
def Outcome.of_unit {T σ : Type} (old : σ) : Except Error σ → σ × Outcome T
  | .ok new => (new, .done)
  | .error e => (old, .thrown e)

/-- One call on a `SimpleVector`, the allocator granting every request.  A call
that throws leaves the caller with the container as it was: `std::out_of_range`
is thrown by the position check, the first statement of the call. -/
def SimpleVector.step {T : Type} (mv : T → T) (s : SimpleVector T) :
    Op T → SimpleVector T × Outcome T
  | .push_back v => Outcome.of_unit s (SimpleVector.push_back true s v)
  | .insert pos v => Outcome.of_unit s (SimpleVector.insert mv true s pos v)
  | .erase pos => Outcome.of_unit s (SimpleVector.erase mv s pos)
  | .clear => Outcome.of_unit s (SimpleVector.clear s)
  | .index idx =>
    match SimpleVector.index s idx with
    | .ok x => (s, .value x)
    | .error e => (s, .thrown e)
  | .size => (s, .count s.size)
  | .empty => (s, .flag s.empty)

/-- What a client sees of a `SimpleVector` after a call with outcome `o`. -/
def SimpleVector.observe {T : Type} (render : T → String) (s : SimpleVector T)
    (o : Outcome T) : Observation T :=
  { outcome := o, size := s.size, contents := s.contents, printed := s.print render }

/-- A session on a `SimpleVector`: the observations after each call. -/
def SimpleVector.session {T : Type} (mv : T → T) (render : T → String) :
    SimpleVector T → List (Op T) → List (Observation T)
  | _, [] => []
  | s, op :: ops =>
    SimpleVector.observe render (SimpleVector.step mv s op).1 (SimpleVector.step mv s op).2
      :: SimpleVector.session mv render (SimpleVector.step mv s op).1 ops

/-- One call on a `SinglyLinkedList`, the allocator granting every request. -/
def SinglyLinkedList.step {T : Type}
    (st : Heap (SinglyLinkedList.Node T) × SinglyLinkedList) :
    Op T → (Heap (SinglyLinkedList.Node T) × SinglyLinkedList) × Outcome T
  | .push_back v => Outcome.of_unit st (SinglyLinkedList.push_back true st.1 st.2 v)
  | .insert pos v => Outcome.of_unit st (SinglyLinkedList.insert true st.1 st.2 pos v)
  | .erase pos => Outcome.of_unit st (SinglyLinkedList.erase st.1 st.2 pos)
  | .clear => Outcome.of_unit st (SinglyLinkedList.clear st.1 st.2)
  | .index idx =>
    match SinglyLinkedList.index st.1 st.2 idx with
    | .ok x => (st, .value x)
    | .error e => (st, .thrown e)
  | .size => (st, .count st.2.size)
  | .empty => (st, .flag st.2.empty)

/-- What a client sees of a `SinglyLinkedList` after a call with outcome `o`. -/
def SinglyLinkedList.observe {T : Type} (render : T → String)
    (st : Heap (SinglyLinkedList.Node T) × SinglyLinkedList) (o : Outcome T) :
    Observation T :=
  { outcome := o, size := st.2.size, contents := SinglyLinkedList.contents st.1 st.2,
    printed := SinglyLinkedList.print render st.1 st.2 }

/-- A session on a `SinglyLinkedList`: the observations after each call. -/
def SinglyLinkedList.session {T : Type} (render : T → String) :
    Heap (SinglyLinkedList.Node T) × SinglyLinkedList → List (Op T) → List (Observation T)
  | _, [] => []
  | st, op :: ops =>
    SinglyLinkedList.observe render (SinglyLinkedList.step st op).1
        (SinglyLinkedList.step st op).2
      :: SinglyLinkedList.session render (SinglyLinkedList.step st op).1 ops

/-- One call on a `DoublyLinkedList`, the allocator granting every request. -/
def DoublyLinkedList.step {T : Type}
    (st : Heap (DoublyLinkedList.Node T) × DoublyLinkedList) :
    Op T → (Heap (DoublyLinkedList.Node T) × DoublyLinkedList) × Outcome T
  | .push_back v => Outcome.of_unit st (DoublyLinkedList.push_back true st.1 st.2 v)
  | .insert pos v => Outcome.of_unit st (DoublyLinkedList.insert true st.1 st.2 pos v)
  | .erase pos => Outcome.of_unit st (DoublyLinkedList.erase st.1 st.2 pos)
  | .clear => Outcome.of_unit st (DoublyLinkedList.clear st.1 st.2)
  | .index idx =>
    match DoublyLinkedList.index st.1 st.2 idx with
    | .ok x => (st, .value x)
    | .error e => (st, .thrown e)
  | .size => (st, .count st.2.size)
  | .empty => (st, .flag st.2.empty)

/-- What a client sees of a `DoublyLinkedList` after a call with outcome `o`. -/
def DoublyLinkedList.observe {T : Type} (render : T → String)
    (st : Heap (DoublyLinkedList.Node T) × DoublyLinkedList) (o : Outcome T) :
    Observation T :=
  { outcome := o, size := st.2.size, contents := DoublyLinkedList.contents st.1 st.2,
    printed := DoublyLinkedList.print render st.1 st.2 }

/-- A session on a `DoublyLinkedList`: the observations after each call. -/
def DoublyLinkedList.session {T : Type} (render : T → String) :
    Heap (DoublyLinkedList.Node T) × DoublyLinkedList → List (Op T) → List (Observation T)
  | _, [] => []
  | st, op :: ops =>
    DoublyLinkedList.observe render (DoublyLinkedList.step st op).1
        (DoublyLinkedList.step st op).2
      :: DoublyLinkedList.session render (DoublyLinkedList.step st op).1 ops

/-- The interface contract of the specification (section 4.1) on the element
sequence itself: what a call does to the sequence `xs` and what it gives back. -/
def Sequence.step {T : Type} (xs : List T) : Op T → List T × Outcome T
  | .push_back v => (xs ++ [v], .done)
  | .insert pos v =>
    if pos ≤ xs.length then (xs.take pos ++ v :: xs.drop pos, .done)
    else (xs, .thrown .OutOfRange)
  | .erase pos =>
    if pos < xs.length then (xs.take pos ++ xs.drop (pos + 1), .done)
    else (xs, .thrown .OutOfRange)
  | .clear => ([], .done)
  | .index idx =>
    match xs[idx]? with
    | some x => (xs, .value x)
    | none => (xs, .thrown .OutOfRange)
  | .size => (xs, .count xs.length)
  | .empty => (xs, .flag (xs.length == 0))

/-- What a client sees of a sequence `xs` after a call with outcome `o`. -/
def Sequence.observe {T : Type} (render : T → String) (xs : List T) (o : Outcome T) :
    Observation T :=
  { outcome := o, size := xs.length, contents := .ok xs,
    printed := .ok ((xs.map render).intersperse " ") }

/-- A session on the element sequence itself. -/
def Sequence.session {T : Type} (render : T → String) :
    List T → List (Op T) → List (Observation T)
  | _, [] => []
  | xs, op :: ops =>
    Sequence.observe render (Sequence.step xs op).1 (Sequence.step xs op).2
      :: Sequence.session render (Sequence.step xs op).1 ops

/-- The outcome `x` is not the exception `std::out_of_range`. -/
def NoRange {α : Type} (x : Except Error α) : Prop := x ≠ .error .OutOfRange

/-! ## Sample states -/

/-- The vector after `push_back(1); push_back(2); push_back(3)` on an empty
`SimpleVector<int>`. -/
def SimpleVector.sample : SimpleVector Int :=
  { size_ := 3, capacity_ := 3, data_ := some [some 1, some 2, some 3] }

/-- The heap after `push_back(1); push_back(2); push_back(3)` on an empty
`SinglyLinkedList<int>`. -/
def SinglyLinkedList.sample_heap : Heap (SinglyLinkedList.Node Int) :=
  [some ⟨1, some 1⟩, some ⟨2, some 2⟩, some ⟨3, none⟩]

/-- The list after `push_back(1); push_back(2); push_back(3)` on an empty
`SinglyLinkedList<int>`. -/
def SinglyLinkedList.sample : SinglyLinkedList :=
  { head_ := some 0, tail_ := some 2, size_ := 3 }

/-- The heap after `push_back(1); push_back(2); push_back(3)` on an empty
`DoublyLinkedList<int>`. -/
def DoublyLinkedList.sample_heap : Heap (DoublyLinkedList.Node Int) :=
  [some ⟨1, some 1, none⟩, some ⟨2, some 2, some 0⟩, some ⟨3, none, some 1⟩]

/-- The list after `push_back(1); push_back(2); push_back(3)` on an empty
`DoublyLinkedList<int>`. -/
def DoublyLinkedList.sample : DoublyLinkedList :=
  { head_ := some 0, tail_ := some 2, size_ := 3 }

/-! ## `simpleVector.h`: construction, assignment, `swap`, `reserve` -/

namespace SimpleVector

variable {T : Type}

/-- The loop `for (it = init.begin(); it != init.end(); ++it, ++i)
new (&data_[i]) T(*it)` of the constructor from an initializer list, over the
values still to copy, `i` being the next slot. -/
def construct_range : List T → Nat → Option (List (Option T)) →
    Except Error (Option (List (Option T)))
  | [], _, d => .ok d
  | x :: rest, i, d => do
    let d ← construct_at d i x
    construct_range rest (i + 1) d

/-- `SimpleVector(std::initializer_list<T> init)`. -/
def from_initializer_list (mem : Bool) (init : List T) : Except Error (SimpleVector T) :=
  if init.length > 0 then do
    let raw ← operator_new mem init.length
    let d ← construct_range init 0 raw
    pure { size_ := init.length, capacity_ := init.length, data_ := d }
  else pure { size_ := init.length, capacity_ := init.length, data_ := none }

/-- The loop `for (; i < size_; ++i) new (&data_[i]) T(other.data_[i])` of the
copy constructor, `k` rounds left. -/
def copy_elements (src : Option (List (Option T))) :
    Nat → Nat → Option (List (Option T)) → Except Error (Option (List (Option T)))
  | 0, _, d => .ok d
  | k + 1, i, d => do
    let x ← load src i
    let d ← construct_at d i x
    copy_elements src k (i + 1) d

/-- `SimpleVector(const SimpleVector& other)`: the capacity of the copy is the
size of `other`. -/
def copy_constructor (mem : Bool) (other : SimpleVector T) : Except Error (SimpleVector T) :=
  if other.size_ > 0 then do
    let raw ← operator_new mem other.size_
    let d ← copy_elements other.data_ other.size_ 0 raw
    pure { size_ := other.size_, capacity_ := other.size_, data_ := d }
  else pure { size_ := other.size_, capacity_ := other.size_, data_ := none }

/-- `SimpleVector(SimpleVector&& other) noexcept`: the new vector and what is
left of `other`. -/
def move_constructor (other : SimpleVector T) : SimpleVector T × SimpleVector T :=
  ({ size_ := other.size_, capacity_ := other.capacity_, data_ := other.data_ },
   { size_ := 0, capacity_ := 0, data_ := none })

/-- `swap(SimpleVector& other)`: the vector and `other` afterwards. -/
def swap (s other : SimpleVector T) : SimpleVector T × SimpleVector T :=
  ({ size_ := other.size_, capacity_ := other.capacity_, data_ := other.data_ },
   { size_ := s.size_, capacity_ := s.capacity_, data_ := s.data_ })

/-- `clear_memory()`, which is also the destructor `~SimpleVector()`. -/
def clear_memory (s : SimpleVector T) : Except Error (SimpleVector T) := do
  let _ ← destroy_elements s
  pure { size_ := 0, capacity_ := 0, data_ := none }

/-- `operator=(const SimpleVector& other)` for `this != &other`: a copy of
`other` is made, swapped in, and the copy, now holding the old contents, is
destroyed. -/
def copy_assignment (mem : Bool) (s other : SimpleVector T) : Except Error (SimpleVector T) := do
  let temp ← copy_constructor mem other
  let (s, temp) := swap s temp
  let _ ← clear_memory temp
  pure s

/-- `operator=(SimpleVector&& other) noexcept` for `this != &other`: the vector
and what is left of `other`. -/
def move_assignment (s other : SimpleVector T) :
    Except Error (SimpleVector T × SimpleVector T) := do
  let _ ← clear_memory s
  pure ({ size_ := other.size_, capacity_ := other.capacity_, data_ := other.data_ },
        { size_ := 0, capacity_ := 0, data_ := none })

/-- `capacity()`. -/
def capacity (s : SimpleVector T) : Nat := s.capacity_

/-- `reserve(new_cap)`. -/
def reserve (mem : Bool) (s : SimpleVector T) (new_cap : Nat) : Except Error (SimpleVector T) :=
  if new_cap ≤ s.capacity_ then .ok s else change_capacity mem s new_cap

/-- The states a `SimpleVector<T>` object can be in: those a constructor leaves
it in, and those a member function that returns normally takes it to, from such
states of the object and of the other vector the call involves.  `mv` is the
move of `T`; the allocator may answer either way at every request.  A call
that throws, and an assignment of a vector to itself, leave the state as it is. -/
inductive Reachable (mv : T → T) : SimpleVector T → Prop
  | default_construct : Reachable mv empty_vector
  | from_initializer_list (mem : Bool) (init : List T) (s : SimpleVector T) :
      from_initializer_list mem init = .ok s → Reachable mv s
  | copy_constructor (mem : Bool) (other s : SimpleVector T) :
      Reachable mv other → copy_constructor mem other = .ok s → Reachable mv s
  | move_constructor (other : SimpleVector T) :
      Reachable mv other → Reachable mv (move_constructor other).1
  | moved_from (other : SimpleVector T) :
      Reachable mv other → Reachable mv (move_constructor other).2
  | copy_assignment (mem : Bool) (s other s' : SimpleVector T) :
      Reachable mv s → Reachable mv other → copy_assignment mem s other = .ok s' →
      Reachable mv s'
  | move_assignment (s other : SimpleVector T) (r : SimpleVector T × SimpleVector T) :
      Reachable mv s → Reachable mv other → move_assignment s other = .ok r → Reachable mv r.1
  | move_assigned_from (s other : SimpleVector T) (r : SimpleVector T × SimpleVector T) :
      Reachable mv s → Reachable mv other → move_assignment s other = .ok r → Reachable mv r.2
  | swap (s other : SimpleVector T) :
      Reachable mv s → Reachable mv other → Reachable mv (swap s other).1
  | swapped_with (s other : SimpleVector T) :
      Reachable mv s → Reachable mv other → Reachable mv (swap s other).2
  | push_back (mem : Bool) (s : SimpleVector T) (v : T) (s' : SimpleVector T) :
      Reachable mv s → push_back mem s v = .ok s' → Reachable mv s'
  | insert (mem : Bool) (s : SimpleVector T) (pos : Nat) (v : T) (s' : SimpleVector T) :
      Reachable mv s → insert mv mem s pos v = .ok s' → Reachable mv s'
  | erase (s : SimpleVector T) (pos : Nat) (s' : SimpleVector T) :
      Reachable mv s → erase mv s pos = .ok s' → Reachable mv s'
  | clear (s s' : SimpleVector T) :
      Reachable mv s → clear s = .ok s' → Reachable mv s'
  | reserve (mem : Bool) (s : SimpleVector T) (n : Nat) (s' : SimpleVector T) :
      Reachable mv s → reserve mem s n = .ok s' → Reachable mv s'

end SimpleVector


/-! ## Linked lists: construction, assignment, `swap`, and programs over several lists -/

/-- The heap `h'` extends `h` and agrees with it at every address of `h` outside
`S`. -/
def Heap.Frame {N : Type} (h h' : Heap N) (S : List Nat) : Prop :=
  h.length ≤ h'.length ∧ ∀ a, a < h.length → a ∉ S → h'[a]? = h[a]?

/-- The node storage together with the list objects alive in it, in order of
construction. -/
structure World (N L : Type) where
  heap : Heap N
  lists : List L

namespace SinglyLinkedList

variable {T : Type}

/-- The loop `for (const auto& item : init) push_back(item);`. -/
def push_back_each (mem : Bool) :
    List T → Heap (Node T) → SinglyLinkedList → Except Error (Heap (Node T) × SinglyLinkedList)
  | [], h, l => .ok (h, l)
  | item :: rest, h, l => do
    let (h, l) ← push_back mem h l item
    push_back_each mem rest h l

/-- `SinglyLinkedList(std::initializer_list<T> init)`. -/
def from_initializer_list (mem : Bool) (h : Heap (Node T)) (init : List T) :
    Except Error (Heap (Node T) × SinglyLinkedList) :=
  push_back_each mem init h empty_list

/-- The loop `while (current) { push_back(current->data); current =
current->next.get(); }` of the copy constructor; every round visits one more live
node of `other`, so the size of the heap at the start bounds the rounds. -/
def copy_loop (mem : Bool) :
    Nat → Heap (Node T) → Ptr → SinglyLinkedList →
      Except Error (Heap (Node T) × SinglyLinkedList)
  | _, h, none, l => .ok (h, l)
  | 0, _, some _, _ => .error .Undefined
  | fuel + 1, h, some a, l => do
    let n ← h.deref (some a)
    let (h, l) ← push_back mem h l n.data
    let n ← h.deref (some a)
    copy_loop mem fuel h n.next l

/-- `SinglyLinkedList(const SinglyLinkedList& other)`. -/
def copy_constructor (mem : Bool) (h : Heap (Node T)) (other : SinglyLinkedList) :
    Except Error (Heap (Node T) × SinglyLinkedList) :=
  copy_loop mem h.length h other.head_ empty_list

/-- `SinglyLinkedList(SinglyLinkedList&& other) noexcept`: the new list and what
is left of `other`. -/
def move_constructor (other : SinglyLinkedList) : SinglyLinkedList × SinglyLinkedList :=
  ({ head_ := other.head_, tail_ := other.tail_, size_ := other.size_ },
   { head_ := none, tail_ := none, size_ := 0 })

/-- `swap(SinglyLinkedList& other)`: the list and `other` afterwards. -/
def swap (l other : SinglyLinkedList) : SinglyLinkedList × SinglyLinkedList :=
  ({ head_ := other.head_, tail_ := other.tail_, size_ := other.size_ },
   { head_ := l.head_, tail_ := l.tail_, size_ := l.size_ })

/-- `~SinglyLinkedList() = default`: the destructor of `head_` deletes the chain
it owns. -/
def destructor (h : Heap (Node T)) (l : SinglyLinkedList) : Except Error (Heap (Node T)) :=
  Heap.destroy Node.next h.length h l.head_

/-- `operator=(const SinglyLinkedList& other)` for `this != &other`: a copy of
`other` is made, swapped in, and the copy, now holding the old nodes, is
destroyed. -/
def copy_assignment (mem : Bool) (h : Heap (Node T)) (l other : SinglyLinkedList) :
    Except Error (Heap (Node T) × SinglyLinkedList) := do
  let (h, temp) ← copy_constructor mem h other
  let (l, temp) := swap l temp
  let h ← destructor h temp
  pure (h, l)

/-- `operator=(SinglyLinkedList&& other) noexcept` for `this != &other`: the heap,
the list and what is left of `other`. -/
def move_assignment (h : Heap (Node T)) (l other : SinglyLinkedList) :
    Except Error (Heap (Node T) × SinglyLinkedList × SinglyLinkedList) := do
  let (h, _) ← clear h l
  pure (h, { head_ := other.head_, tail_ := other.tail_, size_ := other.size_ },
        { head_ := none, tail_ := none, size_ := 0 })

/-- The addresses of the nodes met from `p` on by following `next` until the
null pointer; the heap size bounds the rounds. -/
def nodes (h : Heap (Node T)) : Nat → Ptr → Except Error (List Nat)
  | _, none => .ok []
  | 0, some _ => .error .Undefined
  | fuel + 1, some a => do
    let n ← h.deref (some a)
    let rest ← nodes h fuel n.next
    pure (a :: rest)

/-- The states of a program that constructs `SinglyLinkedList<T>` objects and
calls their member functions: `lists[i]` is the `i`-th object constructed.  Every
step is a constructor or a member function that returns normally; the allocator
may answer either way at every request.  A call that throws, a `swap` of a list
with itself and an assignment of a list to itself leave the state as it is. -/
inductive Reachable : World (Node T) SinglyLinkedList → Prop
  | start : Reachable ⟨[], []⟩
  | default_construct (w : World (Node T) SinglyLinkedList) :
      Reachable w → Reachable ⟨w.heap, w.lists ++ [empty_list]⟩
  | from_initializer_list (w : World (Node T) SinglyLinkedList) (mem : Bool) (init : List T)
      (h' : Heap (Node T)) (l' : SinglyLinkedList) :
      Reachable w → from_initializer_list mem w.heap init = .ok (h', l') →
      Reachable ⟨h', w.lists ++ [l']⟩
  | copy_constructor (w : World (Node T) SinglyLinkedList) (mem : Bool) (j : Nat)
      (other : SinglyLinkedList) (h' : Heap (Node T)) (l' : SinglyLinkedList) :
      Reachable w → w.lists[j]? = some other →
      copy_constructor mem w.heap other = .ok (h', l') → Reachable ⟨h', w.lists ++ [l']⟩
  | move_constructor (w : World (Node T) SinglyLinkedList) (j : Nat)
      (other : SinglyLinkedList) :
      Reachable w → w.lists[j]? = some other →
      Reachable ⟨w.heap, w.lists.set j (move_constructor other).2
        ++ [(move_constructor other).1]⟩
  | push_back (w : World (Node T) SinglyLinkedList) (mem : Bool) (i : Nat)
      (l : SinglyLinkedList) (v : T) (h' : Heap (Node T)) (l' : SinglyLinkedList) :
      Reachable w → w.lists[i]? = some l → push_back mem w.heap l v = .ok (h', l') →
      Reachable ⟨h', w.lists.set i l'⟩
  | push_front (w : World (Node T) SinglyLinkedList) (mem : Bool) (i : Nat)
      (l : SinglyLinkedList) (v : T) (h' : Heap (Node T)) (l' : SinglyLinkedList) :
      Reachable w → w.lists[i]? = some l → push_front mem w.heap l v = .ok (h', l') →
      Reachable ⟨h', w.lists.set i l'⟩
  | insert (w : World (Node T) SinglyLinkedList) (mem : Bool) (i : Nat)
      (l : SinglyLinkedList) (pos : Nat) (v : T) (h' : Heap (Node T))
      (l' : SinglyLinkedList) :
      Reachable w → w.lists[i]? = some l → insert mem w.heap l pos v = .ok (h', l') →
      Reachable ⟨h', w.lists.set i l'⟩
  | erase (w : World (Node T) SinglyLinkedList) (i : Nat) (l : SinglyLinkedList) (pos : Nat)
      (h' : Heap (Node T)) (l' : SinglyLinkedList) :
      Reachable w → w.lists[i]? = some l → erase w.heap l pos = .ok (h', l') →
      Reachable ⟨h', w.lists.set i l'⟩
  | clear (w : World (Node T) SinglyLinkedList) (i : Nat) (l : SinglyLinkedList)
      (h' : Heap (Node T)) (l' : SinglyLinkedList) :
      Reachable w → w.lists[i]? = some l → clear w.heap l = .ok (h', l') →
      Reachable ⟨h', w.lists.set i l'⟩
  | swap (w : World (Node T) SinglyLinkedList) (i j : Nat) (l other : SinglyLinkedList) :
      Reachable w → w.lists[i]? = some l → w.lists[j]? = some other → i ≠ j →
      Reachable ⟨w.heap, (w.lists.set i (swap l other).1).set j (swap l other).2⟩
  | copy_assignment (w : World (Node T) SinglyLinkedList) (mem : Bool) (i j : Nat)
      (l other : SinglyLinkedList) (h' : Heap (Node T)) (l' : SinglyLinkedList) :
      Reachable w → w.lists[i]? = some l → w.lists[j]? = some other → i ≠ j →
      copy_assignment mem w.heap l other = .ok (h', l') → Reachable ⟨h', w.lists.set i l'⟩
  | move_assignment (w : World (Node T) SinglyLinkedList) (i j : Nat)
      (l other : SinglyLinkedList) (h' : Heap (Node T)) (l' other' : SinglyLinkedList) :
      Reachable w → w.lists[i]? = some l → w.lists[j]? = some other → i ≠ j →
      move_assignment w.heap l other = .ok (h', l', other') →
      Reachable ⟨h', (w.lists.set i l').set j other'⟩

end SinglyLinkedList

namespace DoublyLinkedList

variable {T : Type}

/-- The loop `for (const auto& item : init) push_back(item);`. -/
def push_back_each (mem : Bool) :
    List T → Heap (Node T) → DoublyLinkedList → Except Error (Heap (Node T) × DoublyLinkedList)
  | [], h, l => .ok (h, l)
  | item :: rest, h, l => do
    let (h, l) ← push_back mem h l item
    push_back_each mem rest h l

/-- `DoublyLinkedList(std::initializer_list<T> init)`. -/
def from_initializer_list (mem : Bool) (h : Heap (Node T)) (init : List T) :
    Except Error (Heap (Node T) × DoublyLinkedList) :=
  push_back_each mem init h empty_list

/-- The loop `while (current) { push_back(current->data); current =
current->next.get(); }` of the copy constructor; every round visits one more live
node of `other`, so the size of the heap at the start bounds the rounds. -/
def copy_loop (mem : Bool) :
    Nat → Heap (Node T) → Ptr → DoublyLinkedList →
      Except Error (Heap (Node T) × DoublyLinkedList)
  | _, h, none, l => .ok (h, l)
  | 0, _, some _, _ => .error .Undefined
  | fuel + 1, h, some a, l => do
    let n ← h.deref (some a)
    let (h, l) ← push_back mem h l n.data
    let n ← h.deref (some a)
    copy_loop mem fuel h n.next l

/-- `DoublyLinkedList(const DoublyLinkedList& other)`. -/
def copy_constructor (mem : Bool) (h : Heap (Node T)) (other : DoublyLinkedList) :
    Except Error (Heap (Node T) × DoublyLinkedList) :=
  copy_loop mem h.length h other.head_ empty_list

/-- The statement `if (head_) head_->prev = nullptr;`. -/
def reset_head_prev (h : Heap (Node T)) (head : Ptr) : Except Error (Heap (Node T)) :=
  if head = none then .ok h else h.modify head (fun n => { n with prev := none })

/-- `DoublyLinkedList(DoublyLinkedList&& other) noexcept`: the heap, the new list
and what is left of `other`. -/
def move_constructor (h : Heap (Node T)) (other : DoublyLinkedList) :
    Except Error (Heap (Node T) × DoublyLinkedList × DoublyLinkedList) := do
  let h ← reset_head_prev h other.head_
  pure (h, { head_ := other.head_, tail_ := other.tail_, size_ := other.size_ },
        { head_ := none, tail_ := none, size_ := 0 })

/-- `swap(DoublyLinkedList& other)`: the heap, the list and `other` afterwards. -/
def swap (h : Heap (Node T)) (l other : DoublyLinkedList) :
    Except Error (Heap (Node T) × DoublyLinkedList × DoublyLinkedList) := do
  let h ← reset_head_prev h other.head_
  let h ← reset_head_prev h l.head_
  pure (h, { head_ := other.head_, tail_ := other.tail_, size_ := other.size_ },
        { head_ := l.head_, tail_ := l.tail_, size_ := l.size_ })

/-- `~DoublyLinkedList() = default`: the destructor of `head_` deletes the chain
it owns. -/
def destructor (h : Heap (Node T)) (l : DoublyLinkedList) : Except Error (Heap (Node T)) :=
  Heap.destroy Node.next h.length h l.head_

/-- `operator=(const DoublyLinkedList& other)` for `this != &other`: a copy of
`other` is made, swapped in, and the copy, now holding the old nodes, is
destroyed. -/
def copy_assignment (mem : Bool) (h : Heap (Node T)) (l other : DoublyLinkedList) :
    Except Error (Heap (Node T) × DoublyLinkedList) := do
  let (h, temp) ← copy_constructor mem h other
  let (h, l, temp) ← swap h l temp
  let h ← destructor h temp
  pure (h, l)

/-- `operator=(DoublyLinkedList&& other) noexcept` for `this != &other`: the heap,
the list and what is left of `other`. -/
def move_assignment (h : Heap (Node T)) (l other : DoublyLinkedList) :
    Except Error (Heap (Node T) × DoublyLinkedList × DoublyLinkedList) := do
  let (h, _) ← clear h l
  let h ← reset_head_prev h other.head_
  pure (h, { head_ := other.head_, tail_ := other.tail_, size_ := other.size_ },
        { head_ := none, tail_ := none, size_ := 0 })

/-- The addresses of the nodes met from `p` on by following `next` until the
null pointer; the heap size bounds the rounds. -/
def nodes (h : Heap (Node T)) : Nat → Ptr → Except Error (List Nat)
  | _, none => .ok []
  | 0, some _ => .error .Undefined
  | fuel + 1, some a => do
    let n ← h.deref (some a)
    let rest ← nodes h fuel n.next
    pure (a :: rest)

/-- The states of a program that constructs `DoublyLinkedList<T>` objects and
calls their member functions: `lists[i]` is the `i`-th object constructed.  Every
step is a constructor or a member function that returns normally; the allocator
may answer either way at every request.  A call that throws, a `swap` of a list
with itself and an assignment of a list to itself leave the state as it is. -/
inductive Reachable : World (Node T) DoublyLinkedList → Prop
  | start : Reachable ⟨[], []⟩
  | default_construct (w : World (Node T) DoublyLinkedList) :
      Reachable w → Reachable ⟨w.heap, w.lists ++ [empty_list]⟩
  | from_initializer_list (w : World (Node T) DoublyLinkedList) (mem : Bool) (init : List T)
      (h' : Heap (Node T)) (l' : DoublyLinkedList) :
      Reachable w → from_initializer_list mem w.heap init = .ok (h', l') →
      Reachable ⟨h', w.lists ++ [l']⟩
  | copy_constructor (w : World (Node T) DoublyLinkedList) (mem : Bool) (j : Nat)
      (other : DoublyLinkedList) (h' : Heap (Node T)) (l' : DoublyLinkedList) :
      Reachable w → w.lists[j]? = some other →
      copy_constructor mem w.heap other = .ok (h', l') → Reachable ⟨h', w.lists ++ [l']⟩
  | move_constructor (w : World (Node T) DoublyLinkedList) (j : Nat)
      (other : DoublyLinkedList) (h' : Heap (Node T)) (l' other' : DoublyLinkedList) :
      Reachable w → w.lists[j]? = some other →
      move_constructor w.heap other = .ok (h', l', other') →
      Reachable ⟨h', w.lists.set j other' ++ [l']⟩
  | push_back (w : World (Node T) DoublyLinkedList) (mem : Bool) (i : Nat)
      (l : DoublyLinkedList) (v : T) (h' : Heap (Node T)) (l' : DoublyLinkedList) :
      Reachable w → w.lists[i]? = some l → push_back mem w.heap l v = .ok (h', l') →
      Reachable ⟨h', w.lists.set i l'⟩
  | push_front (w : World (Node T) DoublyLinkedList) (mem : Bool) (i : Nat)
      (l : DoublyLinkedList) (v : T) (h' : Heap (Node T)) (l' : DoublyLinkedList) :
      Reachable w → w.lists[i]? = some l → push_front mem w.heap l v = .ok (h', l') →
      Reachable ⟨h', w.lists.set i l'⟩
  | insert (w : World (Node T) DoublyLinkedList) (mem : Bool) (i : Nat)
      (l : DoublyLinkedList) (pos : Nat) (v : T) (h' : Heap (Node T))
      (l' : DoublyLinkedList) :
      Reachable w → w.lists[i]? = some l → insert mem w.heap l pos v = .ok (h', l') →
      Reachable ⟨h', w.lists.set i l'⟩
  | erase (w : World (Node T) DoublyLinkedList) (i : Nat) (l : DoublyLinkedList) (pos : Nat)
      (h' : Heap (Node T)) (l' : DoublyLinkedList) :
      Reachable w → w.lists[i]? = some l → erase w.heap l pos = .ok (h', l') →
      Reachable ⟨h', w.lists.set i l'⟩
  | clear (w : World (Node T) DoublyLinkedList) (i : Nat) (l : DoublyLinkedList)
      (h' : Heap (Node T)) (l' : DoublyLinkedList) :
      Reachable w → w.lists[i]? = some l → clear w.heap l = .ok (h', l') →
      Reachable ⟨h', w.lists.set i l'⟩
  | swap (w : World (Node T) DoublyLinkedList) (i j : Nat) (l other : DoublyLinkedList)
      (h' : Heap (Node T)) (l' other' : DoublyLinkedList) :
      Reachable w → w.lists[i]? = some l → w.lists[j]? = some other → i ≠ j →
      swap w.heap l other = .ok (h', l', other') →
      Reachable ⟨h', (w.lists.set i l').set j other'⟩
  | copy_assignment (w : World (Node T) DoublyLinkedList) (mem : Bool) (i j : Nat)
      (l other : DoublyLinkedList) (h' : Heap (Node T)) (l' : DoublyLinkedList) :
      Reachable w → w.lists[i]? = some l → w.lists[j]? = some other → i ≠ j →
      copy_assignment mem w.heap l other = .ok (h', l') → Reachable ⟨h', w.lists.set i l'⟩
  | move_assignment (w : World (Node T) DoublyLinkedList) (i j : Nat)
      (l other : DoublyLinkedList) (h' : Heap (Node T)) (l' other' : DoublyLinkedList) :
      Reachable w → w.lists[i]? = some l → w.lists[j]? = some other → i ≠ j →
      move_assignment w.heap l other = .ok (h', l', other') →
      Reachable ⟨h', (w.lists.set i l').set j other'⟩

end DoublyLinkedList

/-- The invariant of a world of lists: `cellsOf i` are the nodes of `lists[i]`; every
list is well formed (`WF`) over its nodes, and no node belongs to two lists. -/
structure World.Inv {N L T : Type} (WF : Heap N → L → List (Nat × T) → Prop)
    (w : World N L) (cellsOf : Nat → List (Nat × T)) : Prop where
  wf : ∀ i l, w.lists[i]? = some l → WF w.heap l (cellsOf i)
  disjoint : ∀ i j, i < w.lists.length → j < w.lists.length → i ≠ j →
    ∀ a, a ∈ (cellsOf i).map Prod.fst → a ∉ (cellsOf j).map Prod.fst

/-! ## The state of a container when an exception leaves a call

The functions below repeat the embeddings of the allocating member functions and
add, to every way out by an exception, the state the object is in at that moment:
the members as last assigned, and the storage they own.  A step that fails only
where the C++ behaviour is undefined is recorded with the state before the step. -/

/-- A step that leaves the object in state `st` if it throws. -/
def at_state {σ α : Type} (st : σ) (x : Except Error α) : Except (Error × σ) α :=
  match x with
  | .ok a => .ok a
  | .error e => .error (e, st)

namespace SimpleVector

variable {T : Type}

/-- `change_capacity(new_capacity)`: `data_` and `capacity_` are assigned after
the new block has been allocated and filled. -/
def change_capacity_tracked (mem : Bool) (s : SimpleVector T) (new_capacity : Nat) :
    Except (Error × SimpleVector T) (SimpleVector T) :=
  if new_capacity = s.capacity_ then .ok s
  else if new_capacity < s.size_ then .ok s
  else do
    let new_data ←
      if new_capacity > 0 then do
        let raw ← at_state s (operator_new mem new_capacity)
        at_state s (relocate s.data_ s.size_ 0 raw)
      else pure none
    pure { s with data_ := new_data, capacity_ := new_capacity }

/-- `ensure_capacity(required_capacity)`. -/
def ensure_capacity_tracked (mem : Bool) (s : SimpleVector T) (required_capacity : Nat) :
    Except (Error × SimpleVector T) (SimpleVector T) :=
  if required_capacity ≤ s.capacity_ then .ok s
  else
    let new_capacity := if s.capacity_ = 0 then 1 else grown s.capacity_
    let new_capacity := if new_capacity < required_capacity then required_capacity
      else new_capacity
    change_capacity_tracked mem s new_capacity

/-- `push_back(const T& value)`. -/
def push_back_tracked (mem : Bool) (s : SimpleVector T) (value : T) :
    Except (Error × SimpleVector T) (SimpleVector T) := do
  let s ← ensure_capacity_tracked mem s (s.size_ + 1)
  let d ← at_state s (construct_at s.data_ s.size_ value)
  pure { s with data_ := d, size_ := s.size_ + 1 }

/-- `insert(size_type pos, const T& value)`. -/
def insert_tracked (mv : T → T) (mem : Bool) (s : SimpleVector T) (pos : Nat) (value : T) :
    Except (Error × SimpleVector T) (SimpleVector T) := do
  at_state s (BaseContainer.check_position pos s.size_)
  let s ← ensure_capacity_tracked mem s (s.size_ + 1)
  if pos = s.size_ then
    let d ← at_state s (construct_at s.data_ s.size_ value)
    pure { s with data_ := d, size_ := s.size_ + 1 }
  else
    let d ← at_state s (move_construct mv s.data_ s.size_ (s.size_ - 1))
    let d ← at_state { s with data_ := d } (shift_right mv pos s.size_ d)
    let d ← at_state { s with data_ := d } (assign_at d pos value)
    pure { s with data_ := d, size_ := s.size_ + 1 }

/-- `reserve(new_cap)`. -/
def reserve_tracked (mem : Bool) (s : SimpleVector T) (new_cap : Nat) :
    Except (Error × SimpleVector T) (SimpleVector T) :=
  if new_cap ≤ s.capacity_ then .ok s else change_capacity_tracked mem s new_cap

end SimpleVector

namespace SinglyLinkedList

variable {T : Type}

/-- `push_back(const T& value)`. -/
def push_back_tracked (mem : Bool) (h : Heap (Node T)) (l : SinglyLinkedList) (value : T) :
    Except (Error × (Heap (Node T) × SinglyLinkedList)) (Heap (Node T) × SinglyLinkedList) := do
  let (raw_ptr, h) ← at_state (h, l) (Heap.make_unique mem h (Node.mk value none))
  if l.head_ = none then
    pure (h, { head_ := some raw_ptr, tail_ := some raw_ptr, size_ := l.size_ + 1 })
  else
    let t ← at_state (h, l) (h.deref l.tail_)
    let h ← at_state (h, l) (h.modify l.tail_ (fun n => { n with next := some raw_ptr }))
    let h ← at_state (h, l) (Heap.destroy Node.next h.length h t.next)
    pure (h, { head_ := l.head_, tail_ := some raw_ptr, size_ := l.size_ + 1 })

/-- `push_front(const T& value)`. -/
def push_front_tracked (mem : Bool) (h : Heap (Node T)) (l : SinglyLinkedList) (value : T) :
    Except (Error × (Heap (Node T) × SinglyLinkedList)) (Heap (Node T) × SinglyLinkedList) := do
  let (a, h) ← at_state (h, l) (Heap.make_unique mem h (Node.mk value l.head_))
  pure (h, { head_ := some a, tail_ := if l.tail_ = none then some a else l.tail_,
             size_ := l.size_ + 1 })

/-- `insert_middle(pos, value)`. -/
def insert_middle_tracked (mem : Bool) (h : Heap (Node T)) (l : SinglyLinkedList) (pos : Nat)
    (value : T) :
    Except (Error × (Heap (Node T) × SinglyLinkedList)) (Heap (Node T) × SinglyLinkedList) := do
  let prev ← at_state (h, l) (advance h (size_pred pos) l.head_)
  let p ← at_state (h, l) (h.deref prev)
  let (a, h) ← at_state (h, l) (Heap.make_unique mem h (Node.mk value p.next))
  let h ← at_state (h, l) (h.modify prev (fun n => { n with next := some a }))
  pure (h, { l with size_ := l.size_ + 1 })

/-- `insert(size_type pos, const T& value)`. -/
def insert_tracked (mem : Bool) (h : Heap (Node T)) (l : SinglyLinkedList) (pos : Nat)
    (value : T) :
    Except (Error × (Heap (Node T) × SinglyLinkedList)) (Heap (Node T) × SinglyLinkedList) := do
  at_state (h, l) (BaseContainer.check_position pos l.size_)
  if pos = 0 then push_front_tracked mem h l value
  else if pos = l.size_ then push_back_tracked mem h l value
  else insert_middle_tracked mem h l pos value

end SinglyLinkedList

namespace DoublyLinkedList

variable {T : Type}

/-- `push_back(const T& value)`. -/
def push_back_tracked (mem : Bool) (h : Heap (Node T)) (l : DoublyLinkedList) (value : T) :
    Except (Error × (Heap (Node T) × DoublyLinkedList)) (Heap (Node T) × DoublyLinkedList) := do
  let (raw_ptr, h) ← at_state (h, l) (Heap.make_unique mem h (Node.mk value none l.tail_))
  if l.head_ = none then
    pure (h, { head_ := some raw_ptr, tail_ := some raw_ptr, size_ := l.size_ + 1 })
  else
    let t ← at_state (h, l) (h.deref l.tail_)
    let h ← at_state (h, l) (h.modify l.tail_ (fun n => { n with next := some raw_ptr }))
    let h ← at_state (h, l) (Heap.destroy Node.next h.length h t.next)
    pure (h, { head_ := l.head_, tail_ := some raw_ptr, size_ := l.size_ + 1 })

/-- `push_front(const T& value)`. -/
def push_front_tracked (mem : Bool) (h : Heap (Node T)) (l : DoublyLinkedList) (value : T) :
    Except (Error × (Heap (Node T) × DoublyLinkedList)) (Heap (Node T) × DoublyLinkedList) := do
  let (a, h) ← at_state (h, l) (Heap.make_unique mem h (Node.mk value none none))
  if l.head_ ≠ none then
    let h ← at_state (h, l) (h.modify (some a) (fun n => { n with next := l.head_ }))
    let n ← at_state (h, { l with head_ := none }) (h.deref (some a))
    let h ← at_state (h, { l with head_ := none })
      (h.modify n.next (fun m => { m with prev := some a }))
    pure (h, { head_ := some a, tail_ := l.tail_, size_ := l.size_ + 1 })
  else
    pure (h, { head_ := some a, tail_ := some a, size_ := l.size_ + 1 })

/-- `insert_middle(pos, value)`. -/
def insert_middle_tracked (mem : Bool) (h : Heap (Node T)) (l : DoublyLinkedList) (pos : Nat)
    (value : T) :
    Except (Error × (Heap (Node T) × DoublyLinkedList)) (Heap (Node T) × DoublyLinkedList) := do
  let current ← at_state (h, l) (get_node_at h l pos)
  let c ← at_state (h, l) (h.deref current)
  let (a, h) ← at_state (h, l) (Heap.make_unique mem h (Node.mk value none c.prev))
  let c ← at_state (h, l) (h.deref current)
  let p ← at_state (h, l) (h.deref c.prev)
  let h ← at_state (h, l) (h.modify c.prev (fun n => { n with next := none }))
  let h ← at_state (h, l) (h.modify (some a) (fun n => { n with next := p.next }))
  let h ← at_state (h, l) (h.modify current (fun n => { n with prev := some a }))
  let n ← at_state (h, l) (h.deref (some a))
  let h ← at_state (h, l) (h.modify n.next (fun m => { m with prev := some a }))
  let n ← at_state (h, l) (h.deref (some a))
  let h ← at_state (h, l) (h.modify n.prev (fun m => { m with next := some a }))
  pure (h, { l with size_ := l.size_ + 1 })

/-- `insert(size_type pos, const T& value)`. -/
def insert_tracked (mem : Bool) (h : Heap (Node T)) (l : DoublyLinkedList) (pos : Nat)
    (value : T) :
    Except (Error × (Heap (Node T) × DoublyLinkedList)) (Heap (Node T) × DoublyLinkedList) := do
  at_state (h, l) (BaseContainer.check_position pos l.size_)
  if pos = 0 then push_front_tracked mem h l value
  else if pos = l.size_ then push_back_tracked mem h l value
  else insert_middle_tracked mem h l pos value

end DoublyLinkedList

/-! ## The state at a throw of `erase` and `operator[]` -/

namespace SimpleVector

variable {T : Type}

/-- `erase(size_type pos)`. -/
def erase_tracked (mv : T → T) (s : SimpleVector T) (pos : Nat) :
    Except (Error × SimpleVector T) (SimpleVector T) := do
  at_state s (BaseContainer.check_index pos s.size_)
  let d ← at_state s (destroy_at s.data_ pos)
  let d ← at_state { s with data_ := d } (shift_left mv (s.size_ - 1 - pos) pos d)
  pure { s with data_ := d, size_ := s.size_ - 1 }

/-- `operator[](size_type idx)`, as a read of the referenced element. -/
def index_tracked (s : SimpleVector T) (idx : Nat) : Except (Error × SimpleVector T) T := do
  at_state s (BaseContainer.check_index idx s.size_)
  at_state s (load s.data_ idx)

end SimpleVector

namespace SinglyLinkedList

variable {T : Type}

/-- `erase(size_type pos)`. -/
def erase_tracked (h : Heap (Node T)) (l : SinglyLinkedList) (pos : Nat) :
    Except (Error × (Heap (Node T) × SinglyLinkedList)) (Heap (Node T) × SinglyLinkedList) := do
  at_state (h, l) (BaseContainer.check_index pos l.size_)
  if pos = 0 then
    let n ← at_state (h, l) (h.deref l.head_)
    let h ← at_state (h, l) (h.modify l.head_ (fun n => { n with next := none }))
    let h ← at_state (h, l) (Heap.destroy Node.next h.length h l.head_)
    let head := n.next
    pure (h, { head_ := head, tail_ := if head = none then none else l.tail_,
               size_ := l.size_ - 1 })
  else
    let prev ← at_state (h, l) (advance h (pos - 1) l.head_)
    let p ← at_state (h, l) (h.deref prev)
    let node_to_erase := p.next
    let h ← at_state (h, l) (h.modify prev (fun n => { n with next := none }))
    let e ← at_state (h, l) (h.deref node_to_erase)
    let h ← at_state (h, l) (h.modify node_to_erase (fun n => { n with next := none }))
    let h ← at_state (h, l) (h.modify prev (fun n => { n with next := e.next }))
    let p ← at_state (h, l) (h.deref prev)
    let tail := if p.next = none then prev else l.tail_
    let h ← at_state (h, { l with tail_ := tail })
      (Heap.destroy Node.next h.length h node_to_erase)
    pure (h, { head_ := l.head_, tail_ := tail, size_ := l.size_ - 1 })

/-- `operator[](size_type idx)`, as a read of the referenced element. -/
def index_tracked (h : Heap (Node T)) (l : SinglyLinkedList) (idx : Nat) :
    Except (Error × (Heap (Node T) × SinglyLinkedList)) T := do
  at_state (h, l) (BaseContainer.check_index idx l.size_)
  let p ← at_state (h, l) (get_node_at h l idx)
  let n ← at_state (h, l) (h.deref p)
  pure n.data

end SinglyLinkedList

namespace DoublyLinkedList

variable {T : Type}

/-- `erase(size_type pos)`; `erase_front`, `erase_back` and `erase_middle` neither
allocate nor check a position. -/
def erase_tracked (h : Heap (Node T)) (l : DoublyLinkedList) (pos : Nat) :
    Except (Error × (Heap (Node T) × DoublyLinkedList)) (Heap (Node T) × DoublyLinkedList) := do
  at_state (h, l) (BaseContainer.check_index pos l.size_)
  if pos = 0 then at_state (h, l) (erase_front h l)
  else if pos = l.size_ - 1 then at_state (h, l) (erase_back h l)
  else at_state (h, l) (erase_middle h l pos)

/-- `operator[](size_type idx)`, as a read of the referenced element. -/
def index_tracked (h : Heap (Node T)) (l : DoublyLinkedList) (idx : Nat) :
    Except (Error × (Heap (Node T) × DoublyLinkedList)) T := do
  at_state (h, l) (BaseContainer.check_index idx l.size_)
  let p ← at_state (h, l) (get_node_at h l idx)
  let n ← at_state (h, l) (h.deref p)
  pure n.data

end DoublyLinkedList

/-! ## Iterators -/

namespace SimpleVector

variable {T : Type}

/-- The iteration `for (it = begin(); it != end(); ++it)` over a vector, from the
iterator `data_ + it` on: `begin()` is `data_`, `end()` is `data_ + size_`, `*it`
reads the slot and `++it` is `++ptr_`.  The values read are collected. -/
def iterate (s : SimpleVector T) : Nat → Nat → Except Error (List T)
  | 0, it => if it = s.size_ then .ok [] else .error .Undefined
  | fuel + 1, it =>
    if it = s.size_ then .ok []
    else do
      let x ← load s.data_ it
      let rest ← iterate s fuel (it + 1)
      pure (x :: rest)

/-- The forward traversal of a vector from `begin()`. -/
def forward (s : SimpleVector T) : Except Error (List T) :=
  iterate s s.size_ 0

end SimpleVector

namespace DoublyLinkedList

variable {T : Type}

/-- `begin()`: `iterator(head_.get())`. -/
def begin_iterator (l : DoublyLinkedList) : Ptr := l.head_

/-- `end()`: `iterator(nullptr)`. -/
def end_iterator (_l : DoublyLinkedList) : Ptr := none

/-- `Iterator::operator*`: `node_->data`. -/
def dereference (h : Heap (Node T)) (it : Ptr) : Except Error T := do
  let n ← h.deref it
  pure n.data

/-- `Iterator::operator--`: `node_ = node_ ? node_->prev : nullptr`. -/
def decrement (h : Heap (Node T)) (it : Ptr) : Except Error Ptr :=
  match it with
  | none => .ok none
  | some a => do
    let n ← h.deref (some a)
    pure n.prev

/-- The iteration `while (it != first) { --it; visit(*it); }`, from the iterator
`it` on.  The values read are collected; `fuel` bounds the rounds. -/
def backward_loop (h : Heap (Node T)) (first : Ptr) : Nat → Ptr → Except Error (List T)
  | 0, it => if it = first then .ok [] else .error .Undefined
  | fuel + 1, it =>
    if it = first then .ok []
    else do
      let it ← decrement h it
      let x ← dereference h it
      let rest ← backward_loop h first fuel it
      pure (x :: rest)

/-- The backward traversal `for (it = end(); it != begin(); ) { --it; visit(*it); }`. -/
def backward (h : Heap (Node T)) (l : DoublyLinkedList) : Except Error (List T) :=
  backward_loop h (begin_iterator l) h.length (end_iterator l)

/-- The iteration `for (r = rbegin(); r != rend(); ++r) visit(*r)` through
`std::reverse_iterator<Iterator>`, from the reverse iterator with base `current` on:
`rbegin()` has base `end()`, `rend()` has base `begin()`, `*r` is `*--tmp` on a copy
`tmp` of the base, and `++r` is `--current`. -/
def reverse_loop (h : Heap (Node T)) (rend : Ptr) : Nat → Ptr → Except Error (List T)
  | 0, current => if current = rend then .ok [] else .error .Undefined
  | fuel + 1, current =>
    if current = rend then .ok []
    else do
      let tmp ← decrement h current
      let x ← dereference h tmp
      let current ← decrement h current
      let rest ← reverse_loop h rend fuel current
      pure (x :: rest)

/-- The reverse traversal from `rbegin()` to `rend()`. -/
def reverse (h : Heap (Node T)) (l : DoublyLinkedList) : Except Error (List T) :=
  reverse_loop h (begin_iterator l) h.length (end_iterator l)

end DoublyLinkedList

/-! ## Element writes through `operator[]` -/

/-- The write `c[idx] = x` to a vector: `operator[](idx)` checks the index and
returns a reference to `data_[idx]`, which is assigned. -/
def SimpleVector.index_assign {T : Type} (s : SimpleVector T) (idx : Nat) (x : T) :
    Except Error (SimpleVector T) := do
  BaseContainer.check_index idx s.size_
  let d ← SimpleVector.assign_at s.data_ idx x
  pure { s with data_ := d }

/-- The write `c[idx] = x` to a singly linked list: `operator[](idx)` checks the
index and returns a reference to `get_node_at(idx)->data`, which is assigned. -/
def SinglyLinkedList.index_assign {T : Type} (h : Heap (SinglyLinkedList.Node T))
    (l : SinglyLinkedList) (idx : Nat) (x : T) : Except Error (Heap (SinglyLinkedList.Node T)) := do
  BaseContainer.check_index idx l.size_
  let p ← SinglyLinkedList.get_node_at h l idx
  h.modify p (fun n => { n with data := x })

/-- The write `c[idx] = x` to a doubly linked list. -/
def DoublyLinkedList.index_assign {T : Type} (h : Heap (DoublyLinkedList.Node T))
    (l : DoublyLinkedList) (idx : Nat) (x : T) : Except Error (Heap (DoublyLinkedList.Node T)) := do
  BaseContainer.check_index idx l.size_
  let p ← DoublyLinkedList.get_node_at h l idx
  h.modify p (fun n => { n with data := x })

/-! ## `simpleVector.h` over a store of blocks

The members of a `SimpleVector<T>` object with `data_` as an address.  The blocks
live in a store shared by all the vectors of a program, so that two objects can
name the same block; the block functions are those of the embedding above, run on
the block an address names. -/

/-- The three data members of a `SimpleVector<T>` object; `data_` is the address of
its block in the store, or null. -/
structure SimpleVector.Object where
  size_ : Nat
  capacity_ : Nat
  data_ : Ptr
  deriving DecidableEq, Repr

namespace SimpleVector.Object

variable {T : Type}

/-- The block `p` points to, `none` for a null `p`; reading through the address of
a released block is undefined. -/
def block (st : Heap (List (Option T))) (p : Ptr) : Except Error (Option (List (Option T))) :=
  match p with
  | none => .ok none
  | some a =>
    match st[a]? with
    | some (some b) => .ok (some b)
    | _ => .error .Undefined

/-- The members of the object `o` together with its block. -/
def view (st : Heap (List (Option T))) (o : Object) : Except Error (SimpleVector T) := do
  let d ← block st o.data_
  pure { size_ := o.size_, capacity_ := o.capacity_, data_ := d }

/-- The steps `f` run on the block `p` points to, in place. -/
def on_block (st : Heap (List (Option T))) (p : Ptr)
    (f : Option (List (Option T)) → Except Error (Option (List (Option T)))) :
    Except Error (Heap (List (Option T))) := do
  let d ← block st p
  let d ← f d
  match p, d with
  | some a, some b => .ok (st.set a (some b))
  | none, none => .ok st
  | _, _ => .error .Undefined

/-- `::operator delete(p)`; nothing happens for a null `p`. -/
def operator_delete (st : Heap (List (Option T))) (p : Ptr) :
    Except Error (Heap (List (Option T))) :=
  match p with
  | none => .ok st
  | some a =>
    match st[a]? with
    | some (some _) => .ok (st.set a none)
    | _ => .error .Undefined

/-- `change_capacity(new_capacity)`: the new block is placed at an address not used
before, the elements are moved into it, and the old block is released.  The
destructor loop over the old block cannot fail after each of its slots has been
read by the moves. -/
def change_capacity (mem : Bool) (st : Heap (List (Option T))) (o : Object)
    (new_capacity : Nat) : Except Error (Heap (List (Option T)) × Object) :=
  if new_capacity = o.capacity_ then .ok (st, o)
  else if new_capacity < o.size_ then .ok (st, o)
  else do
    let r ←
      if new_capacity > 0 then do
        let r ← Heap.make_unique mem st (List.replicate new_capacity none)
        let old ← block r.2 o.data_
        let st ← on_block r.2 (some r.1) (relocate old o.size_ 0)
        pure (st, some r.1)
      else pure (st, none)
    let st ← operator_delete r.1 o.data_
    pure (st, { o with data_ := r.2, capacity_ := new_capacity })

/-- `ensure_capacity(required_capacity)`. -/
def ensure_capacity (mem : Bool) (st : Heap (List (Option T))) (o : Object)
    (required_capacity : Nat) : Except Error (Heap (List (Option T)) × Object) :=
  if required_capacity ≤ o.capacity_ then .ok (st, o)
  else
    let new_capacity := if o.capacity_ = 0 then 1 else grown o.capacity_
    let new_capacity := if new_capacity < required_capacity then required_capacity
      else new_capacity
    change_capacity mem st o new_capacity

/-- `push_back(const T& value)`. -/
def push_back (mem : Bool) (st : Heap (List (Option T))) (o : Object) (value : T) :
    Except Error (Heap (List (Option T)) × Object) := do
  let r ← ensure_capacity mem st o (o.size_ + 1)
  let st ← on_block r.1 r.2.data_ (fun d => construct_at d r.2.size_ value)
  pure (st, { r.2 with size_ := r.2.size_ + 1 })

/-- `insert(size_type pos, const T& value)`. -/
def insert (mv : T → T) (mem : Bool) (st : Heap (List (Option T))) (o : Object) (pos : Nat)
    (value : T) : Except Error (Heap (List (Option T)) × Object) := do
  BaseContainer.check_position pos o.size_
  let r ← ensure_capacity mem st o (o.size_ + 1)
  if pos = r.2.size_ then
    let st ← on_block r.1 r.2.data_ (fun d => construct_at d r.2.size_ value)
    pure (st, { r.2 with size_ := r.2.size_ + 1 })
  else
    let st ← on_block r.1 r.2.data_ (fun d => move_construct mv d r.2.size_ (r.2.size_ - 1))
    let st ← on_block st r.2.data_ (shift_right mv pos r.2.size_)
    let st ← on_block st r.2.data_ (fun d => assign_at d pos value)
    pure (st, { r.2 with size_ := r.2.size_ + 1 })

/-- `erase(size_type pos)`. -/
def erase (mv : T → T) (st : Heap (List (Option T))) (o : Object) (pos : Nat) :
    Except Error (Heap (List (Option T)) × Object) := do
  BaseContainer.check_index pos o.size_
  let st ← on_block st o.data_ (fun d => destroy_at d pos)
  let st ← on_block st o.data_ (shift_left mv (o.size_ - 1 - pos) pos)
  pure (st, { o with size_ := o.size_ - 1 })

/-- `clear()`. -/
def clear (st : Heap (List (Option T))) (o : Object) :
    Except Error (Heap (List (Option T)) × Object) := do
  let st ← on_block st o.data_
    (fun d => destroy_elements { size_ := o.size_, capacity_ := o.capacity_, data_ := d })
  pure (st, { o with size_ := 0 })

/-- The write `c[idx] = x`. -/
def index_assign (st : Heap (List (Option T))) (o : Object) (idx : Nat) (x : T) :
    Except Error (Heap (List (Option T)) × Object) := do
  BaseContainer.check_index idx o.size_
  let st ← on_block st o.data_ (fun d => assign_at d idx x)
  pure (st, o)

/-- `SimpleVector(const SimpleVector& other)`: the block of the copy is placed at an
address not used before. -/
def copy_constructor (mem : Bool) (st : Heap (List (Option T))) (other : Object) :
    Except Error (Heap (List (Option T)) × Object) :=
  if other.size_ > 0 then do
    let r ← Heap.make_unique mem st (List.replicate other.size_ none)
    let src ← block r.2 other.data_
    let st ← on_block r.2 (some r.1) (copy_elements src other.size_ 0)
    pure (st, { size_ := other.size_, capacity_ := other.size_, data_ := some r.1 })
  else pure (st, { size_ := other.size_, capacity_ := other.size_, data_ := none })

/-- `swap(SimpleVector& other)`: the object and `other` afterwards. -/
def swap (o other : Object) : Object × Object :=
  ({ size_ := other.size_, capacity_ := other.capacity_, data_ := other.data_ },
   { size_ := o.size_, capacity_ := o.capacity_, data_ := o.data_ })

/-- `clear_memory()`, which is also the destructor `~SimpleVector()`. -/
def clear_memory (st : Heap (List (Option T))) (o : Object) :
    Except Error (Heap (List (Option T)) × Object) := do
  let st ← on_block st o.data_
    (fun d => destroy_elements { size_ := o.size_, capacity_ := o.capacity_, data_ := d })
  let st ← operator_delete st o.data_
  pure (st, { size_ := 0, capacity_ := 0, data_ := none })

/-- `operator=(const SimpleVector& other)` for `this != &other`: a copy of `other`
is made, swapped in, and the copy, now holding the old contents, is destroyed. -/
def copy_assignment (mem : Bool) (st : Heap (List (Option T))) (o other : Object) :
    Except Error (Heap (List (Option T)) × Object) := do
  let r ← copy_constructor mem st other
  let p := swap o r.2
  let r ← clear_memory r.1 p.2
  pure (r.1, p.1)

/-- The object `o` has a block of its own in `st` and holds the element sequence
`xs`. -/
def Owns (st : Heap (List (Option T))) (o : Object) (xs : List T) : Prop :=
  ∃ s, view st o = .ok s ∧ s.Holds xs

/-- The objects `a` and `b` do not name the same block. -/
def Separate (a b : Object) : Prop :=
  ∀ p, a.data_ = some p → b.data_ ≠ some p

/-- The vector `{1, 2, 3}` in a store with its block alone. -/
def sample_store : Heap (List (Option Int)) := [some [some 1, some 2, some 3]]

/-- The object of the vector `{1, 2, 3}`. -/
def sample : Object := { size_ := 3, capacity_ := 3, data_ := some 0 }

end SimpleVector.Object

/-- A step from `(st, o)` to `(st', o')` that changes no block but the one of `o`, and
leaves `o` with the address it had or with one not used before. -/
def SimpleVector.Object.Local {T : Type} (st : Heap (List (Option T))) (o : SimpleVector.Object)
    (st' : Heap (List (Option T))) (o' : SimpleVector.Object) : Prop :=
  Heap.Frame st st' o.data_.toList ∧ ∀ q, o'.data_ = some q → o.data_ = some q ∨ st.length ≤ q

/-! ## The byte count of an allocation

`reserve` passes a count chosen by the caller to `change_capacity`, and the byte
count `new_capacity * sizeof(T)` is computed in `size_t`. -/

namespace SimpleVector

variable {T : Type}

/-- The allocation `static_cast<T*>(::operator new(n * sizeof(T)))` with the
product taken in the 64-bit `size_t`, `w` being `sizeof(T)`: the block has room for
as many objects as fit into `n * w mod 2^64` bytes, or `std::bad_alloc` is
thrown. -/
def operator_new_sized (w : Nat) (mem : Bool) (n : Nat) :
    Except Error (Option (List (Option T))) :=
  if mem then .ok (some (List.replicate (n * w % 2 ^ 64 / w) none))
  else .error .AllocationFailure

/-- `change_capacity(new_capacity)` with the byte count of the request computed in
`size_t`. -/
def change_capacity_sized (w : Nat) (mem : Bool) (s : SimpleVector T) (new_capacity : Nat) :
    Except Error (SimpleVector T) :=
  if new_capacity = s.capacity_ then .ok s
  else if new_capacity < s.size_ then .ok s
  else do
    let new_data ←
      if new_capacity > 0 then do
        let raw ← operator_new_sized w mem new_capacity
        relocate s.data_ s.size_ 0 raw
      else pure none
    pure { s with data_ := new_data, capacity_ := new_capacity }

/-- `reserve(new_cap)` with the byte count of the request computed in `size_t`. -/
def reserve_sized (w : Nat) (mem : Bool) (s : SimpleVector T) (new_cap : Nat) :
    Except Error (SimpleVector T) :=
  if new_cap ≤ s.capacity_ then .ok s else change_capacity_sized w mem s new_cap

end SimpleVector
/-! ## Basic facts -/

@[simp] theorem ok_bind {α β : Type} (x : α) (f : α → Except Error β) :
    (Except.ok x >>= f) = f x := rfl

@[simp] theorem error_bind {α β : Type} (e : Error) (f : α → Except Error β) :
    ((Except.error e : Except Error α) >>= f) = Except.error e := rfl

@[simp] theorem pure_eq_ok {α : Type} (x : α) : (pure x : Except Error α) = Except.ok x := rfl


/-! ## Pointers into a chain of cells -/

theorem eq_nil_or_snoc {α : Type} (l : List α) : l = [] ∨ ∃ l' c, l = l' ++ [c] := by
  rcases List.eq_nil_or_concat l with h | ⟨l', c, h⟩
  · exact Or.inl h
  · exact Or.inr ⟨l', c, by simpa using h⟩

theorem nodup_length_le {l : List Nat} {n : Nat} (hnd : l.Nodup) (hlt : ∀ a, a ∈ l → a < n) :
    l.length ≤ n := by
  have h1 : l.toFinset ⊆ Finset.range n := by
    intro a ha
    simp only [List.mem_toFinset] at ha
    simpa using hlt a ha
  have h2 := Finset.card_le_card h1
  rw [List.toFinset_card_of_nodup hnd, Finset.card_range] at h2
  exact h2

theorem split_at {α : Type} (l : List α) (i : Nat) (hi : i < l.length) :
    ∃ A x B, l = A ++ x :: B ∧ A.length = i := by
  refine ⟨l.take i, l[i], l.drop (i + 1), ?_, by simp [List.length_take]; omega⟩
  rw [← List.drop_eq_getElem_cons hi, List.take_append_drop]

theorem take_middle {α : Type} (A : List α) (x : α) (B : List α) :
    (A ++ x :: B).take (A.length + 1) = A ++ [x] := by
  have : A ++ x :: B = (A ++ [x]) ++ B := by simp
  rw [this]
  exact List.take_left' (by simp)

theorem drop_middle {α : Type} (A : List α) (x : α) (B : List α) :
    (A ++ x :: B).drop (A.length + 1) = B := by
  have : A ++ x :: B = (A ++ [x]) ++ B := by simp
  rw [this]
  exact List.drop_left' (by simp)

theorem nodup_insert_middle {l₁ l₂ : List Nat} {a : Nat} (hnd : (l₁ ++ l₂).Nodup)
    (ha : a ∉ l₁ ++ l₂) : (l₁ ++ a :: l₂).Nodup := by
  rw [List.nodup_middle]
  exact List.nodup_cons.mpr ⟨ha, hnd⟩

theorem nodup_erase_middle {l₁ l₂ : List Nat} {a : Nat} (hnd : (l₁ ++ a :: l₂).Nodup) :
    (l₁ ++ l₂).Nodup ∧ a ∉ l₁ ∧ a ∉ l₂ := by
  rw [List.nodup_middle, List.nodup_cons] at hnd
  refine ⟨hnd.2, ?_, ?_⟩
  · intro h
    exact hnd.1 (List.mem_append_left _ h)
  · intro h
    exact hnd.1 (List.mem_append_right _ h)

theorem size_pred_succ (n : Nat) : size_pred (n + 1) = n := by
  simp [size_pred]

theorem size_pred_pos {n : Nat} (h : 0 < n) : size_pred n = n - 1 := by
  have : n ≠ 0 := by omega
  simp [size_pred, this]

@[simp] theorem link_nil {T : Type} (q : Ptr) : link ([] : List (Nat × T)) q = q := rfl

@[simp] theorem link_cons {T : Type} (c : Nat × T) (cs : List (Nat × T)) (q : Ptr) :
    link (c :: cs) q = some c.1 := rfl

theorem link_append {T : Type} (as bs : List (Nat × T)) (q : Ptr) :
    link (as ++ bs) q = link as (link bs q) := by
  cases as <;> rfl

theorem link_eq_none {T : Type} (cs : List (Nat × T)) : link cs none = none ↔ cs = [] := by
  cases cs <;> simp

@[simp] theorem back_nil {T : Type} (b : Ptr) : back b ([] : List (Nat × T)) = b := rfl

@[simp] theorem back_concat {T : Type} (b : Ptr) (cs : List (Nat × T)) (c : Nat × T) :
    back b (cs ++ [c]) = some c.1 := by
  simp [back, List.getLast?_concat]

theorem back_append {T : Type} (b : Ptr) (as bs : List (Nat × T)) :
    back b (as ++ bs) = back (back b as) bs := by
  rcases eq_nil_or_snoc bs with rfl | ⟨bs', c, rfl⟩
  · simp
  · rw [← List.append_assoc, back_concat, back_concat]

theorem back_cons {T : Type} (b : Ptr) (c : Nat × T) (cs : List (Nat × T)) :
    back b (c :: cs) = back (some c.1) cs := by
  have h := back_append b [c] cs
  have h1 : back b [c] = some c.1 := back_concat b [] c
  rw [h1] at h
  simpa using h

theorem back_eq_none {T : Type} (cs : List (Nat × T)) : back none cs = none ↔ cs = [] := by
  rcases eq_nil_or_snoc cs with rfl | ⟨cs', c, rfl⟩
  · simp
  · simp

theorem back_of_ne_nil {T : Type} (b b' : Ptr) {cs : List (Nat × T)} (h : cs ≠ []) :
    back b cs = back b' cs := by
  rcases eq_nil_or_snoc cs with rfl | ⟨cs', c, rfl⟩
  · exact absurd rfl h
  · simp

theorem back_append_of_ne_nil {T : Type} (b : Ptr) (as : List (Nat × T)) {bs : List (Nat × T)}
    (h : bs ≠ []) : back b (as ++ bs) = back none bs := by
  rw [back_append]
  exact back_of_ne_nil _ _ h

/-! ## The node store -/

namespace Heap

variable {N : Type}

theorem deref_cell {h : Heap N} {a : Nat} {n : N} (hn : h[a]? = some (some n)) :
    h.deref (some a) = .ok n := by
  simp [deref, hn]

theorem modify_cell {h : Heap N} {a : Nat} {n : N} (f : N → N) (hn : h[a]? = some (some n)) :
    h.modify (some a) f = .ok (h.set a (some (f n))) := by
  simp [modify, hn]

@[simp] theorem destroy_null (next : N → Ptr) (fuel : Nat) (h : Heap N) :
    destroy next fuel h none = .ok h := by
  cases fuel <;> rfl

/-- Destroying a node that owns nothing deletes that node only. -/
theorem destroy_single (next : N → Ptr) {h : Heap N} {a : Nat} {n : N}
    (hn : h[a]? = some (some n)) (hnext : next n = none) :
    destroy next h.length h (some a) = .ok (h.set a none) := by
  have ha : a < h.length := by
    rcases (List.getElem?_eq_some_iff.mp hn) with ⟨hlt, _⟩
    exact hlt
  obtain ⟨k, hk⟩ : ∃ k, h.length = k + 1 := ⟨h.length - 1, by omega⟩
  rw [hk]
  simp [destroy, hn, hnext]

theorem cell_lt {h : Heap N} {a : Nat} {n : N} (hn : h[a]? = some (some n)) : a < h.length := by
  rcases (List.getElem?_eq_some_iff.mp hn) with ⟨hlt, _⟩
  exact hlt

theorem cell_push {h : Heap N} {a : Nat} {n : N} (x : Option N) (hn : h[a]? = some (some n)) :
    (h ++ [x])[a]? = some (some n) := by
  rw [List.getElem?_append_left (cell_lt hn), hn]

end Heap

/-! ## Reading back -/

theorem read_from_spec {T : Type} (index : Nat → Except Error T) (xs : List T)
    (hidx : ∀ i x, xs[i]? = some x → index i = .ok x) :
    ∀ (k i : Nat), i + k = xs.length → read_from index k i = .ok (xs.drop i) := by
  intro k
  induction k with
  | zero =>
    intro i hik
    rw [List.drop_eq_nil_of_le (by omega)]
    rfl
  | succ k ih =>
    intro i hik
    have hi : i < xs.length := by omega
    simp only [read_from]
    rw [hidx i xs[i] (List.getElem?_eq_getElem hi)]
    simp only [ok_bind]
    rw [ih (i + 1) (by omega)]
    simp only [ok_bind, pure_eq_ok]
    rw [List.drop_eq_getElem_cons hi]

/-! ## Frames: what an operation leaves alone -/

namespace Heap

variable {N : Type}

theorem Frame.refl (h : Heap N) (S : List Nat) : Frame h h S :=
  ⟨le_refl _, fun _ _ _ => rfl⟩

theorem Frame.push {h h' : Heap N} {S : List Nat} (x : Option N) (f : Frame h h' S) :
    Frame h (h' ++ [x]) S := by
  refine ⟨by have := f.1; simp; omega, ?_⟩
  intro a ha hS
  rw [List.getElem?_append_left (by have := f.1; omega)]
  exact f.2 a ha hS

theorem Frame.set {h h' : Heap N} {S : List Nat} {a : Nat} (x : Option N)
    (ha : a ∈ S ∨ h.length ≤ a) (f : Frame h h' S) : Frame h (h'.set a x) S := by
  refine ⟨by simpa using f.1, ?_⟩
  intro b hb hS
  have hne : a ≠ b := by
    rintro rfl
    rcases ha with ha | ha
    · exact hS ha
    · omega
  rw [List.getElem?_set_ne hne]
  exact f.2 b hb hS

theorem Frame.mono {h h' : Heap N} {S S' : List Nat} (hsub : ∀ a, a ∈ S → a ∈ S')
    (f : Frame h h' S) : Frame h h' S' :=
  ⟨f.1, fun a ha hS => f.2 a ha (fun hmem => hS (hsub a hmem))⟩

theorem Frame.trans {h h1 h2 : Heap N} {S S' : List Nat} (f : Frame h h1 S)
    (g : Frame h1 h2 S') (hsub : ∀ a, a ∈ S' → a ∈ S ∨ h.length ≤ a) : Frame h h2 S := by
  refine ⟨le_trans f.1 g.1, ?_⟩
  intro a ha hS
  rw [g.2 a (by have := f.1; omega) (fun hmem => by
    rcases hsub a hmem with h1 | h1
    · exact hS h1
    · omega)]
  exact f.2 a ha hS

/-- A live cell outside the footprint of a frame is the same cell afterwards. -/
theorem Frame.cell {h h' : Heap N} {S : List Nat} (f : Frame h h' S) {a : Nat} {n : N}
    (hn : h[a]? = some (some n)) (ha : a ∉ S) : h'[a]? = some (some n) := by
  rw [f.2 a (cell_lt hn) ha, hn]

end Heap

/-! ## `SimpleVector` -/

namespace BaseContainer

theorem check_index_ok {idx size : Nat} (h : idx < size) : check_index idx size = .ok () := by
  have : ¬ idx ≥ size := by omega
  simp [check_index, this]

theorem check_index_error {idx size : Nat} (h : size ≤ idx) :
    check_index idx size = .error .OutOfRange := by
  simp [check_index, h]

theorem check_position_ok {pos size : Nat} (h : pos ≤ size) :
    check_position pos size = .ok () := by
  have : ¬ pos > size := by omega
  simp [check_position, this]

theorem check_position_error {pos size : Nat} (h : size < pos) :
    check_position pos size = .error .OutOfRange := by
  simp [check_position, h]

end BaseContainer

namespace SimpleVector

variable {T : Type}

theorem load_block {b : List (Option T)} {i : Nat} {x : T} (hx : b[i]? = some (some x)) :
    load (some b) i = .ok x := by
  simp [load, hx]

theorem construct_at_block {b : List (Option T)} {i : Nat} (x : T) (hi : i < b.length) :
    construct_at (some b) i x = .ok (some (b.set i (some x))) := by
  simp [construct_at, hi]

theorem assign_at_block {b : List (Option T)} {i : Nat} {y : T} (x : T)
    (hy : b[i]? = some (some y)) :
    assign_at (some b) i x = .ok (some (b.set i (some x))) := by
  simp [assign_at, hy]

theorem destroy_at_block {b : List (Option T)} {i : Nat} {y : T}
    (hy : b[i]? = some (some y)) :
    destroy_at (some b) i = .ok (some (b.set i none)) := by
  simp [destroy_at, hy]

/-- A state with a block: the facts `Holds` packs. -/
theorem Holds.block {s : SimpleVector T} {xs : List T} (hs : s.Holds xs)
    (hc : 0 < s.capacity_) :
    ∃ b, s.data_ = some b ∧ b.length = s.capacity_ ∧
      ∀ i, i < s.capacity_ → b[i]? = some xs[i]? := by
  obtain ⟨_, _, h3⟩ := hs
  cases hd : s.data_ with
  | none => rw [hd] at h3; simp at h3; omega
  | some b => rw [hd] at h3; exact ⟨b, rfl, h3⟩

theorem relocate_spec (old : Option (List (Option T))) (xs : List T)
    (hold : ∀ j x, xs[j]? = some x → load old j = .ok x) :
    ∀ (k i : Nat) (nb : List (Option T)), i + k = xs.length → xs.length ≤ nb.length →
      (∀ j, j < nb.length → nb[j]? = some (if j < i then xs[j]? else none)) →
      ∃ nb', relocate old k i (some nb) = .ok (some nb') ∧ nb'.length = nb.length ∧
        ∀ j, j < nb.length → nb'[j]? = some xs[j]? := by
  intro k
  induction k with
  | zero =>
    intro i nb hik hle hnb
    refine ⟨nb, rfl, rfl, ?_⟩
    intro j hj
    rw [hnb j hj]
    by_cases hji : j < i
    · simp [hji]
    · simp only [hji, if_false]
      rw [List.getElem?_eq_none (by omega)]
  | succ k ih =>
    intro i nb hik hle hnb
    have hi : i < xs.length := by omega
    have hx : xs[i]? = some xs[i] := List.getElem?_eq_getElem hi
    have hib : i < nb.length := by omega
    obtain ⟨nb', h1, h2, h3⟩ := ih (i + 1) (nb.set i (some xs[i])) (by omega)
      (by simpa using hle) (by
        intro j hj
        rw [List.length_set] at hj
        by_cases hji : j = i
        · subst hji
          rw [List.getElem?_set_self hib]
          simp [hx]
        · rw [List.getElem?_set_ne (Ne.symm hji), hnb j hj]
          by_cases hlt : j < i
          · have : j < i + 1 := by omega
            simp [hlt, this]
          · have : ¬ j < i + 1 := by omega
            simp [hlt, this])
    refine ⟨nb', ?_, by simpa using h2, by simpa using h3⟩
    simp only [relocate]
    rw [hold i _ hx]
    simp only [ok_bind]
    rw [construct_at_block _ hib]
    simpa using h1

theorem Holds.load {s : SimpleVector T} {xs : List T} (hs : s.Holds xs) {j : Nat} {x : T}
    (hx : xs[j]? = some x) : SimpleVector.load s.data_ j = .ok x := by
  have hj : j < xs.length := by
    rcases (List.getElem?_eq_some_iff.mp hx) with ⟨hj, _⟩
    exact hj
  obtain ⟨b, hb, _, hslot⟩ := hs.block (by have := hs.2.1; omega)
  rw [hb]
  exact load_block (by rw [hslot j (by have := hs.2.1; omega), hx])

theorem change_capacity_holds {s : SimpleVector T} {xs : List T} (hs : s.Holds xs)
    (c : Nat) (hc : xs.length ≤ c) :
    ∃ s', change_capacity true s c = .ok s' ∧ s'.Holds xs ∧ s'.capacity_ = c := by
  unfold change_capacity
  by_cases h1 : c = s.capacity_
  · exact ⟨s, by simp [h1], hs, h1.symm⟩
  · have h2 : ¬ c < s.size_ := by rw [hs.1]; omega
    simp only [h1, h2, if_false]
    by_cases h3 : c > 0
    · obtain ⟨nb, hnb1, hnb2, hnb3⟩ := relocate_spec s.data_ xs (fun j x hx => hs.load hx)
        xs.length 0 (List.replicate c none) (by omega) (by simpa using hc) (by
          intro j hj
          simp at hj
          simp [hj])
      refine ⟨{ s with data_ := some nb, capacity_ := c }, ?_, ?_, rfl⟩
      · simp only [h3, if_true, operator_new, ok_bind]
        rw [hs.1, hnb1]
        rfl
      · refine ⟨hs.1, hc, ?_⟩
        simp only [List.length_replicate] at hnb2 hnb3
        exact ⟨hnb2, hnb3⟩
    · have hc0 : c = 0 := by omega
      refine ⟨{ s with data_ := none, capacity_ := c }, ?_, ?_, rfl⟩
      · simp [h3]
      · exact ⟨hs.1, hc, hc0⟩

theorem ensure_capacity_holds {s : SimpleVector T} {xs : List T} (hs : s.Holds xs) (r : Nat)
    (hr : xs.length ≤ r) :
    ∃ s', ensure_capacity true s r = .ok s' ∧ s'.Holds xs ∧ r ≤ s'.capacity_ := by
  unfold ensure_capacity
  by_cases h1 : r ≤ s.capacity_
  · exact ⟨s, by simp [h1], hs, h1⟩
  · simp only [h1, if_false]
    obtain ⟨s', e1, e2, e3⟩ := change_capacity_holds hs
      (if (if s.capacity_ = 0 then 1 else grown s.capacity_) < r then r
        else (if s.capacity_ = 0 then 1 else grown s.capacity_)) (by
        split_ifs <;> omega)
    refine ⟨s', e1, e2, ?_⟩
    rw [e3]
    split_ifs <;> omega

/-- The element sequence after `push_back`. -/
theorem push_back_holds {s : SimpleVector T} {xs : List T} (hs : s.Holds xs) (v : T) :
    ∃ s', push_back true s v = .ok s' ∧ s'.Holds (xs ++ [v]) := by
  obtain ⟨s1, e1, e2, e3⟩ := ensure_capacity_holds hs (s.size_ + 1) (by rw [hs.1]; omega)
  obtain ⟨b, hb, hlen, hslot⟩ := e2.block (by omega)
  have hsz : s1.size_ = xs.length := e2.1
  have hsz0 : s.size_ = xs.length := hs.1
  refine ⟨{ s1 with data_ := some (b.set s1.size_ (some v)), size_ := s1.size_ + 1 }, ?_, ?_⟩
  · simp only [push_back, e1, ok_bind, hb]
    rw [construct_at_block v (by omega)]
    rfl
  · refine ⟨by simp [hsz], by simp; omega, ?_⟩
    refine ⟨by simpa using hlen, ?_⟩
    intro i hi
    simp only at hi
    by_cases hin : i = xs.length
    · subst hin
      rw [hsz, List.getElem?_set_self (by omega)]
      simp
    · rw [List.getElem?_set_ne (by omega), hslot i hi]
      by_cases hlt : i < xs.length
      · rw [List.getElem?_append_left hlt]
      · rw [List.getElem?_eq_none (by omega), List.getElem?_eq_none (by simp; omega)]

theorem shift_right_spec (xs : List T) (pos : Nat) :
    ∀ (i : Nat) (b : List (Option T)), pos ≤ i → i ≤ xs.length → xs.length < b.length →
      (∀ j, j < b.length →
        b[j]? = some (if j ≤ i ∧ j < xs.length then xs[j]? else xs[j - 1]?)) →
      ∃ b', shift_right id pos i (some b) = .ok (some b') ∧ b'.length = b.length ∧
        ∀ j, j < b.length →
          b'[j]? = some (if j ≤ pos ∧ j < xs.length then xs[j]? else xs[j - 1]?) := by
  intro i
  induction i with
  | zero =>
    intro b hpos _ _ hb
    have : pos = 0 := by omega
    subst this
    exact ⟨b, rfl, rfl, hb⟩
  | succ i ih =>
    intro b hpos hin hlen hb
    by_cases hgt : i + 1 > pos
    · have hi : i < xs.length := by omega
      have hsrc : b[i]? = some (some xs[i]) := by
        rw [hb i (by omega)]
        simp [hi]
      have hdst : ∃ y, b[i + 1]? = some (some y) := by
        rw [hb (i + 1) (by omega)]
        by_cases h1 : i + 1 < xs.length
        · exact ⟨xs[i + 1], by simp [h1]⟩
        · exact ⟨xs[i], by simp [h1, hi]⟩
      obtain ⟨y, hy⟩ := hdst
      have hsrc1 : (b.set (i + 1) (some xs[i]))[i]? = some (some xs[i]) := by
        rw [List.getElem?_set_ne (by omega), hsrc]
      obtain ⟨b', h1, h2, h3⟩ := ih ((b.set (i + 1) (some xs[i])).set i (some xs[i]))
        (by omega) (by omega) (by simpa using hlen) (by
          intro j hj
          simp only [List.length_set] at hj
          by_cases hji : j = i
          · subst hji
            rw [List.getElem?_set_self (by simpa using hj)]
            simp [hi]
          · rw [List.getElem?_set_ne (Ne.symm hji)]
            by_cases hj1 : j = i + 1
            · subst hj1
              rw [List.getElem?_set_self (by omega)]
              have : ¬ (i + 1 ≤ i ∧ i + 1 < xs.length) := by omega
              simp [this, hi]
            · rw [List.getElem?_set_ne (Ne.symm hj1), hb j hj]
              by_cases hc : j ≤ i ∧ j < xs.length
              · have : j ≤ i + 1 ∧ j < xs.length := by omega
                simp [hc, this]
              · have : ¬ (j ≤ i + 1 ∧ j < xs.length) := by omega
                simp [hc, this])
      refine ⟨b', ?_, by simpa using h2, by simpa using h3⟩
      simp only [shift_right, hgt, if_true, move_assign]
      rw [load_block hsrc]
      simp only [ok_bind]
      rw [assign_at_block _ hy]
      simp only [ok_bind, id]
      rw [assign_at_block _ hsrc1]
      simpa using h1
    · have : pos = i + 1 := by omega
      subst this
      refine ⟨b, ?_, rfl, hb⟩
      simp [shift_right]

/-- The element sequence after `insert`, for an element type whose move is a
copy. -/
theorem insert_holds {s : SimpleVector T} {xs : List T} (hs : s.Holds xs) (pos : Nat)
    (hpos : pos ≤ xs.length) (v : T) :
    ∃ s', insert id true s pos v = .ok s' ∧
      s'.Holds (xs.take pos ++ v :: xs.drop pos) := by
  have hsz0 : s.size_ = xs.length := hs.1
  obtain ⟨s1, e1, e2, e3⟩ := ensure_capacity_holds hs (s.size_ + 1) (by rw [hs.1]; omega)
  obtain ⟨b, hb, hlen, hslot⟩ := e2.block (by omega)
  have hsz : s1.size_ = xs.length := e2.1
  have hchk : BaseContainer.check_position pos s.size_ = .ok () := by
    simp [BaseContainer.check_position, hsz0, hpos]
  have hfinal : ∀ (b4 : List (Option T)), b4.length = s1.capacity_ →
      (∀ j, j < s1.capacity_ → b4[j]? = some (if j < pos then xs[j]? else
        if j = pos then some v else xs[j - 1]?)) →
      Holds { s1 with data_ := some b4, size_ := s1.size_ + 1 }
        (xs.take pos ++ v :: xs.drop pos) := by
    intro b4 hl hsl
    have hlen4 : (xs.take pos ++ v :: xs.drop pos).length = xs.length + 1 := by
      simp [List.length_take, List.length_drop]
      omega
    refine ⟨by simp only [hlen4, hsz], by simp only [hlen4]; omega, hl, ?_⟩
    intro j hj
    rw [hsl j hj]
    congr 1
    have htl : (xs.take pos).length = pos := by simp [List.length_take]; omega
    by_cases h1 : j < pos
    · simp only [h1, if_true]
      rw [List.getElem?_append_left (by omega), List.getElem?_take_of_lt h1]
    · simp only [h1, if_false]
      rw [List.getElem?_append_right (by omega), htl]
      by_cases h2 : j = pos
      · subst h2
        simp
      · simp only [h2, if_false]
        obtain ⟨m, hm⟩ : ∃ m, j = pos + (m + 1) := ⟨j - pos - 1, by omega⟩
        subst hm
        have e1 : pos + (m + 1) - pos = m + 1 := by omega
        have e2 : pos + (m + 1) - 1 = pos + m := by omega
        rw [e1, e2, List.getElem?_cons_succ, List.getElem?_drop]
  by_cases hend : pos = xs.length
  · subst hend
    refine ⟨{ s1 with data_ := some (b.set s1.size_ (some v)), size_ := s1.size_ + 1 }, ?_, ?_⟩
    · simp only [insert, hchk, e1, ok_bind, hsz, if_true, hb]
      rw [construct_at_block v (by omega)]
      rfl
    · apply hfinal _ (by simpa using hlen)
      intro j hj
      by_cases hjn : j = xs.length
      · subst hjn
        rw [hsz, List.getElem?_set_self (by omega)]
        simp
      · rw [hsz, List.getElem?_set_ne (by omega), hslot j hj]
        by_cases hlt : j < xs.length
        · simp [hlt]
        · simp only [hlt, hjn, if_false]
          rw [List.getElem?_eq_none (by omega), List.getElem?_eq_none (by omega)]
  · have hlt : pos < xs.length := by omega
    have hn1 : xs.length - 1 < xs.length := by omega
    have hlast : b[xs.length - 1]? = some (some xs[xs.length - 1]) := by
      rw [hslot _ (by omega)]
      simp [hn1]
    have hlast1 : (b.set xs.length (some xs[xs.length - 1]))[xs.length - 1]?
        = some (some xs[xs.length - 1]) := by
      rw [List.getElem?_set_ne (by omega), hlast]
    obtain ⟨b3, h1, h2, h3⟩ := shift_right_spec xs pos xs.length
      ((b.set xs.length (some xs[xs.length - 1])).set (xs.length - 1)
        (some xs[xs.length - 1]))
      (by omega) (by omega) (by simp; omega) (by
        intro j hj
        simp only [List.length_set] at hj
        by_cases hj1 : j = xs.length - 1
        · subst hj1
          rw [List.getElem?_set_self (by simpa using hj)]
          simp [hn1]
        · rw [List.getElem?_set_ne (Ne.symm hj1)]
          by_cases hj2 : j = xs.length
          · subst hj2
            rw [List.getElem?_set_self (by omega)]
            simp [hn1]
          · rw [List.getElem?_set_ne (Ne.symm hj2), hslot j (by omega)]
            by_cases hc : j < xs.length
            · have : j ≤ xs.length := by omega
              simp [hc, this]
            · simp only [hc, and_false, if_false]
              rw [List.getElem?_eq_none (by omega), List.getElem?_eq_none (by omega)])
    simp only [List.length_set] at h2 h3
    have hposlive : b3[pos]? = some (some xs[pos]) := by
      rw [h3 pos (by omega)]
      simp [hlt]
    refine ⟨{ s1 with data_ := some (b3.set pos (some v)), size_ := s1.size_ + 1 }, ?_, ?_⟩
    · simp only [insert, hchk, e1, ok_bind, hsz, hend, if_false, hb, move_construct]
      rw [load_block hlast]
      simp only [ok_bind]
      rw [construct_at_block _ (by omega)]
      simp only [ok_bind, id]
      rw [assign_at_block _ hlast1]
      simp only [ok_bind]
      rw [h1]
      simp only [ok_bind]
      rw [assign_at_block _ hposlive]
      rfl
    · apply hfinal _ (by simpa [h2] using hlen)
      intro j hj
      by_cases hjp : j = pos
      · subst hjp
        rw [List.getElem?_set_self (by omega)]
        simp
      · rw [List.getElem?_set_ne (Ne.symm hjp), h3 j (by omega)]
        by_cases hc : j < pos
        · have : j ≤ pos ∧ j < xs.length := by omega
          simp [hc, this]
        · have : ¬ (j ≤ pos ∧ j < xs.length) := by omega
          simp [hc, this, hjp]

theorem shift_left_spec (mv : T → T) (xs : List T) (pos : Nat) :
    ∀ (k i : Nat) (b : List (Option T)), pos ≤ i → i + k + 1 = xs.length →
      xs.length ≤ b.length →
      (∀ j, j < b.length → b[j]? = some (if j < i then (if j < pos then xs[j]? else xs[j + 1]?)
        else if j = i then none else xs[j]?)) →
      ∃ b', shift_left mv k i (some b) = .ok (some b') ∧ b'.length = b.length ∧
        ∀ j, j < b.length → b'[j]? = some (if j < pos then xs[j]? else xs[j + 1]?) := by
  intro k
  induction k with
  | zero =>
    intro i b hpos hik hlen hb
    refine ⟨b, rfl, rfl, ?_⟩
    intro j hj
    rw [hb j hj]
    by_cases h1 : j < i
    · simp [h1]
    · have h2 : ¬ j < pos := by omega
      simp only [h1, h2, if_false]
      by_cases h3 : j = i
      · simp only [h3, if_true]
        rw [List.getElem?_eq_none (by omega)]
      · simp only [h3, if_false]
        rw [List.getElem?_eq_none (by omega), List.getElem?_eq_none (by omega)]
  | succ k ih =>
    intro i b hpos hik hlen hb
    have hi1 : i + 1 < xs.length := by omega
    have hsrc : b[i + 1]? = some (some xs[i + 1]) := by
      rw [hb (i + 1) (by omega)]
      simp [hi1]
    have hsrc1 : (b.set i (some xs[i + 1]))[i + 1]? = some (some xs[i + 1]) := by
      rw [List.getElem?_set_ne (by omega), hsrc]
    have hsrc2 : ((b.set i (some xs[i + 1])).set (i + 1) (some (mv xs[i + 1])))[i + 1]?
        = some (some (mv xs[i + 1])) := by
      rw [List.getElem?_set_self (by simp; omega)]
    obtain ⟨b', h1, h2, h3⟩ := ih (i + 1)
      (((b.set i (some xs[i + 1])).set (i + 1) (some (mv xs[i + 1]))).set (i + 1) none)
      (by omega) (by omega) (by simpa using hlen) (by
        intro j hj
        simp only [List.length_set] at hj
        by_cases hj1 : j = i + 1
        · subst hj1
          rw [List.getElem?_set_self (by simpa using hj)]
          simp
        · rw [List.getElem?_set_ne (Ne.symm hj1), List.getElem?_set_ne (Ne.symm hj1)]
          by_cases hj2 : j = i
          · subst hj2
            rw [List.getElem?_set_self (by omega)]
            have : ¬ j < pos := by omega
            simp [this, hi1]
          · rw [List.getElem?_set_ne (Ne.symm hj2), hb j hj]
            by_cases hc : j < i
            · have : j < i + 1 := by omega
              simp [hc, this]
            · have : ¬ j < i + 1 := by omega
              simp [hc, this, hj1, hj2])
    refine ⟨b', ?_, by simpa using h2, by simpa using h3⟩
    simp only [shift_left, move_construct]
    rw [load_block hsrc]
    simp only [ok_bind]
    rw [construct_at_block _ (by omega)]
    simp only [ok_bind]
    rw [assign_at_block _ hsrc1]
    simp only [ok_bind]
    rw [destroy_at_block hsrc2]
    simpa using h1

/-- The element sequence after `erase`, whatever a move leaves in its source. -/
theorem erase_holds (mv : T → T) {s : SimpleVector T} {xs : List T} (hs : s.Holds xs)
    (pos : Nat) (hpos : pos < xs.length) :
    ∃ s', erase mv s pos = .ok s' ∧ s'.Holds (xs.take pos ++ xs.drop (pos + 1)) ∧
      s'.capacity_ = s.capacity_ := by
  have hsz : s.size_ = xs.length := hs.1
  have hcap : xs.length ≤ s.capacity_ := hs.2.1
  obtain ⟨b, hb, hlen, hslot⟩ := hs.block (by omega)
  have hchk : BaseContainer.check_index pos s.size_ = .ok () := by
    simp [BaseContainer.check_index, hsz, hpos]
  have hlive : b[pos]? = some (some xs[pos]) := by
    rw [hslot pos (by omega)]
    simp [hpos]
  obtain ⟨b', h1, h2, h3⟩ := shift_left_spec mv xs pos (xs.length - 1 - pos) pos
    (b.set pos none) (le_refl _) (by omega) (by simp; omega) (by
      intro j hj
      simp only [List.length_set] at hj
      by_cases hjp : j = pos
      · subst hjp
        rw [List.getElem?_set_self hj]
        simp
      · rw [List.getElem?_set_ne (Ne.symm hjp), hslot j (by omega)]
        by_cases hc : j < pos
        · simp [hc]
        · simp [hc, hjp])
  simp only [List.length_set] at h2 h3
  refine ⟨{ s with data_ := some b', size_ := s.size_ - 1 }, ?_, ?_, rfl⟩
  · simp only [erase, hchk, ok_bind, hb]
    rw [destroy_at_block hlive]
    simp only [ok_bind, hsz]
    rw [h1]
    rfl
  · have hlen2 : (xs.take pos ++ xs.drop (pos + 1)).length = xs.length - 1 := by
      simp [List.length_take, List.length_drop]
      omega
    refine ⟨by simp only [hlen2, hsz], by simp only [hlen2]; omega, by rw [h2]; exact hlen, ?_⟩
    intro j hj
    simp only at hj
    rw [h3 j (by omega)]
    congr 1
    have htl : (xs.take pos).length = pos := by simp [List.length_take]; omega
    by_cases hc : j < pos
    · simp only [hc, if_true]
      rw [List.getElem?_append_left (by omega), List.getElem?_take_of_lt hc]
    · simp only [hc, if_false]
      rw [List.getElem?_append_right (by omega), htl, List.getElem?_drop]
      congr 1
      omega

/-- Indexed access reads the element sequence. -/
theorem index_holds {s : SimpleVector T} {xs : List T} (hs : s.Holds xs) {i : Nat} {x : T}
    (hx : xs[i]? = some x) : index s i = .ok x := by
  have hi : i < xs.length := by
    rcases (List.getElem?_eq_some_iff.mp hx) with ⟨hj, _⟩
    exact hj
  simp [index, BaseContainer.check_index_ok (hs.1 ▸ hi), hs.load hx]

theorem empty_vector_holds : (empty_vector : SimpleVector T).Holds [] := by
  simp [Holds, empty_vector]

theorem Holds.size_eq {s : SimpleVector T} {xs : List T} (hs : s.Holds xs) :
    s.size = xs.length := hs.1

theorem destroy_range_spec (xs : List T) :
    ∀ (k i : Nat) (b : List (Option T)), i + k = xs.length → xs.length ≤ b.length →
      (∀ j, j < b.length → b[j]? = some (if j < i then none else xs[j]?)) →
      ∃ b', destroy_range k i (some b) = .ok (some b') ∧ b'.length = b.length ∧
        ∀ j, j < b.length → b'[j]? = some none := by
  intro k
  induction k with
  | zero =>
    intro i b hik hlen hb
    refine ⟨b, rfl, rfl, ?_⟩
    intro j hj
    rw [hb j hj]
    by_cases h1 : j < i
    · simp [h1]
    · simp only [h1, if_false]
      rw [List.getElem?_eq_none (by omega)]
  | succ k ih =>
    intro i b hik hlen hb
    have hi : i < xs.length := by omega
    have hlive : b[i]? = some (some xs[i]) := by
      rw [hb i (by omega)]
      simp [hi]
    obtain ⟨b', h1, h2, h3⟩ := ih (i + 1) (b.set i none) (by omega) (by simpa using hlen) (by
      intro j hj
      simp only [List.length_set] at hj
      by_cases hji : j = i
      · subst hji
        rw [List.getElem?_set_self hj]
        simp
      · rw [List.getElem?_set_ne (Ne.symm hji), hb j hj]
        by_cases hc : j < i
        · have : j < i + 1 := by omega
          simp [hc, this]
        · have : ¬ j < i + 1 := by omega
          simp [hc, this])
    refine ⟨b', ?_, by simpa using h2, by simpa using h3⟩
    simp only [destroy_range]
    rw [destroy_at_block hlive]
    simpa using h1

/-- The state after `clear`: no element, the block kept. -/
theorem clear_holds {s : SimpleVector T} {xs : List T} (hs : s.Holds xs) :
    ∃ s', clear s = .ok s' ∧ s'.Holds [] ∧ s'.capacity_ = s.capacity_ := by
  cases hd : s.data_ with
  | none =>
    have h3 := hs.2.2
    rw [hd] at h3
    refine ⟨{ s with data_ := none, size_ := 0 }, by simp [clear, destroy_elements, hd], ?_, rfl⟩
    exact ⟨rfl, by simp, h3⟩
  | some b =>
    have h3 := hs.2.2
    rw [hd] at h3
    obtain ⟨b', h1, h2, h4⟩ := destroy_range_spec xs xs.length 0 b (by omega)
      (by rw [h3.1]; exact hs.2.1) (by
        intro j hj
        rw [h3.2 j (by rw [← h3.1]; exact hj)]
        simp)
    refine ⟨{ s with data_ := some b', size_ := 0 }, ?_, ?_, rfl⟩
    · simp only [clear, destroy_elements, hd, hs.1, h1]
      rfl
    · refine ⟨rfl, by simp, by rw [h2]; exact h3.1, ?_⟩
      intro j hj
      simp only at hj
      rw [h4 j (by rw [h3.1]; exact hj)]
      simp

theorem print_loop_spec (render : T → String) {s : SimpleVector T} {xs : List T}
    (hs : s.Holds xs) :
    ∀ (k i : Nat) (os : List String), i + k = xs.length →
      print_loop render s k i os
        = .ok (os ++ ((xs.drop i).map render).intersperse " ") := by
  intro k
  induction k with
  | zero =>
    intro i os hik
    have : xs.drop i = [] := List.drop_eq_nil_of_le (by omega)
    simp [print_loop, this]
  | succ k ih =>
    intro i os hik
    have hi : i < xs.length := by omega
    have hx : xs[i]? = some xs[i] := List.getElem?_eq_getElem hi
    simp only [print_loop]
    rw [hs.load hx]
    simp only [ok_bind]
    rw [ih (i + 1) _ (by omega), List.drop_eq_getElem_cons hi]
    have hnil : xs.drop (i + 1) = [] ↔ i = s.size_ - 1 := by
      rw [List.drop_eq_nil_iff, hs.1]
      omega
    generalize xs.drop (i + 1) = tl at hnil
    generalize xs[i] = x
    cases tl with
    | nil =>
      have : i = s.size_ - 1 := hnil.mp rfl
      simp [this]
    | cons y ys =>
      have : ¬ i = s.size_ - 1 := fun hh => by simpa using hnil.mpr hh
      simp [this]

/-- The chunks `print` writes: the rendered elements with one separator between
neighbours. -/
theorem print_holds (render : T → String) {s : SimpleVector T} {xs : List T}
    (hs : s.Holds xs) :
    print render s = .ok ((xs.map render).intersperse " ") := by
  simp only [print, hs.1]
  rw [print_loop_spec render hs xs.length 0 [] (by omega)]
  simp

/-- Re-reading a vector through `operator[]` gives the element sequence. -/
theorem contents_holds {s : SimpleVector T} {xs : List T} (hs : s.Holds xs) :
    s.contents = .ok xs := by
  unfold contents
  rw [hs.size_eq]
  have := read_from_spec (index s) xs (fun i x hx => index_holds hs hx) xs.length 0 (by omega)
  simpa using this

theorem change_capacity_size {mem : Bool} {s s1 : SimpleVector T} {c : Nat}
    (h : change_capacity mem s c = .ok s1) : s1.size_ = s.size_ := by
  unfold change_capacity at h
  split at h
  · cases h
    rfl
  · split at h
    · cases h
      rfl
    · dsimp only at h
      split at h
      · cases hn : (operator_new mem c : Except Error (Option (List (Option T)))) with
        | error e => rw [hn] at h; cases h
        | ok raw =>
          rw [hn] at h
          simp only [ok_bind] at h
          cases hr : relocate s.data_ s.size_ 0 raw with
          | error e => rw [hr] at h; cases h
          | ok nd =>
            rw [hr] at h
            cases h
            rfl
      · cases h
        rfl

theorem ensure_capacity_size {mem : Bool} {s s1 : SimpleVector T} {r : Nat}
    (h : ensure_capacity mem s r = .ok s1) : s1.size_ = s.size_ := by
  unfold ensure_capacity at h
  split at h
  · cases h
    rfl
  · exact change_capacity_size h

/-- An insertion at `size()` moves no element: it is `push_back`. -/
theorem insert_at_size (mv : T → T) (mem : Bool) (s : SimpleVector T) (v : T) :
    insert mv mem s s.size v = push_back mem s v := by
  unfold insert push_back
  rw [size, BaseContainer.check_position_ok (le_refl _)]
  simp only [ok_bind]
  cases he : ensure_capacity mem s (s.size_ + 1) with
  | error e => rfl
  | ok s1 =>
    simp only [ok_bind]
    rw [if_pos (ensure_capacity_size he).symm]

end SimpleVector

/-! ## `SimpleVector`: the allocator's answer, and moves that change their source -/

namespace SimpleVector

variable {T : Type}

/-- A call that succeeds although the allocator refuses made no request: it gives
the same result when the allocator grants. -/
theorem change_capacity_granted {mem : Bool} {s s' : SimpleVector T} {c : Nat}
    (e : change_capacity mem s c = .ok s') : change_capacity true s c = .ok s' := by
  cases mem with
  | true => exact e
  | false =>
    unfold change_capacity at e ⊢
    split
    · rename_i h1
      rw [if_pos h1] at e
      exact e
    · rename_i h1
      rw [if_neg h1] at e
      split
      · rename_i h2
        rw [if_pos h2] at e
        exact e
      · rename_i h2
        rw [if_neg h2] at e
        dsimp only at e ⊢
        split
        · rename_i h3
          rw [if_pos h3] at e
          simp [operator_new] at e
        · rename_i h3
          rw [if_neg h3] at e
          exact e

theorem ensure_capacity_granted {mem : Bool} {s s' : SimpleVector T} {r : Nat}
    (e : ensure_capacity mem s r = .ok s') : ensure_capacity true s r = .ok s' := by
  unfold ensure_capacity at e ⊢
  split
  · rename_i h1
    rw [if_pos h1] at e
    exact e
  · rename_i h1
    rw [if_neg h1] at e
    exact change_capacity_granted e

theorem push_back_granted {mem : Bool} {s s' : SimpleVector T} {v : T}
    (e : push_back mem s v = .ok s') : push_back true s v = .ok s' := by
  unfold push_back at e ⊢
  cases h : ensure_capacity mem s (s.size_ + 1) with
  | error err => rw [h] at e; cases e
  | ok s1 =>
    rw [h] at e
    rw [ensure_capacity_granted h]
    exact e

theorem insert_granted {mv : T → T} {mem : Bool} {s s' : SimpleVector T} {pos : Nat} {v : T}
    (e : insert mv mem s pos v = .ok s') : insert mv true s pos v = .ok s' := by
  unfold insert at e ⊢
  cases hc : BaseContainer.check_position pos s.size_ with
  | error err => rw [hc] at e; cases e
  | ok u =>
    rw [hc] at e
    simp only [ok_bind] at e ⊢
    cases h : ensure_capacity mem s (s.size_ + 1) with
    | error err => rw [h] at e; cases e
    | ok s1 =>
      rw [h] at e
      rw [ensure_capacity_granted h]
      exact e

theorem reserve_granted {mem : Bool} {s s' : SimpleVector T} {n : Nat}
    (e : reserve mem s n = .ok s') : reserve true s n = .ok s' := by
  unfold reserve at e ⊢
  split
  · rename_i h1
    rw [if_pos h1] at e
    exact e
  · rename_i h1
    rw [if_neg h1] at e
    exact change_capacity_granted e

/-- A refused allocation in `change_capacity`. -/
theorem change_capacity_refused {s : SimpleVector T} {c : Nat} (h1 : c ≠ s.capacity_)
    (h2 : s.size_ ≤ c) (h3 : 0 < c) :
    change_capacity false s c = .error .AllocationFailure := by
  have h2' : ¬ c < s.size_ := by omega
  simp [change_capacity, h1, h2', h3, operator_new]

/-- The shift loop of `insert` entered below the last element, whatever a move
leaves in its source: slots below `i` hold `xs`, slot `i` holds a live object,
slots above it hold `xs` shifted by one, and slot `|xs|` holds `z`. -/
theorem shift_right_moved (mv : T → T) (xs : List T) (pos : Nat) (z : T) :
    ∀ (i : Nat) (b : List (Option T)), pos ≤ i → i < xs.length → xs.length < b.length →
      (∀ j, j < i → b[j]? = some xs[j]?) →
      (∃ y, b[i]? = some (some y)) →
      (∀ j, i < j → j < xs.length → b[j]? = some xs[j - 1]?) →
      b[xs.length]? = some (some z) →
      (∀ j, xs.length < j → j < b.length → b[j]? = some none) →
      ∃ b', shift_right mv pos i (some b) = .ok (some b') ∧ b'.length = b.length ∧
        (∀ j, j < pos → b'[j]? = some xs[j]?) ∧
        (∃ y, b'[pos]? = some (some y)) ∧
        (∀ j, pos < j → j < xs.length → b'[j]? = some xs[j - 1]?) ∧
        b'[xs.length]? = some (some z) ∧
        (∀ j, xs.length < j → j < b.length → b'[j]? = some none) := by
  intro i
  induction i with
  | zero =>
    intro b hpos _ _ h1 h2 h3 h4 h5
    have : pos = 0 := by omega
    subst this
    exact ⟨b, rfl, rfl, h1, h2, h3, h4, h5⟩
  | succ i ih =>
    intro b hpos hin hlen h1 h2 h3 h4 h5
    by_cases hgt : i + 1 > pos
    · have hi : i < xs.length := by omega
      have hsrc : b[i]? = some (some xs[i]) := by
        rw [h1 i (by omega)]
        simp [hi]
      obtain ⟨y, hy⟩ := h2
      have hsrc1 : (b.set (i + 1) (some xs[i]))[i]? = some (some xs[i]) := by
        rw [List.getElem?_set_ne (by omega), hsrc]
      obtain ⟨b', e1, e2, r1, r2, r3, r4, r5⟩ :=
        ih ((b.set (i + 1) (some xs[i])).set i (some (mv xs[i])))
          (by omega) (by omega) (by simpa using hlen)
          (by
            intro j hj
            rw [List.getElem?_set_ne (by omega), List.getElem?_set_ne (by omega)]
            exact h1 j (by omega))
          ⟨mv xs[i], by rw [List.getElem?_set_self (by simp; omega)]⟩
          (by
            intro j hj hjn
            rw [List.getElem?_set_ne (by omega)]
            by_cases hj1 : j = i + 1
            · subst hj1
              rw [List.getElem?_set_self (by omega)]
              simp [hi]
            · rw [List.getElem?_set_ne (Ne.symm hj1)]
              exact h3 j (by omega) hjn)
          (by
            rw [List.getElem?_set_ne (by omega), List.getElem?_set_ne (by omega)]
            exact h4)
          (by
            intro j hj hjb
            simp only [List.length_set] at hjb
            rw [List.getElem?_set_ne (by omega), List.getElem?_set_ne (by omega)]
            exact h5 j hj hjb)
      simp only [List.length_set] at e2 r5
      refine ⟨b', ?_, e2, r1, r2, r3, r4, r5⟩
      simp only [shift_right, hgt, if_true, move_assign]
      rw [load_block hsrc]
      simp only [ok_bind]
      rw [assign_at_block _ hy]
      simp only [ok_bind]
      rw [assign_at_block _ hsrc1]
      simpa using e1
    · have : pos = i + 1 := by omega
      subst this
      refine ⟨b, ?_, rfl, h1, h2, h3, h4, h5⟩
      simp [shift_right]

/-- What `insert` before the end leaves, whatever a move leaves in its source: the
sequence with `v` inserted, except that its last slot holds `mv y`, the value
a move leaves behind, in place of the last element `y`. -/
theorem insert_holds_moved (mv : T → T) {s : SimpleVector T} {xs : List T} (hs : s.Holds xs)
    (pos : Nat) (hpos : pos < xs.length) (v : T) {y : T}
    (hy : xs[xs.length - 1]? = some y) :
    ∃ s', insert mv true s pos v = .ok s' ∧
      s'.Holds ((xs.take pos ++ v :: xs.drop pos).set xs.length (mv y)) := by
  have hsz0 : s.size_ = xs.length := hs.1
  obtain ⟨s1, e1, e2, e3⟩ := ensure_capacity_holds hs (s.size_ + 1) (by rw [hs.1]; omega)
  obtain ⟨b, hb, hlen, hslot⟩ := e2.block (by omega)
  have hsz : s1.size_ = xs.length := e2.1
  have hchk : BaseContainer.check_position pos s.size_ = .ok () :=
    BaseContainer.check_position_ok (by omega)
  have hn1 : xs.length - 1 < xs.length := by omega
  have hne : ¬ pos = xs.length := by omega
  have hlast : b[xs.length - 1]? = some (some y) := by
    rw [hslot _ (by omega), hy]
  have hlast1 : (b.set xs.length (some y))[xs.length - 1]? = some (some y) := by
    rw [List.getElem?_set_ne (by omega), hlast]
  -- the first round of the loop: `data_[size_] = std::move(data_[size_ - 1])`
  have hlast2 : ((b.set xs.length (some y)).set (xs.length - 1) (some (mv y)))[xs.length - 1]?
      = some (some (mv y)) := by
    rw [List.getElem?_set_self (by simp; omega)]
  have hdst2 : ((b.set xs.length (some y)).set (xs.length - 1) (some (mv y)))[xs.length]?
      = some (some y) := by
    rw [List.getElem?_set_ne (by omega), List.getElem?_set_self (by omega)]
  have hlast3 : ((((b.set xs.length (some y)).set (xs.length - 1) (some (mv y))).set xs.length
      (some (mv y))))[xs.length - 1]? = some (some (mv y)) := by
    rw [List.getElem?_set_ne (by omega)]
    exact hlast2
  obtain ⟨b3, h1, h2, r1, r2, r3, r4, r5⟩ := shift_right_moved mv xs pos (mv y)
    (xs.length - 1)
    ((((b.set xs.length (some y)).set (xs.length - 1) (some (mv y))).set xs.length
      (some (mv y))).set (xs.length - 1) (some (mv (mv y))))
    (by omega) hn1 (by simp; omega)
    (by
      intro j hj
      rw [List.getElem?_set_ne (by omega), List.getElem?_set_ne (by omega),
        List.getElem?_set_ne (by omega), List.getElem?_set_ne (by omega)]
      exact hslot j (by omega))
    ⟨mv (mv y), by rw [List.getElem?_set_self (by simp; omega)]⟩
    (by
      intro j hj hjn
      omega)
    (by
      rw [List.getElem?_set_ne (by omega), List.getElem?_set_self (by simp; omega)])
    (by
      intro j hj hjb
      simp only [List.length_set] at hjb
      rw [List.getElem?_set_ne (by omega), List.getElem?_set_ne (by omega),
        List.getElem?_set_ne (by omega), List.getElem?_set_ne (by omega),
        hslot j (by omega), List.getElem?_eq_none (by omega)])
  simp only [List.length_set] at h2 r5
  obtain ⟨y0, hy0⟩ := r2
  refine ⟨{ s1 with data_ := some (b3.set pos (some v)), size_ := s1.size_ + 1 }, ?_, ?_⟩
  · have hstep : shift_right mv pos xs.length
        (some ((b.set xs.length (some y)).set (xs.length - 1) (some (mv y))))
        = .ok (some b3) := by
      obtain ⟨k, hk⟩ : ∃ k, xs.length = k + 1 := ⟨xs.length - 1, by omega⟩
      have hk1 : xs.length - 1 = k := by omega
      rw [hk1] at h1 hlast2 hlast3 hdst2
      rw [hk] at h1 hdst2 hlast3 hlast2
      have hgt : k + 1 > pos := by omega
      rw [hk1, hk]
      simp only [shift_right, hgt, if_true, move_assign]
      rw [load_block hlast2]
      simp only [ok_bind]
      rw [assign_at_block _ hdst2]
      simp only [ok_bind]
      rw [assign_at_block _ hlast3]
      simpa using h1
    simp only [insert, hchk, e1, ok_bind, hsz, hne, if_false, hb, move_construct]
    rw [load_block hlast]
    simp only [ok_bind]
    rw [construct_at_block _ (by omega)]
    simp only [ok_bind]
    rw [assign_at_block _ hlast1]
    simp only [ok_bind]
    rw [hstep]
    simp only [ok_bind]
    rw [assign_at_block _ hy0]
    rfl
  · have hlen4 : (xs.take pos ++ v :: xs.drop pos).length = xs.length + 1 := by
      simp [List.length_take, List.length_drop]
      omega
    refine ⟨by simp only [List.length_set, hlen4, hsz],
      by simp only [List.length_set, hlen4]; omega, by simpa [h2] using hlen, ?_⟩
    intro j hj
    simp only at hj
    have htl : (xs.take pos).length = pos := by simp [List.length_take]; omega
    by_cases hjn : j = xs.length
    · subst hjn
      rw [List.getElem?_set_ne (by omega), r4, List.getElem?_set_self (by omega)]
    · rw [List.getElem?_set_ne (Ne.symm hjn)]
      by_cases hjp : j = pos
      · subst hjp
        rw [List.getElem?_set_self (by omega), List.getElem?_append_right (by omega), htl]
        simp
      · rw [List.getElem?_set_ne (Ne.symm hjp)]
        by_cases hlt : j < pos
        · rw [r1 j hlt, List.getElem?_append_left (by omega), List.getElem?_take_of_lt hlt]
        · obtain ⟨m, hm⟩ : ∃ m, j = pos + (m + 1) := ⟨j - pos - 1, by omega⟩
          subst hm
          have e4 : pos + (m + 1) - pos = m + 1 := by omega
          have e5 : pos + (m + 1) - 1 = pos + m := by omega
          rw [List.getElem?_append_right (by omega), htl, e4, List.getElem?_cons_succ,
            List.getElem?_drop]
          by_cases hjl : pos + (m + 1) < xs.length
          · rw [r3 _ (by omega) hjl, e5]
          · rw [r5 _ (by omega) (by omega), List.getElem?_eq_none (by omega)]

/-- Whatever a move leaves in its source, `insert` at a legal position succeeds
and leaves a vector that holds some sequence of one more element. -/
theorem insert_holds_some (mv : T → T) {s : SimpleVector T} {xs : List T} (hs : s.Holds xs)
    (pos : Nat) (hpos : pos ≤ xs.length) (v : T) :
    ∃ s' ys, insert mv true s pos v = .ok s' ∧ s'.Holds ys ∧ ys.length = xs.length + 1 := by
  by_cases hp : pos = xs.length
  · obtain ⟨s', e, h⟩ := push_back_holds hs v
    have hsz : pos = s.size := by rw [hp]; exact hs.1.symm
    refine ⟨s', _, ?_, h, by simp⟩
    rw [hsz, insert_at_size, e]
  · have hn : xs.length - 1 < xs.length := by omega
    obtain ⟨s', e, h⟩ := insert_holds_moved mv hs pos (by omega) v
      (List.getElem?_eq_getElem hn)
    refine ⟨s', _, e, h, ?_⟩
    simp [List.length_take, List.length_drop]
    omega

theorem construct_range_spec (xs : List T) :
    ∀ (rest : List T) (i : Nat) (b : List (Option T)), xs.drop i = rest →
      xs.length ≤ b.length →
      (∀ j, j < b.length → b[j]? = some (if j < i then xs[j]? else none)) →
      ∃ b', construct_range rest i (some b) = .ok (some b') ∧ b'.length = b.length ∧
        ∀ j, j < b.length → b'[j]? = some xs[j]? := by
  intro rest
  induction rest with
  | nil =>
    intro i b hd hle hb
    have hi : xs.length ≤ i := List.drop_eq_nil_iff.mp hd
    refine ⟨b, rfl, rfl, ?_⟩
    intro j hj
    rw [hb j hj]
    by_cases hji : j < i
    · simp [hji]
    · simp only [hji, if_false]
      rw [List.getElem?_eq_none (by omega)]
  | cons x rest ih =>
    intro i b hd hle hb
    have hi : i < xs.length := by
      by_contra hc
      rw [List.drop_eq_nil_of_le (by omega)] at hd
      cases hd
    have hx : xs[i]? = some x := by
      have := congrArg (fun l => l[0]?) hd
      simpa using this
    have hrest : xs.drop (i + 1) = rest := by
      have := congrArg List.tail hd
      simpa using this
    have hib : i < b.length := by omega
    obtain ⟨b', h1, h2, h3⟩ := ih (i + 1) (b.set i (some x)) hrest (by simpa using hle) (by
      intro j hj
      rw [List.length_set] at hj
      by_cases hji : j = i
      · subst hji
        rw [List.getElem?_set_self hib]
        simp [hx]
      · rw [List.getElem?_set_ne (Ne.symm hji), hb j hj]
        by_cases hlt : j < i
        · have : j < i + 1 := by omega
          simp [hlt, this]
        · have : ¬ j < i + 1 := by omega
          simp [hlt, this])
    refine ⟨b', ?_, by simpa using h2, by simpa using h3⟩
    simp only [construct_range]
    rw [construct_at_block _ hib]
    simpa using h1

/-- The vector built from an initializer list holds the list, with no spare
capacity. -/
theorem from_initializer_list_holds (init : List T) :
    ∃ s, from_initializer_list true init = .ok s ∧ s.Holds init ∧
      s.capacity_ = init.length := by
  by_cases h0 : init.length > 0
  · obtain ⟨b', h1, h2, h3⟩ := construct_range_spec init init 0
      (List.replicate init.length none) rfl (by simp) (by
        intro j hj
        simp only [List.length_replicate] at hj
        simp [hj])
    simp only [List.length_replicate] at h2 h3
    refine ⟨{ size_ := init.length, capacity_ := init.length, data_ := some b' }, ?_, ?_, rfl⟩
    · simp only [from_initializer_list, h0, if_true, operator_new, ok_bind, h1]
      rfl
    · exact ⟨rfl, le_refl _, h2, h3⟩
  · have hnil : init = [] := List.length_eq_zero.mp (by omega)
    subst hnil
    exact ⟨{ size_ := 0, capacity_ := 0, data_ := none }, rfl, ⟨rfl, le_refl _, rfl⟩, rfl⟩

theorem copy_elements_eq_relocate (src : Option (List (Option T))) :
    ∀ (k i : Nat) (d : Option (List (Option T))),
      copy_elements src k i d = relocate src k i d := by
  intro k
  induction k with
  | zero => intro i d; rfl
  | succ k ih =>
    intro i d
    simp only [copy_elements, relocate, ih]

/-- The copy constructor gives a vector that holds the elements of `other`,
with capacity the size of `other`. -/
theorem copy_constructor_holds {other : SimpleVector T} {xs : List T} (ho : other.Holds xs) :
    ∃ s, copy_constructor true other = .ok s ∧ s.Holds xs ∧ s.capacity_ = xs.length := by
  have hsz : other.size_ = xs.length := ho.1
  by_cases h0 : xs.length > 0
  · obtain ⟨b', h1, h2, h3⟩ := relocate_spec other.data_ xs (fun j x hx => ho.load hx)
      xs.length 0 (List.replicate xs.length none) (by omega) (by simp) (by
        intro j hj
        simp only [List.length_replicate] at hj
        simp [hj])
    simp only [List.length_replicate] at h2 h3
    refine ⟨{ size_ := xs.length, capacity_ := xs.length, data_ := some b' }, ?_, ?_, rfl⟩
    · simp only [copy_constructor, hsz, h0, if_true, operator_new, ok_bind,
        copy_elements_eq_relocate, h1]
      rfl
    · exact ⟨rfl, le_refl _, h2, h3⟩
  · have hnil : xs = [] := List.length_eq_zero.mp (by omega)
    subst hnil
    refine ⟨{ size_ := 0, capacity_ := 0, data_ := none }, ?_, ⟨rfl, le_refl _, rfl⟩, rfl⟩
    simp [copy_constructor, hsz]

theorem move_constructor_fst (other : SimpleVector T) : (move_constructor other).1 = other :=
  rfl

theorem move_constructor_snd (other : SimpleVector T) :
    (move_constructor other).2 = empty_vector := rfl

theorem swap_fst (s other : SimpleVector T) : (swap s other).1 = other := rfl

theorem swap_snd (s other : SimpleVector T) : (swap s other).2 = s := rfl

/-- In a valid state `clear_memory` destroys the elements and leaves the state
of a default-constructed vector. -/
theorem clear_memory_holds {s : SimpleVector T} {xs : List T} (hs : s.Holds xs) :
    clear_memory s = .ok empty_vector := by
  obtain ⟨s', e, _, _⟩ := clear_holds hs
  unfold clear at e
  unfold clear_memory
  cases hd : destroy_elements s with
  | error err => rw [hd] at e; cases e
  | ok d => rfl

theorem copy_assignment_holds {s other : SimpleVector T} {xs ys : List T} (hs : s.Holds xs)
    (ho : other.Holds ys) :
    ∃ s', copy_assignment true s other = .ok s' ∧ s'.Holds ys ∧ s'.capacity_ = ys.length := by
  obtain ⟨t, e1, e2, e3⟩ := copy_constructor_holds ho
  refine ⟨t, ?_, e2, e3⟩
  have hc : clear_memory (swap s t).2 = .ok empty_vector := clear_memory_holds hs
  simp only [copy_assignment, e1, ok_bind, hc]
  rfl

theorem move_assignment_holds {s : SimpleVector T} {xs : List T} (hs : s.Holds xs)
    (other : SimpleVector T) :
    move_assignment s other = .ok (other, empty_vector) := by
  simp only [move_assignment, clear_memory_holds hs, ok_bind]
  rfl

/-- In a valid state `reserve` succeeds when memory is granted, keeps the
elements, and leaves the larger of the old capacity and the requested one. -/
theorem reserve_holds {s : SimpleVector T} {xs : List T} (hs : s.Holds xs) (n : Nat) :
    ∃ s', reserve true s n = .ok s' ∧ s'.Holds xs ∧ s'.capacity_ = max s.capacity_ n := by
  unfold reserve
  by_cases h : n ≤ s.capacity_
  · exact ⟨s, by simp [h], hs, by omega⟩
  · obtain ⟨s', e1, e2, e3⟩ := change_capacity_holds hs n (by have := hs.2.1; omega)
    exact ⟨s', by simp [h, e1], e2, by omega⟩

theorem from_initializer_list_granted {mem : Bool} {init : List T} {s : SimpleVector T}
    (e : from_initializer_list mem init = .ok s) : from_initializer_list true init = .ok s := by
  cases mem with
  | true => exact e
  | false =>
    unfold from_initializer_list at e ⊢
    by_cases h0 : init.length > 0
    · simp [h0, operator_new] at e
    · simpa [h0] using e

theorem copy_constructor_granted {mem : Bool} {other s : SimpleVector T}
    (e : copy_constructor mem other = .ok s) : copy_constructor true other = .ok s := by
  cases mem with
  | true => exact e
  | false =>
    unfold copy_constructor at e ⊢
    by_cases h0 : other.size_ > 0
    · simp [h0, operator_new] at e
    · simpa [h0] using e

theorem copy_assignment_granted {mem : Bool} {s other s' : SimpleVector T}
    (e : copy_assignment mem s other = .ok s') : copy_assignment true s other = .ok s' := by
  unfold copy_assignment at e ⊢
  cases hc : copy_constructor mem other with
  | error err => rw [hc] at e; cases e
  | ok t =>
    rw [copy_constructor_granted hc]
    rw [hc] at e
    exact e

/-- Every reachable state satisfies the class invariant: it holds some element
sequence. -/
theorem Reachable.holds {mv : T → T} {s : SimpleVector T} (r : Reachable mv s) :
    ∃ xs, s.Holds xs := by
  induction r with
  | default_construct => exact ⟨[], empty_vector_holds⟩
  | from_initializer_list mem init s e =>
    obtain ⟨s', e', h, _⟩ := from_initializer_list_holds init
    rw [from_initializer_list_granted e] at e'
    cases e'
    exact ⟨init, h⟩
  | copy_constructor mem other s _ e ih =>
    obtain ⟨xs, ho⟩ := ih
    obtain ⟨s', e', h, _⟩ := copy_constructor_holds ho
    rw [copy_constructor_granted e] at e'
    cases e'
    exact ⟨xs, h⟩
  | move_constructor other _ ih => exact ih
  | moved_from other _ _ => exact ⟨[], empty_vector_holds⟩
  | copy_assignment mem s other s' _ _ e ih1 ih2 =>
    obtain ⟨xs, hs⟩ := ih1
    obtain ⟨ys, ho⟩ := ih2
    obtain ⟨s'', e', h, _⟩ := copy_assignment_holds hs ho
    rw [copy_assignment_granted e] at e'
    cases e'
    exact ⟨ys, h⟩
  | move_assignment s other r _ _ e ih1 ih2 =>
    obtain ⟨xs, hs⟩ := ih1
    rw [move_assignment_holds hs] at e
    cases e
    exact ih2
  | move_assigned_from s other r _ _ e ih1 _ =>
    obtain ⟨xs, hs⟩ := ih1
    rw [move_assignment_holds hs] at e
    cases e
    exact ⟨[], empty_vector_holds⟩
  | swap s other _ _ _ ih2 => exact ih2
  | swapped_with s other _ _ ih1 _ => exact ih1
  | push_back mem s v s' _ e ih =>
    obtain ⟨xs, hs⟩ := ih
    obtain ⟨s'', e', h⟩ := push_back_holds hs v
    rw [push_back_granted e] at e'
    cases e'
    exact ⟨_, h⟩
  | insert mem s pos v s' _ e ih =>
    obtain ⟨xs, hs⟩ := ih
    by_cases hp : pos ≤ xs.length
    · obtain ⟨s'', ys, e', h, _⟩ := insert_holds_some mv hs pos hp v
      rw [insert_granted e] at e'
      cases e'
      exact ⟨ys, h⟩
    · have hchk : BaseContainer.check_position pos s.size_ = .error .OutOfRange :=
        BaseContainer.check_position_error (by rw [hs.1]; omega)
      have herr : SimpleVector.insert mv mem s pos v = .error .OutOfRange := by
        unfold SimpleVector.insert
        rw [hchk]
        rfl
      rw [herr] at e
      cases e
  | erase s pos s' _ e ih =>
    obtain ⟨xs, hs⟩ := ih
    by_cases hp : pos < xs.length
    · obtain ⟨s'', e', h, _⟩ := erase_holds mv hs pos hp
      rw [e] at e'
      cases e'
      exact ⟨_, h⟩
    · have hchk : BaseContainer.check_index pos s.size_ = .error .OutOfRange :=
        BaseContainer.check_index_error (by rw [hs.1]; omega)
      have herr : SimpleVector.erase mv s pos = .error .OutOfRange := by
        unfold SimpleVector.erase
        rw [hchk]
        rfl
      rw [herr] at e
      cases e
  | clear s s' _ e ih =>
    obtain ⟨xs, hs⟩ := ih
    obtain ⟨s'', e', h, _⟩ := clear_holds hs
    rw [e] at e'
    cases e'
    exact ⟨[], h⟩
  | reserve mem s n s' _ e ih =>
    obtain ⟨xs, hs⟩ := ih
    obtain ⟨s'', e', h, _⟩ := reserve_holds hs n
    rw [reserve_granted e] at e'
    cases e'
    exact ⟨xs, h⟩

end SimpleVector

/-! ## `SinglyLinkedList`: chains of nodes -/

namespace SinglyLinkedList

variable {T : Type}

theorem sll_Seg_append (h : Heap (Node T)) (as bs : List (Nat × T)) (q : Ptr) :
    Seg h (as ++ bs) q ↔ Seg h as (link bs q) ∧ Seg h bs q := by
  induction as with
  | nil => simp [Seg]
  | cons c cs ih => simp [Seg, ih, link_append, and_assoc]

theorem sll_Seg_lt {h : Heap (Node T)} {cs : List (Nat × T)} {q : Ptr} (hs : Seg h cs q) :
    ∀ a, a ∈ cs.map Prod.fst → a < h.length := by
  induction cs with
  | nil => simp
  | cons c cs ih =>
    intro a ha
    simp only [List.map_cons, List.mem_cons] at ha
    rcases ha with rfl | ha
    · exact Heap.cell_lt hs.1
    · exact ih hs.2 a ha

theorem sll_Seg_set {h : Heap (Node T)} {cs : List (Nat × T)} {q : Ptr} {a : Nat}
    (x : Option (Node T)) (ha : a ∉ cs.map Prod.fst) (hs : Seg h cs q) :
    Seg (h.set a x) cs q := by
  induction cs with
  | nil => trivial
  | cons c cs ih =>
    simp only [List.map_cons, List.mem_cons, not_or] at ha
    refine ⟨?_, ih ha.2 hs.2⟩
    rw [List.getElem?_set_ne ha.1]
    exact hs.1

theorem sll_Seg_push {h : Heap (Node T)} {cs : List (Nat × T)} {q : Ptr}
    (x : Option (Node T)) (hs : Seg h cs q) : Seg (h ++ [x]) cs q := by
  induction cs with
  | nil => trivial
  | cons c cs ih => exact ⟨Heap.cell_push x hs.1, ih hs.2⟩

/-- Changing the pointer the last node owns is a change of that node only. -/
theorem sll_Seg_fresh {h : Heap (Node T)} {cs : List (Nat × T)} {q : Ptr} (hs : Seg h cs q) :
    h.length ∉ cs.map Prod.fst := by
  intro hmem
  have := sll_Seg_lt hs _ hmem
  omega

theorem sll_advance_seg {h : Heap (Node T)} (as bs : List (Nat × T)) (q : Ptr)
    (hs : Seg h (as ++ bs) q) :
    advance h as.length (link (as ++ bs) q) = .ok (link bs q) := by
  induction as with
  | nil => rfl
  | cons c cs ih =>
    have hc : h[c.1]? = some (some ⟨c.2, link (cs ++ bs) q⟩) := hs.1
    simp only [List.cons_append, link_cons, List.length_cons, advance]
    rw [Heap.deref_cell hc]
    exact ih hs.2

theorem sll_print_loop_seg (render : T → String) {h : Heap (Node T)} :
    ∀ (cs : List (Nat × T)) (fuel : Nat) (os : List String), Seg h cs none →
      cs.length ≤ fuel →
      print_loop render h fuel (link cs none) os
        = .ok (os ++ (cs.map (fun c => render c.2)).intersperse " ") := by
  intro cs
  induction cs with
  | nil =>
    intro fuel os _ _
    cases fuel <;> simp [print_loop]
  | cons c cs ih =>
    intro fuel os hs hf
    obtain ⟨k, rfl⟩ : ∃ k, fuel = k + 1 := ⟨fuel - 1, by simp at hf; omega⟩
    have hc : h[c.1]? = some (some ⟨c.2, link cs none⟩) := hs.1
    simp only [link_cons, print_loop]
    rw [Heap.deref_cell hc]
    simp only [ok_bind]
    rw [ih k _ hs.2 (by simp at hf; omega)]
    cases cs with
    | nil => simp
    | cons d ds => simp

theorem WellFormed.sll_length_le {h : Heap (Node T)} {l : SinglyLinkedList}
    {cells : List (Nat × T)} (hw : WellFormed h l cells) : cells.length ≤ h.length := by
  have := nodup_length_le hw.nodup (sll_Seg_lt hw.chain)
  simpa using this

theorem sll_empty_list_wellFormed : WellFormed ([] : Heap (Node T)) empty_list [] :=
  ⟨rfl, rfl, rfl, trivial, by simp⟩

/-- The state after `push_front`. -/
theorem sll_push_front_wf_frame {h : Heap (Node T)} {l : SinglyLinkedList}
    {cells : List (Nat × T)} (hw : WellFormed h l cells) (v : T) :
    ∃ h' l', push_front true h l v = .ok (h', l') ∧
      WellFormed h' l' ((h.length, v) :: cells) ∧ Heap.Frame h h' (cells.map Prod.fst) := by
  refine ⟨_, _, rfl, ?_, (Heap.Frame.refl h _).push _⟩
  refine ⟨rfl, ?_, by simp [hw.size], ⟨?_, sll_Seg_push _ hw.chain⟩, ?_⟩
  · rw [back_cons]
    simp only [hw.tail]
    rcases eq_nil_or_snoc cells with rfl | ⟨cs, c, rfl⟩
    · simp
    · simp
  · simp [hw.head]
  · simp only [List.map_cons, List.nodup_cons]
    exact ⟨sll_Seg_fresh hw.chain, hw.nodup⟩

theorem sll_push_front_wf {h : Heap (Node T)} {l : SinglyLinkedList} {cells : List (Nat × T)}
    (hw : WellFormed h l cells) (v : T) :
    ∃ h' l', push_front true h l v = .ok (h', l') ∧
      WellFormed h' l' ((h.length, v) :: cells) := by
  obtain ⟨h', l', e, hw', _⟩ := sll_push_front_wf_frame hw v
  exact ⟨h', l', e, hw'⟩

/-- The state after `push_back`; nodes of other lists are left alone. -/
theorem sll_push_back_wf_frame {h : Heap (Node T)} {l : SinglyLinkedList}
    {cells : List (Nat × T)} (hw : WellFormed h l cells) (v : T) :
    ∃ h' l', push_back true h l v = .ok (h', l') ∧
      WellFormed h' l' (cells ++ [(h.length, v)]) ∧ Heap.Frame h h' (cells.map Prod.fst) := by
  rcases eq_nil_or_snoc cells with rfl | ⟨cs, c, rfl⟩
  · have hh : l.head_ = none := hw.head
    refine ⟨h ++ [some (Node.mk v none)],
      { head_ := some h.length, tail_ := some h.length, size_ := l.size_ + 1 },
      by simp [push_back, Heap.make_unique, hh], ?_, (Heap.Frame.refl h _).push _⟩
    exact ⟨rfl, rfl, by simp [hw.size], ⟨by simp, trivial⟩, by simp⟩
  · have hh : l.head_ ≠ none := by rw [hw.head, link_append]; cases cs <;> simp
    have ht : l.tail_ = some c.1 := by rw [hw.tail, back_concat]
    have hseg := (sll_Seg_append h cs [c] none).mp hw.chain
    have hc : h[c.1]? = some (some ⟨c.2, none⟩) := hseg.2.1
    have hnd := hw.nodup
    simp only [List.map_append, List.map_cons, List.map_nil] at hnd
    have hcs : c.1 ∉ cs.map Prod.fst := by
      intro hmem
      exact (List.nodup_append.mp hnd).2.2 hmem (by simp)
    have hfresh := sll_Seg_fresh hw.chain
    simp only [List.map_append, List.map_cons, List.map_nil, List.mem_append,
      List.mem_singleton, not_or] at hfresh
    have hclt := Heap.cell_lt hc
    refine ⟨((h ++ [some (Node.mk v none)]).set c.1 (some (Node.mk c.2 (some h.length)))),
      { head_ := l.head_, tail_ := some h.length, size_ := l.size_ + 1 }, ?_, ?_,
      ((Heap.Frame.refl h _).push _).set _ (Or.inl (by simp))⟩
    · simp only [push_back, Heap.make_unique, if_true, ok_bind, hh, if_false, ht]
      rw [Heap.deref_cell (Heap.cell_push _ hc)]
      simp only [ok_bind]
      rw [Heap.modify_cell _ (Heap.cell_push _ hc)]
      simp
    · refine ⟨?_, (back_concat none (cs ++ [c]) (h.length, v)).symm, by simp [hw.size], ?_, ?_⟩
      · simp only [hw.head]
        rw [link_append, link_append, link_append]
        rfl
      · rw [List.append_assoc, sll_Seg_append]
        refine ⟨sll_Seg_set _ hcs (sll_Seg_push _ hseg.1), ?_, ?_, trivial⟩
        · rw [List.getElem?_set_self (by simp; omega)]
          rfl
        · rw [List.getElem?_set_ne (by omega)]
          simp
      · simp only [List.map_append, List.map_cons, List.map_nil]
        rw [List.nodup_append]
        refine ⟨hnd, by simp, ?_⟩
        intro a ha hb
        simp only [List.mem_singleton] at hb
        subst hb
        simp only [List.mem_append, List.mem_singleton] at ha
        rcases ha with ha | ha
        · exact hfresh.1 ha
        · exact hfresh.2 ha

/-- The state after `push_back`. -/
theorem sll_push_back_wf {h : Heap (Node T)} {l : SinglyLinkedList} {cells : List (Nat × T)}
    (hw : WellFormed h l cells) (v : T) :
    ∃ h' l', push_back true h l v = .ok (h', l') ∧
      WellFormed h' l' (cells ++ [(h.length, v)]) := by
  obtain ⟨h', l', e, hw', _⟩ := sll_push_back_wf_frame hw v
  exact ⟨h', l', e, hw'⟩

theorem sll_insert_middle_core {h : Heap (Node T)} {l : SinglyLinkedList}
    {A B : List (Nat × T)} {pc : Nat × T}
    (hw : WellFormed h l (A ++ pc :: B)) (hB : B ≠ []) (v : T) :
    ∃ h' l', insert_middle true h l (A.length + 1) v = .ok (h', l') ∧
      WellFormed h' l' (A ++ pc :: (h.length, v) :: B) ∧
      Heap.Frame h h' ((A ++ pc :: B).map Prod.fst) := by
  have hseg := (sll_Seg_append h A (pc :: B) none).mp hw.chain
  have hpc : h[pc.1]? = some (some ⟨pc.2, link B none⟩) := hseg.2.1
  have hsegB : Seg h B none := hseg.2.2
  have hnd := hw.nodup
  simp only [List.map_append, List.map_cons] at hnd
  obtain ⟨hnd', hpA, hpB⟩ := nodup_erase_middle hnd
  have hfresh := sll_Seg_fresh hw.chain
  simp only [List.map_append, List.map_cons, List.mem_append, List.mem_cons, not_or] at hfresh
  have hplt := Heap.cell_lt hpc
  refine ⟨((h ++ [some (Node.mk v (link B none))]).set pc.1
      (some (Node.mk pc.2 (some h.length)))), { l with size_ := l.size_ + 1 }, ?_, ?_,
      ((Heap.Frame.refl h _).push _).set _ (Or.inl (by simp))⟩
  · simp only [insert_middle, size_pred_succ, hw.head]
    rw [sll_advance_seg A (pc :: B) none hw.chain]
    simp only [ok_bind, link_cons]
    rw [Heap.deref_cell hpc]
    simp only [ok_bind, Heap.make_unique, if_true]
    rw [Heap.modify_cell _ (Heap.cell_push _ hpc)]
    rfl
  · refine ⟨?_, ?_, by simp [hw.size]; omega, ?_, ?_⟩
    · simp only [hw.head]
      rw [link_append, link_append]
      rfl
    · simp only [hw.tail]
      have e1 : A ++ pc :: B = (A ++ [pc]) ++ B := by simp
      have e2 : A ++ pc :: (h.length, v) :: B = (A ++ [pc, (h.length, v)]) ++ B := by simp
      rw [e1, e2, back_append_of_ne_nil _ _ hB, back_append_of_ne_nil _ _ hB]
    · rw [sll_Seg_append]
      refine ⟨sll_Seg_set _ hpA (sll_Seg_push _ hseg.1), ?_, ?_, sll_Seg_set _ hpB (sll_Seg_push _ hsegB)⟩
      · rw [List.getElem?_set_self (by simp; omega)]
        rfl
      · rw [List.getElem?_set_ne (by omega)]
        simp
    · simp only [List.map_append, List.map_cons]
      have e : List.map Prod.fst A ++ pc.1 :: h.length :: List.map Prod.fst B
          = (List.map Prod.fst A ++ [pc.1]) ++ h.length :: List.map Prod.fst B := by simp
      rw [e]
      apply nodup_insert_middle
      · simpa using hnd
      · simp only [List.mem_append, List.mem_singleton, not_or]
        exact ⟨⟨hfresh.1, hfresh.2.1⟩, hfresh.2.2⟩

/-- The state after `insert`, in each of its three branches; nodes of other lists
are left alone. -/
theorem sll_insert_wf_frame {h : Heap (Node T)} {l : SinglyLinkedList}
    {cells : List (Nat × T)}
    (hw : WellFormed h l cells) (pos : Nat) (hpos : pos ≤ cells.length) (v : T) :
    ∃ h' l', insert true h l pos v = .ok (h', l') ∧
      WellFormed h' l' (cells.take pos ++ (h.length, v) :: cells.drop pos) ∧
      Heap.Frame h h' (cells.map Prod.fst) := by
  have hchk : BaseContainer.check_position pos cells.length = .ok () :=
    BaseContainer.check_position_ok hpos
  by_cases h0 : pos = 0
  · subst h0
    obtain ⟨h', l', e, hw', hf⟩ := sll_push_front_wf_frame hw v
    exact ⟨h', l', by simp [insert, hw.size, hchk, e], by simpa using hw', hf⟩
  · by_cases hn : pos = cells.length
    · subst hn
      obtain ⟨h', l', e, hw', hf⟩ := sll_push_back_wf_frame hw v
      exact ⟨h', l', by simp [insert, hw.size, hchk, h0, e], by simpa using hw', hf⟩
    · obtain ⟨A, pc, B, hcells, hA⟩ := split_at cells (pos - 1) (by omega)
      have hp : pos = A.length + 1 := by omega
      subst hcells
      have hB : B ≠ [] := by
        intro hB
        subst hB
        simp at hn
        omega
      obtain ⟨h', l', e, hw', hf⟩ := sll_insert_middle_core hw hB v
      refine ⟨h', l', ?_, ?_, hf⟩
      · simp only [insert, hw.size, hchk, ok_bind, h0, if_false, hn]
        rw [hp]
        exact e
      · rw [hp, take_middle, drop_middle]
        simpa using hw'

/-- The state after `insert`, in each of its three branches. -/
theorem sll_insert_wf {h : Heap (Node T)} {l : SinglyLinkedList} {cells : List (Nat × T)}
    (hw : WellFormed h l cells) (pos : Nat) (hpos : pos ≤ cells.length) (v : T) :
    ∃ h' l', insert true h l pos v = .ok (h', l') ∧
      WellFormed h' l' (cells.take pos ++ (h.length, v) :: cells.drop pos) := by
  obtain ⟨h', l', e, hw', _⟩ := sll_insert_wf_frame hw pos hpos v
  exact ⟨h', l', e, hw'⟩

theorem sll_erase_front_core {h : Heap (Node T)} {l : SinglyLinkedList}
    {B : List (Nat × T)} {e : Nat × T} (hw : WellFormed h l (e :: B)) :
    ∃ h' l', erase h l 0 = .ok (h', l') ∧ WellFormed h' l' B ∧
      Heap.Frame h h' ((e :: B).map Prod.fst) := by
  have he : h[e.1]? = some (some ⟨e.2, link B none⟩) := hw.chain.1
  have hlt := Heap.cell_lt he
  have hnd := hw.nodup
  simp only [List.map_cons, List.nodup_cons] at hnd
  have he1 : (h.set e.1 (some (Node.mk e.2 none)))[e.1]? = some (some ⟨e.2, none⟩) := by
    rw [List.getElem?_set_self hlt]
  refine ⟨(h.set e.1 (some (Node.mk e.2 none))).set e.1 none,
    { head_ := link B none, tail_ := if link B none = none then none else l.tail_,
      size_ := l.size_ - 1 }, ?_, ?_,
    ((Heap.Frame.refl h _).set _ (Or.inl (by simp))).set _ (Or.inl (by simp))⟩
  · have hchk : BaseContainer.check_index 0 (B.length + 1) = .ok () :=
      BaseContainer.check_index_ok (by omega)
    simp only [erase, hw.size, List.length_cons, hchk, ok_bind, if_true, hw.head, link_cons]
    rw [Heap.deref_cell he]
    simp only [ok_bind]
    rw [Heap.modify_cell _ he]
    simp only [ok_bind]
    rw [Heap.destroy_single Node.next he1 rfl]
    rfl
  · refine ⟨rfl, ?_, by simp [hw.size], sll_Seg_set _ hnd.1 (sll_Seg_set _ hnd.1 hw.chain.2), hnd.2⟩
    by_cases hB : B = []
    · subst hB
      simp
    · have : link B none ≠ none := by rwa [Ne, link_eq_none]
      simp only [this, if_false, hw.tail]
      exact back_append_of_ne_nil none [e] hB

theorem sll_erase_middle_core {h : Heap (Node T)} {l : SinglyLinkedList}
    {A B : List (Nat × T)} {pc e : Nat × T} (hw : WellFormed h l (A ++ pc :: e :: B)) :
    ∃ h' l', erase h l (A.length + 1) = .ok (h', l') ∧ WellFormed h' l' (A ++ pc :: B) ∧
      Heap.Frame h h' ((A ++ pc :: e :: B).map Prod.fst) := by
  have hseg := (sll_Seg_append h A (pc :: e :: B) none).mp hw.chain
  have hpc : h[pc.1]? = some (some ⟨pc.2, some e.1⟩) := hseg.2.1
  have he : h[e.1]? = some (some ⟨e.2, link B none⟩) := hseg.2.2.1
  have hsegB : Seg h B none := hseg.2.2.2
  have hnd := hw.nodup
  simp only [List.map_append, List.map_cons] at hnd
  obtain ⟨hnd1, hpA, hpB⟩ := nodup_erase_middle hnd
  simp only [List.mem_cons, not_or] at hpB
  have hnd2 : (List.map Prod.fst A ++ pc.1 :: List.map Prod.fst B).Nodup := by
    have e1 : List.map Prod.fst A ++ pc.1 :: e.1 :: List.map Prod.fst B
        = (List.map Prod.fst A ++ [pc.1]) ++ e.1 :: List.map Prod.fst B := by simp
    rw [e1] at hnd
    simpa using (nodup_erase_middle hnd).1
  have heAB : e.1 ∉ List.map Prod.fst A ∧ e.1 ∉ List.map Prod.fst B := by
    have e1 : List.map Prod.fst A ++ pc.1 :: e.1 :: List.map Prod.fst B
        = (List.map Prod.fst A ++ [pc.1]) ++ e.1 :: List.map Prod.fst B := by simp
    rw [e1] at hnd
    obtain ⟨_, h1, h2⟩ := nodup_erase_middle hnd
    simp only [List.mem_append, List.mem_singleton, not_or] at h1
    exact ⟨h1.1, h2⟩
  have hplt := Heap.cell_lt hpc
  have helt := Heap.cell_lt he
  have hne : pc.1 ≠ e.1 := hpB.1
  have c1 : (h.set pc.1 (some (Node.mk pc.2 none)))[e.1]?
      = some (some ⟨e.2, link B none⟩) := by
    rw [List.getElem?_set_ne hne, he]
  have c2 : ((h.set pc.1 (some (Node.mk pc.2 none))).set e.1
      (some (Node.mk e.2 none)))[pc.1]? = some (some ⟨pc.2, none⟩) := by
    rw [List.getElem?_set_ne (Ne.symm hne), List.getElem?_set_self hplt]
  have c3 : (((h.set pc.1 (some (Node.mk pc.2 none))).set e.1
      (some (Node.mk e.2 none))).set pc.1 (some (Node.mk pc.2 (link B none))))[pc.1]?
      = some (some ⟨pc.2, link B none⟩) := by
    rw [List.getElem?_set_self (by simpa using hplt)]
  have c4 : (((h.set pc.1 (some (Node.mk pc.2 none))).set e.1
      (some (Node.mk e.2 none))).set pc.1 (some (Node.mk pc.2 (link B none))))[e.1]?
      = some (some ⟨e.2, none⟩) := by
    rw [List.getElem?_set_ne hne, List.getElem?_set_self (by simpa using helt)]
  refine ⟨((((h.set pc.1 (some (Node.mk pc.2 none))).set e.1
      (some (Node.mk e.2 none))).set pc.1 (some (Node.mk pc.2 (link B none)))).set e.1 none),
    { head_ := l.head_, tail_ := if link B none = none then some pc.1 else l.tail_,
      size_ := l.size_ - 1 }, ?_, ?_,
    ((((Heap.Frame.refl h _).set _ (Or.inl (by simp))).set _ (Or.inl (by simp))).set _
      (Or.inl (by simp))).set _ (Or.inl (by simp))⟩
  · have hchk : BaseContainer.check_index (A.length + 1) (A ++ pc :: e :: B).length = .ok () :=
      BaseContainer.check_index_ok (by simp)
    have hpos : ¬ A.length + 1 = 0 := by omega
    simp only [erase, hw.size, hchk, ok_bind, hpos, if_false, hw.head, Nat.add_sub_cancel]
    rw [sll_advance_seg A (pc :: e :: B) none hw.chain]
    simp only [ok_bind, link_cons]
    rw [Heap.deref_cell hpc]
    simp only [ok_bind]
    rw [Heap.modify_cell _ hpc]
    simp only [ok_bind]
    rw [Heap.deref_cell c1]
    simp only [ok_bind]
    rw [Heap.modify_cell _ c1]
    simp only [ok_bind]
    rw [Heap.modify_cell _ c2]
    simp only [ok_bind]
    rw [Heap.deref_cell c3]
    simp only [ok_bind]
    rw [Heap.destroy_single Node.next c4 rfl]
    rfl
  · refine ⟨?_, ?_, by simp [hw.size], ?_, by simpa using hnd2⟩
    · simp only [hw.head]
      rw [link_append, link_append]
      rfl
    · by_cases hB : B = []
      · subst hB
        simp only [link_nil, if_true]
        exact (back_concat none A pc).symm
      · have : link B none ≠ none := by rwa [Ne, link_eq_none]
        simp only [this, if_false, hw.tail]
        have e1 : A ++ pc :: e :: B = (A ++ [pc, e]) ++ B := by simp
        have e2 : A ++ pc :: B = (A ++ [pc]) ++ B := by simp
        rw [e1, e2, back_append_of_ne_nil _ _ hB, back_append_of_ne_nil _ _ hB]
    · rw [sll_Seg_append]
      refine ⟨?_, ?_, ?_⟩
      · exact sll_Seg_set _ heAB.1 (sll_Seg_set _ hpA (sll_Seg_set _ heAB.1 (sll_Seg_set _ hpA hseg.1)))
      · rw [List.getElem?_set_ne (Ne.symm hne)]
        exact c3
      · exact sll_Seg_set _ heAB.2 (sll_Seg_set _ hpB.2 (sll_Seg_set _ heAB.2 (sll_Seg_set _ hpB.2 hsegB)))

/-- The state after `erase`, at the head and behind it; nodes of other lists are
left alone. -/
theorem sll_erase_wf_frame {h : Heap (Node T)} {l : SinglyLinkedList}
    {cells : List (Nat × T)}
    (hw : WellFormed h l cells) (pos : Nat) (hpos : pos < cells.length) :
    ∃ h' l', erase h l pos = .ok (h', l') ∧
      WellFormed h' l' (cells.take pos ++ cells.drop (pos + 1)) ∧
      Heap.Frame h h' (cells.map Prod.fst) := by
  by_cases h0 : pos = 0
  · subst h0
    obtain ⟨A, e, B, hcells, hA⟩ := split_at cells 0 hpos
    have : A = [] := List.eq_nil_of_length_eq_zero hA
    subst this
    subst hcells
    obtain ⟨h', l', e1, hw', hf⟩ := sll_erase_front_core hw
    exact ⟨h', l', e1, by simpa using hw', hf⟩
  · obtain ⟨A, pc, B', hcells, hA⟩ := split_at cells (pos - 1) (by omega)
    subst hcells
    have hp : pos = A.length + 1 := by omega
    subst hp
    cases B' with
    | nil => simp at hpos
    | cons e B =>
      obtain ⟨h', l', e1, hw', hf⟩ := sll_erase_middle_core hw
      refine ⟨h', l', e1, ?_, hf⟩
      have e2 : A ++ pc :: e :: B = (A ++ [pc]) ++ e :: B := by simp
      have e3 : (A ++ [pc]).length = A.length + 1 := by simp
      rw [take_middle, e2, ← e3, drop_middle]
      simpa using hw'

/-- The state after `erase`, at the head and behind it. -/
theorem sll_erase_wf {h : Heap (Node T)} {l : SinglyLinkedList} {cells : List (Nat × T)}
    (hw : WellFormed h l cells) (pos : Nat) (hpos : pos < cells.length) :
    ∃ h' l', erase h l pos = .ok (h', l') ∧
      WellFormed h' l' (cells.take pos ++ cells.drop (pos + 1)) := by
  obtain ⟨h', l', e, hw', _⟩ := sll_erase_wf_frame hw pos hpos
  exact ⟨h', l', e, hw'⟩

theorem sll_get_node_at_core {h : Heap (Node T)} {l : SinglyLinkedList}
    {A B : List (Nat × T)} {c : Nat × T} (hw : WellFormed h l (A ++ c :: B)) :
    get_node_at h l A.length = .ok (some c.1) := by
  simp only [get_node_at, hw.head]
  exact sll_advance_seg A (c :: B) none hw.chain

theorem sll_index_core {h : Heap (Node T)} {l : SinglyLinkedList}
    {A B : List (Nat × T)} {c : Nat × T} (hw : WellFormed h l (A ++ c :: B)) :
    index h l A.length = .ok c.2 := by
  have hseg := (sll_Seg_append h A (c :: B) none).mp hw.chain
  have hc : h[c.1]? = some (some ⟨c.2, link B none⟩) := hseg.2.1
  have hchk : BaseContainer.check_index A.length (A ++ c :: B).length = .ok () :=
    BaseContainer.check_index_ok (by simp)
  simp only [index, hw.size, hchk, ok_bind, sll_get_node_at_core hw]
  rw [Heap.deref_cell hc]
  rfl

/-- Indexed access reads the element sequence. -/
theorem sll_index_wf {h : Heap (Node T)} {l : SinglyLinkedList} {cells : List (Nat × T)}
    (hw : WellFormed h l cells) {i : Nat} {x : T}
    (hx : (cells.map Prod.snd)[i]? = some x) : index h l i = .ok x := by
  have hi : i < cells.length := by
    rcases (List.getElem?_eq_some_iff.mp hx) with ⟨hj, _⟩
    simpa using hj
  obtain ⟨A, c, B, hcells, hA⟩ := split_at cells i hi
  subst hcells
  subst hA
  have hc : x = c.2 := by
    simp only [List.map_append, List.map_cons] at hx
    rw [List.getElem?_append_right (by simp)] at hx
    simpa using hx.symm
  rw [hc]
  exact sll_index_core hw

/-- The chunks `print` writes: the rendered elements with one separator between
neighbours. -/
theorem sll_print_wf (render : T → String) {h : Heap (Node T)} {l : SinglyLinkedList}
    {cells : List (Nat × T)} (hw : WellFormed h l cells) :
    print render h l = .ok ((cells.map (fun c => render c.2)).intersperse " ") := by
  simp only [print, hw.head]
  rw [sll_print_loop_seg render cells h.length [] hw.chain hw.sll_length_le]
  simp

theorem sll_clear_loop_seg :
    ∀ (cs : List (Nat × T)) (h : Heap (Node T)) (fuel : Nat), Seg h cs none →
      (cs.map Prod.fst).Nodup → cs.length ≤ fuel →
      ∃ h', clear_loop fuel h (link cs none) = .ok (h', none) ∧
        Heap.Frame h h' (cs.map Prod.fst) := by
  intro cs
  induction cs with
  | nil =>
    intro h fuel _ _ _
    exact ⟨h, by cases fuel <;> rfl, Heap.Frame.refl h _⟩
  | cons c cs ih =>
    intro h fuel hs hnd hf
    obtain ⟨k, rfl⟩ : ∃ k, fuel = k + 1 := ⟨fuel - 1, by simp at hf; omega⟩
    have hc : h[c.1]? = some (some ⟨c.2, link cs none⟩) := hs.1
    simp only [List.map_cons, List.nodup_cons] at hnd
    obtain ⟨h', e, hfr⟩ := ih (h.set c.1 none) k (sll_Seg_set _ hnd.1 hs.2) hnd.2
      (by simp at hf; omega)
    refine ⟨h', ?_, ?_⟩
    · simp only [link_cons, clear_loop]
      rw [Heap.deref_cell hc]
      exact e
    · refine ⟨by simpa using hfr.1, ?_⟩
      intro a ha hS
      simp only [List.map_cons, List.mem_cons, not_or] at hS
      rw [hfr.2 a (by simpa using ha) hS.2, List.getElem?_set_ne (Ne.symm hS.1)]

/-- The state after `clear`: the empty list, the nodes of other lists left
alone. -/
theorem sll_clear_wf_frame {h : Heap (Node T)} {l : SinglyLinkedList}
    {cells : List (Nat × T)} (hw : WellFormed h l cells) :
    ∃ h', clear h l = .ok (h', empty_list) ∧ WellFormed h' empty_list ([] : List (Nat × T)) ∧
      Heap.Frame h h' (cells.map Prod.fst) := by
  obtain ⟨h', e, hf⟩ := sll_clear_loop_seg cells h h.length hw.chain hw.nodup hw.sll_length_le
  refine ⟨h', ?_, ?_, hf⟩
  · simp only [clear, hw.head, e]
    rfl
  · exact ⟨rfl, rfl, rfl, trivial, by simp⟩

/-- The state after `clear`. -/
theorem sll_clear_wf {h : Heap (Node T)} {l : SinglyLinkedList} {cells : List (Nat × T)}
    (hw : WellFormed h l cells) :
    ∃ h' l', clear h l = .ok (h', l') ∧ WellFormed h' l' ([] : List (Nat × T)) := by
  obtain ⟨h', e, hw', _⟩ := sll_clear_wf_frame hw
  exact ⟨h', _, e, hw'⟩

/-- Re-reading a list through `operator[]` gives the element sequence. -/
theorem sll_contents_wf {h : Heap (Node T)} {l : SinglyLinkedList} {cells : List (Nat × T)}
    (hw : WellFormed h l cells) : contents h l = .ok (cells.map Prod.snd) := by
  unfold contents
  have hsz : l.size = (cells.map Prod.snd).length := by simp [size, hw.size]
  rw [hsz]
  have := read_from_spec (index h l) (cells.map Prod.snd)
    (fun i x hx => sll_index_wf hw hx) (cells.map Prod.snd).length 0 (by omega)
  simpa using this

theorem sll_iterate_seg {h : Heap (Node T)} :
    ∀ (cs : List (Nat × T)) (fuel : Nat), Seg h cs none → cs.length ≤ fuel →
      iterate h fuel (link cs none) = .ok (cs.map Prod.snd) := by
  intro cs
  induction cs with
  | nil =>
    intro fuel _ _
    cases fuel <;> rfl
  | cons c cs ih =>
    intro fuel hs hf
    obtain ⟨k, rfl⟩ : ∃ k, fuel = k + 1 := ⟨fuel - 1, by simp at hf; omega⟩
    have hc : h[c.1]? = some (some ⟨c.2, link cs none⟩) := hs.1
    simp only [link_cons, iterate]
    rw [Heap.deref_cell hc]
    simp only [ok_bind]
    rw [ih k hs.2 (by simp at hf; omega)]
    rfl

/-- The forward traversal from `begin()` visits the element sequence. -/
theorem sll_forward_wf {h : Heap (Node T)} {l : SinglyLinkedList} {cells : List (Nat × T)}
    (hw : WellFormed h l cells) : forward h l = .ok (cells.map Prod.snd) := by
  simp only [forward, hw.head]
  exact sll_iterate_seg cells h.length hw.chain hw.sll_length_le

end SinglyLinkedList

/-! ## `DoublyLinkedList`: chains of nodes -/

namespace DoublyLinkedList

variable {T : Type}

theorem dll_Seg_append (h : Heap (Node T)) (as bs : List (Nat × T)) (b q : Ptr) :
    Seg h b (as ++ bs) q ↔ Seg h b as (link bs q) ∧ Seg h (back b as) bs q := by
  induction as generalizing b with
  | nil => simp [Seg]
  | cons c cs ih => simp [Seg, ih, link_append, back_cons, and_assoc]

theorem dll_Seg_lt {h : Heap (Node T)} {cs : List (Nat × T)} {b q : Ptr} (hs : Seg h b cs q) :
    ∀ a, a ∈ cs.map Prod.fst → a < h.length := by
  induction cs generalizing b with
  | nil => simp
  | cons c cs ih =>
    intro a ha
    simp only [List.map_cons, List.mem_cons] at ha
    rcases ha with rfl | ha
    · exact Heap.cell_lt hs.1
    · exact ih hs.2 a ha

theorem dll_Seg_set {h : Heap (Node T)} {cs : List (Nat × T)} {b q : Ptr} {a : Nat}
    (x : Option (Node T)) (ha : a ∉ cs.map Prod.fst) (hs : Seg h b cs q) :
    Seg (h.set a x) b cs q := by
  induction cs generalizing b with
  | nil => trivial
  | cons c cs ih =>
    simp only [List.map_cons, List.mem_cons, not_or] at ha
    refine ⟨?_, ih ha.2 hs.2⟩
    rw [List.getElem?_set_ne ha.1]
    exact hs.1

theorem dll_Seg_push {h : Heap (Node T)} {cs : List (Nat × T)} {b q : Ptr}
    (x : Option (Node T)) (hs : Seg h b cs q) : Seg (h ++ [x]) b cs q := by
  induction cs generalizing b with
  | nil => trivial
  | cons c cs ih => exact ⟨Heap.cell_push x hs.1, ih hs.2⟩

theorem dll_Seg_fresh {h : Heap (Node T)} {cs : List (Nat × T)} {b q : Ptr} (hs : Seg h b cs q) :
    h.length ∉ cs.map Prod.fst := by
  intro hmem
  have := dll_Seg_lt hs _ hmem
  omega

/-- The first node of a chain does not depend on where the chain points back. -/
theorem dll_Seg_tail_irrel {h : Heap (Node T)} {c : Nat × T} {cs : List (Nat × T)} {b q : Ptr}
    (hs : Seg h b (c :: cs) q) : Seg h (some c.1) cs q := hs.2

theorem dll_advance_seg {h : Heap (Node T)} (as bs : List (Nat × T)) (b q : Ptr)
    (hs : Seg h b (as ++ bs) q) :
    advance h as.length (link (as ++ bs) q) = .ok (link bs q) := by
  induction as generalizing b with
  | nil => rfl
  | cons c cs ih =>
    have hc : h[c.1]? = some (some ⟨c.2, link (cs ++ bs) q, b⟩) := hs.1
    simp only [List.cons_append, link_cons, List.length_cons, advance]
    rw [Heap.deref_cell hc]
    exact ih (some c.1) hs.2

theorem dll_retreat_seg {h : Heap (Node T)} (as : List (Nat × T)) (b : Ptr) :
    ∀ (bs : List (Nat × T)) (q : Ptr), Seg h b (as ++ bs) q →
      retreat h bs.length (back b (as ++ bs)) = .ok (back b as) := by
  intro bs
  induction bs using List.reverseRecOn with
  | nil =>
    intro q _
    simp [retreat]
  | append_singleton bs c ih =>
    intro q hs
    rw [← List.append_assoc] at hs
    have hs' := (dll_Seg_append h (as ++ bs) [c] b q).mp hs
    have hc : h[c.1]? = some (some ⟨c.2, q, back b (as ++ bs)⟩) := hs'.2.1
    rw [← List.append_assoc, back_concat]
    simp only [List.length_append, List.length_singleton, retreat]
    rw [Heap.deref_cell hc]
    exact ih (some c.1) hs'.1

theorem dll_print_loop_seg (render : T → String) {h : Heap (Node T)} :
    ∀ (cs : List (Nat × T)) (b : Ptr) (fuel : Nat) (os : List String), Seg h b cs none →
      cs.length ≤ fuel →
      print_loop render h fuel (link cs none) os
        = .ok (os ++ (cs.map (fun c => render c.2)).intersperse " ") := by
  intro cs
  induction cs with
  | nil =>
    intro b fuel os _ _
    cases fuel <;> simp [print_loop]
  | cons c cs ih =>
    intro b fuel os hs hf
    obtain ⟨k, rfl⟩ : ∃ k, fuel = k + 1 := ⟨fuel - 1, by simp at hf; omega⟩
    have hc : h[c.1]? = some (some ⟨c.2, link cs none, b⟩) := hs.1
    simp only [link_cons, print_loop]
    rw [Heap.deref_cell hc]
    simp only [ok_bind]
    rw [ih (some c.1) k _ hs.2 (by simp at hf; omega)]
    cases cs with
    | nil => simp
    | cons d ds => simp

theorem dll_clear_loop_seg :
    ∀ (cs : List (Nat × T)) (b : Ptr) (h : Heap (Node T)) (fuel : Nat), Seg h b cs none →
      (cs.map Prod.fst).Nodup → cs.length ≤ fuel →
      ∃ h', clear_loop fuel h (link cs none) = .ok (h', none) ∧
        Heap.Frame h h' (cs.map Prod.fst) := by
  intro cs
  induction cs with
  | nil =>
    intro b h fuel _ _ _
    exact ⟨h, by cases fuel <;> rfl, Heap.Frame.refl h _⟩
  | cons c cs ih =>
    intro b h fuel hs hnd hf
    obtain ⟨k, rfl⟩ : ∃ k, fuel = k + 1 := ⟨fuel - 1, by simp at hf; omega⟩
    have hc : h[c.1]? = some (some ⟨c.2, link cs none, b⟩) := hs.1
    simp only [List.map_cons, List.nodup_cons] at hnd
    obtain ⟨h', e, hfr⟩ := ih (some c.1) (h.set c.1 none) k (dll_Seg_set _ hnd.1 hs.2) hnd.2
      (by simp at hf; omega)
    refine ⟨h', ?_, ?_⟩
    · simp only [link_cons, clear_loop]
      rw [Heap.deref_cell hc]
      exact e
    · refine ⟨by simpa using hfr.1, ?_⟩
      intro a ha hS
      simp only [List.map_cons, List.mem_cons, not_or] at hS
      rw [hfr.2 a (by simpa using ha) hS.2, List.getElem?_set_ne (Ne.symm hS.1)]

theorem WellFormed.dll_length_le {h : Heap (Node T)} {l : DoublyLinkedList}
    {cells : List (Nat × T)} (hw : WellFormed h l cells) : cells.length ≤ h.length := by
  have := nodup_length_le hw.nodup (dll_Seg_lt hw.chain)
  simpa using this

theorem dll_empty_list_wellFormed : WellFormed ([] : Heap (Node T)) empty_list [] :=
  ⟨rfl, rfl, rfl, trivial, by simp⟩

theorem dll_get_node_at_core {h : Heap (Node T)} {l : DoublyLinkedList}
    {A B : List (Nat × T)} {c : Nat × T} (hw : WellFormed h l (A ++ c :: B)) :
    get_node_at h l A.length = .ok (some c.1) := by
  unfold get_node_at
  split
  · rw [hw.head]
    exact dll_advance_seg A (c :: B) none none hw.chain
  · have hsz : l.size_ = A.length + (B.length + 1) := by simp [hw.size]
    have hk : size_pred l.size_ - A.length = B.length := by
      rw [size_pred_pos (by omega)]
      omega
    have e1 : A ++ c :: B = (A ++ [c]) ++ B := by simp
    have hch := hw.chain
    rw [hk, hw.tail]
    rw [e1] at hch ⊢
    rw [dll_retreat_seg (A ++ [c]) none B none hch, back_concat]

/-- The state after `push_front`. -/
theorem dll_push_front_wf_frame {h : Heap (Node T)} {l : DoublyLinkedList}
    {cells : List (Nat × T)} (hw : WellFormed h l cells) (v : T) :
    ∃ h' l', push_front true h l v = .ok (h', l') ∧
      WellFormed h' l' ((h.length, v) :: cells) ∧ Heap.Frame h h' (cells.map Prod.fst) := by
  cases cells with
  | nil =>
    have hh : l.head_ = none := hw.head
    refine ⟨h ++ [some (Node.mk v none none)],
      { head_ := some h.length, tail_ := some h.length, size_ := l.size_ + 1 },
      by simp [push_front, Heap.make_unique, hh], ?_, (Heap.Frame.refl h _).push _⟩
    exact ⟨rfl, rfl, by simp [hw.size], ⟨by simp, trivial⟩, by simp⟩
  | cons c cs =>
    have hh : l.head_ = some c.1 := hw.head
    have hc : h[c.1]? = some (some ⟨c.2, link cs none, none⟩) := hw.chain.1
    have hclt := Heap.cell_lt hc
    have hnd := hw.nodup
    simp only [List.map_cons, List.nodup_cons] at hnd
    have hfresh := dll_Seg_fresh hw.chain
    simp only [List.map_cons, List.mem_cons, not_or] at hfresh
    have c1 : (h ++ [some (Node.mk v none none)])[h.length]?
        = some (some ⟨v, none, none⟩) := by simp
    have c2 : ((h ++ [some (Node.mk v none none)]).set h.length
        (some (Node.mk v (some c.1) none)))[h.length]? = some (some ⟨v, some c.1, none⟩) := by
      rw [List.getElem?_set_self (by simp)]
    have c3 : ((h ++ [some (Node.mk v none none)]).set h.length
        (some (Node.mk v (some c.1) none)))[c.1]?
        = some (some ⟨c.2, link cs none, none⟩) := by
      rw [List.getElem?_set_ne (by omega)]
      exact Heap.cell_push _ hc
    refine ⟨(((h ++ [some (Node.mk v none none)]).set h.length
        (some (Node.mk v (some c.1) none))).set c.1
        (some (Node.mk c.2 (link cs none) (some h.length)))),
      { head_ := some h.length, tail_ := l.tail_, size_ := l.size_ + 1 }, ?_, ?_,
      (((Heap.Frame.refl h _).push _).set _ (Or.inr (le_refl _))).set _ (Or.inl (by simp))⟩
    · simp only [push_front, Heap.make_unique, if_true, ok_bind, hh]
      simp only [ne_eq, reduceCtorEq, not_false_eq_true, if_true]
      rw [Heap.modify_cell _ c1]
      simp only [ok_bind]
      rw [Heap.deref_cell c2]
      simp only [ok_bind]
      rw [Heap.modify_cell _ c3]
      rfl
    · refine ⟨rfl, ?_, by simp [hw.size], ⟨?_, ?_, ?_⟩, ?_⟩
      · simp only [hw.tail]
        exact (back_append_of_ne_nil none [(h.length, v)] (by simp)).symm
      · rw [List.getElem?_set_ne (by omega)]
        exact c2
      · rw [List.getElem?_set_self (by simp; omega)]
      · exact dll_Seg_set _ hnd.1 (dll_Seg_set _ hfresh.2 (dll_Seg_push _ hw.chain.2))
      · simp only [List.map_cons, List.nodup_cons, List.mem_cons, not_or]
        exact ⟨hfresh, hnd⟩

theorem dll_push_front_wf {h : Heap (Node T)} {l : DoublyLinkedList} {cells : List (Nat × T)}
    (hw : WellFormed h l cells) (v : T) :
    ∃ h' l', push_front true h l v = .ok (h', l') ∧
      WellFormed h' l' ((h.length, v) :: cells) := by
  obtain ⟨h', l', e, hw', _⟩ := dll_push_front_wf_frame hw v
  exact ⟨h', l', e, hw'⟩

/-- The state after `push_back`; nodes of other lists are left alone. -/
theorem dll_push_back_wf_frame {h : Heap (Node T)} {l : DoublyLinkedList}
    {cells : List (Nat × T)} (hw : WellFormed h l cells) (v : T) :
    ∃ h' l', push_back true h l v = .ok (h', l') ∧
      WellFormed h' l' (cells ++ [(h.length, v)]) ∧ Heap.Frame h h' (cells.map Prod.fst) := by
  rcases eq_nil_or_snoc cells with rfl | ⟨cs, c, rfl⟩
  · have hh : l.head_ = none := hw.head
    have ht : l.tail_ = none := hw.tail
    refine ⟨h ++ [some (Node.mk v none none)],
      { head_ := some h.length, tail_ := some h.length, size_ := l.size_ + 1 },
      by simp [push_back, Heap.make_unique, hh, ht], ?_, (Heap.Frame.refl h _).push _⟩
    exact ⟨rfl, rfl, by simp [hw.size], ⟨by simp, trivial⟩, by simp⟩
  · have hh : l.head_ ≠ none := by rw [hw.head, link_append]; cases cs <;> simp
    have ht : l.tail_ = some c.1 := by rw [hw.tail, back_concat]
    have hseg := (dll_Seg_append h cs [c] none none).mp hw.chain
    have hc : h[c.1]? = some (some ⟨c.2, none, back none cs⟩) := hseg.2.1
    have hnd := hw.nodup
    simp only [List.map_append, List.map_cons, List.map_nil] at hnd
    have hcs : c.1 ∉ cs.map Prod.fst := (nodup_erase_middle hnd).2.1
    have hfresh := dll_Seg_fresh hw.chain
    simp only [List.map_append, List.map_cons, List.map_nil, List.mem_append,
      List.mem_singleton, not_or] at hfresh
    have hclt := Heap.cell_lt hc
    refine ⟨((h ++ [some (Node.mk v none (some c.1))]).set c.1
        (some (Node.mk c.2 (some h.length) (back none cs)))),
      { head_ := l.head_, tail_ := some h.length, size_ := l.size_ + 1 }, ?_, ?_,
      ((Heap.Frame.refl h _).push _).set _ (Or.inl (by simp))⟩
    · simp only [push_back, Heap.make_unique, if_true, ok_bind, hh, if_false, ht]
      rw [Heap.deref_cell (Heap.cell_push _ hc)]
      simp only [ok_bind]
      rw [Heap.modify_cell _ (Heap.cell_push _ hc)]
      simp
    · refine ⟨?_, (back_concat none (cs ++ [c]) (h.length, v)).symm, by simp [hw.size], ?_, ?_⟩
      · simp only [hw.head]
        rw [link_append, link_append, link_append]
        rfl
      · rw [dll_Seg_append, dll_Seg_append]
        refine ⟨⟨dll_Seg_set _ hcs (dll_Seg_push _ hseg.1), ?_, trivial⟩, ?_, trivial⟩
        · rw [List.getElem?_set_self (by simp; omega)]
          rfl
        · rw [List.getElem?_set_ne (by omega), back_concat]
          simp
      · simp only [List.map_append, List.map_cons, List.map_nil]
        have := @nodup_insert_middle (List.map Prod.fst cs ++ [c.1]) [] h.length
          (by simpa using hnd) (by simpa using hfresh)
        simpa using this

/-- The state after `push_back`. -/
theorem dll_push_back_wf {h : Heap (Node T)} {l : DoublyLinkedList} {cells : List (Nat × T)}
    (hw : WellFormed h l cells) (v : T) :
    ∃ h' l', push_back true h l v = .ok (h', l') ∧
      WellFormed h' l' (cells ++ [(h.length, v)]) := by
  obtain ⟨h', l', e, hw', _⟩ := dll_push_back_wf_frame hw v
  exact ⟨h', l', e, hw'⟩

theorem dll_insert_middle_core {h : Heap (Node T)} {l : DoublyLinkedList}
    {A B : List (Nat × T)} {pc c : Nat × T}
    (hw : WellFormed h l (A ++ pc :: c :: B)) (v : T) :
    ∃ h' l', insert_middle true h l (A.length + 1) v = .ok (h', l') ∧
      WellFormed h' l' (A ++ pc :: (h.length, v) :: c :: B) ∧
      Heap.Frame h h' ((A ++ pc :: c :: B).map Prod.fst) := by
  have hseg := (dll_Seg_append h A (pc :: c :: B) none none).mp hw.chain
  have hpc : h[pc.1]? = some (some ⟨pc.2, some c.1, back none A⟩) := hseg.2.1
  have hc : h[c.1]? = some (some ⟨c.2, link B none, some pc.1⟩) := hseg.2.2.1
  have hsegB : Seg h (some c.1) B none := hseg.2.2.2
  have hnd := hw.nodup
  simp only [List.map_append, List.map_cons] at hnd
  obtain ⟨hnd1, hpA, hpB⟩ := nodup_erase_middle hnd
  simp only [List.mem_cons, not_or] at hpB
  have e1 : List.map Prod.fst A ++ pc.1 :: c.1 :: List.map Prod.fst B
      = (List.map Prod.fst A ++ [pc.1]) ++ c.1 :: List.map Prod.fst B := by simp
  have hcAB : c.1 ∉ List.map Prod.fst A ∧ c.1 ∉ List.map Prod.fst B := by
    rw [e1] at hnd
    obtain ⟨_, h1, h2⟩ := nodup_erase_middle hnd
    simp only [List.mem_append, List.mem_singleton, not_or] at h1
    exact ⟨h1.1, h2⟩
  have hfresh := dll_Seg_fresh hw.chain
  simp only [List.map_append, List.map_cons, List.mem_append, List.mem_cons, not_or] at hfresh
  have hplt := Heap.cell_lt hpc
  have hclt := Heap.cell_lt hc
  have hne : pc.1 ≠ c.1 := hpB.1
  have hcur : get_node_at h l (A.length + 1) = .ok (some c.1) := by
    have e2 : A ++ pc :: c :: B = (A ++ [pc]) ++ c :: B := by simp
    have hw2 := hw
    rw [e2] at hw2
    have := dll_get_node_at_core hw2
    simpa using this
  -- the heaps the member assignments run through
  have k1 : (h ++ [some (Node.mk v none (some pc.1))])[c.1]?
      = some (some ⟨c.2, link B none, some pc.1⟩) := Heap.cell_push _ hc
  have k2 : (h ++ [some (Node.mk v none (some pc.1))])[pc.1]?
      = some (some ⟨pc.2, some c.1, back none A⟩) := Heap.cell_push _ hpc
  have k3 : ((h ++ [some (Node.mk v none (some pc.1))]).set pc.1
      (some (Node.mk pc.2 none (back none A))))[h.length]?
      = some (some ⟨v, none, some pc.1⟩) := by
    rw [List.getElem?_set_ne (by omega)]
    simp
  have k4 : (((h ++ [some (Node.mk v none (some pc.1))]).set pc.1
      (some (Node.mk pc.2 none (back none A)))).set h.length
      (some (Node.mk v (some c.1) (some pc.1))))[c.1]?
      = some (some ⟨c.2, link B none, some pc.1⟩) := by
    rw [List.getElem?_set_ne (by omega), List.getElem?_set_ne hne]
    exact k1
  have k5 : ((((h ++ [some (Node.mk v none (some pc.1))]).set pc.1
      (some (Node.mk pc.2 none (back none A)))).set h.length
      (some (Node.mk v (some c.1) (some pc.1)))).set c.1
      (some (Node.mk c.2 (link B none) (some h.length))))[h.length]?
      = some (some ⟨v, some c.1, some pc.1⟩) := by
    rw [List.getElem?_set_ne (by omega), List.getElem?_set_self (by simp)]
  have k6 : ((((h ++ [some (Node.mk v none (some pc.1))]).set pc.1
      (some (Node.mk pc.2 none (back none A)))).set h.length
      (some (Node.mk v (some c.1) (some pc.1)))).set c.1
      (some (Node.mk c.2 (link B none) (some h.length))))[c.1]?
      = some (some ⟨c.2, link B none, some h.length⟩) := by
    rw [List.getElem?_set_self (by simp; omega)]
  have k7 : (((((h ++ [some (Node.mk v none (some pc.1))]).set pc.1
      (some (Node.mk pc.2 none (back none A)))).set h.length
      (some (Node.mk v (some c.1) (some pc.1)))).set c.1
      (some (Node.mk c.2 (link B none) (some h.length)))).set c.1
      (some (Node.mk c.2 (link B none) (some h.length))))[h.length]?
      = some (some ⟨v, some c.1, some pc.1⟩) := by
    rw [List.getElem?_set_ne (by omega)]
    exact k5
  have k8 : (((((h ++ [some (Node.mk v none (some pc.1))]).set pc.1
      (some (Node.mk pc.2 none (back none A)))).set h.length
      (some (Node.mk v (some c.1) (some pc.1)))).set c.1
      (some (Node.mk c.2 (link B none) (some h.length)))).set c.1
      (some (Node.mk c.2 (link B none) (some h.length))))[pc.1]?
      = some (some ⟨pc.2, none, back none A⟩) := by
    rw [List.getElem?_set_ne (Ne.symm hne), List.getElem?_set_ne (Ne.symm hne),
      List.getElem?_set_ne (by omega), List.getElem?_set_self (by simp; omega)]
  refine ⟨((((((h ++ [some (Node.mk v none (some pc.1))]).set pc.1
      (some (Node.mk pc.2 none (back none A)))).set h.length
      (some (Node.mk v (some c.1) (some pc.1)))).set c.1
      (some (Node.mk c.2 (link B none) (some h.length)))).set c.1
      (some (Node.mk c.2 (link B none) (some h.length)))).set pc.1
      (some (Node.mk pc.2 (some h.length) (back none A)))),
    { l with size_ := l.size_ + 1 }, ?_, ?_,
    ((((((Heap.Frame.refl h _).push _).set _ (Or.inl (by simp))).set _
      (Or.inr (le_refl _))).set _ (Or.inl (by simp))).set _ (Or.inl (by simp))).set _
      (Or.inl (by simp))⟩
  · simp only [insert_middle, hcur, ok_bind]
    rw [Heap.deref_cell hc]
    simp only [ok_bind, Heap.make_unique, if_true]
    rw [Heap.deref_cell k1]
    simp only [ok_bind]
    rw [Heap.deref_cell k2]
    simp only [ok_bind]
    rw [Heap.modify_cell _ k2]
    simp only [ok_bind]
    rw [Heap.modify_cell _ k3]
    simp only [ok_bind]
    rw [Heap.modify_cell _ k4]
    simp only [ok_bind]
    rw [Heap.deref_cell k5]
    simp only [ok_bind]
    rw [Heap.modify_cell _ k6]
    simp only [ok_bind]
    rw [Heap.deref_cell k7]
    simp only [ok_bind]
    rw [Heap.modify_cell _ k8]
    rfl
  · refine ⟨?_, ?_, by simp [hw.size]; omega, ?_, ?_⟩
    · simp only [hw.head]
      rw [link_append, link_append]
      rfl
    · simp only [hw.tail]
      have e3 : A ++ pc :: c :: B = (A ++ [pc]) ++ c :: B := by simp
      have e4 : A ++ pc :: (h.length, v) :: c :: B
          = (A ++ [pc, (h.length, v)]) ++ c :: B := by simp
      rw [e3, e4, back_append_of_ne_nil _ _ (by simp), back_append_of_ne_nil _ _ (by simp)]
    · rw [dll_Seg_append]
      refine ⟨?_, ?_, ?_, ?_, ?_⟩
      · exact dll_Seg_set _ hpA (dll_Seg_set _ hcAB.1 (dll_Seg_set _ hcAB.1 (dll_Seg_set _ hfresh.1
          (dll_Seg_set _ hpA (dll_Seg_push _ hseg.1)))))
      · rw [List.getElem?_set_self (by simp; omega)]
        rfl
      · rw [List.getElem?_set_ne (by omega)]
        exact k7
      · rw [List.getElem?_set_ne hne, List.getElem?_set_self (by simp; omega)]
      · exact dll_Seg_set _ hpB.2 (dll_Seg_set _ hcAB.2 (dll_Seg_set _ hcAB.2 (dll_Seg_set _ hfresh.2.2.2
          (dll_Seg_set _ hpB.2 (dll_Seg_push _ hsegB)))))
    · simp only [List.map_append, List.map_cons]
      have e5 : List.map Prod.fst A ++ pc.1 :: h.length :: c.1 :: List.map Prod.fst B
          = (List.map Prod.fst A ++ [pc.1]) ++ h.length :: (c.1 :: List.map Prod.fst B) := by
        simp
      rw [e5]
      apply nodup_insert_middle
      · simpa using hnd
      · simp only [List.mem_append, List.mem_cons, List.not_mem_nil, or_false, not_or]
        exact ⟨⟨hfresh.1, hfresh.2.1⟩, hfresh.2.2.1, hfresh.2.2.2⟩

/-- The state after `insert`, in each of its three branches. -/
theorem dll_insert_wf_frame {h : Heap (Node T)} {l : DoublyLinkedList}
    {cells : List (Nat × T)}
    (hw : WellFormed h l cells) (pos : Nat) (hpos : pos ≤ cells.length) (v : T) :
    ∃ h' l', insert true h l pos v = .ok (h', l') ∧
      WellFormed h' l' (cells.take pos ++ (h.length, v) :: cells.drop pos) ∧
      Heap.Frame h h' (cells.map Prod.fst) := by
  have hchk : BaseContainer.check_position pos cells.length = .ok () :=
    BaseContainer.check_position_ok hpos
  by_cases h0 : pos = 0
  · subst h0
    obtain ⟨h', l', e, hw', hf⟩ := dll_push_front_wf_frame hw v
    exact ⟨h', l', by simp [insert, hw.size, hchk, e], by simpa using hw', hf⟩
  · by_cases hn : pos = cells.length
    · subst hn
      obtain ⟨h', l', e, hw', hf⟩ := dll_push_back_wf_frame hw v
      exact ⟨h', l', by simp [insert, hw.size, hchk, h0, e], by simpa using hw', hf⟩
    · obtain ⟨A, pc, B', hcells, hA⟩ := split_at cells (pos - 1) (by omega)
      have hp : pos = A.length + 1 := by omega
      subst hcells
      cases B' with
      | nil =>
        simp at hn
        omega
      | cons c B =>
        obtain ⟨h', l', e, hw', hf⟩ := dll_insert_middle_core hw v
        refine ⟨h', l', ?_, ?_, hf⟩
        · simp only [insert, hw.size, hchk, ok_bind, h0, if_false, hn]
          rw [hp]
          exact e
        · rw [hp, take_middle, drop_middle]
          simpa using hw'

/-- The state after `insert`, in each of its three branches. -/
theorem dll_insert_wf {h : Heap (Node T)} {l : DoublyLinkedList} {cells : List (Nat × T)}
    (hw : WellFormed h l cells) (pos : Nat) (hpos : pos ≤ cells.length) (v : T) :
    ∃ h' l', insert true h l pos v = .ok (h', l') ∧
      WellFormed h' l' (cells.take pos ++ (h.length, v) :: cells.drop pos) := by
  obtain ⟨h', l', e, hw', _⟩ := dll_insert_wf_frame hw pos hpos v
  exact ⟨h', l', e, hw'⟩

theorem dll_erase_front_core {h : Heap (Node T)} {l : DoublyLinkedList}
    {B : List (Nat × T)} {e : Nat × T} (hw : WellFormed h l (e :: B)) :
    ∃ h' l', erase_front h l = .ok (h', l') ∧ WellFormed h' l' B ∧
      Heap.Frame h h' ((e :: B).map Prod.fst) := by
  have he : h[e.1]? = some (some ⟨e.2, link B none, none⟩) := hw.chain.1
  have hlt := Heap.cell_lt he
  have hnd := hw.nodup
  simp only [List.map_cons, List.nodup_cons] at hnd
  have he1 : (h.set e.1 (some (Node.mk e.2 none none)))[e.1]?
      = some (some ⟨e.2, none, none⟩) := by
    rw [List.getElem?_set_self hlt]
  cases B with
  | nil =>
    refine ⟨(h.set e.1 (some (Node.mk e.2 none none))).set e.1 none,
      { head_ := none, tail_ := none, size_ := l.size_ - 1 }, ?_, ?_,
      ((Heap.Frame.refl h _).set _ (Or.inl (by simp))).set _ (Or.inl (by simp))⟩
    · simp only [erase_front, hw.head, link_cons]
      rw [Heap.deref_cell he]
      simp only [ok_bind]
      rw [Heap.modify_cell _ he]
      simp only [ok_bind]
      rw [Heap.destroy_single Node.next he1 rfl]
      simp
    · exact ⟨rfl, rfl, by simp [hw.size], trivial, by simp⟩
  | cons c B =>
    have hc : h[c.1]? = some (some ⟨c.2, link B none, some e.1⟩) := hw.chain.2.1
    simp only [List.map_cons, List.mem_cons, not_or, List.nodup_cons] at hnd
    have hne : e.1 ≠ c.1 := hnd.1.1
    have hc2 : ((h.set e.1 (some (Node.mk e.2 none none))).set e.1 none)[c.1]?
        = some (some ⟨c.2, link B none, some e.1⟩) := by
      rw [List.getElem?_set_ne hne, List.getElem?_set_ne hne, hc]
    refine ⟨((h.set e.1 (some (Node.mk e.2 none none))).set e.1 none).set c.1
        (some (Node.mk c.2 (link B none) none)),
      { head_ := some c.1, tail_ := l.tail_, size_ := l.size_ - 1 }, ?_, ?_,
      (((Heap.Frame.refl h _).set _ (Or.inl (by simp))).set _ (Or.inl (by simp))).set _
        (Or.inl (by simp))⟩
    · simp only [erase_front, hw.head, link_cons]
      rw [Heap.deref_cell he]
      simp only [ok_bind]
      rw [Heap.modify_cell _ he]
      simp only [ok_bind]
      rw [Heap.destroy_single Node.next he1 rfl]
      simp only [ok_bind, link_cons, ne_eq, reduceCtorEq, not_false_eq_true, if_true]
      rw [Heap.modify_cell _ hc2]
      rfl
    · refine ⟨rfl, ?_, by simp [hw.size], ⟨?_, ?_⟩,
        by simpa using (⟨hnd.2.1, hnd.2.2⟩ : c.1 ∉ List.map Prod.fst B ∧ _)⟩
      · simp only [hw.tail]
        exact back_append_of_ne_nil none [e] (by simp)
      · rw [List.getElem?_set_self (by simp; exact Heap.cell_lt hc)]
      · exact dll_Seg_set _ hnd.2.1 (dll_Seg_set _ hnd.1.2 (dll_Seg_set _ hnd.1.2 hw.chain.2.2))

theorem dll_erase_back_core {h : Heap (Node T)} {l : DoublyLinkedList}
    {A : List (Nat × T)} {pc e : Nat × T} (hw : WellFormed h l (A ++ [pc, e])) :
    ∃ h' l', erase_back h l = .ok (h', l') ∧ WellFormed h' l' (A ++ [pc]) ∧
      Heap.Frame h h' ((A ++ [pc, e]).map Prod.fst) := by
  have hseg := (dll_Seg_append h A [pc, e] none none).mp hw.chain
  have hpc : h[pc.1]? = some (some ⟨pc.2, some e.1, back none A⟩) := hseg.2.1
  have he : h[e.1]? = some (some ⟨e.2, none, some pc.1⟩) := hseg.2.2.1
  have hnd := hw.nodup
  simp only [List.map_append, List.map_cons, List.map_nil] at hnd
  obtain ⟨hnd1, hpA, hpe⟩ := nodup_erase_middle hnd
  simp only [List.mem_singleton] at hpe
  have e1 : List.map Prod.fst A ++ [pc.1, e.1]
      = (List.map Prod.fst A ++ [pc.1]) ++ e.1 :: [] := by simp
  rw [e1] at hnd
  obtain ⟨hnd2, heA, _⟩ := nodup_erase_middle hnd
  simp only [List.mem_append, List.mem_singleton, not_or] at heA
  have ht : l.tail_ = some e.1 := by
    rw [hw.tail]
    exact back_concat none (A ++ [pc]) e |> fun x => by simpa using x
  have he1 : (h.set pc.1 (some (Node.mk pc.2 none (back none A))))[e.1]?
      = some (some ⟨e.2, none, some pc.1⟩) := by
    rw [List.getElem?_set_ne hpe, he]
  refine ⟨(h.set pc.1 (some (Node.mk pc.2 none (back none A)))).set e.1 none,
    { head_ := l.head_, tail_ := some pc.1, size_ := l.size_ - 1 }, ?_, ?_,
    ((Heap.Frame.refl h _).set _ (Or.inl (by simp))).set _ (Or.inl (by simp))⟩
  · simp only [erase_back, ht]
    rw [Heap.deref_cell he]
    simp only [ok_bind, ne_eq, reduceCtorEq, not_false_eq_true, if_true]
    rw [Heap.deref_cell hpc]
    simp only [ok_bind]
    rw [Heap.modify_cell _ hpc]
    simp only [ok_bind]
    rw [Heap.destroy_single Node.next he1 rfl]
    rfl
  · refine ⟨?_, (back_concat none A pc).symm, by simp [hw.size], ?_, by simpa using hnd2⟩
    · simp only [hw.head]
      rw [link_append, link_append]
      rfl
    · rw [dll_Seg_append]
      refine ⟨dll_Seg_set _ heA.1 (dll_Seg_set _ hpA hseg.1), ?_, trivial⟩
      rw [List.getElem?_set_ne (Ne.symm hpe), List.getElem?_set_self (Heap.cell_lt hpc)]
      rfl

theorem dll_erase_middle_core {h : Heap (Node T)} {l : DoublyLinkedList}
    {A B : List (Nat × T)} {pc e c : Nat × T}
    (hw : WellFormed h l (A ++ pc :: e :: c :: B)) :
    ∃ h' l', erase_middle h l (A.length + 1) = .ok (h', l') ∧
      WellFormed h' l' (A ++ pc :: c :: B) ∧
      Heap.Frame h h' ((A ++ pc :: e :: c :: B).map Prod.fst) := by
  have hseg := (dll_Seg_append h A (pc :: e :: c :: B) none none).mp hw.chain
  have hpc : h[pc.1]? = some (some ⟨pc.2, some e.1, back none A⟩) := hseg.2.1
  have he : h[e.1]? = some (some ⟨e.2, some c.1, some pc.1⟩) := hseg.2.2.1
  have hc : h[c.1]? = some (some ⟨c.2, link B none, some e.1⟩) := hseg.2.2.2.1
  have hsegB : Seg h (some c.1) B none := hseg.2.2.2.2
  have hnd := hw.nodup
  simp only [List.map_append, List.map_cons] at hnd
  obtain ⟨_, hpA, hpB⟩ := nodup_erase_middle hnd
  simp only [List.mem_cons, not_or] at hpB
  have e1 : List.map Prod.fst A ++ pc.1 :: e.1 :: c.1 :: List.map Prod.fst B
      = (List.map Prod.fst A ++ [pc.1]) ++ e.1 :: (c.1 :: List.map Prod.fst B) := by simp
  rw [e1] at hnd
  obtain ⟨hnd2, heA, heB⟩ := nodup_erase_middle hnd
  simp only [List.mem_append, List.mem_cons, List.not_mem_nil, or_false, not_or] at heA heB
  have e2 : List.map Prod.fst A ++ [pc.1] ++ c.1 :: List.map Prod.fst B
      = (List.map Prod.fst A ++ [pc.1]) ++ c.1 :: List.map Prod.fst B := by simp
  obtain ⟨_, hcA, hcB⟩ := nodup_erase_middle hnd2
  simp only [List.mem_append, List.mem_cons, List.not_mem_nil, or_false, not_or] at hcA
  have hcur : get_node_at h l (A.length + 1) = .ok (some e.1) := by
    have e3 : A ++ pc :: e :: c :: B = (A ++ [pc]) ++ e :: c :: B := by simp
    have hw2 := hw
    rw [e3] at hw2
    have := dll_get_node_at_core hw2
    simpa using this
  have hpe : pc.1 ≠ e.1 := hpB.1
  have hpcc : pc.1 ≠ c.1 := hpB.2.1
  have hec : e.1 ≠ c.1 := heB.1
  have k1 : (h.set c.1 (some (Node.mk c.2 (link B none) (some pc.1))))[e.1]?
      = some (some ⟨e.2, some c.1, some pc.1⟩) := by
    rw [List.getElem?_set_ne (Ne.symm hec), he]
  have k2 : ((h.set c.1 (some (Node.mk c.2 (link B none) (some pc.1)))).set e.1
      (some (Node.mk e.2 none (some pc.1))))[pc.1]?
      = some (some ⟨pc.2, some e.1, back none A⟩) := by
    rw [List.getElem?_set_ne (Ne.symm hpe), List.getElem?_set_ne (Ne.symm hpcc), hpc]
  have k3 : (((h.set c.1 (some (Node.mk c.2 (link B none) (some pc.1)))).set e.1
      (some (Node.mk e.2 none (some pc.1)))).set pc.1
      (some (Node.mk pc.2 (some c.1) (back none A))))[e.1]?
      = some (some ⟨e.2, none, some pc.1⟩) := by
    rw [List.getElem?_set_ne hpe, List.getElem?_set_self (by simp; exact Heap.cell_lt he)]
  refine ⟨((((h.set c.1 (some (Node.mk c.2 (link B none) (some pc.1)))).set e.1
      (some (Node.mk e.2 none (some pc.1)))).set pc.1
      (some (Node.mk pc.2 (some c.1) (back none A)))).set e.1 none),
    { l with size_ := l.size_ - 1 }, ?_, ?_,
    ((((Heap.Frame.refl h _).set _ (Or.inl (by simp))).set _ (Or.inl (by simp))).set _
      (Or.inl (by simp))).set _ (Or.inl (by simp))⟩
  · simp only [erase_middle, hcur, ok_bind]
    rw [Heap.deref_cell he]
    simp only [ok_bind]
    rw [Heap.modify_cell _ hc]
    simp only [ok_bind]
    rw [Heap.deref_cell k1]
    simp only [ok_bind]
    rw [Heap.modify_cell _ k1]
    simp only [ok_bind]
    rw [Heap.deref_cell k2]
    simp only [ok_bind]
    rw [Heap.modify_cell _ k2]
    simp only [ok_bind]
    rw [Heap.destroy_single Node.next k3 rfl]
    rfl
  · refine ⟨?_, ?_, by simp [hw.size], ?_, by simpa using hnd2⟩
    · simp only [hw.head]
      rw [link_append, link_append]
      rfl
    · simp only [hw.tail]
      have e4 : A ++ pc :: e :: c :: B = (A ++ [pc, e]) ++ c :: B := by simp
      have e5 : A ++ pc :: c :: B = (A ++ [pc]) ++ c :: B := by simp
      rw [e4, e5, back_append_of_ne_nil _ _ (by simp), back_append_of_ne_nil _ _ (by simp)]
    · rw [dll_Seg_append]
      refine ⟨?_, ?_, ?_, ?_⟩
      · exact dll_Seg_set _ heA.1 (dll_Seg_set _ hpA (dll_Seg_set _ heA.1 (dll_Seg_set _ hcA.1 hseg.1)))
      · rw [List.getElem?_set_ne (Ne.symm hpe),
          List.getElem?_set_self (by simp; exact Heap.cell_lt hpc)]
        rfl
      · rw [List.getElem?_set_ne hec, List.getElem?_set_ne hpcc, List.getElem?_set_ne hec,
          List.getElem?_set_self (Heap.cell_lt hc)]
      · exact dll_Seg_set _ heB.2 (dll_Seg_set _ hpB.2.2 (dll_Seg_set _ heB.2 (dll_Seg_set _ hcB hsegB)))

/-- The state after `erase`, in each of its three branches. -/
theorem dll_erase_wf_frame {h : Heap (Node T)} {l : DoublyLinkedList}
    {cells : List (Nat × T)}
    (hw : WellFormed h l cells) (pos : Nat) (hpos : pos < cells.length) :
    ∃ h' l', erase h l pos = .ok (h', l') ∧
      WellFormed h' l' (cells.take pos ++ cells.drop (pos + 1)) ∧
      Heap.Frame h h' (cells.map Prod.fst) := by
  have hchk : BaseContainer.check_index pos cells.length = .ok () :=
    BaseContainer.check_index_ok hpos
  by_cases h0 : pos = 0
  · subst h0
    cases cells with
    | nil => simp at hpos
    | cons e B =>
      obtain ⟨h', l', e1, hw', hf⟩ := dll_erase_front_core hw
      refine ⟨h', l', ?_, by simpa using hw', hf⟩
      simp only [erase, hw.size, hchk, ok_bind, if_true]
      exact e1
  · obtain ⟨A, pc, B', hcells, hA⟩ := split_at cells (pos - 1) (by omega)
    subst hcells
    have hp : pos = A.length + 1 := by omega
    subst hp
    have hpos0 : ¬ A.length + 1 = 0 := by omega
    cases B' with
    | nil => simp at hpos
    | cons e B =>
      have e2 : A ++ pc :: e :: B = (A ++ [pc]) ++ e :: B := by simp
      have e3 : (A ++ [pc]).length = A.length + 1 := by simp
      have hres : (A ++ pc :: e :: B).take (A.length + 1)
          ++ (A ++ pc :: e :: B).drop (A.length + 1 + 1) = A ++ pc :: B := by
        rw [take_middle, e2, ← e3, drop_middle]
        simp
      rw [hres]
      cases B with
      | nil =>
        obtain ⟨h', l', e1, hw', hf⟩ := dll_erase_back_core hw
        refine ⟨h', l', ?_, hw', by simpa using hf⟩
        have hlast : A.length + 1 = (A ++ [pc, e]).length - 1 := by simp
        simp only [erase, hw.size, hchk, ok_bind, hpos0, if_false]
        rw [if_pos hlast]
        exact e1
      | cons c B =>
        obtain ⟨h', l', e1, hw', hf⟩ := dll_erase_middle_core hw
        refine ⟨h', l', ?_, hw', hf⟩
        have hlast : ¬ A.length + 1 = (A ++ pc :: e :: c :: B).length - 1 := by
          simp
        simp only [erase, hw.size, hchk, ok_bind, hpos0, if_false]
        rw [if_neg hlast]
        exact e1

/-- The state after `erase`, in each of its branches. -/
theorem dll_erase_wf {h : Heap (Node T)} {l : DoublyLinkedList} {cells : List (Nat × T)}
    (hw : WellFormed h l cells) (pos : Nat) (hpos : pos < cells.length) :
    ∃ h' l', erase h l pos = .ok (h', l') ∧
      WellFormed h' l' (cells.take pos ++ cells.drop (pos + 1)) := by
  obtain ⟨h', l', e, hw', _⟩ := dll_erase_wf_frame hw pos hpos
  exact ⟨h', l', e, hw'⟩

theorem dll_index_core {h : Heap (Node T)} {l : DoublyLinkedList}
    {A B : List (Nat × T)} {c : Nat × T} (hw : WellFormed h l (A ++ c :: B)) :
    index h l A.length = .ok c.2 := by
  have hseg := (dll_Seg_append h A (c :: B) none none).mp hw.chain
  have hc : h[c.1]? = some (some ⟨c.2, link B none, back none A⟩) := hseg.2.1
  have hchk : BaseContainer.check_index A.length (A ++ c :: B).length = .ok () :=
    BaseContainer.check_index_ok (by simp)
  simp only [index, hw.size, hchk, ok_bind, dll_get_node_at_core hw]
  rw [Heap.deref_cell hc]
  rfl

/-- Indexed access reads the element sequence. -/
theorem dll_index_wf {h : Heap (Node T)} {l : DoublyLinkedList} {cells : List (Nat × T)}
    (hw : WellFormed h l cells) {i : Nat} {x : T}
    (hx : (cells.map Prod.snd)[i]? = some x) : index h l i = .ok x := by
  have hi : i < cells.length := by
    rcases (List.getElem?_eq_some_iff.mp hx) with ⟨hj, _⟩
    simpa using hj
  obtain ⟨A, c, B, hcells, hA⟩ := split_at cells i hi
  subst hcells
  subst hA
  have hc : x = c.2 := by
    simp only [List.map_append, List.map_cons] at hx
    rw [List.getElem?_append_right (by simp)] at hx
    simpa using hx.symm
  rw [hc]
  exact dll_index_core hw

/-- The chunks `print` writes: the rendered elements with one separator between
neighbours. -/
theorem dll_print_wf (render : T → String) {h : Heap (Node T)} {l : DoublyLinkedList}
    {cells : List (Nat × T)} (hw : WellFormed h l cells) :
    print render h l = .ok ((cells.map (fun c => render c.2)).intersperse " ") := by
  simp only [print, hw.head]
  rw [dll_print_loop_seg render cells none h.length [] hw.chain hw.dll_length_le]
  simp

/-- The state after `clear`: the empty list, the nodes of other lists left
alone. -/
theorem dll_clear_wf_frame {h : Heap (Node T)} {l : DoublyLinkedList}
    {cells : List (Nat × T)} (hw : WellFormed h l cells) :
    ∃ h', clear h l = .ok (h', empty_list) ∧ WellFormed h' empty_list ([] : List (Nat × T)) ∧
      Heap.Frame h h' (cells.map Prod.fst) := by
  obtain ⟨h', e, hf⟩ :=
    dll_clear_loop_seg cells none h h.length hw.chain hw.nodup hw.dll_length_le
  refine ⟨h', ?_, ?_, hf⟩
  · simp only [clear, hw.head, e]
    rfl
  · exact ⟨rfl, rfl, rfl, trivial, by simp⟩

/-- The state after `clear`. -/
theorem dll_clear_wf {h : Heap (Node T)} {l : DoublyLinkedList} {cells : List (Nat × T)}
    (hw : WellFormed h l cells) :
    ∃ h' l', clear h l = .ok (h', l') ∧ WellFormed h' l' ([] : List (Nat × T)) := by
  obtain ⟨h', e, hw', _⟩ := dll_clear_wf_frame hw
  exact ⟨h', _, e, hw'⟩

/-- Re-reading a list through `operator[]` gives the element sequence. -/
theorem dll_contents_wf {h : Heap (Node T)} {l : DoublyLinkedList} {cells : List (Nat × T)}
    (hw : WellFormed h l cells) : contents h l = .ok (cells.map Prod.snd) := by
  unfold contents
  have hsz : l.size = (cells.map Prod.snd).length := by simp [size, hw.size]
  rw [hsz]
  have := read_from_spec (index h l) (cells.map Prod.snd)
    (fun i x hx => dll_index_wf hw hx) (cells.map Prod.snd).length 0 (by omega)
  simpa using this

theorem dll_iterate_seg {h : Heap (Node T)} :
    ∀ (cs : List (Nat × T)) (b : Ptr) (fuel : Nat), Seg h b cs none → cs.length ≤ fuel →
      iterate h fuel (link cs none) = .ok (cs.map Prod.snd) := by
  intro cs
  induction cs with
  | nil =>
    intro b fuel _ _
    cases fuel <;> rfl
  | cons c cs ih =>
    intro b fuel hs hf
    obtain ⟨k, rfl⟩ : ∃ k, fuel = k + 1 := ⟨fuel - 1, by simp at hf; omega⟩
    have hc : h[c.1]? = some (some ⟨c.2, link cs none, b⟩) := hs.1
    simp only [link_cons, iterate]
    rw [Heap.deref_cell hc]
    simp only [ok_bind]
    rw [ih (some c.1) k hs.2 (by simp at hf; omega)]
    rfl

/-- The forward traversal from `begin()` visits the element sequence. -/
theorem dll_forward_wf {h : Heap (Node T)} {l : DoublyLinkedList} {cells : List (Nat × T)}
    (hw : WellFormed h l cells) : forward h l = .ok (cells.map Prod.snd) := by
  simp only [forward, hw.head]
  exact dll_iterate_seg cells none h.length hw.chain hw.dll_length_le

end DoublyLinkedList

/-! ## Only the position checks throw `std::out_of_range` -/

theorem NoRange.ok {α : Type} (a : α) : NoRange (Except.ok a : Except Error α) := by
  simp [NoRange]

theorem NoRange.undefined {α : Type} : NoRange (Except.error .Undefined : Except Error α) := by
  simp [NoRange]

theorem NoRange.alloc {α : Type} :
    NoRange (Except.error .AllocationFailure : Except Error α) := by
  simp [NoRange]

theorem NoRange.bind {α β : Type} {x : Except Error α} {f : α → Except Error β}
    (hx : NoRange x) (hf : ∀ a, NoRange (f a)) : NoRange (x >>= f) := by
  cases x with
  | error e => simpa [NoRange] using hx
  | ok a => exact hf a

namespace SimpleVector

variable {T : Type}

theorem load_noRange (d : Option (List (Option T))) (i : Nat) : NoRange (load d i) := by
  unfold load
  repeat' split
  all_goals first | exact NoRange.ok _ | exact NoRange.undefined

theorem construct_at_noRange (d : Option (List (Option T))) (i : Nat) (x : T) :
    NoRange (construct_at d i x) := by
  unfold construct_at
  repeat' split
  all_goals first | exact NoRange.ok _ | exact NoRange.undefined

theorem assign_at_noRange (d : Option (List (Option T))) (i : Nat) (x : T) :
    NoRange (assign_at d i x) := by
  unfold assign_at
  repeat' split
  all_goals first | exact NoRange.ok _ | exact NoRange.undefined

theorem destroy_at_noRange (d : Option (List (Option T))) (i : Nat) :
    NoRange (destroy_at d i) := by
  unfold destroy_at
  repeat' split
  all_goals first | exact NoRange.ok _ | exact NoRange.undefined

theorem move_construct_noRange (mv : T → T) (d : Option (List (Option T))) (dst src : Nat) :
    NoRange (move_construct mv d dst src) :=
  NoRange.bind (load_noRange _ _) fun _ =>
    NoRange.bind (construct_at_noRange _ _ _) fun _ => assign_at_noRange _ _ _

theorem move_assign_noRange (mv : T → T) (d : Option (List (Option T))) (dst src : Nat) :
    NoRange (move_assign mv d dst src) :=
  NoRange.bind (load_noRange _ _) fun _ =>
    NoRange.bind (assign_at_noRange _ _ _) fun _ => assign_at_noRange _ _ _

theorem operator_new_noRange (mem : Bool) (n : Nat) :
    NoRange (operator_new mem n : Except Error (Option (List (Option T)))) := by
  unfold operator_new
  split
  · exact NoRange.ok _
  · exact NoRange.alloc

theorem relocate_noRange (old : Option (List (Option T))) :
    ∀ (k i : Nat) (nd : Option (List (Option T))), NoRange (relocate old k i nd) := by
  intro k
  induction k with
  | zero => intro i nd; exact NoRange.ok _
  | succ k ih =>
    intro i nd
    exact NoRange.bind (load_noRange _ _) fun _ =>
      NoRange.bind (construct_at_noRange _ _ _) fun _ => ih _ _

theorem change_capacity_noRange (mem : Bool) (s : SimpleVector T) (c : Nat) :
    NoRange (change_capacity mem s c) := by
  unfold change_capacity
  split
  · exact NoRange.ok _
  · split
    · exact NoRange.ok _
    · dsimp only
      split
      · exact NoRange.bind (operator_new_noRange _ _) fun _ =>
          NoRange.bind (relocate_noRange _ _ _ _) fun _ => NoRange.ok _
      · exact NoRange.ok _

theorem ensure_capacity_noRange (mem : Bool) (s : SimpleVector T) (r : Nat) :
    NoRange (ensure_capacity mem s r) := by
  unfold ensure_capacity
  split
  · exact NoRange.ok _
  · exact change_capacity_noRange _ _ _

theorem shift_right_noRange (mv : T → T) (pos : Nat) :
    ∀ (i : Nat) (d : Option (List (Option T))), NoRange (shift_right mv pos i d) := by
  intro i
  induction i with
  | zero => intro d; exact NoRange.ok _
  | succ i ih =>
    intro d
    unfold shift_right
    split
    · exact NoRange.bind (move_assign_noRange _ _ _ _) fun _ => ih _
    · exact NoRange.ok _

theorem shift_left_noRange (mv : T → T) :
    ∀ (k i : Nat) (d : Option (List (Option T))), NoRange (shift_left mv k i d) := by
  intro k
  induction k with
  | zero => intro i d; exact NoRange.ok _
  | succ k ih =>
    intro i d
    exact NoRange.bind (move_construct_noRange _ _ _ _) fun _ =>
      NoRange.bind (destroy_at_noRange _ _) fun _ => ih _ _

/-- `insert` throws `std::out_of_range` exactly when `pos > size()`. -/
theorem insert_outOfRange_iff (mv : T → T) (mem : Bool) (s : SimpleVector T) (pos : Nat)
    (v : T) : insert mv mem s pos v = .error .OutOfRange ↔ pos > s.size := by
  constructor
  · intro h
    by_contra hle
    have hchk := BaseContainer.check_position_ok (Nat.le_of_not_gt hle)
    have hno : NoRange (insert mv mem s pos v) := by
      unfold insert
      simp only [size] at hchk
      rw [hchk]
      simp only [ok_bind]
      refine NoRange.bind (ensure_capacity_noRange _ _ _) fun s1 => ?_
      show NoRange (if pos = s1.size_ then _ else _)
      split
      · exact NoRange.bind (construct_at_noRange _ _ _) fun _ => NoRange.ok _
      · exact NoRange.bind (move_construct_noRange _ _ _ _) fun _ =>
          NoRange.bind (shift_right_noRange _ _ _ _) fun _ =>
            NoRange.bind (assign_at_noRange _ _ _) fun _ => NoRange.ok _
    exact hno h
  · intro h
    simp only [size] at h
    simp [insert, BaseContainer.check_position_error h]

/-- `erase` throws `std::out_of_range` exactly when `pos >= size()`. -/
theorem erase_outOfRange_iff (mv : T → T) (s : SimpleVector T) (pos : Nat) :
    erase mv s pos = .error .OutOfRange ↔ pos ≥ s.size := by
  constructor
  · intro h
    by_contra hle
    have hchk := BaseContainer.check_index_ok (Nat.lt_of_not_ge hle)
    have hno : NoRange (erase mv s pos) := by
      unfold erase
      simp only [size] at hchk
      rw [hchk]
      simp only [ok_bind]
      exact NoRange.bind (destroy_at_noRange _ _) fun _ =>
        NoRange.bind (shift_left_noRange _ _ _ _) fun _ => NoRange.ok _
    exact hno h
  · intro h
    simp only [size] at h
    simp [erase, BaseContainer.check_index_error h]

/-- `operator[]` throws `std::out_of_range` exactly when `idx >= size()`. -/
theorem index_outOfRange_iff (s : SimpleVector T) (idx : Nat) :
    index s idx = .error .OutOfRange ↔ idx ≥ s.size := by
  constructor
  · intro h
    by_contra hle
    have hchk := BaseContainer.check_index_ok (Nat.lt_of_not_ge hle)
    have hno : NoRange (index s idx) := by
      unfold index
      simp only [size] at hchk
      rw [hchk]
      simp only [ok_bind]
      exact load_noRange _ _
    exact hno h
  · intro h
    simp only [size] at h
    simp [index, BaseContainer.check_index_error h]

end SimpleVector

namespace Heap

variable {N : Type}

theorem deref_noRange (h : Heap N) (p : Ptr) : NoRange (h.deref p) := by
  unfold deref
  repeat' split
  all_goals first | exact NoRange.ok _ | exact NoRange.undefined

theorem modify_noRange (h : Heap N) (p : Ptr) (f : N → N) : NoRange (h.modify p f) := by
  unfold modify
  repeat' split
  all_goals first | exact NoRange.ok _ | exact NoRange.undefined

theorem make_unique_noRange (mem : Bool) (h : Heap N) (n : N) :
    NoRange (make_unique mem h n) := by
  unfold make_unique
  split
  · exact NoRange.ok _
  · exact NoRange.alloc

theorem destroy_noRange (next : N → Ptr) :
    ∀ (fuel : Nat) (h : Heap N) (p : Ptr), NoRange (destroy next fuel h p) := by
  intro fuel
  induction fuel with
  | zero =>
    intro h p
    cases p with
    | none => exact NoRange.ok _
    | some a => exact NoRange.undefined
  | succ k ih =>
    intro h p
    cases p with
    | none => exact NoRange.ok _
    | some a =>
      unfold destroy
      repeat' split
      all_goals first | exact ih _ _ | exact NoRange.undefined

end Heap

namespace SinglyLinkedList

variable {T : Type}

theorem sll_advance_noRange (h : Heap (Node T)) :
    ∀ (k : Nat) (p : Ptr), NoRange (advance h k p) := by
  intro k
  induction k with
  | zero => intro p; exact NoRange.ok _
  | succ k ih =>
    intro p
    exact NoRange.bind (Heap.deref_noRange _ _) fun _ => ih _

theorem sll_push_back_noRange (mem : Bool) (h : Heap (Node T)) (l : SinglyLinkedList) (v : T) :
    NoRange (push_back mem h l v) := by
  unfold push_back
  refine NoRange.bind (Heap.make_unique_noRange _ _ _) fun p => ?_
  dsimp only
  split
  · exact NoRange.ok _
  · exact NoRange.bind (Heap.deref_noRange _ _) fun _ =>
      NoRange.bind (Heap.modify_noRange _ _ _) fun _ =>
        NoRange.bind (Heap.destroy_noRange _ _ _ _) fun _ => NoRange.ok _

theorem sll_push_front_noRange (mem : Bool) (h : Heap (Node T)) (l : SinglyLinkedList)
    (v : T) : NoRange (push_front mem h l v) := by
  unfold push_front
  exact NoRange.bind (Heap.make_unique_noRange _ _ _) fun _ => NoRange.ok _

theorem sll_insert_middle_noRange (mem : Bool) (h : Heap (Node T)) (l : SinglyLinkedList)
    (pos : Nat) (v : T) : NoRange (insert_middle mem h l pos v) := by
  unfold insert_middle
  exact NoRange.bind (sll_advance_noRange _ _ _) fun _ =>
    NoRange.bind (Heap.deref_noRange _ _) fun _ =>
      NoRange.bind (Heap.make_unique_noRange _ _ _) fun _ =>
        NoRange.bind (Heap.modify_noRange _ _ _) fun _ => NoRange.ok _

theorem sll_get_node_at_noRange (h : Heap (Node T)) (l : SinglyLinkedList) (idx : Nat) :
    NoRange (get_node_at h l idx) :=
  sll_advance_noRange _ _ _

theorem sll_erase_body_noRange (h : Heap (Node T)) (l : SinglyLinkedList) (pos : Nat)
    (hpos : pos < l.size_) : NoRange (erase h l pos) := by
  unfold erase
  rw [BaseContainer.check_index_ok hpos]
  simp only [ok_bind]
  split
  · exact NoRange.bind (Heap.deref_noRange _ _) fun _ =>
      NoRange.bind (Heap.modify_noRange _ _ _) fun _ =>
        NoRange.bind (Heap.destroy_noRange _ _ _ _) fun _ => NoRange.ok _
  · exact NoRange.bind (sll_advance_noRange _ _ _) fun _ =>
      NoRange.bind (Heap.deref_noRange _ _) fun _ =>
        NoRange.bind (Heap.modify_noRange _ _ _) fun _ =>
          NoRange.bind (Heap.deref_noRange _ _) fun _ =>
            NoRange.bind (Heap.modify_noRange _ _ _) fun _ =>
              NoRange.bind (Heap.modify_noRange _ _ _) fun _ =>
                NoRange.bind (Heap.deref_noRange _ _) fun _ =>
                  NoRange.bind (Heap.destroy_noRange _ _ _ _) fun _ => NoRange.ok _

/-- `insert` throws `std::out_of_range` exactly when `pos > size()`. -/
theorem sll_insert_outOfRange_iff (mem : Bool) (h : Heap (Node T)) (l : SinglyLinkedList)
    (pos : Nat) (v : T) : insert mem h l pos v = .error .OutOfRange ↔ pos > l.size := by
  constructor
  · intro he
    by_contra hle
    have hchk := BaseContainer.check_position_ok (Nat.le_of_not_gt hle)
    have hno : NoRange (insert mem h l pos v) := by
      unfold insert
      simp only [size] at hchk
      rw [hchk]
      simp only [ok_bind]
      split
      · exact sll_push_front_noRange _ _ _ _
      · split
        · exact sll_push_back_noRange _ _ _ _
        · exact sll_insert_middle_noRange _ _ _ _ _
    exact hno he
  · intro hgt
    simp only [size] at hgt
    simp [insert, BaseContainer.check_position_error hgt]

/-- `erase` throws `std::out_of_range` exactly when `pos >= size()`. -/
theorem sll_erase_outOfRange_iff (h : Heap (Node T)) (l : SinglyLinkedList) (pos : Nat) :
    erase h l pos = .error .OutOfRange ↔ pos ≥ l.size := by
  constructor
  · intro he
    by_contra hle
    exact sll_erase_body_noRange h l pos (Nat.lt_of_not_ge hle) he
  · intro hge
    simp only [size] at hge
    simp [erase, BaseContainer.check_index_error hge]

/-- `operator[]` throws `std::out_of_range` exactly when `idx >= size()`. -/
theorem sll_index_outOfRange_iff (h : Heap (Node T)) (l : SinglyLinkedList) (idx : Nat) :
    index h l idx = .error .OutOfRange ↔ idx ≥ l.size := by
  constructor
  · intro he
    by_contra hle
    have hchk := BaseContainer.check_index_ok (Nat.lt_of_not_ge hle)
    have hno : NoRange (index h l idx) := by
      unfold index
      simp only [size] at hchk
      rw [hchk]
      simp only [ok_bind]
      exact NoRange.bind (sll_get_node_at_noRange _ _ _) fun _ =>
        NoRange.bind (Heap.deref_noRange _ _) fun _ => NoRange.ok _
    exact hno he
  · intro hge
    simp only [size] at hge
    simp [index, BaseContainer.check_index_error hge]

end SinglyLinkedList

namespace DoublyLinkedList

variable {T : Type}

theorem dll_advance_noRange (h : Heap (Node T)) :
    ∀ (k : Nat) (p : Ptr), NoRange (advance h k p) := by
  intro k
  induction k with
  | zero => intro p; exact NoRange.ok _
  | succ k ih =>
    intro p
    exact NoRange.bind (Heap.deref_noRange _ _) fun _ => ih _

theorem dll_push_back_noRange (mem : Bool) (h : Heap (Node T)) (l : DoublyLinkedList) (v : T) :
    NoRange (push_back mem h l v) := by
  unfold push_back
  refine NoRange.bind (Heap.make_unique_noRange _ _ _) fun p => ?_
  dsimp only
  split
  · exact NoRange.ok _
  · exact NoRange.bind (Heap.deref_noRange _ _) fun _ =>
      NoRange.bind (Heap.modify_noRange _ _ _) fun _ =>
        NoRange.bind (Heap.destroy_noRange _ _ _ _) fun _ => NoRange.ok _

theorem dll_retreat_noRange (h : Heap (Node T)) :
    ∀ (k : Nat) (p : Ptr), NoRange (retreat h k p) := by
  intro k
  induction k with
  | zero => intro p; exact NoRange.ok _
  | succ k ih =>
    intro p
    exact NoRange.bind (Heap.deref_noRange _ _) fun _ => ih _

theorem dll_get_node_at_noRange (h : Heap (Node T)) (l : DoublyLinkedList) (idx : Nat) :
    NoRange (get_node_at h l idx) := by
  unfold get_node_at
  split
  · exact dll_advance_noRange _ _ _
  · exact dll_retreat_noRange _ _ _

theorem dll_push_front_noRange (mem : Bool) (h : Heap (Node T)) (l : DoublyLinkedList)
    (v : T) : NoRange (push_front mem h l v) := by
  unfold push_front
  refine NoRange.bind (Heap.make_unique_noRange _ _ _) fun p => ?_
  dsimp only
  split
  · exact NoRange.bind (Heap.modify_noRange _ _ _) fun _ =>
      NoRange.bind (Heap.deref_noRange _ _) fun _ =>
        NoRange.bind (Heap.modify_noRange _ _ _) fun _ => NoRange.ok _
  · exact NoRange.ok _

theorem dll_insert_middle_noRange (mem : Bool) (h : Heap (Node T)) (l : DoublyLinkedList)
    (pos : Nat) (v : T) : NoRange (insert_middle mem h l pos v) := by
  unfold insert_middle
  exact NoRange.bind (dll_get_node_at_noRange _ _ _) fun _ =>
    NoRange.bind (Heap.deref_noRange _ _) fun _ =>
      NoRange.bind (Heap.make_unique_noRange _ _ _) fun _ =>
        NoRange.bind (Heap.deref_noRange _ _) fun _ =>
          NoRange.bind (Heap.deref_noRange _ _) fun _ =>
            NoRange.bind (Heap.modify_noRange _ _ _) fun _ =>
              NoRange.bind (Heap.modify_noRange _ _ _) fun _ =>
                NoRange.bind (Heap.modify_noRange _ _ _) fun _ =>
                  NoRange.bind (Heap.deref_noRange _ _) fun _ =>
                    NoRange.bind (Heap.modify_noRange _ _ _) fun _ =>
                      NoRange.bind (Heap.deref_noRange _ _) fun _ =>
                        NoRange.bind (Heap.modify_noRange _ _ _) fun _ => NoRange.ok _

theorem dll_erase_front_noRange (h : Heap (Node T)) (l : DoublyLinkedList) :
    NoRange (erase_front h l) := by
  unfold erase_front
  refine NoRange.bind (Heap.deref_noRange _ _) fun _ =>
    NoRange.bind (Heap.modify_noRange _ _ _) fun _ =>
      NoRange.bind (Heap.destroy_noRange _ _ _ _) fun _ => ?_
  dsimp only
  split
  · exact NoRange.bind (Heap.modify_noRange _ _ _) fun _ => NoRange.ok _
  · exact NoRange.ok _

theorem dll_erase_back_noRange (h : Heap (Node T)) (l : DoublyLinkedList) :
    NoRange (erase_back h l) := by
  unfold erase_back
  refine NoRange.bind (Heap.deref_noRange _ _) fun _ => ?_
  dsimp only
  split
  · exact NoRange.bind (Heap.deref_noRange _ _) fun _ =>
      NoRange.bind (Heap.modify_noRange _ _ _) fun _ =>
        NoRange.bind (Heap.destroy_noRange _ _ _ _) fun _ => NoRange.ok _
  · exact NoRange.bind (Heap.destroy_noRange _ _ _ _) fun _ => NoRange.ok _

theorem dll_erase_middle_noRange (h : Heap (Node T)) (l : DoublyLinkedList) (pos : Nat) :
    NoRange (erase_middle h l pos) := by
  unfold erase_middle
  exact NoRange.bind (dll_get_node_at_noRange _ _ _) fun _ =>
    NoRange.bind (Heap.deref_noRange _ _) fun _ =>
      NoRange.bind (Heap.modify_noRange _ _ _) fun _ =>
        NoRange.bind (Heap.deref_noRange _ _) fun _ =>
          NoRange.bind (Heap.modify_noRange _ _ _) fun _ =>
            NoRange.bind (Heap.deref_noRange _ _) fun _ =>
              NoRange.bind (Heap.modify_noRange _ _ _) fun _ =>
                NoRange.bind (Heap.destroy_noRange _ _ _ _) fun _ => NoRange.ok _

theorem dll_erase_body_noRange (h : Heap (Node T)) (l : DoublyLinkedList) (pos : Nat)
    (hpos : pos < l.size_) : NoRange (erase h l pos) := by
  unfold erase
  rw [BaseContainer.check_index_ok hpos]
  simp only [ok_bind]
  split
  · exact dll_erase_front_noRange _ _
  · split
    · exact dll_erase_back_noRange _ _
    · exact dll_erase_middle_noRange _ _ _

/-- `insert` throws `std::out_of_range` exactly when `pos > size()`. -/
theorem dll_insert_outOfRange_iff (mem : Bool) (h : Heap (Node T)) (l : DoublyLinkedList)
    (pos : Nat) (v : T) : insert mem h l pos v = .error .OutOfRange ↔ pos > l.size := by
  constructor
  · intro he
    by_contra hle
    have hchk := BaseContainer.check_position_ok (Nat.le_of_not_gt hle)
    have hno : NoRange (insert mem h l pos v) := by
      unfold insert
      simp only [size] at hchk
      rw [hchk]
      simp only [ok_bind]
      split
      · exact dll_push_front_noRange _ _ _ _
      · split
        · exact dll_push_back_noRange _ _ _ _
        · exact dll_insert_middle_noRange _ _ _ _ _
    exact hno he
  · intro hgt
    simp only [size] at hgt
    simp [insert, BaseContainer.check_position_error hgt]

/-- `erase` throws `std::out_of_range` exactly when `pos >= size()`. -/
theorem dll_erase_outOfRange_iff (h : Heap (Node T)) (l : DoublyLinkedList) (pos : Nat) :
    erase h l pos = .error .OutOfRange ↔ pos ≥ l.size := by
  constructor
  · intro he
    by_contra hle
    exact dll_erase_body_noRange h l pos (Nat.lt_of_not_ge hle) he
  · intro hge
    simp only [size] at hge
    simp [erase, BaseContainer.check_index_error hge]

/-- `operator[]` throws `std::out_of_range` exactly when `idx >= size()`. -/
theorem dll_index_outOfRange_iff (h : Heap (Node T)) (l : DoublyLinkedList) (idx : Nat) :
    index h l idx = .error .OutOfRange ↔ idx ≥ l.size := by
  constructor
  · intro he
    by_contra hle
    have hchk := BaseContainer.check_index_ok (Nat.lt_of_not_ge hle)
    have hno : NoRange (index h l idx) := by
      unfold index
      simp only [size] at hchk
      rw [hchk]
      simp only [ok_bind]
      exact NoRange.bind (dll_get_node_at_noRange _ _ _) fun _ =>
        NoRange.bind (Heap.deref_noRange _ _) fun _ => NoRange.ok _
    exact hno he
  · intro hge
    simp only [size] at hge
    simp [index, BaseContainer.check_index_error hge]

end DoublyLinkedList

/-! ## Sessions refine the sequence contract -/

@[simp] theorem of_unit_ok {T σ : Type} (old new : σ) :
    (Outcome.of_unit old (.ok new) : σ × Outcome T) = (new, .done) := rfl

@[simp] theorem of_unit_error {T σ : Type} (old : σ) (e : Error) :
    (Outcome.of_unit old (.error e) : σ × Outcome T) = (old, .thrown e) := rfl

namespace SimpleVector

variable {T : Type}

theorem step_refines {s : SimpleVector T} {xs : List T} (hs : s.Holds xs) (op : Op T) :
    (step id s op).2 = (Sequence.step xs op).2 ∧
      (step id s op).1.Holds (Sequence.step xs op).1 := by
  cases op with
  | push_back v =>
    obtain ⟨s', e, hs'⟩ := push_back_holds hs v
    simp only [step, e, of_unit_ok, Sequence.step]
    exact ⟨trivial, hs'⟩
  | insert pos v =>
    by_cases hpos : pos ≤ xs.length
    · obtain ⟨s', e, hs'⟩ := insert_holds hs pos hpos v
      simp only [step, e, of_unit_ok, Sequence.step, hpos, if_true]
      exact ⟨trivial, hs'⟩
    · have e : insert id true s pos v = .error .OutOfRange :=
        (insert_outOfRange_iff id true s pos v).mpr (by rw [hs.size_eq]; omega)
      simp only [step, e, of_unit_error, Sequence.step, hpos, if_false]
      exact ⟨trivial, hs⟩
  | erase pos =>
    by_cases hpos : pos < xs.length
    · obtain ⟨s', e, hs', _⟩ := erase_holds id hs pos hpos
      simp only [step, e, of_unit_ok, Sequence.step, hpos, if_true]
      exact ⟨trivial, hs'⟩
    · have e : erase id s pos = .error .OutOfRange :=
        (erase_outOfRange_iff id s pos).mpr (by rw [hs.size_eq]; omega)
      simp only [step, e, of_unit_error, Sequence.step, hpos, if_false]
      exact ⟨trivial, hs⟩
  | clear =>
    obtain ⟨s', e, hs', _⟩ := clear_holds hs
    simp only [step, e, of_unit_ok, Sequence.step]
    exact ⟨trivial, hs'⟩
  | index idx =>
    cases hx : xs[idx]? with
    | some x =>
      simp only [step, index_holds hs hx, Sequence.step, hx]
      exact ⟨trivial, hs⟩
    | none =>
      have e : index s idx = .error .OutOfRange :=
        (index_outOfRange_iff s idx).mpr (by
          rw [hs.size_eq]
          exact List.getElem?_eq_none_iff.mp hx)
      simp only [step, e, Sequence.step, hx]
      exact ⟨trivial, hs⟩
  | size =>
    simp only [step, Sequence.step, hs.size_eq]
    exact ⟨trivial, hs⟩
  | empty =>
    simp only [step, Sequence.step, empty, hs.1]
    exact ⟨trivial, hs⟩

theorem observe_holds (render : T → String) {s : SimpleVector T} {xs : List T}
    (hs : s.Holds xs) (o : Outcome T) :
    observe render s o = Sequence.observe render xs o := by
  simp only [observe, Sequence.observe, hs.size_eq, contents_holds hs, print_holds render hs]

/-- A session on a vector whose moves are copies shows what the sequence contract
prescribes. -/
theorem session_refines (render : T → String) (ops : List (Op T)) :
    ∀ (s : SimpleVector T) (xs : List T), s.Holds xs →
      session id render s ops = Sequence.session render xs ops := by
  induction ops with
  | nil => intro s xs _; rfl
  | cons op ops ih =>
    intro s xs hs
    obtain ⟨h1, h2⟩ := step_refines hs op
    simp only [session, Sequence.session]
    rw [observe_holds render h2, h1, ih _ _ h2]

end SimpleVector

namespace SinglyLinkedList

variable {T : Type}

theorem sll_step_refines {st : Heap (Node T) × SinglyLinkedList} {cells : List (Nat × T)}
    (hw : WellFormed st.1 st.2 cells) (op : Op T) :
    ∃ cells', (step st op).2 = (Sequence.step (cells.map Prod.snd) op).2 ∧
      WellFormed (step st op).1.1 (step st op).1.2 cells' ∧
      cells'.map Prod.snd = (Sequence.step (cells.map Prod.snd) op).1 := by
  have hsz : st.2.size = (cells.map Prod.snd).length := by simp [size, hw.size]
  cases op with
  | push_back v =>
    obtain ⟨h', l', e, hw'⟩ := sll_push_back_wf hw v
    refine ⟨cells ++ [(st.1.length, v)], ?_, ?_, ?_⟩
    · simp only [step, e, of_unit_ok, Sequence.step]
    · simp only [step, e, of_unit_ok]
      exact hw'
    · simp [Sequence.step]
  | insert pos v =>
    by_cases hpos : pos ≤ (cells.map Prod.snd).length
    · obtain ⟨h', l', e, hw'⟩ := sll_insert_wf hw pos (by simpa using hpos) v
      refine ⟨cells.take pos ++ (st.1.length, v) :: cells.drop pos, ?_, ?_, ?_⟩
      · simp only [step, e, of_unit_ok, Sequence.step, hpos, if_true]
      · simp only [step, e, of_unit_ok]
        exact hw'
      · simp only [Sequence.step, hpos, if_true]
        simp [List.map_take, List.map_drop]
    · have e : insert true st.1 st.2 pos v = .error .OutOfRange :=
        (sll_insert_outOfRange_iff true st.1 st.2 pos v).mpr (by rw [hsz]; omega)
      refine ⟨cells, ?_, ?_, ?_⟩
      · simp only [step, e, of_unit_error, Sequence.step, hpos, if_false]
      · simp only [step, e, of_unit_error]
        exact hw
      · simp only [Sequence.step, hpos, if_false]
  | erase pos =>
    by_cases hpos : pos < (cells.map Prod.snd).length
    · obtain ⟨h', l', e, hw'⟩ := sll_erase_wf hw pos (by simpa using hpos)
      refine ⟨cells.take pos ++ cells.drop (pos + 1), ?_, ?_, ?_⟩
      · simp only [step, e, of_unit_ok, Sequence.step, hpos, if_true]
      · simp only [step, e, of_unit_ok]
        exact hw'
      · simp only [Sequence.step, hpos, if_true]
        simp [List.map_take, List.map_drop]
    · have e : erase st.1 st.2 pos = .error .OutOfRange :=
        (sll_erase_outOfRange_iff st.1 st.2 pos).mpr (by rw [hsz]; omega)
      refine ⟨cells, ?_, ?_, ?_⟩
      · simp only [step, e, of_unit_error, Sequence.step, hpos, if_false]
      · simp only [step, e, of_unit_error]
        exact hw
      · simp only [Sequence.step, hpos, if_false]
  | clear =>
    obtain ⟨h', l', e, hw'⟩ := sll_clear_wf hw
    refine ⟨[], ?_, ?_, ?_⟩
    · simp only [step, e, of_unit_ok, Sequence.step]
    · simp only [step, e, of_unit_ok]
      exact hw'
    · simp [Sequence.step]
  | index idx =>
    cases hx : (cells.map Prod.snd)[idx]? with
    | some x =>
      refine ⟨cells, ?_, ?_, ?_⟩
      · simp only [step, sll_index_wf hw hx, Sequence.step, hx]
      · simp only [step, sll_index_wf hw hx]
        exact hw
      · simp only [Sequence.step, hx]
    | none =>
      have e : index st.1 st.2 idx = .error .OutOfRange :=
        (sll_index_outOfRange_iff st.1 st.2 idx).mpr (by
          rw [hsz]
          exact List.getElem?_eq_none_iff.mp hx)
      refine ⟨cells, ?_, ?_, ?_⟩
      · simp only [step, e, Sequence.step, hx]
      · simp only [step, e]
        exact hw
      · simp only [Sequence.step, hx]
  | size =>
    refine ⟨cells, ?_, hw, rfl⟩
    simp only [step, Sequence.step, hsz]
  | empty =>
    refine ⟨cells, ?_, hw, rfl⟩
    simp only [step, Sequence.step, empty, hw.size, List.length_map]

theorem sll_observe_wf (render : T → String) {st : Heap (Node T) × SinglyLinkedList}
    {cells : List (Nat × T)} (hw : WellFormed st.1 st.2 cells) (o : Outcome T) :
    observe render st o = Sequence.observe render (cells.map Prod.snd) o := by
  have hsz : st.2.size = (cells.map Prod.snd).length := by simp [size, hw.size]
  simp only [observe, Sequence.observe, hsz, sll_contents_wf hw, sll_print_wf render hw,
    List.map_map]
  rfl

/-- A session on a list shows what the sequence contract prescribes. -/
theorem sll_session_refines (render : T → String) (ops : List (Op T)) :
    ∀ (st : Heap (Node T) × SinglyLinkedList) (cells : List (Nat × T)),
      WellFormed st.1 st.2 cells →
      session render st ops = Sequence.session render (cells.map Prod.snd) ops := by
  induction ops with
  | nil => intro st cells _; rfl
  | cons op ops ih =>
    intro st cells hw
    obtain ⟨cells', h1, h2, h3⟩ := sll_step_refines hw op
    simp only [session, Sequence.session]
    rw [sll_observe_wf render h2, h1, ih _ _ h2, h3]

end SinglyLinkedList

namespace DoublyLinkedList

variable {T : Type}

theorem dll_step_refines {st : Heap (Node T) × DoublyLinkedList} {cells : List (Nat × T)}
    (hw : WellFormed st.1 st.2 cells) (op : Op T) :
    ∃ cells', (step st op).2 = (Sequence.step (cells.map Prod.snd) op).2 ∧
      WellFormed (step st op).1.1 (step st op).1.2 cells' ∧
      cells'.map Prod.snd = (Sequence.step (cells.map Prod.snd) op).1 := by
  have hsz : st.2.size = (cells.map Prod.snd).length := by simp [size, hw.size]
  cases op with
  | push_back v =>
    obtain ⟨h', l', e, hw'⟩ := dll_push_back_wf hw v
    refine ⟨cells ++ [(st.1.length, v)], ?_, ?_, ?_⟩
    · simp only [step, e, of_unit_ok, Sequence.step]
    · simp only [step, e, of_unit_ok]
      exact hw'
    · simp [Sequence.step]
  | insert pos v =>
    by_cases hpos : pos ≤ (cells.map Prod.snd).length
    · obtain ⟨h', l', e, hw'⟩ := dll_insert_wf hw pos (by simpa using hpos) v
      refine ⟨cells.take pos ++ (st.1.length, v) :: cells.drop pos, ?_, ?_, ?_⟩
      · simp only [step, e, of_unit_ok, Sequence.step, hpos, if_true]
      · simp only [step, e, of_unit_ok]
        exact hw'
      · simp only [Sequence.step, hpos, if_true]
        simp [List.map_take, List.map_drop]
    · have e : insert true st.1 st.2 pos v = .error .OutOfRange :=
        (dll_insert_outOfRange_iff true st.1 st.2 pos v).mpr (by rw [hsz]; omega)
      refine ⟨cells, ?_, ?_, ?_⟩
      · simp only [step, e, of_unit_error, Sequence.step, hpos, if_false]
      · simp only [step, e, of_unit_error]
        exact hw
      · simp only [Sequence.step, hpos, if_false]
  | erase pos =>
    by_cases hpos : pos < (cells.map Prod.snd).length
    · obtain ⟨h', l', e, hw'⟩ := dll_erase_wf hw pos (by simpa using hpos)
      refine ⟨cells.take pos ++ cells.drop (pos + 1), ?_, ?_, ?_⟩
      · simp only [step, e, of_unit_ok, Sequence.step, hpos, if_true]
      · simp only [step, e, of_unit_ok]
        exact hw'
      · simp only [Sequence.step, hpos, if_true]
        simp [List.map_take, List.map_drop]
    · have e : erase st.1 st.2 pos = .error .OutOfRange :=
        (dll_erase_outOfRange_iff st.1 st.2 pos).mpr (by rw [hsz]; omega)
      refine ⟨cells, ?_, ?_, ?_⟩
      · simp only [step, e, of_unit_error, Sequence.step, hpos, if_false]
      · simp only [step, e, of_unit_error]
        exact hw
      · simp only [Sequence.step, hpos, if_false]
  | clear =>
    obtain ⟨h', l', e, hw'⟩ := dll_clear_wf hw
    refine ⟨[], ?_, ?_, ?_⟩
    · simp only [step, e, of_unit_ok, Sequence.step]
    · simp only [step, e, of_unit_ok]
      exact hw'
    · simp [Sequence.step]
  | index idx =>
    cases hx : (cells.map Prod.snd)[idx]? with
    | some x =>
      refine ⟨cells, ?_, ?_, ?_⟩
      · simp only [step, dll_index_wf hw hx, Sequence.step, hx]
      · simp only [step, dll_index_wf hw hx]
        exact hw
      · simp only [Sequence.step, hx]
    | none =>
      have e : index st.1 st.2 idx = .error .OutOfRange :=
        (dll_index_outOfRange_iff st.1 st.2 idx).mpr (by
          rw [hsz]
          exact List.getElem?_eq_none_iff.mp hx)
      refine ⟨cells, ?_, ?_, ?_⟩
      · simp only [step, e, Sequence.step, hx]
      · simp only [step, e]
        exact hw
      · simp only [Sequence.step, hx]
  | size =>
    refine ⟨cells, ?_, hw, rfl⟩
    simp only [step, Sequence.step, hsz]
  | empty =>
    refine ⟨cells, ?_, hw, rfl⟩
    simp only [step, Sequence.step, empty, hw.size, List.length_map]

theorem dll_observe_wf (render : T → String) {st : Heap (Node T) × DoublyLinkedList}
    {cells : List (Nat × T)} (hw : WellFormed st.1 st.2 cells) (o : Outcome T) :
    observe render st o = Sequence.observe render (cells.map Prod.snd) o := by
  have hsz : st.2.size = (cells.map Prod.snd).length := by simp [size, hw.size]
  simp only [observe, Sequence.observe, hsz, dll_contents_wf hw, dll_print_wf render hw,
    List.map_map]
  rfl

/-- A session on a list shows what the sequence contract prescribes. -/
theorem dll_session_refines (render : T → String) (ops : List (Op T)) :
    ∀ (st : Heap (Node T) × DoublyLinkedList) (cells : List (Nat × T)),
      WellFormed st.1 st.2 cells →
      session render st ops = Sequence.session render (cells.map Prod.snd) ops := by
  induction ops with
  | nil => intro st cells _; rfl
  | cons op ops ih =>
    intro st cells hw
    obtain ⟨cells', h1, h2, h3⟩ := dll_step_refines hw op
    simp only [session, Sequence.session]
    rw [dll_observe_wf render h2, h1, ih _ _ h2, h3]

end DoublyLinkedList

/-- Sessions from the empty containers: for an element type whose move is a copy,
the vector and the two lists show the same observations after every call. -/
theorem sessions_agree_of_copy_moves {T : Type} (render : T → String) (ops : List (Op T)) :
    SimpleVector.session id render SimpleVector.empty_vector ops
        = Sequence.session render [] ops ∧
      SinglyLinkedList.session render ([], SinglyLinkedList.empty_list) ops
        = Sequence.session render [] ops ∧
      DoublyLinkedList.session render ([], DoublyLinkedList.empty_list) ops
        = Sequence.session render [] ops :=
  ⟨SimpleVector.session_refines render ops _ _ SimpleVector.empty_vector_holds,
    SinglyLinkedList.sll_session_refines render ops ([], SinglyLinkedList.empty_list) []
      SinglyLinkedList.sll_empty_list_wellFormed,
    DoublyLinkedList.dll_session_refines render ops ([], DoublyLinkedList.empty_list) []
      DoublyLinkedList.dll_empty_list_wellFormed⟩

/-! ## Sample states are well formed -/

theorem SimpleVector.sample_holds : SimpleVector.sample.Holds [1, 2, 3] := by
  refine ⟨rfl, by decide, rfl, ?_⟩
  intro i hi
  have hi3 : i < 3 := hi
  interval_cases i <;> rfl

theorem SinglyLinkedList.sll_sample_wellFormed :
    SinglyLinkedList.WellFormed SinglyLinkedList.sample_heap SinglyLinkedList.sample
      [(0, 1), (1, 2), (2, 3)] :=
  ⟨rfl, rfl, rfl, ⟨rfl, rfl, rfl, trivial⟩, by decide⟩

theorem DoublyLinkedList.dll_sample_wellFormed :
    DoublyLinkedList.WellFormed DoublyLinkedList.sample_heap DoublyLinkedList.sample
      [(0, 1), (1, 2), (2, 3)] :=
  ⟨rfl, rfl, rfl, ⟨rfl, rfl, rfl, trivial⟩, by decide⟩

/-! ## Positional insertion and removal -/

/-- C2. `SimpleVector::erase`: on a vector holding `xs`, for `pos < |xs|`,
`erase(pos)` succeeds; afterwards the vector holds `xs[0..pos) ++ xs[pos+1..)`,
`size()` is `|xs| - 1`, every index `k < pos` reads what it read before and every
index `k - 1` with `pos < k < |xs|` reads what index `k` read before. -/
theorem SimpleVector.erase_correct {T : Type} (mv : T → T) (s : SimpleVector T) (xs : List T)
    (pos : Nat) (hs : s.Holds xs) (hpos : pos < xs.length) :
    ∃ s', SimpleVector.erase mv s pos = .ok s' ∧
      s'.Holds (xs.take pos ++ xs.drop (pos + 1)) ∧
      s'.contents = .ok (xs.take pos ++ xs.drop (pos + 1)) ∧
      s'.size = xs.length - 1 ∧
      (∀ k, k < pos → s'.index k = s.index k) ∧
      (∀ k, pos < k → k < xs.length → s'.index (k - 1) = s.index k) := by
  obtain ⟨s', e, hs', _⟩ := SimpleVector.erase_holds mv hs pos hpos
  have htl : (xs.take pos).length = pos := by simp [List.length_take]; omega
  refine ⟨s', e, hs', SimpleVector.contents_holds hs', ?_, ?_, ?_⟩
  · rw [hs'.size_eq]
    simp [List.length_take, List.length_drop]
    omega
  · intro k hk
    have hx : xs[k]? = some xs[k] := List.getElem?_eq_getElem (by omega)
    rw [SimpleVector.index_holds hs hx]
    apply SimpleVector.index_holds hs'
    rw [List.getElem?_append_left (by omega), List.getElem?_take_of_lt hk, hx]
  · intro k hk hkn
    have hx : xs[k]? = some xs[k] := List.getElem?_eq_getElem hkn
    rw [SimpleVector.index_holds hs hx]
    apply SimpleVector.index_holds hs'
    rw [List.getElem?_append_right (by omega), htl, List.getElem?_drop, ← hx]
    congr 1
    omega

theorem SimpleVector.erase_correct_witness :
    SimpleVector.sample.Holds [1, 2, 3] ∧ 1 < [(1 : Int), 2, 3].length ∧
    ∃ s', SimpleVector.erase id SimpleVector.sample 1 = .ok s' ∧
      s'.Holds ([(1 : Int), 2, 3].take 1 ++ [(1 : Int), 2, 3].drop (1 + 1)) ∧
      s'.contents = .ok ([(1 : Int), 2, 3].take 1 ++ [(1 : Int), 2, 3].drop (1 + 1)) ∧
      s'.size = [(1 : Int), 2, 3].length - 1 ∧
      (∀ k, k < 1 → s'.index k = SimpleVector.sample.index k) ∧
      (∀ k, 1 < k → k < [(1 : Int), 2, 3].length →
        s'.index (k - 1) = SimpleVector.sample.index k) :=
  ⟨SimpleVector.sample_holds, by decide,
    SimpleVector.erase_correct id SimpleVector.sample [1, 2, 3] 1 SimpleVector.sample_holds
      (by decide)⟩

/-- C3. `DoublyLinkedList::insert`: on a well-formed list whose nodes are `cells`
(forward traversal `xs`, the values of `cells`), for `pos ≤ |xs|` and an allocator
that grants the request, `insert(pos, v)` succeeds in each of its branches
(`pos == 0`, `pos == size_`, in between); afterwards the list is well formed with
the new node spliced in at position `pos`, its forward traversal is
`xs[0..pos) ++ [v] ++ xs[pos..)`, `size()` is `|xs| + 1` and `operator[](pos)` is
`v`. -/
theorem DoublyLinkedList.insert_dll_correct {T : Type} (h : Heap (DoublyLinkedList.Node T))
    (l : DoublyLinkedList) (cells : List (Nat × T)) (pos : Nat) (v : T)
    (hw : DoublyLinkedList.WellFormed h l cells) (hpos : pos ≤ cells.length) :
    ∃ h' l', DoublyLinkedList.insert true h l pos v = .ok (h', l') ∧
      DoublyLinkedList.WellFormed h' l' (cells.take pos ++ (h.length, v) :: cells.drop pos) ∧
      DoublyLinkedList.forward h' l'
        = .ok ((cells.map Prod.snd).take pos ++ [v] ++ (cells.map Prod.snd).drop pos) ∧
      l'.size = cells.length + 1 ∧
      DoublyLinkedList.index h' l' pos = .ok v ∧
      (pos = 0 → DoublyLinkedList.push_front true h l v = .ok (h', l')) ∧
      (pos ≠ 0 → pos = cells.length →
        DoublyLinkedList.push_back true h l v = .ok (h', l')) ∧
      (pos ≠ 0 → pos ≠ cells.length →
        DoublyLinkedList.insert_middle true h l pos v = .ok (h', l')) := by
  obtain ⟨h', l', e, hw'⟩ := DoublyLinkedList.dll_insert_wf hw pos hpos v
  have hchk : BaseContainer.check_position pos cells.length = .ok () :=
    BaseContainer.check_position_ok hpos
  have e' := e
  simp only [DoublyLinkedList.insert, hw.size, hchk, ok_bind] at e'
  refine ⟨h', l', e, hw', ?_, ?_, ?_, ?_, ?_, ?_⟩
  rotate_left 3
  · intro h0
    rw [if_pos h0] at e'
    exact e'
  · intro h0 hn
    rw [if_neg h0, if_pos hn] at e'
    exact e'
  · intro h0 hn
    rw [if_neg h0, if_neg hn] at e'
    exact e'
  · rw [DoublyLinkedList.dll_forward_wf hw']
    simp [List.map_take, List.map_drop]
  · simp only [DoublyLinkedList.size, hw'.size]
    simp [List.length_take, List.length_drop]
    omega
  · apply DoublyLinkedList.dll_index_wf hw'
    simp only [List.map_append, List.map_cons, List.map_take]
    rw [List.getElem?_append_right (by simp [List.length_take])]
    simp [List.length_take, Nat.min_eq_left hpos]

theorem DoublyLinkedList.insert_dll_correct_witness :
    DoublyLinkedList.WellFormed DoublyLinkedList.sample_heap DoublyLinkedList.sample [(0, 1), (1, 2), (2, 3)] ∧
    1 ≤ [((0 : Nat), (1 : Int)), (1, 2), (2, 3)].length ∧
    ∃ h' l', DoublyLinkedList.insert true DoublyLinkedList.sample_heap DoublyLinkedList.sample 1 7 = .ok (h', l') ∧
      DoublyLinkedList.WellFormed h' l'
        ([((0 : Nat), (1 : Int)), (1, 2), (2, 3)].take 1
          ++ (DoublyLinkedList.sample_heap.length, 7) :: [((0 : Nat), (1 : Int)), (1, 2), (2, 3)].drop 1) ∧
      DoublyLinkedList.forward h' l'
        = .ok (([((0 : Nat), (1 : Int)), (1, 2), (2, 3)].map Prod.snd).take 1 ++ [7]
          ++ ([((0 : Nat), (1 : Int)), (1, 2), (2, 3)].map Prod.snd).drop 1) ∧
      l'.size = [((0 : Nat), (1 : Int)), (1, 2), (2, 3)].length + 1 ∧
      DoublyLinkedList.index h' l' 1 = .ok 7 ∧
      (1 = 0 → DoublyLinkedList.push_front true DoublyLinkedList.sample_heap
        DoublyLinkedList.sample 7 = .ok (h', l')) ∧
      (1 ≠ 0 → 1 = [((0 : Nat), (1 : Int)), (1, 2), (2, 3)].length →
        DoublyLinkedList.push_back true DoublyLinkedList.sample_heap
          DoublyLinkedList.sample 7 = .ok (h', l')) ∧
      (1 ≠ 0 → 1 ≠ [((0 : Nat), (1 : Int)), (1, 2), (2, 3)].length →
        DoublyLinkedList.insert_middle true DoublyLinkedList.sample_heap
          DoublyLinkedList.sample 1 7 = .ok (h', l')) :=
  ⟨DoublyLinkedList.dll_sample_wellFormed, by decide,
    DoublyLinkedList.insert_dll_correct DoublyLinkedList.sample_heap DoublyLinkedList.sample [(0, 1), (1, 2), (2, 3)] 1 7
      DoublyLinkedList.dll_sample_wellFormed (by decide)⟩

/-- C4. `DoublyLinkedList::erase`: on a well-formed list whose nodes are
`cells` (forward traversal `xs`), for `pos < |xs|`, `erase(pos)` succeeds in each of
its branches (`erase_front` for `pos == 0`, which covers the list of one element,
`erase_back` for `pos == size_ - 1`, `erase_middle` otherwise); afterwards the
list is well formed over the remaining nodes, its forward traversal is
`xs[0..pos) ++ xs[pos+1..)` and `size()` is `|xs| - 1`. -/
theorem DoublyLinkedList.erase_dll_correct {T : Type} (h : Heap (DoublyLinkedList.Node T))
    (l : DoublyLinkedList) (cells : List (Nat × T)) (pos : Nat)
    (hw : DoublyLinkedList.WellFormed h l cells) (hpos : pos < cells.length) :
    ∃ h' l', DoublyLinkedList.erase h l pos = .ok (h', l') ∧
      DoublyLinkedList.WellFormed h' l' (cells.take pos ++ cells.drop (pos + 1)) ∧
      DoublyLinkedList.forward h' l'
        = .ok ((cells.map Prod.snd).take pos ++ (cells.map Prod.snd).drop (pos + 1)) ∧
      l'.size = cells.length - 1 ∧
      (pos = 0 → DoublyLinkedList.erase_front h l = .ok (h', l')) ∧
      (pos ≠ 0 → pos = cells.length - 1 →
        DoublyLinkedList.erase_back h l = .ok (h', l')) ∧
      (pos ≠ 0 → pos ≠ cells.length - 1 →
        DoublyLinkedList.erase_middle h l pos = .ok (h', l')) := by
  obtain ⟨h', l', e, hw'⟩ := DoublyLinkedList.dll_erase_wf hw pos hpos
  have hchk : BaseContainer.check_index pos cells.length = .ok () :=
    BaseContainer.check_index_ok hpos
  have e' := e
  simp only [DoublyLinkedList.erase, hw.size, hchk, ok_bind] at e'
  refine ⟨h', l', e, hw', ?_, ?_, ?_, ?_, ?_⟩
  rotate_left 2
  · intro h0
    rw [if_pos h0] at e'
    exact e'
  · intro h0 hn
    rw [if_neg h0, if_pos hn] at e'
    exact e'
  · intro h0 hn
    rw [if_neg h0, if_neg hn] at e'
    exact e'
  · rw [DoublyLinkedList.dll_forward_wf hw']
    simp [List.map_take, List.map_drop]
  · simp only [DoublyLinkedList.size, hw'.size]
    simp [List.length_take, List.length_drop]
    omega

theorem DoublyLinkedList.erase_dll_correct_witness :
    DoublyLinkedList.WellFormed DoublyLinkedList.sample_heap DoublyLinkedList.sample [(0, 1), (1, 2), (2, 3)] ∧
    2 < [((0 : Nat), (1 : Int)), (1, 2), (2, 3)].length ∧
    ∃ h' l', DoublyLinkedList.erase DoublyLinkedList.sample_heap DoublyLinkedList.sample 2 = .ok (h', l') ∧
      DoublyLinkedList.WellFormed h' l'
        ([((0 : Nat), (1 : Int)), (1, 2), (2, 3)].take 2
          ++ [((0 : Nat), (1 : Int)), (1, 2), (2, 3)].drop (2 + 1)) ∧
      DoublyLinkedList.forward h' l'
        = .ok (([((0 : Nat), (1 : Int)), (1, 2), (2, 3)].map Prod.snd).take 2
          ++ ([((0 : Nat), (1 : Int)), (1, 2), (2, 3)].map Prod.snd).drop (2 + 1)) ∧
      l'.size = [((0 : Nat), (1 : Int)), (1, 2), (2, 3)].length - 1 ∧
      (2 = 0 → DoublyLinkedList.erase_front DoublyLinkedList.sample_heap
        DoublyLinkedList.sample = .ok (h', l')) ∧
      (2 ≠ 0 → 2 = [((0 : Nat), (1 : Int)), (1, 2), (2, 3)].length - 1 →
        DoublyLinkedList.erase_back DoublyLinkedList.sample_heap
          DoublyLinkedList.sample = .ok (h', l')) ∧
      (2 ≠ 0 → 2 ≠ [((0 : Nat), (1 : Int)), (1, 2), (2, 3)].length - 1 →
        DoublyLinkedList.erase_middle DoublyLinkedList.sample_heap
          DoublyLinkedList.sample 2 = .ok (h', l')) :=
  ⟨DoublyLinkedList.dll_sample_wellFormed, by decide,
    DoublyLinkedList.erase_dll_correct DoublyLinkedList.sample_heap DoublyLinkedList.sample [(0, 1), (1, 2), (2, 3)] 2
      DoublyLinkedList.dll_sample_wellFormed (by decide)⟩

/-- C5. `SinglyLinkedList::insert`: on a well-formed list whose nodes are `cells`
(forward traversal `xs`, the values of `cells`), for `pos ≤ |xs|` and an allocator
that grants the request, `insert(pos, v)` succeeds in each of its branches
(`pos == 0`, `pos == size_`, in between); afterwards the list is well formed with
the new node spliced in at position `pos`, its forward traversal is
`xs[0..pos) ++ [v] ++ xs[pos..)`, `size()` is `|xs| + 1` and `operator[](pos)` is
`v`. -/
theorem SinglyLinkedList.insert_sll_correct {T : Type} (h : Heap (SinglyLinkedList.Node T))
    (l : SinglyLinkedList) (cells : List (Nat × T)) (pos : Nat) (v : T)
    (hw : SinglyLinkedList.WellFormed h l cells) (hpos : pos ≤ cells.length) :
    ∃ h' l', SinglyLinkedList.insert true h l pos v = .ok (h', l') ∧
      SinglyLinkedList.WellFormed h' l' (cells.take pos ++ (h.length, v) :: cells.drop pos) ∧
      SinglyLinkedList.forward h' l'
        = .ok ((cells.map Prod.snd).take pos ++ [v] ++ (cells.map Prod.snd).drop pos) ∧
      l'.size = cells.length + 1 ∧
      SinglyLinkedList.index h' l' pos = .ok v := by
  obtain ⟨h', l', e, hw'⟩ := SinglyLinkedList.sll_insert_wf hw pos hpos v
  refine ⟨h', l', e, hw', ?_, ?_, ?_⟩
  · rw [SinglyLinkedList.sll_forward_wf hw']
    simp [List.map_take, List.map_drop]
  · simp only [SinglyLinkedList.size, hw'.size]
    simp [List.length_take, List.length_drop]
    omega
  · apply SinglyLinkedList.sll_index_wf hw'
    simp only [List.map_append, List.map_cons, List.map_take]
    rw [List.getElem?_append_right (by simp [List.length_take])]
    simp [List.length_take, Nat.min_eq_left hpos]

theorem SinglyLinkedList.insert_sll_correct_witness :
    SinglyLinkedList.WellFormed SinglyLinkedList.sample_heap SinglyLinkedList.sample [(0, 1), (1, 2), (2, 3)] ∧
    1 ≤ [((0 : Nat), (1 : Int)), (1, 2), (2, 3)].length ∧
    ∃ h' l', SinglyLinkedList.insert true SinglyLinkedList.sample_heap SinglyLinkedList.sample 1 7 = .ok (h', l') ∧
      SinglyLinkedList.WellFormed h' l'
        ([((0 : Nat), (1 : Int)), (1, 2), (2, 3)].take 1
          ++ (SinglyLinkedList.sample_heap.length, 7) :: [((0 : Nat), (1 : Int)), (1, 2), (2, 3)].drop 1) ∧
      SinglyLinkedList.forward h' l'
        = .ok (([((0 : Nat), (1 : Int)), (1, 2), (2, 3)].map Prod.snd).take 1 ++ [7]
          ++ ([((0 : Nat), (1 : Int)), (1, 2), (2, 3)].map Prod.snd).drop 1) ∧
      l'.size = [((0 : Nat), (1 : Int)), (1, 2), (2, 3)].length + 1 ∧
      SinglyLinkedList.index h' l' 1 = .ok 7 :=
  ⟨SinglyLinkedList.sll_sample_wellFormed, by decide,
    SinglyLinkedList.insert_sll_correct SinglyLinkedList.sample_heap SinglyLinkedList.sample [(0, 1), (1, 2), (2, 3)] 1 7
      SinglyLinkedList.sll_sample_wellFormed (by decide)⟩

/-- C6. `SinglyLinkedList::erase`: on a well-formed list whose nodes are
`cells` (traversal `xs`), for `pos < |xs|`, `erase(pos)` succeeds; afterwards the
list is well formed over the remaining nodes, its traversal is
`xs[0..pos) ++ xs[pos+1..)`, `size()` is `|xs| - 1`, and `tail_` points to the last
remaining node, or is null when none remains; when the erased node was the last
one, that is the node before it. -/
theorem SinglyLinkedList.erase_sll_correct {T : Type} (h : Heap (SinglyLinkedList.Node T))
    (l : SinglyLinkedList) (cells : List (Nat × T)) (pos : Nat)
    (hw : SinglyLinkedList.WellFormed h l cells) (hpos : pos < cells.length) :
    ∃ h' l', SinglyLinkedList.erase h l pos = .ok (h', l') ∧
      SinglyLinkedList.WellFormed h' l' (cells.take pos ++ cells.drop (pos + 1)) ∧
      SinglyLinkedList.forward h' l'
        = .ok ((cells.map Prod.snd).take pos ++ (cells.map Prod.snd).drop (pos + 1)) ∧
      l'.size = cells.length - 1 ∧
      l'.tail_ = back none (cells.take pos ++ cells.drop (pos + 1)) ∧
      (pos + 1 = cells.length → l'.tail_ = back none (cells.take pos)) := by
  obtain ⟨h', l', e, hw'⟩ := SinglyLinkedList.sll_erase_wf hw pos hpos
  refine ⟨h', l', e, hw', ?_, ?_, ?_, ?_⟩
  · rw [SinglyLinkedList.sll_forward_wf hw']
    simp [List.map_take, List.map_drop]
  · simp only [SinglyLinkedList.size, hw'.size]
    simp [List.length_take, List.length_drop]
    omega
  · exact hw'.tail
  · intro hlast
    rw [hw'.tail, List.drop_eq_nil_of_le (by omega), List.append_nil]

theorem SinglyLinkedList.erase_sll_correct_witness :
    SinglyLinkedList.WellFormed SinglyLinkedList.sample_heap SinglyLinkedList.sample [(0, 1), (1, 2), (2, 3)] ∧
    2 < [((0 : Nat), (1 : Int)), (1, 2), (2, 3)].length ∧
    ∃ h' l', SinglyLinkedList.erase SinglyLinkedList.sample_heap SinglyLinkedList.sample 2 = .ok (h', l') ∧
      SinglyLinkedList.WellFormed h' l'
        ([((0 : Nat), (1 : Int)), (1, 2), (2, 3)].take 2
          ++ [((0 : Nat), (1 : Int)), (1, 2), (2, 3)].drop (2 + 1)) ∧
      SinglyLinkedList.forward h' l'
        = .ok (([((0 : Nat), (1 : Int)), (1, 2), (2, 3)].map Prod.snd).take 2
          ++ ([((0 : Nat), (1 : Int)), (1, 2), (2, 3)].map Prod.snd).drop (2 + 1)) ∧
      l'.size = [((0 : Nat), (1 : Int)), (1, 2), (2, 3)].length - 1 ∧
      l'.tail_ = back none ([((0 : Nat), (1 : Int)), (1, 2), (2, 3)].take 2
          ++ [((0 : Nat), (1 : Int)), (1, 2), (2, 3)].drop (2 + 1)) ∧
      (2 + 1 = [((0 : Nat), (1 : Int)), (1, 2), (2, 3)].length →
        l'.tail_ = back none ([((0 : Nat), (1 : Int)), (1, 2), (2, 3)].take 2)) :=
  ⟨SinglyLinkedList.sll_sample_wellFormed, by decide,
    SinglyLinkedList.erase_sll_correct SinglyLinkedList.sample_heap SinglyLinkedList.sample [(0, 1), (1, 2), (2, 3)] 2
      SinglyLinkedList.sll_sample_wellFormed (by decide)⟩

/-! ## Position checks -/

/-- C7. For `SimpleVector`, `SinglyLinkedList` and `DoublyLinkedList`, in every
state and for every position, `insert(pos, v)` throws `std::out_of_range` exactly
when `pos > size()`; so `insert(size() + 1, v)` always throws it, and
`insert(size(), v)` succeeds on every container that holds an element sequence
(the allocator granting the request). -/
theorem insert_outOfRange_iff_gt {T : Type} :
    (∀ (mv : T → T) (mem : Bool) (s : SimpleVector T) (pos : Nat) (v : T),
      SimpleVector.insert mv mem s pos v = .error .OutOfRange ↔ pos > s.size) ∧
    (∀ (mem : Bool) (h : Heap (SinglyLinkedList.Node T)) (l : SinglyLinkedList) (pos : Nat)
      (v : T), SinglyLinkedList.insert mem h l pos v = .error .OutOfRange ↔ pos > l.size) ∧
    (∀ (mem : Bool) (h : Heap (DoublyLinkedList.Node T)) (l : DoublyLinkedList) (pos : Nat)
      (v : T), DoublyLinkedList.insert mem h l pos v = .error .OutOfRange ↔ pos > l.size) ∧
    (∀ (mv : T → T) (mem : Bool) (s : SimpleVector T) (v : T),
      SimpleVector.insert mv mem s (s.size + 1) v = .error .OutOfRange) ∧
    (∀ (mem : Bool) (h : Heap (SinglyLinkedList.Node T)) (l : SinglyLinkedList) (v : T),
      SinglyLinkedList.insert mem h l (l.size + 1) v = .error .OutOfRange) ∧
    (∀ (mem : Bool) (h : Heap (DoublyLinkedList.Node T)) (l : DoublyLinkedList) (v : T),
      DoublyLinkedList.insert mem h l (l.size + 1) v = .error .OutOfRange) ∧
    (∀ (mv : T → T) (s : SimpleVector T) (xs : List T) (v : T), s.Holds xs →
      ∃ s', SimpleVector.insert mv true s s.size v = .ok s' ∧ s'.Holds (xs ++ [v])) ∧
    (∀ (h : Heap (SinglyLinkedList.Node T)) (l : SinglyLinkedList) (cells : List (Nat × T))
      (v : T), SinglyLinkedList.WellFormed h l cells →
      ∃ h' l', SinglyLinkedList.insert true h l l.size v = .ok (h', l') ∧
        SinglyLinkedList.WellFormed h' l' (cells ++ [(h.length, v)])) ∧
    (∀ (h : Heap (DoublyLinkedList.Node T)) (l : DoublyLinkedList) (cells : List (Nat × T))
      (v : T), DoublyLinkedList.WellFormed h l cells →
      ∃ h' l', DoublyLinkedList.insert true h l l.size v = .ok (h', l') ∧
        DoublyLinkedList.WellFormed h' l' (cells ++ [(h.length, v)])) := by
  refine ⟨SimpleVector.insert_outOfRange_iff, SinglyLinkedList.sll_insert_outOfRange_iff,
    DoublyLinkedList.dll_insert_outOfRange_iff, ?_, ?_, ?_, ?_, ?_, ?_⟩
  · intro mv mem s v
    exact (SimpleVector.insert_outOfRange_iff mv mem s _ v).mpr (by omega)
  · intro mem h l v
    exact (SinglyLinkedList.sll_insert_outOfRange_iff mem h l _ v).mpr (by omega)
  · intro mem h l v
    exact (DoublyLinkedList.dll_insert_outOfRange_iff mem h l _ v).mpr (by omega)
  · intro mv s xs v hs
    rw [SimpleVector.insert_at_size]
    exact SimpleVector.push_back_holds hs v
  · intro h l cells v hw
    obtain ⟨h', l', e, hw'⟩ := SinglyLinkedList.sll_insert_wf hw l.size
      (by simp [SinglyLinkedList.size, hw.size]) v
    refine ⟨h', l', e, ?_⟩
    simpa [SinglyLinkedList.size, hw.size] using hw'
  · intro h l cells v hw
    obtain ⟨h', l', e, hw'⟩ := DoublyLinkedList.dll_insert_wf hw l.size
      (by simp [DoublyLinkedList.size, hw.size]) v
    refine ⟨h', l', e, ?_⟩
    simpa [DoublyLinkedList.size, hw.size] using hw'

theorem insert_outOfRange_iff_gt_witness :
    SimpleVector.sample.Holds [1, 2, 3] ∧
    ∃ s', SimpleVector.insert id true SimpleVector.sample SimpleVector.sample.size 7 = .ok s' ∧
      s'.Holds ([1, 2, 3] ++ [7]) :=
  ⟨SimpleVector.sample_holds,
    (@insert_outOfRange_iff_gt Int).2.2.2.2.2.2.1 id SimpleVector.sample [1, 2, 3] 7
      SimpleVector.sample_holds⟩

/-- C8. For the three containers, in every state and for every position,
`erase(pos)` and `operator[](pos)` throw `std::out_of_range` exactly when
`pos >= size()`; so `erase(size())` always throws it, and on an empty container
`erase(0)` and `operator[](0)` do. -/
theorem erase_index_outOfRange_iff_ge {T : Type} :
    (∀ (mv : T → T) (s : SimpleVector T) (pos : Nat),
      (SimpleVector.erase mv s pos = .error .OutOfRange ↔ pos ≥ s.size) ∧
      (SimpleVector.index s pos = .error .OutOfRange ↔ pos ≥ s.size)) ∧
    (∀ (h : Heap (SinglyLinkedList.Node T)) (l : SinglyLinkedList) (pos : Nat),
      (SinglyLinkedList.erase h l pos = .error .OutOfRange ↔ pos ≥ l.size) ∧
      (SinglyLinkedList.index h l pos = .error .OutOfRange ↔ pos ≥ l.size)) ∧
    (∀ (h : Heap (DoublyLinkedList.Node T)) (l : DoublyLinkedList) (pos : Nat),
      (DoublyLinkedList.erase h l pos = .error .OutOfRange ↔ pos ≥ l.size) ∧
      (DoublyLinkedList.index h l pos = .error .OutOfRange ↔ pos ≥ l.size)) ∧
    (∀ (mv : T → T) (s : SimpleVector T),
      SimpleVector.erase mv s s.size = .error .OutOfRange) ∧
    (∀ (h : Heap (SinglyLinkedList.Node T)) (l : SinglyLinkedList),
      SinglyLinkedList.erase h l l.size = .error .OutOfRange) ∧
    (∀ (h : Heap (DoublyLinkedList.Node T)) (l : DoublyLinkedList),
      DoublyLinkedList.erase h l l.size = .error .OutOfRange) ∧
    (∀ (mv : T → T) (s : SimpleVector T), s.empty = true →
      SimpleVector.erase mv s 0 = .error .OutOfRange ∧
      SimpleVector.index s 0 = .error .OutOfRange) ∧
    (∀ (h : Heap (SinglyLinkedList.Node T)) (l : SinglyLinkedList), l.empty = true →
      SinglyLinkedList.erase h l 0 = .error .OutOfRange ∧
      SinglyLinkedList.index h l 0 = .error .OutOfRange) ∧
    (∀ (h : Heap (DoublyLinkedList.Node T)) (l : DoublyLinkedList), l.empty = true →
      DoublyLinkedList.erase h l 0 = .error .OutOfRange ∧
      DoublyLinkedList.index h l 0 = .error .OutOfRange) := by
  refine ⟨fun mv s pos => ⟨SimpleVector.erase_outOfRange_iff mv s pos,
      SimpleVector.index_outOfRange_iff s pos⟩,
    fun h l pos => ⟨SinglyLinkedList.sll_erase_outOfRange_iff h l pos,
      SinglyLinkedList.sll_index_outOfRange_iff h l pos⟩,
    fun h l pos => ⟨DoublyLinkedList.dll_erase_outOfRange_iff h l pos,
      DoublyLinkedList.dll_index_outOfRange_iff h l pos⟩, ?_, ?_, ?_, ?_, ?_, ?_⟩
  · intro mv s
    exact (SimpleVector.erase_outOfRange_iff mv s _).mpr (le_refl _)
  · intro h l
    exact (SinglyLinkedList.sll_erase_outOfRange_iff h l _).mpr (le_refl _)
  · intro h l
    exact (DoublyLinkedList.dll_erase_outOfRange_iff h l _).mpr (le_refl _)
  · intro mv s he
    have h0 : s.size = 0 := by simpa [SimpleVector.empty, SimpleVector.size] using he
    exact ⟨(SimpleVector.erase_outOfRange_iff mv s 0).mpr (by omega),
      (SimpleVector.index_outOfRange_iff s 0).mpr (by omega)⟩
  · intro h l he
    have h0 : l.size = 0 := by simpa [SinglyLinkedList.empty, SinglyLinkedList.size] using he
    exact ⟨(SinglyLinkedList.sll_erase_outOfRange_iff h l 0).mpr (by omega),
      (SinglyLinkedList.sll_index_outOfRange_iff h l 0).mpr (by omega)⟩
  · intro h l he
    have h0 : l.size = 0 := by simpa [DoublyLinkedList.empty, DoublyLinkedList.size] using he
    exact ⟨(DoublyLinkedList.dll_erase_outOfRange_iff h l 0).mpr (by omega),
      (DoublyLinkedList.dll_index_outOfRange_iff h l 0).mpr (by omega)⟩

theorem erase_index_outOfRange_iff_ge_witness :
    (SimpleVector.empty_vector : SimpleVector Int).empty = true ∧
    SimpleVector.erase id (SimpleVector.empty_vector : SimpleVector Int) 0
      = .error .OutOfRange ∧
    SimpleVector.index (SimpleVector.empty_vector : SimpleVector Int) 0 = .error .OutOfRange :=
  ⟨rfl, (@erase_index_outOfRange_iff_ge Int).2.2.2.2.2.2.1 id SimpleVector.empty_vector rfl⟩

/-! ## The demonstration run -/

/-- The demonstration run as the code behaves (see C9).  In `runDemo`, for each
of the three containers, after `push_back(0)`, ..., `push_back(9)` and then
`erase(2)`, `erase(4)`, `erase(6)`, each applied to the sequence then current, the
container holds exactly `0 1 3 4 6 7 9`: `size()` is 7, re-reading through
`operator[]` gives that sequence and `print` writes `0 1 3 4 6 7 9`. -/
theorem runDemo_erased_correct :
    (∃ c, SimpleVector.runDemo_erased = .ok c ∧ c.size = 7 ∧
      c.contents = .ok [0, 1, 3, 4, 6, 7, 9] ∧
      (c.print toString).map String.join = .ok "0 1 3 4 6 7 9") ∧
    (∃ h c, SinglyLinkedList.runDemo_erased = .ok (h, c) ∧ c.size = 7 ∧
      SinglyLinkedList.contents h c = .ok [0, 1, 3, 4, 6, 7, 9] ∧
      (SinglyLinkedList.print toString h c).map String.join = .ok "0 1 3 4 6 7 9") ∧
    (∃ h c, DoublyLinkedList.runDemo_erased = .ok (h, c) ∧ c.size = 7 ∧
      DoublyLinkedList.contents h c = .ok [0, 1, 3, 4, 6, 7, 9] ∧
      (DoublyLinkedList.print toString h c).map String.join = .ok "0 1 3 4 6 7 9") := by
  refine ⟨⟨{ size_ := 7, capacity_ := 13, data_ := some [some 0, some 1, some 3, some 4,
      some 6, some 7, some 9, none, none, none, none, none, none] }, ?_, ?_, ?_, ?_⟩,
    ⟨[some ⟨0, some 1⟩, some ⟨1, some 3⟩, none, some ⟨3, some 4⟩, some ⟨4, some 6⟩, none,
      some ⟨6, some 7⟩, some ⟨7, some 9⟩, none, some ⟨9, none⟩],
      { head_ := some 0, tail_ := some 9, size_ := 7 }, ?_, ?_, ?_, ?_⟩,
    ⟨[some ⟨0, some 1, none⟩, some ⟨1, some 3, some 0⟩, none, some ⟨3, some 4, some 1⟩,
      some ⟨4, some 6, some 3⟩, none, some ⟨6, some 7, some 4⟩, some ⟨7, some 9, some 6⟩,
      none, some ⟨9, none, some 7⟩],
      { head_ := some 0, tail_ := some 9, size_ := 7 }, ?_, ?_, ?_, ?_⟩⟩ <;> decide

/-- C9: the erasures of `runDemo` do not remove what its comments say.  The
comments announce the removal of the third, fifth and seventh element, the values
2, 4 and 6, and note that the indices shift after each removal; the calls are
`erase(2)`, `erase(4)`, `erase(6)`, with the indices not shifted, and remove the
values 2, 5 and 8.  After them each of the three containers reads back
`0 1 3 4 6 7 9`, not `0 1 3 5 7 8 9`; the calls `erase(2)`, `erase(3)`, `erase(4)`
after the same ten `push_back`s leave `0 1 3 5 7 8 9`. -/
theorem runDemo_erased_not_as_claimed :
    ((SimpleVector.runDemo_erased >>= fun c => c.contents) = .ok [0, 1, 3, 4, 6, 7, 9] ∧
      ¬ ((SimpleVector.runDemo_erased >>= fun c => c.contents)
        = .ok [0, 1, 3, 5, 7, 8, 9])) ∧
    ((SinglyLinkedList.runDemo_erased >>= fun p => SinglyLinkedList.contents p.1 p.2)
        = .ok [0, 1, 3, 4, 6, 7, 9] ∧
      ¬ ((SinglyLinkedList.runDemo_erased >>= fun p => SinglyLinkedList.contents p.1 p.2)
        = .ok [0, 1, 3, 5, 7, 8, 9])) ∧
    ((DoublyLinkedList.runDemo_erased >>= fun p => DoublyLinkedList.contents p.1 p.2)
        = .ok [0, 1, 3, 4, 6, 7, 9] ∧
      ¬ ((DoublyLinkedList.runDemo_erased >>= fun p => DoublyLinkedList.contents p.1 p.2)
        = .ok [0, 1, 3, 5, 7, 8, 9])) ∧
    (SimpleVector.fill 10 0 SimpleVector.empty_vector >>= fun c =>
      SimpleVector.erase id c 2 >>= fun c => SimpleVector.erase id c 3 >>= fun c =>
      SimpleVector.erase id c 4 >>= fun c => c.contents) = .ok [0, 1, 3, 5, 7, 8, 9] ∧
    (SinglyLinkedList.fill 10 0 [] SinglyLinkedList.empty_list >>= fun p =>
      SinglyLinkedList.erase p.1 p.2 2 >>= fun p => SinglyLinkedList.erase p.1 p.2 3 >>= fun p =>
      SinglyLinkedList.erase p.1 p.2 4 >>= fun p => SinglyLinkedList.contents p.1 p.2)
        = .ok [0, 1, 3, 5, 7, 8, 9] ∧
    (DoublyLinkedList.fill 10 0 [] DoublyLinkedList.empty_list >>= fun p =>
      DoublyLinkedList.erase p.1 p.2 2 >>= fun p => DoublyLinkedList.erase p.1 p.2 3 >>= fun p =>
      DoublyLinkedList.erase p.1 p.2 4 >>= fun p => DoublyLinkedList.contents p.1 p.2)
        = .ok [0, 1, 3, 5, 7, 8, 9] := by
  refine ⟨⟨?_, ?_⟩, ⟨?_, ?_⟩, ⟨?_, ?_⟩, ?_, ?_, ?_⟩ <;> decide

/-! ## Cross-container equivalence -/

/-- C10, at an element type whose move empties its source (`std::string`, with
`""` left behind): after `push_back("a")`, `push_back("b")`, `insert(0, "c")` on
empty containers the two lists read back `c a b`, and the vector reads back `c a`
followed by an empty string, with the same outcomes and sizes; the loop of
`SimpleVector::insert` starts at `i = size_` and so assigns to `data_[size_]` from
the slot `data_[size_ - 1]` that the statement before it has moved from. -/
theorem sessions_disagree_on_emptying_moves :
    (SimpleVector.session (fun _ => "") id SimpleVector.empty_vector
        [.push_back "a", .push_back "b", .insert 0 "c"]).map (fun o => (o.size, o.contents))
      = [(1, .ok ["a"]), (2, .ok ["a", "b"]), (3, .ok ["c", "a", ""])] ∧
    (SinglyLinkedList.session id ([], SinglyLinkedList.empty_list)
        [.push_back "a", .push_back "b", .insert 0 "c"]).map (fun o => (o.size, o.contents))
      = [(1, .ok ["a"]), (2, .ok ["a", "b"]), (3, .ok ["c", "a", "b"])] ∧
    (DoublyLinkedList.session id ([], DoublyLinkedList.empty_list)
        [.push_back "a", .push_back "b", .insert 0 "c"]).map (fun o => (o.size, o.contents))
      = [(1, .ok ["a"]), (2, .ok ["a", "b"]), (3, .ok ["c", "a", "b"])] := by
  decide
/-! ## Several lists in one heap -/

namespace World

variable {N L T : Type} {WF : Heap N → L → List (Nat × T) → Prop}

theorem Inv.start : Inv WF (⟨[], []⟩ : World N L) (fun _ => []) :=
  ⟨fun i l hl => by simp at hl, fun i j hi => by simp at hi⟩

/-- One list changes, inside its own nodes and fresh ones. -/
theorem Inv.update_one (Hlt : ∀ h l cs, WF h l cs → ∀ a, a ∈ cs.map Prod.fst → a < h.length)
    (Hfr : ∀ h h' S l cs, WF h l cs → Heap.Frame h h' S →
      (∀ a, a ∈ cs.map Prod.fst → a ∉ S) → WF h' l cs)
    {w : World N L} {c : Nat → List (Nat × T)} (inv : Inv WF w c) {i : Nat}
    (hi : i < w.lists.length) {h' : Heap N} {l' : L} {cs' : List (Nat × T)}
    (hw' : WF h' l' cs') (f : Heap.Frame w.heap h' ((c i).map Prod.fst))
    (hnew : ∀ a, a ∈ cs'.map Prod.fst → a ∈ (c i).map Prod.fst ∨ w.heap.length ≤ a) :
    Inv WF ⟨h', w.lists.set i l'⟩ (Function.update c i cs') := by
  have hold : ∀ k, k < w.lists.length → k ≠ i → ∀ a, a ∈ cs'.map Prod.fst →
      a ∉ (c k).map Prod.fst := by
    intro k hk hki a ha hmem
    obtain ⟨l, hl⟩ : ∃ l, w.lists[k]? = some l := ⟨w.lists[k], List.getElem?_eq_getElem hk⟩
    rcases hnew a ha with h1 | h1
    · exact inv.disjoint i k hi hk (Ne.symm hki) a h1 hmem
    · have := Hlt _ _ _ (inv.wf k l hl) a hmem
      omega
  constructor
  · intro k l hl
    simp only at hl ⊢
    by_cases hki : k = i
    · subst hki
      rw [List.getElem?_set_self hi] at hl
      cases hl
      simpa using hw'
    · rw [List.getElem?_set_ne (Ne.symm hki)] at hl
      rw [Function.update_noteq hki]
      have hk : k < w.lists.length := by
        rcases (List.getElem?_eq_some_iff.mp hl) with ⟨hlt, _⟩
        exact hlt
      exact Hfr _ _ _ _ _ (inv.wf k l hl) f (fun a ha => inv.disjoint k i hk hi hki a ha)
  · intro k1 k2 hk1 hk2 hne a ha
    simp only [List.length_set] at hk1 hk2
    by_cases h1 : k1 = i
    · subst h1
      rw [Function.update_same] at ha
      rw [Function.update_noteq (Ne.symm hne)]
      exact hold k2 hk2 (Ne.symm hne) a ha
    · rw [Function.update_noteq h1] at ha
      by_cases h2 : k2 = i
      · subst h2
        rw [Function.update_same]
        exact fun hmem => hold k1 hk1 h1 a hmem ha
      · rw [Function.update_noteq h2]
        exact inv.disjoint k1 k2 hk1 hk2 hne a ha

/-- A list is constructed on fresh nodes. -/
theorem Inv.construct (Hlt : ∀ h l cs, WF h l cs → ∀ a, a ∈ cs.map Prod.fst → a < h.length)
    (Hfr : ∀ h h' S l cs, WF h l cs → Heap.Frame h h' S →
      (∀ a, a ∈ cs.map Prod.fst → a ∉ S) → WF h' l cs)
    {w : World N L} {c : Nat → List (Nat × T)} (inv : Inv WF w c)
    {h' : Heap N} {l' : L} {cs' : List (Nat × T)}
    (hw' : WF h' l' cs') (f : Heap.Frame w.heap h' [])
    (hnew : ∀ a, a ∈ cs'.map Prod.fst → w.heap.length ≤ a) :
    Inv WF ⟨h', w.lists ++ [l']⟩ (Function.update c w.lists.length cs') := by
  have hold : ∀ k, k < w.lists.length → ∀ a, a ∈ cs'.map Prod.fst →
      a ∉ (c k).map Prod.fst := by
    intro k hk a ha hmem
    obtain ⟨l, hl⟩ : ∃ l, w.lists[k]? = some l := ⟨w.lists[k], List.getElem?_eq_getElem hk⟩
    have h1 := hnew a ha
    have := Hlt _ _ _ (inv.wf k l hl) a hmem
    omega
  constructor
  · intro k l hl
    simp only at hl ⊢
    by_cases hk : k < w.lists.length
    · rw [List.getElem?_append_left hk] at hl
      rw [Function.update_noteq (by omega)]
      exact Hfr _ _ _ _ _ (inv.wf k l hl) f (fun a _ => by simp)
    · have hk' : k = w.lists.length := by
        rcases (List.getElem?_eq_some_iff.mp hl) with ⟨hlt, _⟩
        simp at hlt
        omega
      subst hk'
      rw [List.getElem?_append_right (le_refl _)] at hl
      simp at hl
      subst hl
      simpa using hw'
  · intro k1 k2 hk1 hk2 hne a ha
    simp only [List.length_append, List.length_singleton] at hk1 hk2
    by_cases h1 : k1 = w.lists.length
    · rw [h1, Function.update_same] at ha
      rw [Function.update_noteq (by omega)]
      exact hold k2 (by omega) a ha
    · rw [Function.update_noteq h1] at ha
      by_cases h2 : k2 = w.lists.length
      · rw [h2, Function.update_same]
        exact fun hmem => hold k1 (by omega) a hmem ha
      · rw [Function.update_noteq h2]
        exact inv.disjoint k1 k2 (by omega) (by omega) hne a ha

/-- Two lists change, inside their own nodes and fresh ones. -/
theorem Inv.update_two (Hlt : ∀ h l cs, WF h l cs → ∀ a, a ∈ cs.map Prod.fst → a < h.length)
    (Hfr : ∀ h h' S l cs, WF h l cs → Heap.Frame h h' S →
      (∀ a, a ∈ cs.map Prod.fst → a ∉ S) → WF h' l cs)
    {w : World N L} {c : Nat → List (Nat × T)} (inv : Inv WF w c) {i j : Nat}
    (hi : i < w.lists.length) (hj : j < w.lists.length) (hij : i ≠ j)
    {h' : Heap N} {li lj : L} {ci cj : List (Nat × T)}
    (hwi : WF h' li ci) (hwj : WF h' lj cj)
    (f : Heap.Frame w.heap h' ((c i).map Prod.fst ++ (c j).map Prod.fst))
    (hnewi : ∀ a, a ∈ ci.map Prod.fst →
      a ∈ (c i).map Prod.fst ∨ a ∈ (c j).map Prod.fst ∨ w.heap.length ≤ a)
    (hnewj : ∀ a, a ∈ cj.map Prod.fst →
      a ∈ (c i).map Prod.fst ∨ a ∈ (c j).map Prod.fst ∨ w.heap.length ≤ a)
    (hdis : ∀ a, a ∈ ci.map Prod.fst → a ∉ cj.map Prod.fst) :
    Inv WF ⟨h', (w.lists.set i li).set j lj⟩
      (Function.update (Function.update c i ci) j cj) := by
  have hold : ∀ (cs : List (Nat × T)), (∀ a, a ∈ cs.map Prod.fst →
      a ∈ (c i).map Prod.fst ∨ a ∈ (c j).map Prod.fst ∨ w.heap.length ≤ a) →
      ∀ k, k < w.lists.length → k ≠ i → k ≠ j → ∀ a, a ∈ cs.map Prod.fst →
      a ∉ (c k).map Prod.fst := by
    intro cs hnew k hk hki hkj a ha hmem
    obtain ⟨l, hl⟩ : ∃ l, w.lists[k]? = some l := ⟨w.lists[k], List.getElem?_eq_getElem hk⟩
    rcases hnew a ha with h1 | h1 | h1
    · exact inv.disjoint i k hi hk (Ne.symm hki) a h1 hmem
    · exact inv.disjoint j k hj hk (Ne.symm hkj) a h1 hmem
    · have := Hlt _ _ _ (inv.wf k l hl) a hmem
      omega
  constructor
  · intro k l hl
    simp only at hl ⊢
    by_cases hkj : k = j
    · subst hkj
      rw [List.getElem?_set_self (by simpa using hj)] at hl
      cases hl
      simpa using hwj
    · rw [List.getElem?_set_ne (Ne.symm hkj)] at hl
      rw [Function.update_noteq hkj]
      by_cases hki : k = i
      · subst hki
        rw [List.getElem?_set_self hi] at hl
        cases hl
        simpa using hwi
      · rw [List.getElem?_set_ne (Ne.symm hki)] at hl
        rw [Function.update_noteq hki]
        have hk : k < w.lists.length := by
          rcases (List.getElem?_eq_some_iff.mp hl) with ⟨hlt, _⟩
          exact hlt
        refine Hfr _ _ _ _ _ (inv.wf k l hl) f (fun a ha hmem => ?_)
        simp only [List.mem_append] at hmem
        rcases hmem with hmem | hmem
        · exact inv.disjoint k i hk hi hki a ha hmem
        · exact inv.disjoint k j hk hj hkj a ha hmem
  · have key : ∀ k, k < w.lists.length → ∀ a,
        (k = j → a ∈ (Function.update (Function.update c i ci) j cj k).map Prod.fst →
          a ∈ cj.map Prod.fst) ∧
        (k ≠ j → k = i → a ∈ (Function.update (Function.update c i ci) j cj k).map Prod.fst →
          a ∈ ci.map Prod.fst) ∧
        (k ≠ j → k ≠ i → a ∈ (Function.update (Function.update c i ci) j cj k).map Prod.fst →
          a ∈ (c k).map Prod.fst) := by
      intro k _ a
      refine ⟨?_, ?_, ?_⟩
      · intro hk
        subst hk
        rw [Function.update_same]
        exact id
      · intro hkj hki
        subst hki
        rw [Function.update_noteq hkj, Function.update_same]
        exact id
      · intro hkj hki
        rw [Function.update_noteq hkj, Function.update_noteq hki]
        exact id
    intro k1 k2 hk1 hk2 hne a ha hb
    simp only [List.length_set] at hk1 hk2
    obtain ⟨a1, a2, a3⟩ := key k1 hk1 a
    obtain ⟨b1, b2, b3⟩ := key k2 hk2 a
    by_cases h1j : k1 = j
    · have haj := a1 h1j ha
      have h2j : k2 ≠ j := fun h => hne (h1j.trans h.symm)
      by_cases h2i : k2 = i
      · exact hdis a (b2 h2j h2i hb) haj
      · exact hold cj hnewj k2 hk2 h2i h2j a haj (b3 h2j h2i hb)
    · by_cases h1i : k1 = i
      · have hai := a2 h1j h1i ha
        by_cases h2j : k2 = j
        · exact hdis a hai (b1 h2j hb)
        · have h2i : k2 ≠ i := fun h => hne (h1i.trans h.symm)
          exact hold ci hnewi k2 hk2 h2i h2j a hai (b3 h2j h2i hb)
      · have hak := a3 h1j h1i ha
        by_cases h2j : k2 = j
        · exact hold cj hnewj k1 hk1 h1i h1j a (b1 h2j hb) hak
        · by_cases h2i : k2 = i
          · exact hold ci hnewi k1 hk1 h1i h1j a (b2 h2j h2i hb) hak
          · exact inv.disjoint k1 k2 hk1 hk2 hne a hak (b3 h2j h2i hb)

end World

/-! ## `SinglyLinkedList`: construction, assignment and several lists in one heap -/

namespace SinglyLinkedList

variable {T : Type}

/-- A chain outside the footprint of a frame is the same chain afterwards. -/
theorem sll_Seg_frame {h h' : Heap (Node T)} {S : List Nat} (f : Heap.Frame h h' S) :
    ∀ {cs : List (Nat × T)} {q : Ptr}, Seg h cs q → (∀ a, a ∈ cs.map Prod.fst → a ∉ S) →
      Seg h' cs q := by
  intro cs
  induction cs with
  | nil => intro _ _ _; trivial
  | cons c cs ih =>
    intro q hs hd
    exact ⟨f.cell hs.1 (hd c.1 (by simp)), ih hs.2 (fun a ha => hd a (by simp [ha]))⟩

theorem WellFormed.sll_frame {h h' : Heap (Node T)} {S : List Nat} {l : SinglyLinkedList}
    {cells : List (Nat × T)} (hw : WellFormed h l cells) (f : Heap.Frame h h' S)
    (hd : ∀ a, a ∈ cells.map Prod.fst → a ∉ S) : WellFormed h' l cells :=
  ⟨hw.head, hw.tail, hw.size, sll_Seg_frame f hw.chain hd, hw.nodup⟩

theorem WellFormed.sll_lt {h : Heap (Node T)} {l : SinglyLinkedList}
    {cells : List (Nat × T)} (hw : WellFormed h l cells) :
    ∀ a, a ∈ cells.map Prod.fst → a < h.length :=
  sll_Seg_lt hw.chain

theorem sll_empty_list_wf (h : Heap (Node T)) : WellFormed h empty_list [] :=
  ⟨rfl, rfl, rfl, trivial, by simp⟩

/-- A well-formed list with no node is the empty list. -/
theorem WellFormed.sll_eq_empty {h : Heap (Node T)} {l : SinglyLinkedList}
    (hw : WellFormed h l ([] : List (Nat × T))) : l = empty_list := by
  cases l with
  | mk hd tl sz =>
    have h1 : hd = none := hw.head
    have h2 : tl = none := hw.tail
    have h3 : sz = 0 := hw.size
    subst h1 h2 h3
    rfl

/-- The loop of `push_back` calls appends the values in order, on fresh nodes. -/
theorem sll_push_back_each_wf (init : List T) :
    ∀ {h : Heap (Node T)} {l : SinglyLinkedList} {cells : List (Nat × T)},
      WellFormed h l cells →
      ∃ h' l' added, push_back_each true init h l = .ok (h', l') ∧
        WellFormed h' l' (cells ++ added) ∧ added.map Prod.snd = init ∧
        Heap.Frame h h' (cells.map Prod.fst) ∧
        ∀ a, a ∈ added.map Prod.fst → h.length ≤ a := by
  induction init with
  | nil =>
    intro h l cells hw
    exact ⟨h, l, [], rfl, by simpa using hw, rfl, Heap.Frame.refl h _, by simp⟩
  | cons x rest ih =>
    intro h l cells hw
    obtain ⟨h1, l1, e1, hw1, f1⟩ := sll_push_back_wf_frame hw x
    obtain ⟨h2, l2, added, e2, hw2, hv, f2, hfr⟩ := ih hw1
    refine ⟨h2, l2, (h.length, x) :: added, ?_, by simpa using hw2, by simp [hv], ?_, ?_⟩
    · simp only [push_back_each, e1, ok_bind]
      exact e2
    · refine f1.trans f2 ?_
      intro a ha
      simp only [List.map_append, List.map_cons, List.map_nil, List.mem_append,
        List.mem_singleton] at ha
      rcases ha with ha | ha
      · exact Or.inl ha
      · exact Or.inr (by omega)
    · intro a ha
      simp only [List.map_cons, List.mem_cons] at ha
      rcases ha with rfl | ha
      · exact le_refl _
      · exact le_trans f1.1 (hfr a ha)

/-- The constructor from an initializer list builds, on fresh nodes, a list that
holds the values of `init`. -/
theorem sll_from_initializer_list_wf (h : Heap (Node T)) (init : List T) :
    ∃ h' l' cells, from_initializer_list true h init = .ok (h', l') ∧
      WellFormed h' l' cells ∧ cells.map Prod.snd = init ∧ Heap.Frame h h' [] ∧
      ∀ a, a ∈ cells.map Prod.fst → h.length ≤ a := by
  obtain ⟨h', l', added, e, hw, hv, f, hfr⟩ := sll_push_back_each_wf init (sll_empty_list_wf h)
  exact ⟨h', l', added, e, by simpa using hw, hv, by simpa using f, hfr⟩

/-- The loop of the copy constructor, with the nodes `cs` of `other` still to
visit: the values of `cs` are appended on fresh nodes, and the nodes of `other`
are left alone. -/
theorem sll_copy_loop_wf :
    ∀ (cs : List (Nat × T)) {h : Heap (Node T)} {l : SinglyLinkedList}
      {cells : List (Nat × T)} (fuel : Nat), Seg h cs none → cs.length ≤ fuel →
      WellFormed h l cells → (∀ a, a ∈ cs.map Prod.fst → a ∉ cells.map Prod.fst) →
      ∃ h' l' added, copy_loop true fuel h (link cs none) l = .ok (h', l') ∧
        WellFormed h' l' (cells ++ added) ∧ added.map Prod.snd = cs.map Prod.snd ∧
        Heap.Frame h h' (cells.map Prod.fst) ∧
        ∀ a, a ∈ added.map Prod.fst → h.length ≤ a := by
  intro cs
  induction cs with
  | nil =>
    intro h l cells fuel _ _ hw _
    refine ⟨h, l, [], ?_, by simpa using hw, rfl, Heap.Frame.refl h _, by simp⟩
    cases fuel <;> rfl
  | cons c cs ih =>
    intro h l cells fuel hs hf hw hd
    obtain ⟨k, rfl⟩ : ∃ k, fuel = k + 1 := ⟨fuel - 1, by simp at hf; omega⟩
    have hc : h[c.1]? = some (some ⟨c.2, link cs none⟩) := hs.1
    obtain ⟨h1, l1, e1, hw1, f1⟩ := sll_push_back_wf_frame hw c.2
    have hs1 : Seg h1 (c :: cs) none := sll_Seg_frame f1 hs hd
    have hc1 : h1[c.1]? = some (some ⟨c.2, link cs none⟩) := hs1.1
    have hlt := sll_Seg_lt hs
    obtain ⟨h2, l2, added, e2, hw2, hv, f2, hfr⟩ := ih k hs1.2 (by simp at hf; omega) hw1 (by
      intro a ha hmem
      simp only [List.map_append, List.map_cons, List.map_nil, List.mem_append,
        List.mem_singleton] at hmem
      rcases hmem with hmem | hmem
      · exact hd a (by simp [ha]) hmem
      · have := hlt a (by simp [ha])
        omega)
    refine ⟨h2, l2, (h.length, c.2) :: added, ?_, by simpa using hw2, by simp [hv], ?_, ?_⟩
    · simp only [link_cons, copy_loop]
      rw [Heap.deref_cell hc]
      simp only [ok_bind, e1]
      rw [Heap.deref_cell hc1]
      exact e2
    · refine f1.trans f2 ?_
      intro a ha
      simp only [List.map_append, List.map_cons, List.map_nil, List.mem_append,
        List.mem_singleton] at ha
      rcases ha with ha | ha
      · exact Or.inl ha
      · exact Or.inr (by omega)
    · intro a ha
      simp only [List.map_cons, List.mem_cons] at ha
      rcases ha with rfl | ha
      · exact le_refl _
      · exact le_trans f1.1 (hfr a ha)

/-- The copy constructor builds, on fresh nodes, a list that holds the elements
of `other`, and leaves every node of the heap alone. -/
theorem sll_copy_constructor_wf {h : Heap (Node T)} {other : SinglyLinkedList}
    {cells : List (Nat × T)} (hw : WellFormed h other cells) :
    ∃ h' l' copy, copy_constructor true h other = .ok (h', l') ∧
      WellFormed h' l' copy ∧ copy.map Prod.snd = cells.map Prod.snd ∧
      Heap.Frame h h' [] ∧ ∀ a, a ∈ copy.map Prod.fst → h.length ≤ a := by
  obtain ⟨h', l', added, e, hw', hv, f, hfr⟩ :=
    sll_copy_loop_wf cells h.length hw.chain hw.sll_length_le (sll_empty_list_wf h) (by simp)
  refine ⟨h', l', added, ?_, by simpa using hw', hv, by simpa using f, hfr⟩
  simp only [copy_constructor, hw.head]
  exact e

theorem sll_move_constructor_wf {h : Heap (Node T)} {other : SinglyLinkedList}
    {cells : List (Nat × T)} (hw : WellFormed h other cells) :
    (move_constructor other).1 = other ∧ (move_constructor other).2 = empty_list ∧
      WellFormed h (move_constructor other).1 cells ∧
      WellFormed h (move_constructor other).2 ([] : List (Nat × T)) :=
  ⟨rfl, rfl, hw, sll_empty_list_wf h⟩

theorem sll_swap_eq (l other : SinglyLinkedList) : swap l other = (other, l) := rfl

/-- The destructor deletes the nodes of the list and nothing else. -/
theorem sll_destroy_seg :
    ∀ (cs : List (Nat × T)) (h : Heap (Node T)) (fuel : Nat), Seg h cs none →
      (cs.map Prod.fst).Nodup → cs.length ≤ fuel →
      ∃ h', Heap.destroy Node.next fuel h (link cs none) = .ok h' ∧
        Heap.Frame h h' (cs.map Prod.fst) := by
  intro cs
  induction cs with
  | nil =>
    intro h fuel _ _ _
    exact ⟨h, by cases fuel <;> rfl, Heap.Frame.refl h _⟩
  | cons c cs ih =>
    intro h fuel hs hnd hf
    obtain ⟨k, rfl⟩ : ∃ k, fuel = k + 1 := ⟨fuel - 1, by simp at hf; omega⟩
    have hc : h[c.1]? = some (some ⟨c.2, link cs none⟩) := hs.1
    simp only [List.map_cons, List.nodup_cons] at hnd
    obtain ⟨h', e, hfr⟩ := ih (h.set c.1 none) k (sll_Seg_set _ hnd.1 hs.2) hnd.2
      (by simp at hf; omega)
    refine ⟨h', ?_, ?_⟩
    · simp only [link_cons, Heap.destroy, hc]
      exact e
    · refine ⟨by simpa using hfr.1, ?_⟩
      intro a ha hS
      simp only [List.map_cons, List.mem_cons, not_or] at hS
      rw [hfr.2 a (by simpa using ha) hS.2, List.getElem?_set_ne (Ne.symm hS.1)]

theorem sll_destructor_wf {h : Heap (Node T)} {l : SinglyLinkedList}
    {cells : List (Nat × T)} (hw : WellFormed h l cells) :
    ∃ h', destructor h l = .ok h' ∧ Heap.Frame h h' (cells.map Prod.fst) := by
  obtain ⟨h', e, f⟩ := sll_destroy_seg cells h h.length hw.chain hw.nodup hw.sll_length_le
  exact ⟨h', by simp only [destructor, hw.head, e], f⟩

/-- Copy assignment: the list holds the elements of `other` on fresh nodes; only
the nodes the list had are deleted. -/
theorem sll_copy_assignment_wf {h : Heap (Node T)} {l other : SinglyLinkedList}
    {cells cs : List (Nat × T)} (hw : WellFormed h l cells) (ho : WellFormed h other cs) :
    ∃ h' l' copy, copy_assignment true h l other = .ok (h', l') ∧
      WellFormed h' l' copy ∧ copy.map Prod.snd = cs.map Prod.snd ∧
      Heap.Frame h h' (cells.map Prod.fst) ∧ ∀ a, a ∈ copy.map Prod.fst → h.length ≤ a := by
  obtain ⟨h1, t, copy, e1, hw1, hv, f1, hfr⟩ := sll_copy_constructor_wf ho
  have hl1 : WellFormed h1 l cells := hw.sll_frame f1 (by simp)
  obtain ⟨h2, e2, f2⟩ := sll_destructor_wf hl1
  have hdisj : ∀ a, a ∈ copy.map Prod.fst → a ∉ cells.map Prod.fst := by
    intro a ha hmem
    have h1 := hfr a ha
    have h2 := hw.sll_lt a hmem
    omega
  refine ⟨h2, t, copy, ?_, hw1.sll_frame f2 hdisj, hv, ?_, hfr⟩
  · simp only [copy_assignment, e1, ok_bind, sll_swap_eq, e2]
    rfl
  · exact (f1.mono (by simp)).trans f2 (fun a ha => Or.inl ha)

/-- Move assignment into a distinct list: the list takes over the nodes of
`other`, which is left empty; only the nodes the list had are deleted. -/
theorem sll_move_assignment_wf {h : Heap (Node T)} {l other : SinglyLinkedList}
    {cells cs : List (Nat × T)} (hw : WellFormed h l cells) (ho : WellFormed h other cs)
    (hd : ∀ a, a ∈ cs.map Prod.fst → a ∉ cells.map Prod.fst) :
    ∃ h', move_assignment h l other = .ok (h', other, empty_list) ∧
      WellFormed h' other cs ∧ WellFormed h' empty_list ([] : List (Nat × T)) ∧
      Heap.Frame h h' (cells.map Prod.fst) := by
  obtain ⟨h1, e1, _, f1⟩ := sll_clear_wf_frame hw
  refine ⟨h1, ?_, ho.sll_frame f1 hd, sll_empty_list_wf h1, f1⟩
  simp only [move_assignment, e1, ok_bind]
  rfl

end SinglyLinkedList

namespace SinglyLinkedList

variable {T : Type}

theorem sll_push_back_refused (h : Heap (Node T)) (l : SinglyLinkedList) (v : T) :
    push_back false h l v = .error .AllocationFailure := rfl

theorem sll_push_front_refused (h : Heap (Node T)) (l : SinglyLinkedList) (v : T) :
    push_front false h l v = .error .AllocationFailure := rfl

theorem sll_insert_middle_refused (h : Heap (Node T)) (l : SinglyLinkedList) (pos : Nat)
    (v : T) (r : Heap (Node T) × SinglyLinkedList) : insert_middle false h l pos v ≠ .ok r := by
  intro e
  unfold insert_middle at e
  cases h1 : advance h (size_pred pos) l.head_ with
  | error err => rw [h1] at e; cases e
  | ok prev =>
    rw [h1] at e
    simp only [ok_bind] at e
    cases h2 : h.deref prev with
    | error err => rw [h2] at e; cases e
    | ok p =>
      rw [h2] at e
      cases e

theorem sll_push_back_granted {mem : Bool} {h : Heap (Node T)} {l : SinglyLinkedList} {v : T}
    {r : Heap (Node T) × SinglyLinkedList} (e : push_back mem h l v = .ok r) :
    push_back true h l v = .ok r := by
  cases mem with
  | true => exact e
  | false => rw [sll_push_back_refused] at e; cases e

theorem sll_push_front_granted {mem : Bool} {h : Heap (Node T)} {l : SinglyLinkedList} {v : T}
    {r : Heap (Node T) × SinglyLinkedList} (e : push_front mem h l v = .ok r) :
    push_front true h l v = .ok r := by
  cases mem with
  | true => exact e
  | false => rw [sll_push_front_refused] at e; cases e

theorem sll_insert_granted {mem : Bool} {h : Heap (Node T)} {l : SinglyLinkedList} {pos : Nat}
    {v : T} {r : Heap (Node T) × SinglyLinkedList} (e : insert mem h l pos v = .ok r) :
    insert true h l pos v = .ok r := by
  cases mem with
  | true => exact e
  | false =>
    exfalso
    unfold insert at e
    cases h0 : BaseContainer.check_position pos l.size_ with
    | error err => rw [h0] at e; cases e
    | ok u =>
      rw [h0] at e
      simp only [ok_bind] at e
      split at e
      · rw [sll_push_front_refused] at e; cases e
      · split at e
        · rw [sll_push_back_refused] at e; cases e
        · exact sll_insert_middle_refused _ _ _ _ _ e

theorem sll_push_back_each_granted {mem : Bool} (init : List T) :
    ∀ {h : Heap (Node T)} {l : SinglyLinkedList} {r : Heap (Node T) × SinglyLinkedList},
      push_back_each mem init h l = .ok r → push_back_each true init h l = .ok r := by
  induction init with
  | nil => intro h l r e; exact e
  | cons x rest ih =>
    intro h l r e
    simp only [push_back_each] at e ⊢
    cases h1 : push_back mem h l x with
    | error err => rw [h1] at e; cases e
    | ok p =>
      rw [h1] at e
      rw [sll_push_back_granted h1]
      exact ih e

theorem sll_from_initializer_list_granted {mem : Bool} {h : Heap (Node T)} {init : List T}
    {r : Heap (Node T) × SinglyLinkedList} (e : from_initializer_list mem h init = .ok r) :
    from_initializer_list true h init = .ok r :=
  sll_push_back_each_granted init e

theorem sll_copy_loop_granted {mem : Bool} :
    ∀ (fuel : Nat) {h : Heap (Node T)} {p : Ptr} {l : SinglyLinkedList}
      {r : Heap (Node T) × SinglyLinkedList},
      copy_loop mem fuel h p l = .ok r → copy_loop true fuel h p l = .ok r := by
  intro fuel
  induction fuel with
  | zero =>
    intro h p l r e
    cases p with
    | none => exact e
    | some a => cases e
  | succ k ih =>
    intro h p l r e
    cases p with
    | none => exact e
    | some a =>
      simp only [copy_loop] at e ⊢
      cases h1 : h.deref (some a) with
      | error err => rw [h1] at e; cases e
      | ok n =>
        rw [h1] at e
        simp only [ok_bind] at e ⊢
        cases h2 : push_back mem h l n.data with
        | error err => rw [h2] at e; cases e
        | ok q =>
          rw [h2] at e
          rw [sll_push_back_granted h2]
          simp only [ok_bind] at e ⊢
          cases h3 : q.1.deref (some a) with
          | error err => rw [h3] at e; cases e
          | ok n2 =>
            rw [h3] at e
            simp only [ok_bind] at e ⊢
            exact ih e

theorem sll_copy_constructor_granted {mem : Bool} {h : Heap (Node T)}
    {other : SinglyLinkedList} {r : Heap (Node T) × SinglyLinkedList}
    (e : copy_constructor mem h other = .ok r) : copy_constructor true h other = .ok r :=
  sll_copy_loop_granted _ e

theorem sll_copy_assignment_granted {mem : Bool} {h : Heap (Node T)}
    {l other : SinglyLinkedList} {r : Heap (Node T) × SinglyLinkedList}
    (e : copy_assignment mem h l other = .ok r) : copy_assignment true h l other = .ok r := by
  unfold copy_assignment at e ⊢
  cases h1 : copy_constructor mem h other with
  | error err => rw [h1] at e; cases e
  | ok p =>
    rw [h1] at e
    rw [sll_copy_constructor_granted h1]
    exact e

end SinglyLinkedList

theorem mem_insert_cells {T : Type} {cells : List (Nat × T)} {pos n : Nat} {v : T} {a : Nat}
    (ha : a ∈ (cells.take pos ++ (n, v) :: cells.drop pos).map Prod.fst) :
    a ∈ cells.map Prod.fst ∨ a = n := by
  simp only [List.map_append, List.map_cons, List.mem_append, List.mem_cons, List.mem_map] at ha
  rcases ha with ⟨c, hc, rfl⟩ | rfl | ⟨c, hc, rfl⟩
  · exact Or.inl (List.mem_map.mpr ⟨c, List.mem_of_mem_take hc, rfl⟩)
  · exact Or.inr rfl
  · exact Or.inl (List.mem_map.mpr ⟨c, List.mem_of_mem_drop hc, rfl⟩)

theorem mem_erase_cells {T : Type} {cells : List (Nat × T)} {pos : Nat} {a : Nat}
    (ha : a ∈ (cells.take pos ++ cells.drop (pos + 1)).map Prod.fst) :
    a ∈ cells.map Prod.fst := by
  simp only [List.map_append, List.mem_append, List.mem_map] at ha
  rcases ha with ⟨c, hc, rfl⟩ | ⟨c, hc, rfl⟩
  · exact List.mem_map.mpr ⟨c, List.mem_of_mem_take hc, rfl⟩
  · exact List.mem_map.mpr ⟨c, List.mem_of_mem_drop hc, rfl⟩

namespace World

variable {N L T : Type} {WF : Heap N → L → List (Nat × T) → Prop}

theorem set_set_append {α : Type} (xs : List α) (j : Nat) (hj : j < xs.length) (x y z : α) :
    ((xs ++ [x]).set j y).set xs.length z = xs.set j y ++ [z] := by
  apply List.ext_getElem?
  intro k
  by_cases hk : k = xs.length
  · subst hk
    rw [List.getElem?_set_self (by simp), List.getElem?_append_right (by simp)]
    simp
  · rw [List.getElem?_set_ne (Ne.symm hk)]
    by_cases hkj : k = j
    · subst hkj
      rw [List.getElem?_set_self (by simp; omega),
        List.getElem?_append_left (by simpa using hj), List.getElem?_set_self hj]
    · rw [List.getElem?_set_ne (Ne.symm hkj)]
      by_cases hlt : k < xs.length
      · rw [List.getElem?_append_left hlt, List.getElem?_append_left (by simpa using hlt),
          List.getElem?_set_ne (Ne.symm hkj)]
      · rw [List.getElem?_eq_none (by simp; omega), List.getElem?_eq_none (by simp; omega)]

/-- A new list takes over the nodes of `lists[j]`, which is left without nodes. -/
theorem Inv.move_out (Hlt : ∀ h l cs, WF h l cs → ∀ a, a ∈ cs.map Prod.fst → a < h.length)
    (Hfr : ∀ h h' S l cs, WF h l cs → Heap.Frame h h' S →
      (∀ a, a ∈ cs.map Prod.fst → a ∉ S) → WF h' l cs)
    {w : World N L} {c : Nat → List (Nat × T)} (inv : Inv WF w c) {j : Nat}
    (hj : j < w.lists.length) {h' : Heap N} {lnew lold : L}
    (hnew : WF h' lnew (c j)) (hold : ∀ h, WF h lold [])
    (f : Heap.Frame w.heap h' ((c j).map Prod.fst)) :
    ∃ c', Inv WF ⟨h', w.lists.set j lold ++ [lnew]⟩ c' := by
  have inv1 : Inv WF ⟨w.heap, w.lists ++ [lold]⟩ (Function.update c w.lists.length []) :=
    Inv.construct Hlt Hfr inv (hold w.heap) (Heap.Frame.refl _ _) (by simp)
  have hne : j ≠ w.lists.length := by omega
  have hcj : Function.update c w.lists.length [] j = c j := Function.update_noteq hne _ _
  have hcn : Function.update c w.lists.length [] w.lists.length = [] :=
    Function.update_same _ _ _
  have inv2 := @Inv.update_two N L T WF Hlt Hfr _ _ inv1 j w.lists.length (by simp; omega) (by simp)
    hne h' lold lnew [] (c j) (hold h') hnew (by
      simp only [hcj, hcn, List.map_nil, List.append_nil]
      exact f) (by simp) (by
      intro a ha
      rw [hcj]
      exact Or.inl ha) (by simp)
  simp only [set_set_append _ _ hj] at inv2
  exact ⟨_, inv2⟩

end World

namespace SinglyLinkedList

variable {T : Type}

theorem sll_WF_lt (h : Heap (Node T)) (l : SinglyLinkedList) (cs : List (Nat × T))
    (hw : WellFormed h l cs) : ∀ a, a ∈ cs.map Prod.fst → a < h.length :=
  hw.sll_lt

theorem sll_WF_frame (h h' : Heap (Node T)) (S : List Nat) (l : SinglyLinkedList)
    (cs : List (Nat × T)) (hw : WellFormed h l cs) (f : Heap.Frame h h' S)
    (hd : ∀ a, a ∈ cs.map Prod.fst → a ∉ S) : WellFormed h' l cs :=
  hw.sll_frame f hd

theorem sll_index_lt {w : World (Node T) SinglyLinkedList} {i : Nat} {l : SinglyLinkedList}
    (hl : w.lists[i]? = some l) : i < w.lists.length := by
  rcases (List.getElem?_eq_some_iff.mp hl) with ⟨hlt, _⟩
  exact hlt

/-- In every reachable world the lists are well formed over pairwise disjoint
sets of nodes. -/
theorem Reachable.sll_inv {w : World (Node T) SinglyLinkedList} (r : Reachable w) :
    ∃ c, World.Inv (@WellFormed T) w c := by
  induction r with
  | start => exact ⟨_, World.Inv.start⟩
  | default_construct w _ ih =>
    obtain ⟨c, inv⟩ := ih
    exact ⟨_, World.Inv.construct sll_WF_lt sll_WF_frame inv (sll_empty_list_wf w.heap)
      (Heap.Frame.refl _ _) (by simp)⟩
  | from_initializer_list w mem init h' l' _ e ih =>
    obtain ⟨c, inv⟩ := ih
    obtain ⟨h1, l1, cells, e1, hw, _, f, hfr⟩ := sll_from_initializer_list_wf w.heap init
    rw [sll_from_initializer_list_granted e] at e1
    cases e1
    exact ⟨_, World.Inv.construct sll_WF_lt sll_WF_frame inv hw f hfr⟩
  | copy_constructor w mem j other h' l' _ hj e ih =>
    obtain ⟨c, inv⟩ := ih
    obtain ⟨h1, l1, cells, e1, hw, _, f, hfr⟩ := sll_copy_constructor_wf (inv.wf j other hj)
    rw [sll_copy_constructor_granted e] at e1
    cases e1
    exact ⟨_, World.Inv.construct sll_WF_lt sll_WF_frame inv hw f hfr⟩
  | move_constructor w j other _ hj ih =>
    obtain ⟨c, inv⟩ := ih
    exact World.Inv.move_out sll_WF_lt sll_WF_frame inv (sll_index_lt hj)
      (inv.wf j other hj) sll_empty_list_wf (Heap.Frame.refl _ _)
  | push_back w mem i l v h' l' _ hi e ih =>
    obtain ⟨c, inv⟩ := ih
    obtain ⟨h1, l1, e1, hw, f⟩ := sll_push_back_wf_frame (inv.wf i l hi) v
    rw [sll_push_back_granted e] at e1
    cases e1
    refine ⟨_, World.Inv.update_one sll_WF_lt sll_WF_frame inv (sll_index_lt hi) hw f ?_⟩
    intro a ha
    simp only [List.map_append, List.map_cons, List.map_nil, List.mem_append,
      List.mem_singleton] at ha
    rcases ha with ha | ha
    · exact Or.inl ha
    · exact Or.inr (by omega)
  | push_front w mem i l v h' l' _ hi e ih =>
    obtain ⟨c, inv⟩ := ih
    obtain ⟨h1, l1, e1, hw, f⟩ := sll_push_front_wf_frame (inv.wf i l hi) v
    rw [sll_push_front_granted e] at e1
    cases e1
    refine ⟨_, World.Inv.update_one sll_WF_lt sll_WF_frame inv (sll_index_lt hi) hw f ?_⟩
    intro a ha
    simp only [List.map_cons, List.mem_cons] at ha
    rcases ha with ha | ha
    · exact Or.inr (by omega)
    · exact Or.inl ha
  | insert w mem i l pos v h' l' _ hi e ih =>
    obtain ⟨c, inv⟩ := ih
    have hwl := inv.wf i l hi
    by_cases hpos : pos ≤ (c i).length
    · obtain ⟨h1, l1, e1, hw, f⟩ := sll_insert_wf_frame hwl pos hpos v
      rw [sll_insert_granted e] at e1
      cases e1
      refine ⟨_, World.Inv.update_one sll_WF_lt sll_WF_frame inv (sll_index_lt hi) hw f ?_⟩
      intro a ha
      rcases mem_insert_cells ha with ha | ha
      · exact Or.inl ha
      · exact Or.inr (by omega)
    · have herr := (sll_insert_outOfRange_iff mem w.heap l pos v).mpr (by
        simp only [size, hwl.size]
        omega)
      rw [herr] at e
      cases e
  | erase w i l pos h' l' _ hi e ih =>
    obtain ⟨c, inv⟩ := ih
    have hwl := inv.wf i l hi
    by_cases hpos : pos < (c i).length
    · obtain ⟨h1, l1, e1, hw, f⟩ := sll_erase_wf_frame hwl pos hpos
      rw [e] at e1
      cases e1
      refine ⟨_, World.Inv.update_one sll_WF_lt sll_WF_frame inv (sll_index_lt hi) hw f ?_⟩
      intro a ha
      exact Or.inl (mem_erase_cells ha)
    · have herr := (sll_erase_outOfRange_iff w.heap l pos).mpr (by
        simp only [size, hwl.size]
        omega)
      rw [herr] at e
      cases e
  | clear w i l h' l' _ hi e ih =>
    obtain ⟨c, inv⟩ := ih
    obtain ⟨h1, e1, hw, f⟩ := sll_clear_wf_frame (inv.wf i l hi)
    rw [e] at e1
    cases e1
    exact ⟨_, World.Inv.update_one sll_WF_lt sll_WF_frame inv (sll_index_lt hi) hw f (by simp)⟩
  | swap w i j l other _ hi hj hij ih =>
    obtain ⟨c, inv⟩ := ih
    refine ⟨_, World.Inv.update_two sll_WF_lt sll_WF_frame inv (sll_index_lt hi) (sll_index_lt hj)
      hij (inv.wf j other hj) (inv.wf i l hi) (Heap.Frame.refl _ _) ?_ ?_ ?_⟩
    · intro a ha
      exact Or.inr (Or.inl ha)
    · intro a ha
      exact Or.inl ha
    · intro a ha
      exact inv.disjoint j i (sll_index_lt hj) (sll_index_lt hi) (Ne.symm hij) a ha
  | copy_assignment w mem i j l other h' l' _ hi hj hij e ih =>
    obtain ⟨c, inv⟩ := ih
    obtain ⟨h1, l1, copy, e1, hw, _, f, hfr⟩ :=
      sll_copy_assignment_wf (inv.wf i l hi) (inv.wf j other hj)
    rw [sll_copy_assignment_granted e] at e1
    cases e1
    exact ⟨_, World.Inv.update_one sll_WF_lt sll_WF_frame inv (sll_index_lt hi) hw f
      (fun a ha => Or.inr (hfr a ha))⟩
  | move_assignment w i j l other h' l' other' _ hi hj hij e ih =>
    obtain ⟨c, inv⟩ := ih
    obtain ⟨h1, e1, hw1, hw2, f⟩ := sll_move_assignment_wf (inv.wf i l hi) (inv.wf j other hj)
      (fun a ha => inv.disjoint j i (sll_index_lt hj) (sll_index_lt hi) (Ne.symm hij) a ha)
    rw [e] at e1
    cases e1
    refine ⟨_, World.Inv.update_two sll_WF_lt sll_WF_frame inv (sll_index_lt hi) (sll_index_lt hj)
      hij hw1 hw2 (f.mono (by simp +contextual)) ?_ (by simp) (by simp)⟩
    intro a ha
    exact Or.inr (Or.inl ha)

/-- The walk along `next` from the head of a chain meets its nodes, in order. -/
theorem sll_nodes_seg {h : Heap (Node T)} :
    ∀ (cs : List (Nat × T)) (fuel : Nat), Seg h cs none → cs.length ≤ fuel →
      nodes h fuel (link cs none) = .ok (cs.map Prod.fst) := by
  intro cs
  induction cs with
  | nil =>
    intro fuel _ _
    cases fuel <;> rfl
  | cons c cs ih =>
    intro fuel hs hf
    obtain ⟨k, rfl⟩ : ∃ k, fuel = k + 1 := ⟨fuel - 1, by simp at hf; omega⟩
    have hc : h[c.1]? = some (some ⟨c.2, link cs none⟩) := hs.1
    simp only [link_cons, nodes]
    rw [Heap.deref_cell hc]
    simp only [ok_bind]
    rw [ih k hs.2 (by simp at hf; omega)]
    rfl

theorem sll_nodes_wf {h : Heap (Node T)} {l : SinglyLinkedList} {cells : List (Nat × T)}
    (hw : WellFormed h l cells) : nodes h h.length l.head_ = .ok (cells.map Prod.fst) := by
  rw [hw.head]
  exact sll_nodes_seg cells h.length hw.chain hw.sll_length_le

end SinglyLinkedList

theorem back_eq_getLast? {T : Type} (cells : List (Nat × T)) :
    back none cells = (cells.map Prod.fst).getLast? := by
  rcases eq_nil_or_snoc cells with rfl | ⟨cs, c, rfl⟩
  · rfl
  · rw [back_concat]
    simp

/-! ## `DoublyLinkedList`: construction, assignment and several lists in one heap -/

namespace DoublyLinkedList

variable {T : Type}

/-- A chain outside the footprint of a frame is the same chain afterwards. -/
theorem dll_Seg_frame {h h' : Heap (Node T)} {S : List Nat} (f : Heap.Frame h h' S) :
    ∀ {cs : List (Nat × T)} {b q : Ptr}, Seg h b cs q →
      (∀ a, a ∈ cs.map Prod.fst → a ∉ S) → Seg h' b cs q := by
  intro cs
  induction cs with
  | nil => intro _ _ _ _; trivial
  | cons c cs ih =>
    intro b q hs hd
    exact ⟨f.cell hs.1 (hd c.1 (by simp)), ih hs.2 (fun a ha => hd a (by simp [ha]))⟩

theorem WellFormed.dll_frame {h h' : Heap (Node T)} {S : List Nat} {l : DoublyLinkedList}
    {cells : List (Nat × T)} (hw : WellFormed h l cells) (f : Heap.Frame h h' S)
    (hd : ∀ a, a ∈ cells.map Prod.fst → a ∉ S) : WellFormed h' l cells :=
  ⟨hw.head, hw.tail, hw.size, dll_Seg_frame f hw.chain hd, hw.nodup⟩

theorem WellFormed.dll_lt {h : Heap (Node T)} {l : DoublyLinkedList}
    {cells : List (Nat × T)} (hw : WellFormed h l cells) :
    ∀ a, a ∈ cells.map Prod.fst → a < h.length :=
  dll_Seg_lt hw.chain

theorem dll_empty_list_wf (h : Heap (Node T)) : WellFormed h empty_list [] :=
  ⟨rfl, rfl, rfl, trivial, by simp⟩

/-- A well-formed list with no node is the empty list. -/
theorem WellFormed.dll_eq_empty {h : Heap (Node T)} {l : DoublyLinkedList}
    (hw : WellFormed h l ([] : List (Nat × T))) : l = empty_list := by
  cases l with
  | mk hd tl sz =>
    have h1 : hd = none := hw.head
    have h2 : tl = none := hw.tail
    have h3 : sz = 0 := hw.size
    subst h1 h2 h3
    rfl

/-- The loop of `push_back` calls appends the values in order, on fresh nodes. -/
theorem dll_push_back_each_wf (init : List T) :
    ∀ {h : Heap (Node T)} {l : DoublyLinkedList} {cells : List (Nat × T)},
      WellFormed h l cells →
      ∃ h' l' added, push_back_each true init h l = .ok (h', l') ∧
        WellFormed h' l' (cells ++ added) ∧ added.map Prod.snd = init ∧
        Heap.Frame h h' (cells.map Prod.fst) ∧
        ∀ a, a ∈ added.map Prod.fst → h.length ≤ a := by
  induction init with
  | nil =>
    intro h l cells hw
    exact ⟨h, l, [], rfl, by simpa using hw, rfl, Heap.Frame.refl h _, by simp⟩
  | cons x rest ih =>
    intro h l cells hw
    obtain ⟨h1, l1, e1, hw1, f1⟩ := dll_push_back_wf_frame hw x
    obtain ⟨h2, l2, added, e2, hw2, hv, f2, hfr⟩ := ih hw1
    refine ⟨h2, l2, (h.length, x) :: added, ?_, by simpa using hw2, by simp [hv], ?_, ?_⟩
    · simp only [push_back_each, e1, ok_bind]
      exact e2
    · refine f1.trans f2 ?_
      intro a ha
      simp only [List.map_append, List.map_cons, List.map_nil, List.mem_append,
        List.mem_singleton] at ha
      rcases ha with ha | ha
      · exact Or.inl ha
      · exact Or.inr (by omega)
    · intro a ha
      simp only [List.map_cons, List.mem_cons] at ha
      rcases ha with rfl | ha
      · exact le_refl _
      · exact le_trans f1.1 (hfr a ha)

/-- The constructor from an initializer list builds, on fresh nodes, a list that
holds the values of `init`. -/
theorem dll_from_initializer_list_wf (h : Heap (Node T)) (init : List T) :
    ∃ h' l' cells, from_initializer_list true h init = .ok (h', l') ∧
      WellFormed h' l' cells ∧ cells.map Prod.snd = init ∧ Heap.Frame h h' [] ∧
      ∀ a, a ∈ cells.map Prod.fst → h.length ≤ a := by
  obtain ⟨h', l', added, e, hw, hv, f, hfr⟩ := dll_push_back_each_wf init (dll_empty_list_wf h)
  exact ⟨h', l', added, e, by simpa using hw, hv, by simpa using f, hfr⟩

/-- The loop of the copy constructor, with the nodes `cs` of `other` still to
visit: the values of `cs` are appended on fresh nodes, and the nodes of `other`
are left alone. -/
theorem dll_copy_loop_wf :
    ∀ (cs : List (Nat × T)) {h : Heap (Node T)} {l : DoublyLinkedList}
      {cells : List (Nat × T)} (b : Ptr) (fuel : Nat), Seg h b cs none → cs.length ≤ fuel →
      WellFormed h l cells → (∀ a, a ∈ cs.map Prod.fst → a ∉ cells.map Prod.fst) →
      ∃ h' l' added, copy_loop true fuel h (link cs none) l = .ok (h', l') ∧
        WellFormed h' l' (cells ++ added) ∧ added.map Prod.snd = cs.map Prod.snd ∧
        Heap.Frame h h' (cells.map Prod.fst) ∧
        ∀ a, a ∈ added.map Prod.fst → h.length ≤ a := by
  intro cs
  induction cs with
  | nil =>
    intro h l cells b fuel _ _ hw _
    refine ⟨h, l, [], ?_, by simpa using hw, rfl, Heap.Frame.refl h _, by simp⟩
    cases fuel <;> rfl
  | cons c cs ih =>
    intro h l cells b fuel hs hf hw hd
    obtain ⟨k, rfl⟩ : ∃ k, fuel = k + 1 := ⟨fuel - 1, by simp at hf; omega⟩
    have hc : h[c.1]? = some (some ⟨c.2, link cs none, b⟩) := hs.1
    obtain ⟨h1, l1, e1, hw1, f1⟩ := dll_push_back_wf_frame hw c.2
    have hs1 : Seg h1 b (c :: cs) none := dll_Seg_frame f1 hs hd
    have hc1 : h1[c.1]? = some (some ⟨c.2, link cs none, b⟩) := hs1.1
    have hlt := dll_Seg_lt hs
    obtain ⟨h2, l2, added, e2, hw2, hv, f2, hfr⟩ := ih (some c.1) k hs1.2
        (by simp at hf; omega) hw1 (by
      intro a ha hmem
      simp only [List.map_append, List.map_cons, List.map_nil, List.mem_append,
        List.mem_singleton] at hmem
      rcases hmem with hmem | hmem
      · exact hd a (by simp [ha]) hmem
      · have := hlt a (by simp [ha])
        omega)
    refine ⟨h2, l2, (h.length, c.2) :: added, ?_, by simpa using hw2, by simp [hv], ?_, ?_⟩
    · simp only [link_cons, copy_loop]
      rw [Heap.deref_cell hc]
      simp only [ok_bind, e1]
      rw [Heap.deref_cell hc1]
      exact e2
    · refine f1.trans f2 ?_
      intro a ha
      simp only [List.map_append, List.map_cons, List.map_nil, List.mem_append,
        List.mem_singleton] at ha
      rcases ha with ha | ha
      · exact Or.inl ha
      · exact Or.inr (by omega)
    · intro a ha
      simp only [List.map_cons, List.mem_cons] at ha
      rcases ha with rfl | ha
      · exact le_refl _
      · exact le_trans f1.1 (hfr a ha)

/-- The copy constructor builds, on fresh nodes, a list that holds the elements
of `other`, and leaves every node of the heap alone. -/
theorem dll_copy_constructor_wf {h : Heap (Node T)} {other : DoublyLinkedList}
    {cells : List (Nat × T)} (hw : WellFormed h other cells) :
    ∃ h' l' copy, copy_constructor true h other = .ok (h', l') ∧
      WellFormed h' l' copy ∧ copy.map Prod.snd = cells.map Prod.snd ∧
      Heap.Frame h h' [] ∧ ∀ a, a ∈ copy.map Prod.fst → h.length ≤ a := by
  obtain ⟨h', l', added, e, hw', hv, f, hfr⟩ :=
    dll_copy_loop_wf cells none h.length hw.chain hw.dll_length_le (dll_empty_list_wf h)
      (by simp)
  refine ⟨h', l', added, ?_, by simpa using hw', hv, by simpa using f, hfr⟩
  simp only [copy_constructor, hw.head]
  exact e

theorem set_cell_self {N : Type} {h : Heap N} {a : Nat} {n : N}
    (hn : h[a]? = some (some n)) : h.set a (some n) = h := by
  apply List.ext_getElem?
  intro k
  by_cases hk : k = a
  · subst hk
    rw [List.getElem?_set_self (Heap.cell_lt hn), hn]
  · rw [List.getElem?_set_ne (Ne.symm hk)]

/-- In a well-formed list the head node has no predecessor, so the statement
`if (head_) head_->prev = nullptr;` changes nothing. -/
theorem dll_reset_head_prev_wf {h : Heap (Node T)} {l : DoublyLinkedList}
    {cells : List (Nat × T)} (hw : WellFormed h l cells) :
    reset_head_prev h l.head_ = .ok h := by
  cases cells with
  | nil =>
    have hh : l.head_ = none := hw.head
    simp [reset_head_prev, hh]
  | cons c cs =>
    have hh : l.head_ = some c.1 := hw.head
    have hc : h[c.1]? = some (some ⟨c.2, link cs none, none⟩) := hw.chain.1
    simp only [reset_head_prev, hh, reduceCtorEq, if_false]
    rw [Heap.modify_cell _ hc]
    exact congrArg Except.ok (set_cell_self hc)

theorem dll_move_constructor_wf {h : Heap (Node T)} {other : DoublyLinkedList}
    {cells : List (Nat × T)} (hw : WellFormed h other cells) :
    move_constructor h other = .ok (h, other, empty_list) := by
  simp only [move_constructor, dll_reset_head_prev_wf hw, ok_bind]
  rfl

theorem dll_swap_wf {h : Heap (Node T)} {l other : DoublyLinkedList}
    {cells cs : List (Nat × T)} (hw : WellFormed h l cells) (ho : WellFormed h other cs) :
    swap h l other = .ok (h, other, l) := by
  simp only [swap, dll_reset_head_prev_wf ho, ok_bind, dll_reset_head_prev_wf hw]
  rfl

/-- The destructor deletes the nodes of the list and nothing else. -/
theorem dll_destroy_seg :
    ∀ (cs : List (Nat × T)) (b : Ptr) (h : Heap (Node T)) (fuel : Nat), Seg h b cs none →
      (cs.map Prod.fst).Nodup → cs.length ≤ fuel →
      ∃ h', Heap.destroy Node.next fuel h (link cs none) = .ok h' ∧
        Heap.Frame h h' (cs.map Prod.fst) := by
  intro cs
  induction cs with
  | nil =>
    intro b h fuel _ _ _
    exact ⟨h, by cases fuel <;> rfl, Heap.Frame.refl h _⟩
  | cons c cs ih =>
    intro b h fuel hs hnd hf
    obtain ⟨k, rfl⟩ : ∃ k, fuel = k + 1 := ⟨fuel - 1, by simp at hf; omega⟩
    have hc : h[c.1]? = some (some ⟨c.2, link cs none, b⟩) := hs.1
    simp only [List.map_cons, List.nodup_cons] at hnd
    obtain ⟨h', e, hfr⟩ := ih (some c.1) (h.set c.1 none) k (dll_Seg_set _ hnd.1 hs.2) hnd.2
      (by simp at hf; omega)
    refine ⟨h', ?_, ?_⟩
    · simp only [link_cons, Heap.destroy, hc]
      exact e
    · refine ⟨by simpa using hfr.1, ?_⟩
      intro a ha hS
      simp only [List.map_cons, List.mem_cons, not_or] at hS
      rw [hfr.2 a (by simpa using ha) hS.2, List.getElem?_set_ne (Ne.symm hS.1)]

theorem dll_destructor_wf {h : Heap (Node T)} {l : DoublyLinkedList}
    {cells : List (Nat × T)} (hw : WellFormed h l cells) :
    ∃ h', destructor h l = .ok h' ∧ Heap.Frame h h' (cells.map Prod.fst) := by
  obtain ⟨h', e, f⟩ :=
    dll_destroy_seg cells none h h.length hw.chain hw.nodup hw.dll_length_le
  exact ⟨h', by simp only [destructor, hw.head, e], f⟩

/-- Copy assignment: the list holds the elements of `other` on fresh nodes; only
the nodes the list had are deleted. -/
theorem dll_copy_assignment_wf {h : Heap (Node T)} {l other : DoublyLinkedList}
    {cells cs : List (Nat × T)} (hw : WellFormed h l cells) (ho : WellFormed h other cs) :
    ∃ h' l' copy, copy_assignment true h l other = .ok (h', l') ∧
      WellFormed h' l' copy ∧ copy.map Prod.snd = cs.map Prod.snd ∧
      Heap.Frame h h' (cells.map Prod.fst) ∧ ∀ a, a ∈ copy.map Prod.fst → h.length ≤ a := by
  obtain ⟨h1, t, copy, e1, hw1, hv, f1, hfr⟩ := dll_copy_constructor_wf ho
  have hl1 : WellFormed h1 l cells := hw.dll_frame f1 (by simp)
  obtain ⟨h2, e2, f2⟩ := dll_destructor_wf hl1
  have hdisj : ∀ a, a ∈ copy.map Prod.fst → a ∉ cells.map Prod.fst := by
    intro a ha hmem
    have h1 := hfr a ha
    have h2 := hw.dll_lt a hmem
    omega
  refine ⟨h2, t, copy, ?_, hw1.dll_frame f2 hdisj, hv, ?_, hfr⟩
  · simp only [copy_assignment, e1, ok_bind, dll_swap_wf hl1 hw1, e2]
    rfl
  · exact (f1.mono (by simp)).trans f2 (fun a ha => Or.inl ha)

/-- Move assignment into a distinct list: the list takes over the nodes of
`other`, which is left empty; only the nodes the list had are deleted. -/
theorem dll_move_assignment_wf {h : Heap (Node T)} {l other : DoublyLinkedList}
    {cells cs : List (Nat × T)} (hw : WellFormed h l cells) (ho : WellFormed h other cs)
    (hd : ∀ a, a ∈ cs.map Prod.fst → a ∉ cells.map Prod.fst) :
    ∃ h', move_assignment h l other = .ok (h', other, empty_list) ∧
      WellFormed h' other cs ∧ WellFormed h' empty_list ([] : List (Nat × T)) ∧
      Heap.Frame h h' (cells.map Prod.fst) := by
  obtain ⟨h1, e1, _, f1⟩ := dll_clear_wf_frame hw
  have ho1 := ho.dll_frame f1 hd
  refine ⟨h1, ?_, ho1, dll_empty_list_wf h1, f1⟩
  simp only [move_assignment, e1, ok_bind, dll_reset_head_prev_wf ho1]
  rfl

end DoublyLinkedList

namespace DoublyLinkedList

variable {T : Type}

theorem dll_push_back_refused (h : Heap (Node T)) (l : DoublyLinkedList) (v : T) :
    push_back false h l v = .error .AllocationFailure := rfl

theorem dll_push_front_refused (h : Heap (Node T)) (l : DoublyLinkedList) (v : T) :
    push_front false h l v = .error .AllocationFailure := rfl

theorem dll_insert_middle_refused (h : Heap (Node T)) (l : DoublyLinkedList) (pos : Nat)
    (v : T) (r : Heap (Node T) × DoublyLinkedList) : insert_middle false h l pos v ≠ .ok r := by
  intro e
  unfold insert_middle at e
  cases h1 : get_node_at h l pos with
  | error err => rw [h1] at e; cases e
  | ok prev =>
    rw [h1] at e
    simp only [ok_bind] at e
    cases h2 : h.deref prev with
    | error err => rw [h2] at e; cases e
    | ok p =>
      rw [h2] at e
      cases e

theorem dll_push_back_granted {mem : Bool} {h : Heap (Node T)} {l : DoublyLinkedList} {v : T}
    {r : Heap (Node T) × DoublyLinkedList} (e : push_back mem h l v = .ok r) :
    push_back true h l v = .ok r := by
  cases mem with
  | true => exact e
  | false => rw [dll_push_back_refused] at e; cases e

theorem dll_push_front_granted {mem : Bool} {h : Heap (Node T)} {l : DoublyLinkedList} {v : T}
    {r : Heap (Node T) × DoublyLinkedList} (e : push_front mem h l v = .ok r) :
    push_front true h l v = .ok r := by
  cases mem with
  | true => exact e
  | false => rw [dll_push_front_refused] at e; cases e

theorem dll_insert_granted {mem : Bool} {h : Heap (Node T)} {l : DoublyLinkedList} {pos : Nat}
    {v : T} {r : Heap (Node T) × DoublyLinkedList} (e : insert mem h l pos v = .ok r) :
    insert true h l pos v = .ok r := by
  cases mem with
  | true => exact e
  | false =>
    exfalso
    unfold insert at e
    cases h0 : BaseContainer.check_position pos l.size_ with
    | error err => rw [h0] at e; cases e
    | ok u =>
      rw [h0] at e
      simp only [ok_bind] at e
      split at e
      · rw [dll_push_front_refused] at e; cases e
      · split at e
        · rw [dll_push_back_refused] at e; cases e
        · exact dll_insert_middle_refused _ _ _ _ _ e

theorem dll_push_back_each_granted {mem : Bool} (init : List T) :
    ∀ {h : Heap (Node T)} {l : DoublyLinkedList} {r : Heap (Node T) × DoublyLinkedList},
      push_back_each mem init h l = .ok r → push_back_each true init h l = .ok r := by
  induction init with
  | nil => intro h l r e; exact e
  | cons x rest ih =>
    intro h l r e
    simp only [push_back_each] at e ⊢
    cases h1 : push_back mem h l x with
    | error err => rw [h1] at e; cases e
    | ok p =>
      rw [h1] at e
      rw [dll_push_back_granted h1]
      exact ih e

theorem dll_from_initializer_list_granted {mem : Bool} {h : Heap (Node T)} {init : List T}
    {r : Heap (Node T) × DoublyLinkedList} (e : from_initializer_list mem h init = .ok r) :
    from_initializer_list true h init = .ok r :=
  dll_push_back_each_granted init e

theorem dll_copy_loop_granted {mem : Bool} :
    ∀ (fuel : Nat) {h : Heap (Node T)} {p : Ptr} {l : DoublyLinkedList}
      {r : Heap (Node T) × DoublyLinkedList},
      copy_loop mem fuel h p l = .ok r → copy_loop true fuel h p l = .ok r := by
  intro fuel
  induction fuel with
  | zero =>
    intro h p l r e
    cases p with
    | none => exact e
    | some a => cases e
  | succ k ih =>
    intro h p l r e
    cases p with
    | none => exact e
    | some a =>
      simp only [copy_loop] at e ⊢
      cases h1 : h.deref (some a) with
      | error err => rw [h1] at e; cases e
      | ok n =>
        rw [h1] at e
        simp only [ok_bind] at e ⊢
        cases h2 : push_back mem h l n.data with
        | error err => rw [h2] at e; cases e
        | ok q =>
          rw [h2] at e
          rw [dll_push_back_granted h2]
          simp only [ok_bind] at e ⊢
          cases h3 : q.1.deref (some a) with
          | error err => rw [h3] at e; cases e
          | ok n2 =>
            rw [h3] at e
            simp only [ok_bind] at e ⊢
            exact ih e

theorem dll_copy_constructor_granted {mem : Bool} {h : Heap (Node T)}
    {other : DoublyLinkedList} {r : Heap (Node T) × DoublyLinkedList}
    (e : copy_constructor mem h other = .ok r) : copy_constructor true h other = .ok r :=
  dll_copy_loop_granted _ e

theorem dll_copy_assignment_granted {mem : Bool} {h : Heap (Node T)}
    {l other : DoublyLinkedList} {r : Heap (Node T) × DoublyLinkedList}
    (e : copy_assignment mem h l other = .ok r) : copy_assignment true h l other = .ok r := by
  unfold copy_assignment at e ⊢
  cases h1 : copy_constructor mem h other with
  | error err => rw [h1] at e; cases e
  | ok p =>
    rw [h1] at e
    rw [dll_copy_constructor_granted h1]
    exact e

end DoublyLinkedList


namespace DoublyLinkedList

variable {T : Type}

theorem dll_WF_lt (h : Heap (Node T)) (l : DoublyLinkedList) (cs : List (Nat × T))
    (hw : WellFormed h l cs) : ∀ a, a ∈ cs.map Prod.fst → a < h.length :=
  hw.dll_lt

theorem dll_WF_frame (h h' : Heap (Node T)) (S : List Nat) (l : DoublyLinkedList)
    (cs : List (Nat × T)) (hw : WellFormed h l cs) (f : Heap.Frame h h' S)
    (hd : ∀ a, a ∈ cs.map Prod.fst → a ∉ S) : WellFormed h' l cs :=
  hw.dll_frame f hd

theorem dll_index_lt {w : World (Node T) DoublyLinkedList} {i : Nat} {l : DoublyLinkedList}
    (hl : w.lists[i]? = some l) : i < w.lists.length := by
  rcases (List.getElem?_eq_some_iff.mp hl) with ⟨hlt, _⟩
  exact hlt

/-- In every reachable world the lists are well formed over pairwise disjoint
sets of nodes. -/
theorem Reachable.dll_inv {w : World (Node T) DoublyLinkedList} (r : Reachable w) :
    ∃ c, World.Inv (@WellFormed T) w c := by
  induction r with
  | start => exact ⟨_, World.Inv.start⟩
  | default_construct w _ ih =>
    obtain ⟨c, inv⟩ := ih
    exact ⟨_, World.Inv.construct dll_WF_lt dll_WF_frame inv (dll_empty_list_wf w.heap)
      (Heap.Frame.refl _ _) (by simp)⟩
  | from_initializer_list w mem init h' l' _ e ih =>
    obtain ⟨c, inv⟩ := ih
    obtain ⟨h1, l1, cells, e1, hw, _, f, hfr⟩ := dll_from_initializer_list_wf w.heap init
    rw [dll_from_initializer_list_granted e] at e1
    cases e1
    exact ⟨_, World.Inv.construct dll_WF_lt dll_WF_frame inv hw f hfr⟩
  | copy_constructor w mem j other h' l' _ hj e ih =>
    obtain ⟨c, inv⟩ := ih
    obtain ⟨h1, l1, cells, e1, hw, _, f, hfr⟩ := dll_copy_constructor_wf (inv.wf j other hj)
    rw [dll_copy_constructor_granted e] at e1
    cases e1
    exact ⟨_, World.Inv.construct dll_WF_lt dll_WF_frame inv hw f hfr⟩
  | move_constructor w j other h' l' other' _ hj e ih =>
    obtain ⟨c, inv⟩ := ih
    rw [dll_move_constructor_wf (inv.wf j other hj)] at e
    cases e
    exact World.Inv.move_out dll_WF_lt dll_WF_frame inv (dll_index_lt hj)
      (inv.wf j other hj) dll_empty_list_wf (Heap.Frame.refl _ _)
  | push_back w mem i l v h' l' _ hi e ih =>
    obtain ⟨c, inv⟩ := ih
    obtain ⟨h1, l1, e1, hw, f⟩ := dll_push_back_wf_frame (inv.wf i l hi) v
    rw [dll_push_back_granted e] at e1
    cases e1
    refine ⟨_, World.Inv.update_one dll_WF_lt dll_WF_frame inv (dll_index_lt hi) hw f ?_⟩
    intro a ha
    simp only [List.map_append, List.map_cons, List.map_nil, List.mem_append,
      List.mem_singleton] at ha
    rcases ha with ha | ha
    · exact Or.inl ha
    · exact Or.inr (by omega)
  | push_front w mem i l v h' l' _ hi e ih =>
    obtain ⟨c, inv⟩ := ih
    obtain ⟨h1, l1, e1, hw, f⟩ := dll_push_front_wf_frame (inv.wf i l hi) v
    rw [dll_push_front_granted e] at e1
    cases e1
    refine ⟨_, World.Inv.update_one dll_WF_lt dll_WF_frame inv (dll_index_lt hi) hw f ?_⟩
    intro a ha
    simp only [List.map_cons, List.mem_cons] at ha
    rcases ha with ha | ha
    · exact Or.inr (by omega)
    · exact Or.inl ha
  | insert w mem i l pos v h' l' _ hi e ih =>
    obtain ⟨c, inv⟩ := ih
    have hwl := inv.wf i l hi
    by_cases hpos : pos ≤ (c i).length
    · obtain ⟨h1, l1, e1, hw, f⟩ := dll_insert_wf_frame hwl pos hpos v
      rw [dll_insert_granted e] at e1
      cases e1
      refine ⟨_, World.Inv.update_one dll_WF_lt dll_WF_frame inv (dll_index_lt hi) hw f ?_⟩
      intro a ha
      rcases mem_insert_cells ha with ha | ha
      · exact Or.inl ha
      · exact Or.inr (by omega)
    · have herr := (dll_insert_outOfRange_iff mem w.heap l pos v).mpr (by
        simp only [size, hwl.size]
        omega)
      rw [herr] at e
      cases e
  | erase w i l pos h' l' _ hi e ih =>
    obtain ⟨c, inv⟩ := ih
    have hwl := inv.wf i l hi
    by_cases hpos : pos < (c i).length
    · obtain ⟨h1, l1, e1, hw, f⟩ := dll_erase_wf_frame hwl pos hpos
      rw [e] at e1
      cases e1
      refine ⟨_, World.Inv.update_one dll_WF_lt dll_WF_frame inv (dll_index_lt hi) hw f ?_⟩
      intro a ha
      exact Or.inl (mem_erase_cells ha)
    · have herr := (dll_erase_outOfRange_iff w.heap l pos).mpr (by
        simp only [size, hwl.size]
        omega)
      rw [herr] at e
      cases e
  | clear w i l h' l' _ hi e ih =>
    obtain ⟨c, inv⟩ := ih
    obtain ⟨h1, e1, hw, f⟩ := dll_clear_wf_frame (inv.wf i l hi)
    rw [e] at e1
    cases e1
    exact ⟨_, World.Inv.update_one dll_WF_lt dll_WF_frame inv (dll_index_lt hi) hw f (by simp)⟩
  | swap w i j l other h' l' other' _ hi hj hij e ih =>
    obtain ⟨c, inv⟩ := ih
    rw [dll_swap_wf (inv.wf i l hi) (inv.wf j other hj)] at e
    cases e
    refine ⟨_, World.Inv.update_two dll_WF_lt dll_WF_frame inv (dll_index_lt hi) (dll_index_lt hj)
      hij (inv.wf j other hj) (inv.wf i l hi) (Heap.Frame.refl _ _) ?_ ?_ ?_⟩
    · intro a ha
      exact Or.inr (Or.inl ha)
    · intro a ha
      exact Or.inl ha
    · intro a ha
      exact inv.disjoint j i (dll_index_lt hj) (dll_index_lt hi) (Ne.symm hij) a ha
  | copy_assignment w mem i j l other h' l' _ hi hj hij e ih =>
    obtain ⟨c, inv⟩ := ih
    obtain ⟨h1, l1, copy, e1, hw, _, f, hfr⟩ :=
      dll_copy_assignment_wf (inv.wf i l hi) (inv.wf j other hj)
    rw [dll_copy_assignment_granted e] at e1
    cases e1
    exact ⟨_, World.Inv.update_one dll_WF_lt dll_WF_frame inv (dll_index_lt hi) hw f
      (fun a ha => Or.inr (hfr a ha))⟩
  | move_assignment w i j l other h' l' other' _ hi hj hij e ih =>
    obtain ⟨c, inv⟩ := ih
    obtain ⟨h1, e1, hw1, hw2, f⟩ := dll_move_assignment_wf (inv.wf i l hi) (inv.wf j other hj)
      (fun a ha => inv.disjoint j i (dll_index_lt hj) (dll_index_lt hi) (Ne.symm hij) a ha)
    rw [e] at e1
    cases e1
    refine ⟨_, World.Inv.update_two dll_WF_lt dll_WF_frame inv (dll_index_lt hi) (dll_index_lt hj)
      hij hw1 hw2 (f.mono (by simp +contextual)) ?_ (by simp) (by simp)⟩
    intro a ha
    exact Or.inr (Or.inl ha)

/-- The walk along `next` from the head of a chain meets its nodes, in order. -/
theorem dll_nodes_seg {h : Heap (Node T)} :
    ∀ (cs : List (Nat × T)) (b : Ptr) (fuel : Nat), Seg h b cs none → cs.length ≤ fuel →
      nodes h fuel (link cs none) = .ok (cs.map Prod.fst) := by
  intro cs
  induction cs with
  | nil =>
    intro b fuel _ _
    cases fuel <;> rfl
  | cons c cs ih =>
    intro b fuel hs hf
    obtain ⟨k, rfl⟩ : ∃ k, fuel = k + 1 := ⟨fuel - 1, by simp at hf; omega⟩
    have hc : h[c.1]? = some (some ⟨c.2, link cs none, b⟩) := hs.1
    simp only [link_cons, nodes]
    rw [Heap.deref_cell hc]
    simp only [ok_bind]
    rw [ih (some c.1) k hs.2 (by simp at hf; omega)]
    rfl

theorem dll_nodes_wf {h : Heap (Node T)} {l : DoublyLinkedList} {cells : List (Nat × T)}
    (hw : WellFormed h l cells) : nodes h h.length l.head_ = .ok (cells.map Prod.fst) := by
  rw [hw.head]
  exact dll_nodes_seg cells none h.length hw.chain hw.dll_length_le

end DoublyLinkedList

/-! ## Capacity of `SimpleVector` -/

namespace SimpleVector

variable {T : Type}

theorem ensure_capacity_capacity {mem : Bool} {s s' : SimpleVector T} {r : Nat}
    (e : ensure_capacity mem s r = .ok s') :
    s'.capacity_ = if r ≤ s.capacity_ then s.capacity_
      else if s.size_ ≤ max r (if s.capacity_ = 0 then 1 else grown s.capacity_)
        then max r (if s.capacity_ = 0 then 1 else grown s.capacity_)
        else s.capacity_ := by
  unfold ensure_capacity at e
  by_cases h1 : r ≤ s.capacity_
  · simp only [h1, if_true] at e ⊢
    cases e
    rfl
  · simp only [h1, if_false] at e ⊢
    have hnc : ∀ g : Nat, (if g < r then r else g) = max r g := by
      intro g
      split <;> omega
    rw [hnc] at e
    generalize max r (if s.capacity_ = 0 then 1 else grown s.capacity_) = c at e ⊢
    unfold change_capacity at e
    by_cases h2 : c = s.capacity_
    · simp only [h2, if_true] at e
      cases e
      split <;> simp [h2]
    · by_cases h3 : c < s.size_
      · simp only [h2, h3, if_true, if_false] at e
        cases e
        have : ¬ s.size_ ≤ c := by omega
        simp [this]
      · simp only [h2, h3, if_false] at e
        have : s.size_ ≤ c := by omega
        simp only [this, if_true]
        split at e
        · cases hn : operator_new mem c with
          | error err => rw [hn] at e; cases e
          | ok raw =>
            rw [hn] at e
            simp only [ok_bind] at e
            cases hr : relocate s.data_ s.size_ 0 raw with
            | error err => rw [hr] at e; cases e
            | ok d =>
              rw [hr] at e
              cases e
              rfl
        · cases e
          rfl

theorem push_back_capacity {mem : Bool} {s s' : SimpleVector T} {v : T}
    (e : push_back mem s v = .ok s') :
    ∃ s1, ensure_capacity mem s (s.size_ + 1) = .ok s1 ∧ s'.capacity_ = s1.capacity_ := by
  unfold push_back at e
  cases h1 : ensure_capacity mem s (s.size_ + 1) with
  | error err => rw [h1] at e; cases e
  | ok s1 =>
    rw [h1] at e
    simp only [ok_bind] at e
    cases h2 : construct_at s1.data_ s1.size_ v with
    | error err => rw [h2] at e; cases e
    | ok d =>
      rw [h2] at e
      cases e
      exact ⟨s1, rfl, rfl⟩

theorem insert_capacity {mv : T → T} {mem : Bool} {s s' : SimpleVector T} {pos : Nat} {v : T}
    (e : insert mv mem s pos v = .ok s') :
    ∃ s1, ensure_capacity mem s (s.size_ + 1) = .ok s1 ∧ s'.capacity_ = s1.capacity_ := by
  unfold insert at e
  cases h0 : BaseContainer.check_position pos s.size_ with
  | error err => rw [h0] at e; cases e
  | ok u =>
    rw [h0] at e
    simp only [ok_bind] at e
    cases h1 : ensure_capacity mem s (s.size_ + 1) with
    | error err => rw [h1] at e; cases e
    | ok s1 =>
      rw [h1] at e
      simp only [ok_bind] at e
      refine ⟨s1, rfl, ?_⟩
      split at e
      · cases h2 : construct_at s1.data_ s1.size_ v with
        | error err => rw [h2] at e; cases e
        | ok d =>
          rw [h2] at e
          cases e
          rfl
      · cases h2 : move_construct mv s1.data_ s1.size_ (s1.size_ - 1) with
        | error err => rw [h2] at e; cases e
        | ok d =>
          rw [h2] at e
          simp only [ok_bind] at e
          cases h3 : shift_right mv pos s1.size_ d with
          | error err => rw [h3] at e; cases e
          | ok d2 =>
            rw [h3] at e
            simp only [ok_bind] at e
            cases h4 : assign_at d2 pos v with
            | error err => rw [h4] at e; cases e
            | ok d3 =>
              rw [h4] at e
              cases e
              rfl

theorem erase_capacity {mv : T → T} {s s' : SimpleVector T} {pos : Nat}
    (e : erase mv s pos = .ok s') : s'.capacity_ = s.capacity_ := by
  unfold erase at e
  cases h0 : BaseContainer.check_index pos s.size_ with
  | error err => rw [h0] at e; cases e
  | ok u =>
    rw [h0] at e
    simp only [ok_bind] at e
    cases h1 : destroy_at s.data_ pos with
    | error err => rw [h1] at e; cases e
    | ok d =>
      rw [h1] at e
      simp only [ok_bind] at e
      cases h2 : shift_left mv (s.size_ - 1 - pos) pos d with
      | error err => rw [h2] at e; cases e
      | ok d2 =>
        rw [h2] at e
        cases e
        rfl

theorem destroy_range_length :
    ∀ (k i : Nat) (b : List (Option T)) (d : Option (List (Option T))),
      destroy_range k i (some b) = .ok d → ∃ b', d = some b' ∧ b'.length = b.length := by
  intro k
  induction k with
  | zero =>
    intro i b d e
    cases e
    exact ⟨b, rfl, rfl⟩
  | succ k ih =>
    intro i b d e
    simp only [destroy_range] at e
    cases h1 : destroy_at (some b) i with
    | error err => rw [h1] at e; cases e
    | ok d1 =>
      rw [h1] at e
      simp only [ok_bind] at e
      unfold destroy_at at h1
      simp only at h1
      split at h1
      · cases h1
        obtain ⟨b', e1, e2⟩ := ih (i + 1) _ d e
        exact ⟨b', e1, by simpa using e2⟩
      · cases h1

theorem clear_capacity {s s' : SimpleVector T} (e : clear s = .ok s') :
    s'.capacity_ = s.capacity_ ∧ s'.size_ = 0 ∧
      (s.data_ = none → s'.data_ = none) ∧
      (∀ b, s.data_ = some b → ∃ b', s'.data_ = some b' ∧ b'.length = b.length) := by
  unfold clear at e
  cases h1 : destroy_elements s with
  | error err => rw [h1] at e; cases e
  | ok d =>
    rw [h1] at e
    cases e
    refine ⟨rfl, rfl, ?_, ?_⟩
    · intro hn
      simp only [destroy_elements, hn] at h1
      cases h1
      rfl
    · intro b hb
      simp only [destroy_elements, hb] at h1
      exact destroy_range_length _ _ _ _ h1

end SimpleVector

/-- C15: every state of a `SimpleVector` reached from a constructor by `push_back`,
`insert`, `erase`, `clear`, `reserve`, `swap`, copy or move construction and copy
or move assignment has `size() <= capacity()`, whatever the move of the element
type leaves in its source and whatever the allocator answers. -/
theorem SimpleVector.size_le_capacity_of_reachable {T : Type} (mv : T → T) (s : SimpleVector T)
    (r : Reachable mv s) : s.size ≤ s.capacity := by
  obtain ⟨xs, hs⟩ := r.holds
  have h1 : s.size_ = xs.length := hs.1
  have h2 : xs.length ≤ s.capacity_ := hs.2.1
  simp only [size, capacity]
  omega

theorem SimpleVector.size_le_capacity_of_reachable_witness :
    Reachable id ({ size_ := 2, capacity_ := 3, data_ := some [some 7, some 9, none] } :
        SimpleVector Int) ∧
      ({ size_ := 2, capacity_ := 3, data_ := some [some 7, some 9, none] } :
        SimpleVector Int).size ≤
      ({ size_ := 2, capacity_ := 3, data_ := some [some 7, some 9, none] } :
        SimpleVector Int).capacity :=
  have r1 : Reachable id ({ size_ := 1, capacity_ := 1, data_ := some [some 7] } :
      SimpleVector Int) :=
    Reachable.push_back true empty_vector 7 _ Reachable.default_construct (by decide)
  have r2 : Reachable id ({ size_ := 2, capacity_ := 2, data_ := some [some 7, some 9] } :
      SimpleVector Int) :=
    Reachable.push_back true _ 9 _ r1 (by decide)
  have r3 : Reachable id
      ({ size_ := 3, capacity_ := 3, data_ := some [some 7, some 8, some 9] } :
        SimpleVector Int) :=
    Reachable.insert true _ 1 8 _ r2 (by decide)
  have r : Reachable id ({ size_ := 2, capacity_ := 3, data_ := some [some 7, some 9, none] } :
      SimpleVector Int) :=
    Reachable.erase _ 1 _ r3 (by decide)
  ⟨r, size_le_capacity_of_reachable id _ r⟩

/-- C16: when `size() == capacity() == c`, a `push_back` or an `insert` that
returns leaves capacity `1` for `c == 0` and `max(c + 1, floor(1.5 * c))`
otherwise; both return in every valid state when memory is granted; and ten
`push_back` calls on an empty vector leave the capacities 1, 2, 3, 4, 6, 6, 9, 9,
9, 13 in turn. -/
theorem SimpleVector.growth_policy {T : Type} :
    (∀ (mem : Bool) (s s' : SimpleVector T) (v : T), s.size = s.capacity →
      push_back mem s v = .ok s' →
      s'.capacity = if s.capacity = 0 then 1 else max (s.capacity + 1) (s.capacity * 3 / 2)) ∧
    (∀ (mv : T → T) (mem : Bool) (s s' : SimpleVector T) (pos : Nat) (v : T),
      s.size = s.capacity → insert mv mem s pos v = .ok s' →
      s'.capacity = if s.capacity = 0 then 1 else max (s.capacity + 1) (s.capacity * 3 / 2)) ∧
    (∀ (mv : T → T) (s : SimpleVector T) (xs : List T) (pos : Nat) (v : T), s.Holds xs →
      pos ≤ xs.length →
      (∃ s', push_back true s v = .ok s') ∧ (∃ s', insert mv true s pos v = .ok s')) ∧
    ([0, 1, 2, 3, 4, 5, 6, 7, 8, 9].foldl
        (fun (acc : Except Error (SimpleVector Int × List Nat)) (v : Int) =>
          acc >>= fun p => (push_back true p.1 v).map fun s => (s, p.2 ++ [s.capacity]))
        (.ok (empty_vector, []))).map Prod.snd
      = .ok [1, 2, 3, 4, 6, 6, 9, 9, 9, 13] := by
  have key : ∀ (mem : Bool) (s s1 : SimpleVector T), s.size_ = s.capacity_ →
      ensure_capacity mem s (s.size_ + 1) = .ok s1 →
      s1.capacity_ = if s.capacity_ = 0 then 1
        else max (s.capacity_ + 1) (s.capacity_ * 3 / 2) := by
    intro mem s s1 hsc e
    rw [ensure_capacity_capacity e, hsc]
    have h1 : ¬ s.capacity_ + 1 ≤ s.capacity_ := by omega
    simp only [h1, if_false, grown]
    by_cases h0 : s.capacity_ = 0
    · simp [h0]
    · simp only [h0, if_false]
      have h2 : s.capacity_ ≤ max (s.capacity_ + 1) (s.capacity_ * 3 / 2) := by omega
      simp only [h2, if_true]
  refine ⟨?_, ?_, ?_, by decide⟩
  · intro mem s s' v hsc e
    obtain ⟨s1, e1, e2⟩ := push_back_capacity e
    simp only [size, capacity] at hsc ⊢
    rw [e2]
    exact key mem s s1 hsc e1
  · intro mv mem s s' pos v hsc e
    obtain ⟨s1, e1, e2⟩ := insert_capacity e
    simp only [size, capacity] at hsc ⊢
    rw [e2]
    exact key mem s s1 hsc e1
  · intro mv s xs pos v hs hpos
    obtain ⟨s', e, _⟩ := push_back_holds hs v
    obtain ⟨s'', ys, e', _⟩ := insert_holds_some mv hs pos hpos v
    exact ⟨⟨s', e⟩, ⟨s'', e'⟩⟩

theorem SimpleVector.growth_policy_witness :
    ({ size_ := 2, capacity_ := 2, data_ := some [some 7, some 9] } : SimpleVector Int).size
      = ({ size_ := 2, capacity_ := 2, data_ := some [some 7, some 9] } :
          SimpleVector Int).capacity ∧
    push_back true ({ size_ := 2, capacity_ := 2, data_ := some [some 7, some 9] } :
        SimpleVector Int) 4
      = .ok { size_ := 3, capacity_ := 3, data_ := some [some 7, some 9, some 4] } ∧
    ({ size_ := 3, capacity_ := 3, data_ := some [some 7, some 9, some 4] } :
        SimpleVector Int).capacity = 3 :=
  ⟨by decide, by decide,
    ((@growth_policy Int).1 true
      { size_ := 2, capacity_ := 2, data_ := some [some 7, some 9] }
      { size_ := 3, capacity_ := 3, data_ := some [some 7, some 9, some 4] } 4
      (by decide) (by decide)).trans (by decide)⟩

namespace SimpleVector

variable {T : Type}

theorem ensure_capacity_of_room (mem : Bool) {s : SimpleVector T} {r : Nat}
    (h : r ≤ s.capacity_) : ensure_capacity mem s r = .ok s := by
  simp [ensure_capacity, h]

theorem push_back_of_room (mem : Bool) {s : SimpleVector T} (h : s.size_ < s.capacity_)
    (v : T) : push_back mem s v = push_back true s v := by
  have hr : s.size_ + 1 ≤ s.capacity_ := h
  simp only [push_back, ensure_capacity_of_room _ hr]

theorem insert_of_room (mv : T → T) (mem : Bool) {s : SimpleVector T}
    (h : s.size_ < s.capacity_) (pos : Nat) (v : T) :
    insert mv mem s pos v = insert mv true s pos v := by
  have hr : s.size_ + 1 ≤ s.capacity_ := h
  simp only [insert, ensure_capacity_of_room _ hr]

end SimpleVector

/-- C17: `push_back` and `insert` leave `capacity()` as it was whenever
`size() < capacity()` before the call (and then ask for no memory: in a valid
state they return even when the allocator would refuse); `erase` and `clear`
never change `capacity()`, and `clear` sets the size to 0 and keeps the block,
with the same number of slots, when there is one. -/
theorem SimpleVector.capacity_frame {T : Type} :
    (∀ (mem : Bool) (s s' : SimpleVector T) (v : T), s.size < s.capacity →
      push_back mem s v = .ok s' → s'.capacity = s.capacity) ∧
    (∀ (mv : T → T) (mem : Bool) (s s' : SimpleVector T) (pos : Nat) (v : T),
      s.size < s.capacity → insert mv mem s pos v = .ok s' → s'.capacity = s.capacity) ∧
    (∀ (mv : T → T) (s s' : SimpleVector T) (pos : Nat),
      erase mv s pos = .ok s' → s'.capacity = s.capacity) ∧
    (∀ (s s' : SimpleVector T), clear s = .ok s' →
      s'.capacity = s.capacity ∧ s'.size = 0 ∧
      (s.data_ = none → s'.data_ = none) ∧
      (∀ b, s.data_ = some b → ∃ b', s'.data_ = some b' ∧ b'.length = b.length)) ∧
    (∀ (mv : T → T) (s : SimpleVector T) (xs : List T) (pos : Nat) (v : T), s.Holds xs →
      s.size < s.capacity → pos ≤ xs.length →
      (∃ s', push_back false s v = .ok s') ∧ (∃ s', insert mv false s pos v = .ok s')) ∧
    (∀ (mv : T → T) (s : SimpleVector T) (xs : List T) (pos : Nat), s.Holds xs →
      ((pos < xs.length → ∃ s', erase mv s pos = .ok s') ∧ ∃ s', clear s = .ok s')) := by
  refine ⟨?_, ?_, ?_, ?_, ?_, ?_⟩
  · intro mem s s' v hlt e
    obtain ⟨s1, e1, e2⟩ := push_back_capacity e
    simp only [size, capacity] at hlt ⊢
    rw [ensure_capacity_of_room mem (show s.size_ + 1 ≤ s.capacity_ from hlt)] at e1
    cases e1
    exact e2
  · intro mv mem s s' pos v hlt e
    obtain ⟨s1, e1, e2⟩ := insert_capacity e
    simp only [size, capacity] at hlt ⊢
    rw [ensure_capacity_of_room mem (show s.size_ + 1 ≤ s.capacity_ from hlt)] at e1
    cases e1
    exact e2
  · intro mv s s' pos e
    exact erase_capacity e
  · intro s s' e
    exact clear_capacity e
  · intro mv s xs pos v hs hlt hpos
    obtain ⟨s', e, _⟩ := push_back_holds hs v
    obtain ⟨s'', ys, e', _⟩ := insert_holds_some mv hs pos hpos v
    exact ⟨⟨s', by rw [push_back_of_room false hlt, e]⟩,
      ⟨s'', by rw [insert_of_room mv false hlt, e']⟩⟩
  · intro mv s xs pos hs
    refine ⟨fun hpos => ?_, ?_⟩
    · obtain ⟨s', e, _⟩ := erase_holds mv hs pos hpos
      exact ⟨s', e⟩
    · obtain ⟨s', e, _⟩ := clear_holds hs
      exact ⟨s', e⟩

theorem SimpleVector.capacity_frame_witness :
    ({ size_ := 2, capacity_ := 3, data_ := some [some 7, some 9, none] } :
        SimpleVector Int).size <
      ({ size_ := 2, capacity_ := 3, data_ := some [some 7, some 9, none] } :
        SimpleVector Int).capacity ∧
    insert id false ({ size_ := 2, capacity_ := 3, data_ := some [some 7, some 9, none] } :
        SimpleVector Int) 1 8
      = .ok { size_ := 3, capacity_ := 3, data_ := some [some 7, some 8, some 9] } ∧
    ({ size_ := 3, capacity_ := 3, data_ := some [some 7, some 8, some 9] } :
        SimpleVector Int).capacity =
      ({ size_ := 2, capacity_ := 3, data_ := some [some 7, some 9, none] } :
        SimpleVector Int).capacity :=
  ⟨by decide, by decide,
    (@capacity_frame Int).2.1 id false
      { size_ := 2, capacity_ := 3, data_ := some [some 7, some 9, none] }
      { size_ := 3, capacity_ := 3, data_ := some [some 7, some 8, some 9] } 1 8
      (by decide) (by decide)⟩

/-- C18: in a well-formed list of size `n`, for every `idx < n`, `get_node_at(idx)`
returns the node that `idx` steps along `next` from `head_` lead to, and so do the
`n - 1 - idx` steps along `prev` from `tail_`, whichever of the two walks
`get_node_at` takes; `operator[](idx)` returns the `idx`-th element of the forward
traversal. -/
theorem DoublyLinkedList.get_node_at_eq_forward_walk {T : Type} {h : Heap (Node T)}
    {l : DoublyLinkedList}
    {cells : List (Nat × T)} (hw : WellFormed h l cells) (idx : Nat) (hidx : idx < l.size) :
    get_node_at h l idx
      = (if idx < l.size / 2 then advance h idx l.head_
          else retreat h (l.size - 1 - idx) l.tail_) ∧
    get_node_at h l idx = advance h idx l.head_ ∧
    retreat h (l.size - 1 - idx) l.tail_ = advance h idx l.head_ ∧
    (∃ a, advance h idx l.head_ = .ok (some a) ∧ (cells.map Prod.fst)[idx]? = some a) ∧
    ∃ xs x, forward h l = .ok xs ∧ xs[idx]? = some x ∧ index h l idx = .ok x := by
  have hsz : l.size_ = cells.length := hw.size
  simp only [size] at hidx ⊢
  obtain ⟨A, c, B, hcells, hA⟩ := split_at cells idx (by omega)
  subst hcells
  subst hA
  have hadv : advance h A.length l.head_ = .ok (some c.1) := by
    rw [hw.head]
    exact dll_advance_seg A (c :: B) none none hw.chain
  have hret : retreat h (l.size_ - 1 - A.length) l.tail_ = .ok (some c.1) := by
    have hk : l.size_ - 1 - A.length = B.length := by
      rw [hsz]
      simp
    have e1 : A ++ c :: B = (A ++ [c]) ++ B := by simp
    have hch := hw.chain
    rw [hk, hw.tail]
    rw [e1] at hch ⊢
    rw [dll_retreat_seg (A ++ [c]) none B none hch, back_concat]
  have hget : ∀ {β : Type} (f : Nat × T → β), ((A ++ c :: B).map f)[A.length]? = some (f c) := by
    intro β f
    rw [List.map_append, List.map_cons, List.getElem?_append_right (by simp)]
    simp
  refine ⟨?_, ?_, ?_, ⟨c.1, hadv, hget Prod.fst⟩, ((A ++ c :: B).map Prod.snd), c.2, ?_,
    hget Prod.snd, dll_index_core hw⟩
  · unfold get_node_at
    have : size_pred l.size_ = l.size_ - 1 := size_pred_pos (by omega)
    rw [this]
  · rw [dll_get_node_at_core hw, hadv]
  · rw [hret, hadv]
  · exact dll_forward_wf hw

theorem DoublyLinkedList.get_node_at_eq_forward_walk_witness :
    WellFormed sample_heap sample [(0, 1), (1, 2), (2, 3)] ∧ 2 < sample.size ∧
    get_node_at sample_heap sample 2
      = (if 2 < sample.size / 2 then advance sample_heap 2 sample.head_
          else retreat sample_heap (sample.size - 1 - 2) sample.tail_) ∧
    get_node_at sample_heap sample 2 = advance sample_heap 2 sample.head_ ∧
    retreat sample_heap (sample.size - 1 - 2) sample.tail_
      = advance sample_heap 2 sample.head_ ∧
    (∃ a, advance sample_heap 2 sample.head_ = .ok (some a) ∧
      ([((0 : Nat), (1 : Int)), (1, 2), (2, 3)].map Prod.fst)[2]? = some a) ∧
    ∃ xs x, forward sample_heap sample = .ok xs ∧ xs[2]? = some x ∧
      index sample_heap sample 2 = .ok x :=
  ⟨dll_sample_wellFormed, by decide,
    get_node_at_eq_forward_walk dll_sample_wellFormed 2 (by decide)⟩
/-! ## Invariants of the linked lists -/

theorem mem_lists_index {L : Type} {ls : List L} {l : L} (hl : l ∈ ls) :
    ∃ i : Nat, ls[i]? = some l := by
  obtain ⟨i, hi, e⟩ := List.mem_iff_getElem.mp hl
  exact ⟨i, by rw [List.getElem?_eq_getElem hi, e]⟩

theorem mem_fst_split {T : Type} {cells : List (Nat × T)} {a : Nat}
    (ha : a ∈ cells.map Prod.fst) : ∃ A c B, cells = A ++ c :: B ∧ c.1 = a := by
  obtain ⟨c, hc, rfl⟩ := List.mem_map.mp ha
  obtain ⟨A, B, e⟩ := List.append_of_mem hc
  exact ⟨A, c, B, e, rfl⟩

/-- C14: in every state of a program that builds `SinglyLinkedList` objects with
the constructors and changes them with `push_back`, `push_front`, `insert`,
`erase`, `clear`, `swap`, copy and move assignment, every list has `tail_` non-null
exactly when `head_` is non-null, and the walk along `next` from `head_` ends, meets
exactly `size_` nodes, and the last of them is the node `tail_` points to. -/
theorem SinglyLinkedList.sll_reachable_invariant {T : Type}
    (w : World (SinglyLinkedList.Node T) SinglyLinkedList) (r : SinglyLinkedList.Reachable w)
    (l : SinglyLinkedList) (hl : l ∈ w.lists) :
    (l.tail_ ≠ none ↔ l.head_ ≠ none) ∧
    ∃ ns, SinglyLinkedList.nodes w.heap w.heap.length l.head_ = .ok ns ∧
      ns.length = l.size_ ∧ ns.getLast? = l.tail_ := by
  obtain ⟨c, inv⟩ := r.sll_inv
  obtain ⟨i, hi⟩ := mem_lists_index hl
  have hw := inv.wf i l hi
  refine ⟨?_, (c i).map Prod.fst, SinglyLinkedList.sll_nodes_wf hw, by simp [hw.size],
    by rw [hw.tail, back_eq_getLast?]⟩
  rw [hw.head, hw.tail, Ne, Ne, link_eq_none, back_eq_none]

theorem SinglyLinkedList.sll_reachable_invariant_witness :
    SinglyLinkedList.Reachable
      (⟨[some ⟨7, some 1⟩, some ⟨9, none⟩], [⟨some 0, some 1, 2⟩]⟩ :
        World (SinglyLinkedList.Node Int) SinglyLinkedList) ∧
    (⟨some 0, some 1, 2⟩ : SinglyLinkedList) ∈ [(⟨some 0, some 1, 2⟩ : SinglyLinkedList)] ∧
    (((⟨some 0, some 1, 2⟩ : SinglyLinkedList).tail_ ≠ none ↔
      (⟨some 0, some 1, 2⟩ : SinglyLinkedList).head_ ≠ none) ∧
    ∃ ns, SinglyLinkedList.nodes
        ([some ⟨7, some 1⟩, some ⟨9, none⟩] : Heap (SinglyLinkedList.Node Int)) 2 (some 0)
          = .ok ns ∧
      ns.length = 2 ∧ ns.getLast? = some 1) :=
  have r0 : SinglyLinkedList.Reachable
      (⟨[], [SinglyLinkedList.empty_list]⟩ : World (SinglyLinkedList.Node Int) SinglyLinkedList) :=
    SinglyLinkedList.Reachable.default_construct _ SinglyLinkedList.Reachable.start
  have r1 : SinglyLinkedList.Reachable
      (⟨[some ⟨7, none⟩], [⟨some 0, some 0, 1⟩]⟩ :
        World (SinglyLinkedList.Node Int) SinglyLinkedList) :=
    SinglyLinkedList.Reachable.push_back _ true 0 SinglyLinkedList.empty_list 7 _ _ r0 rfl
      (by decide)
  have r2 : SinglyLinkedList.Reachable
      (⟨[some ⟨7, some 1⟩, some ⟨9, none⟩], [⟨some 0, some 1, 2⟩]⟩ :
        World (SinglyLinkedList.Node Int) SinglyLinkedList) :=
    SinglyLinkedList.Reachable.push_back _ true 0 ⟨some 0, some 0, 1⟩ 9 _ _ r1 rfl (by decide)
  ⟨r2, by simp, SinglyLinkedList.sll_reachable_invariant _ r2 _ (by simp)⟩

theorem DoublyLinkedList.dll_cell_at {T : Type} {h : Heap (DoublyLinkedList.Node T)}
    {l : DoublyLinkedList} {A B : List (Nat × T)} {c : Nat × T}
    (hw : DoublyLinkedList.WellFormed h l (A ++ c :: B)) :
    h[c.1]? = some (some ⟨c.2, link B none, back none A⟩) :=
  ((DoublyLinkedList.dll_Seg_append h A (c :: B) none none).mp hw.chain).2.1

/-- C13: in every state of a program that builds `DoublyLinkedList` objects with
the constructors and changes them with `push_back`, `push_front`, `insert`,
`erase`, `clear`, `swap`, copy and move assignment, for every list: the walk along
`next` from `head_` ends and meets exactly `size_` nodes, the last of which is the
node `tail_` points to (none when there is no node); the head node has a null
`prev` and the tail node a null `next`; every node but the head has a predecessor
whose `next` is that node, and every node but the tail has a successor whose
`prev` is that node. -/
theorem DoublyLinkedList.dll_reachable_invariant {T : Type}
    (w : World (DoublyLinkedList.Node T) DoublyLinkedList) (r : DoublyLinkedList.Reachable w)
    (l : DoublyLinkedList) (hl : l ∈ w.lists) :
    ∃ ns, DoublyLinkedList.nodes w.heap w.heap.length l.head_ = .ok ns ∧
      ns.length = l.size_ ∧ ns.getLast? = l.tail_ ∧
      (l.tail_ = none ↔ l.head_ = none) ∧
      (∀ a, l.head_ = some a → ∃ n, w.heap.deref (some a) = .ok n ∧ n.prev = none) ∧
      (∀ a, l.tail_ = some a → ∃ n, w.heap.deref (some a) = .ok n ∧ n.next = none) ∧
      (∀ a, a ∈ ns → l.head_ ≠ some a →
        ∃ n p, w.heap.deref (some a) = .ok n ∧ w.heap.deref n.prev = .ok p ∧
          p.next = some a) ∧
      (∀ a, a ∈ ns → l.tail_ ≠ some a →
        ∃ n q, w.heap.deref (some a) = .ok n ∧ w.heap.deref n.next = .ok q ∧
          q.prev = some a) := by
  obtain ⟨c, inv⟩ := r.dll_inv
  obtain ⟨i, hi⟩ := mem_lists_index hl
  have hw := inv.wf i l hi
  refine ⟨(c i).map Prod.fst, DoublyLinkedList.dll_nodes_wf hw, by simp [hw.size],
    by rw [hw.tail, back_eq_getLast?], ?_, ?_, ?_, ?_, ?_⟩
  · rw [hw.head, hw.tail, link_eq_none, back_eq_none]
  · intro a ha
    generalize c i = cells at hw
    cases cells with
    | nil =>
      rw [hw.head] at ha
      cases ha
    | cons d ds =>
      rw [hw.head] at ha
      simp only [link_cons, Option.some.injEq] at ha
      subst ha
      exact ⟨_, Heap.deref_cell hw.chain.1, rfl⟩
  · intro a ha
    generalize c i = cells at hw
    rcases eq_nil_or_snoc cells with rfl | ⟨ds, d, rfl⟩
    · rw [hw.tail] at ha
      cases ha
    · rw [hw.tail, back_concat] at ha
      simp only [Option.some.injEq] at ha
      subst ha
      have hw' : DoublyLinkedList.WellFormed w.heap l (ds ++ d :: []) := hw
      exact ⟨_, Heap.deref_cell (DoublyLinkedList.dll_cell_at hw'), rfl⟩
  · intro a ha hne
    obtain ⟨A, d, B, hcells, rfl⟩ := mem_fst_split ha
    rw [hcells] at hw
    rcases eq_nil_or_snoc A with rfl | ⟨A', p, rfl⟩
    · exact absurd hw.head hne
    · have hd := DoublyLinkedList.dll_cell_at hw
      rw [back_concat] at hd
      have hw' : DoublyLinkedList.WellFormed w.heap l (A' ++ p :: (d :: B)) := by
        simpa using hw
      have hp := DoublyLinkedList.dll_cell_at hw'
      exact ⟨_, _, Heap.deref_cell hd, Heap.deref_cell hp, rfl⟩
  · intro a ha hne
    obtain ⟨A, d, B, hcells, rfl⟩ := mem_fst_split ha
    rw [hcells] at hw
    cases B with
    | nil =>
      exfalso
      apply hne
      rw [hw.tail]
      exact back_concat none A d
    | cons q B' =>
      have hd := DoublyLinkedList.dll_cell_at hw
      have hw' : DoublyLinkedList.WellFormed w.heap l ((A ++ [d]) ++ q :: B') := by
        simpa using hw
      have hq := DoublyLinkedList.dll_cell_at hw'
      rw [back_concat] at hq
      exact ⟨_, _, Heap.deref_cell hd, Heap.deref_cell hq, rfl⟩

theorem DoublyLinkedList.dll_reachable_invariant_witness :
    DoublyLinkedList.Reachable
      (⟨[some ⟨7, some 1, none⟩, some ⟨9, none, some 0⟩], [⟨some 0, some 1, 2⟩]⟩ :
        World (DoublyLinkedList.Node Int) DoublyLinkedList) ∧
    (⟨some 0, some 1, 2⟩ : DoublyLinkedList) ∈ [(⟨some 0, some 1, 2⟩ : DoublyLinkedList)] ∧
    ∃ ns, DoublyLinkedList.nodes
        ([some ⟨7, some 1, none⟩, some ⟨9, none, some 0⟩] : Heap (DoublyLinkedList.Node Int))
        2 (some 0) = .ok ns ∧
      ns.length = 2 ∧ ns.getLast? = some 1 :=
  have r0 : DoublyLinkedList.Reachable
      (⟨[], [DoublyLinkedList.empty_list]⟩ : World (DoublyLinkedList.Node Int) DoublyLinkedList) :=
    DoublyLinkedList.Reachable.default_construct _ DoublyLinkedList.Reachable.start
  have r1 : DoublyLinkedList.Reachable
      (⟨[some ⟨7, none, none⟩], [⟨some 0, some 0, 1⟩]⟩ :
        World (DoublyLinkedList.Node Int) DoublyLinkedList) :=
    DoublyLinkedList.Reachable.push_back _ true 0 DoublyLinkedList.empty_list 7 _ _ r0 rfl
      (by decide)
  have r2 : DoublyLinkedList.Reachable
      (⟨[some ⟨7, some 1, none⟩, some ⟨9, none, some 0⟩], [⟨some 0, some 1, 2⟩]⟩ :
        World (DoublyLinkedList.Node Int) DoublyLinkedList) :=
    DoublyLinkedList.Reachable.push_back _ true 0 ⟨some 0, some 0, 1⟩ 9 _ _ r1 rfl (by decide)
  have h := DoublyLinkedList.dll_reachable_invariant _ r2 _
    (by simp : (⟨some 0, some 1, 2⟩ : DoublyLinkedList) ∈ [(⟨some 0, some 1, 2⟩ : DoublyLinkedList)])
  ⟨r2, by simp, by
    obtain ⟨ns, h1, h2, h3, _⟩ := h
    exact ⟨ns, h1, h2, h3⟩⟩

/-! ## `push_back`, the insert/erase round trip, and moves of whole containers -/

theorem take_insert_drop {α : Type} (xs : List α) (pos : Nat) (hpos : pos ≤ xs.length) (v : α) :
    (xs.take pos ++ v :: xs.drop pos).take pos
      ++ (xs.take pos ++ v :: xs.drop pos).drop (pos + 1) = xs := by
  have hl : (xs.take pos).length = pos := by simp [List.length_take]; omega
  have h1 : (xs.take pos ++ v :: xs.drop pos).take pos = xs.take pos := by
    rw [List.take_append_of_le_length (by omega), List.take_of_length_le (by omega)]
  have h2 : (xs.take pos ++ v :: xs.drop pos).drop (pos + 1) = xs.drop pos := by
    have e : xs.take pos ++ v :: xs.drop pos = (xs.take pos ++ [v]) ++ xs.drop pos := by simp
    rw [e, List.drop_append_of_le_length (by simp; omega), List.drop_of_length_le (by simp)]
    simp
  rw [h1, h2, List.take_append_drop]

/-- With moves that are copies, `insert(pos, v)` followed by `erase(pos)` gives a
vector back its elements. -/
theorem SimpleVector.insert_erase_of_copy_moves {T : Type} {s : SimpleVector T} {xs : List T}
    (hs : s.Holds xs) (pos : Nat) (hpos : pos ≤ xs.length) (v : T) :
    ∃ s1 s2, SimpleVector.insert id true s pos v = .ok s1 ∧
      SimpleVector.erase id s1 pos = .ok s2 ∧ s2.Holds xs := by
  obtain ⟨s1, e1, h1⟩ := SimpleVector.insert_holds hs pos hpos v
  obtain ⟨s2, e2, h2, _⟩ := SimpleVector.erase_holds id h1 pos (by
    simp [List.length_take, List.length_drop]
    omega)
  rw [take_insert_drop xs pos hpos v] at h2
  exact ⟨s1, s2, e1, e2, h2⟩

/-- Whatever a move leaves in its source, `insert(pos, v)` before the end followed
by `erase(pos)` leaves the vector with its last element `y` replaced by the
moved-from value `mv y`. -/
theorem SimpleVector.insert_erase_moved {T : Type} (mv : T → T) {s : SimpleVector T}
    {xs : List T} (hs : s.Holds xs) (pos : Nat) (hpos : pos < xs.length) (v : T) {y : T}
    (hy : xs[xs.length - 1]? = some y) :
    ∃ s1 s2, SimpleVector.insert mv true s pos v = .ok s1 ∧
      SimpleVector.erase mv s1 pos = .ok s2 ∧ s2.Holds (xs.set (xs.length - 1) (mv y)) := by
  obtain ⟨s1, e1, h1⟩ := SimpleVector.insert_holds_moved mv hs pos hpos v hy
  have hlen : (xs.take pos ++ v :: xs.drop pos).length = xs.length + 1 := by
    simp [List.length_take, List.length_drop]
    omega
  obtain ⟨s2, e2, h2, _⟩ := SimpleVector.erase_holds mv h1 pos (by
    rw [List.length_set, hlen]
    omega)
  refine ⟨s1, s2, e1, e2, ?_⟩
  have hxs : ((xs.take pos ++ v :: xs.drop pos).set xs.length (mv y)).take pos
      ++ ((xs.take pos ++ v :: xs.drop pos).set xs.length (mv y)).drop (pos + 1)
      = xs.set (xs.length - 1) (mv y) := by
    apply List.ext_getElem?
    intro k
    have key := congrArg (fun l => l[k]?) (take_insert_drop xs pos (le_of_lt hpos) v)
    simp only at key
    by_cases hk : k < pos
    · rw [List.getElem?_append_left (by simp [List.length_take]; omega),
        List.getElem?_take_of_lt hk, List.getElem?_set_ne (by omega),
        List.getElem?_set_ne (by omega)]
      rw [List.getElem?_append_left (by simp [List.length_take]; omega),
        List.getElem?_take_of_lt hk] at key
      exact key
    · have hl : (((xs.take pos ++ v :: xs.drop pos).set xs.length (mv y)).take pos).length
          = pos := by
        simp [List.length_take, List.length_drop]
        omega
      have hl' : ((xs.take pos ++ v :: xs.drop pos).take pos).length = pos := by
        simp [List.length_take, List.length_drop]
        omega
      rw [List.getElem?_append_right (by omega), hl, List.getElem?_drop]
      rw [List.getElem?_append_right (by omega), hl', List.getElem?_drop] at key
      by_cases hlast : k = xs.length - 1
      · have e : pos + 1 + (k - pos) = xs.length := by omega
        rw [e, List.getElem?_set_self (by omega), hlast, List.getElem?_set_self (by omega)]
      · rw [List.getElem?_set_ne (by omega), List.getElem?_set_ne (Ne.symm hlast)]
        exact key
  rw [hxs] at h2
  exact h2

/-- On a well-formed singly linked list `insert(pos, v)` followed by `erase(pos)`
gives back the list of the same nodes. -/
theorem SinglyLinkedList.sll_insert_erase {T : Type} {h : Heap (SinglyLinkedList.Node T)}
    {l : SinglyLinkedList} {cells : List (Nat × T)} (hw : SinglyLinkedList.WellFormed h l cells)
    (pos : Nat) (hpos : pos ≤ cells.length) (v : T) :
    ∃ h1 l1 h2 l2, SinglyLinkedList.insert true h l pos v = .ok (h1, l1) ∧
      SinglyLinkedList.erase h1 l1 pos = .ok (h2, l2) ∧
      SinglyLinkedList.WellFormed h2 l2 cells := by
  obtain ⟨h1, l1, e1, hw1⟩ := SinglyLinkedList.sll_insert_wf hw pos hpos v
  obtain ⟨h2, l2, e2, hw2⟩ := SinglyLinkedList.sll_erase_wf hw1 pos (by
    simp [List.length_take, List.length_drop]
    omega)
  rw [take_insert_drop cells pos hpos] at hw2
  exact ⟨h1, l1, h2, l2, e1, e2, hw2⟩

/-- On a well-formed doubly linked list `insert(pos, v)` followed by `erase(pos)`
gives back the list of the same nodes. -/
theorem DoublyLinkedList.dll_insert_erase {T : Type} {h : Heap (DoublyLinkedList.Node T)}
    {l : DoublyLinkedList} {cells : List (Nat × T)} (hw : DoublyLinkedList.WellFormed h l cells)
    (pos : Nat) (hpos : pos ≤ cells.length) (v : T) :
    ∃ h1 l1 h2 l2, DoublyLinkedList.insert true h l pos v = .ok (h1, l1) ∧
      DoublyLinkedList.erase h1 l1 pos = .ok (h2, l2) ∧
      DoublyLinkedList.WellFormed h2 l2 cells := by
  obtain ⟨h1, l1, e1, hw1⟩ := DoublyLinkedList.dll_insert_wf hw pos hpos v
  obtain ⟨h2, l2, e2, hw2⟩ := DoublyLinkedList.dll_erase_wf hw1 pos (by
    simp [List.length_take, List.length_drop]
    omega)
  rw [take_insert_drop cells pos hpos] at hw2
  exact ⟨h1, l1, h2, l2, e1, e2, hw2⟩

/-- C11, at an element type whose move empties its source (`std::string`, with
`""` left behind): on the containers holding `a b`, `insert(0, "c")` followed by
`erase(0)` succeeds in all three; the two lists hold `a b` again, the vector holds
`a` followed by an empty string.  The loop of `SimpleVector::insert` starts at
`i = size_`, so its first round assigns to `data_[size_]` from the slot
`data_[size_ - 1]` that the statement before the loop has moved from. -/
theorem insert_erase_loses_last_on_emptying_moves :
    ((SimpleVector.insert (fun _ => "") true
        { size_ := 2, capacity_ := 2, data_ := some [some "a", some "b"] } 0 "c"
        >>= fun s => SimpleVector.erase (fun _ => "") s 0)
        >>= fun s => s.contents.map fun xs => (s.size, xs)) = .ok (2, ["a", ""]) ∧
    ((SinglyLinkedList.insert true [some ⟨"a", some 1⟩, some ⟨"b", none⟩]
        { head_ := some 0, tail_ := some 1, size_ := 2 } 0 "c"
        >>= fun p => SinglyLinkedList.erase p.1 p.2 0)
        >>= fun p => (SinglyLinkedList.forward p.1 p.2).map fun xs => (p.2.size, xs))
      = .ok (2, ["a", "b"]) ∧
    ((DoublyLinkedList.insert true [some ⟨"a", some 1, none⟩, some ⟨"b", none, some 0⟩]
        { head_ := some 0, tail_ := some 1, size_ := 2 } 0 "c"
        >>= fun p => DoublyLinkedList.erase p.1 p.2 0)
        >>= fun p => (DoublyLinkedList.forward p.1 p.2).map fun xs => (p.2.size, xs))
      = .ok (2, ["a", "b"]) := by
  decide

/-- C20. Moves of whole containers.  For a source `a` holding `xs`: the move
constructor gives a container `b` holding `xs`, of size `|xs|`, and move assignment
into a distinct valid container `b` (for the lists: one that shares no node with
`a`) succeeds and leaves `b` holding `xs`; in both cases `a` is left in the state of
a default-constructed container, with `size() == 0`, `empty()`, capacity 0 and no
block for the vector, null `head_` and `tail_` for the lists. -/
theorem move_leaves_source_empty {T : Type} :
    (∀ (a : SimpleVector T) (xs : List T), a.Holds xs →
      ((SimpleVector.move_constructor a).1.Holds xs ∧
        (SimpleVector.move_constructor a).1.size = xs.length ∧
        (SimpleVector.move_constructor a).2 = SimpleVector.empty_vector) ∧
      ∀ (b : SimpleVector T) (ys : List T), b.Holds ys →
        ∃ b' a', SimpleVector.move_assignment b a = .ok (b', a') ∧ b'.Holds xs ∧
          b'.size = xs.length ∧ a' = SimpleVector.empty_vector) ∧
    ((SimpleVector.empty_vector : SimpleVector T).Holds [] ∧
      (SimpleVector.empty_vector : SimpleVector T).size = 0 ∧
      (SimpleVector.empty_vector : SimpleVector T).empty = true ∧
      (SimpleVector.empty_vector : SimpleVector T).capacity = 0 ∧
      (SimpleVector.empty_vector : SimpleVector T).data_ = none) ∧
    (∀ (h : Heap (SinglyLinkedList.Node T)) (a : SinglyLinkedList) (cells : List (Nat × T)),
      SinglyLinkedList.WellFormed h a cells →
      (SinglyLinkedList.WellFormed h (SinglyLinkedList.move_constructor a).1 cells ∧
        SinglyLinkedList.forward h (SinglyLinkedList.move_constructor a).1
          = .ok (cells.map Prod.snd) ∧
        (SinglyLinkedList.move_constructor a).1.size = cells.length ∧
        (SinglyLinkedList.move_constructor a).2 = SinglyLinkedList.empty_list) ∧
      ∀ (b : SinglyLinkedList) (cb : List (Nat × T)), SinglyLinkedList.WellFormed h b cb →
        (∀ x, x ∈ cells.map Prod.fst → x ∉ cb.map Prod.fst) →
        ∃ h' b' a', SinglyLinkedList.move_assignment h b a = .ok (h', b', a') ∧
          SinglyLinkedList.WellFormed h' b' cells ∧
          SinglyLinkedList.forward h' b' = .ok (cells.map Prod.snd) ∧
          b'.size = cells.length ∧ a' = SinglyLinkedList.empty_list ∧
          SinglyLinkedList.WellFormed h' a' ([] : List (Nat × T))) ∧
    (SinglyLinkedList.empty_list.size = 0 ∧ SinglyLinkedList.empty_list.empty = true ∧
      SinglyLinkedList.empty_list.head_ = none ∧ SinglyLinkedList.empty_list.tail_ = none ∧
      ∀ (h : Heap (SinglyLinkedList.Node T)),
        SinglyLinkedList.WellFormed h SinglyLinkedList.empty_list ([] : List (Nat × T))) ∧
    (∀ (h : Heap (DoublyLinkedList.Node T)) (a : DoublyLinkedList) (cells : List (Nat × T)),
      DoublyLinkedList.WellFormed h a cells →
      (∃ h' b a', DoublyLinkedList.move_constructor h a = .ok (h', b, a') ∧
        DoublyLinkedList.WellFormed h' b cells ∧
        DoublyLinkedList.forward h' b = .ok (cells.map Prod.snd) ∧
        b.size = cells.length ∧ a' = DoublyLinkedList.empty_list ∧
        DoublyLinkedList.WellFormed h' a' ([] : List (Nat × T))) ∧
      ∀ (b : DoublyLinkedList) (cb : List (Nat × T)), DoublyLinkedList.WellFormed h b cb →
        (∀ x, x ∈ cells.map Prod.fst → x ∉ cb.map Prod.fst) →
        ∃ h' b' a', DoublyLinkedList.move_assignment h b a = .ok (h', b', a') ∧
          DoublyLinkedList.WellFormed h' b' cells ∧
          DoublyLinkedList.forward h' b' = .ok (cells.map Prod.snd) ∧
          b'.size = cells.length ∧ a' = DoublyLinkedList.empty_list ∧
          DoublyLinkedList.WellFormed h' a' ([] : List (Nat × T))) ∧
    (DoublyLinkedList.empty_list.size = 0 ∧ DoublyLinkedList.empty_list.empty = true ∧
      DoublyLinkedList.empty_list.head_ = none ∧ DoublyLinkedList.empty_list.tail_ = none ∧
      ∀ (h : Heap (DoublyLinkedList.Node T)),
        DoublyLinkedList.WellFormed h DoublyLinkedList.empty_list ([] : List (Nat × T))) := by
  refine ⟨?_, ⟨SimpleVector.empty_vector_holds, rfl, rfl, rfl, rfl⟩, ?_,
    ⟨rfl, rfl, rfl, rfl, SinglyLinkedList.sll_empty_list_wf⟩, ?_,
    ⟨rfl, rfl, rfl, rfl, DoublyLinkedList.dll_empty_list_wf⟩⟩
  · intro a xs ha
    refine ⟨⟨ha, ha.size_eq, rfl⟩, ?_⟩
    intro b ys hb
    exact ⟨a, SimpleVector.empty_vector, SimpleVector.move_assignment_holds hb a, ha,
      ha.size_eq, rfl⟩
  · intro h a cells ha
    refine ⟨⟨ha, SinglyLinkedList.sll_forward_wf ha, ha.size, rfl⟩, ?_⟩
    intro b cb hb hd
    obtain ⟨h', e, hw1, hw2, _⟩ := SinglyLinkedList.sll_move_assignment_wf hb ha hd
    exact ⟨h', a, SinglyLinkedList.empty_list, e, hw1, SinglyLinkedList.sll_forward_wf hw1,
      ha.size, rfl, hw2⟩
  · intro h a cells ha
    refine ⟨⟨h, a, DoublyLinkedList.empty_list, DoublyLinkedList.dll_move_constructor_wf ha, ha,
      DoublyLinkedList.dll_forward_wf ha, ha.size, rfl,
      DoublyLinkedList.dll_empty_list_wf h⟩, ?_⟩
    intro b cb hb hd
    obtain ⟨h', e, hw1, hw2, _⟩ := DoublyLinkedList.dll_move_assignment_wf hb ha hd
    exact ⟨h', a, DoublyLinkedList.empty_list, e, hw1, DoublyLinkedList.dll_forward_wf hw1,
      ha.size, rfl, hw2⟩

theorem move_leaves_source_empty_witness :
    SimpleVector.sample.Holds [1, 2, 3] ∧
    ((SimpleVector.move_constructor SimpleVector.sample).1.Holds [1, 2, 3] ∧
      (SimpleVector.move_constructor SimpleVector.sample).1.size = [(1 : Int), 2, 3].length ∧
      (SimpleVector.move_constructor SimpleVector.sample).2 = SimpleVector.empty_vector) :=
  ⟨SimpleVector.sample_holds,
    ((@move_leaves_source_empty Int).1 SimpleVector.sample [1, 2, 3]
      SimpleVector.sample_holds).1⟩

/-! ## Allocation failure -/

@[simp] theorem mapError_at_state {σ α : Type} (st : σ) (x : Except Error α) :
    (at_state st x).mapError Prod.fst = x := by
  cases x <;> rfl

theorem mapError_bind {ε ε' α β : Type} (f : ε → ε') (x : Except ε α) (g : α → Except ε β) :
    (x >>= g).mapError f = (x.mapError f >>= fun a => (g a).mapError f) := by
  cases x <;> rfl

theorem ok_bind_tracked {σ α β : Type} (x : α) (f : α → Except (Error × σ) β) :
    (Except.ok x >>= f) = f x := rfl

theorem mapError_ok {ε ε' α : Type} (f : ε → ε') (a : α) :
    (Except.ok a : Except ε α).mapError f = .ok a := rfl

theorem mapError_pure {ε ε' α : Type} (f : ε → ε') (a : α) :
    (pure a : Except ε α).mapError f = pure a := rfl

theorem mapError_ite {ε ε' α : Type} (f : ε → ε') (c : Prop) [Decidable c] (x y : Except ε α) :
    (if c then x else y).mapError f = if c then x.mapError f else y.mapError f := by
  split <;> rfl

namespace SimpleVector

variable {T : Type}

theorem change_capacity_tracked_erase (mem : Bool) (s : SimpleVector T) (c : Nat) :
    (change_capacity_tracked mem s c).mapError Prod.fst = change_capacity mem s c := by
  unfold change_capacity_tracked change_capacity
  simp only [mapError_ite, mapError_ok, mapError_bind, mapError_at_state, mapError_pure]

end SimpleVector

namespace SimpleVector

variable {T : Type}

theorem ensure_capacity_tracked_erase (mem : Bool) (s : SimpleVector T) (r : Nat) :
    (ensure_capacity_tracked mem s r).mapError Prod.fst = ensure_capacity mem s r := by
  unfold ensure_capacity_tracked ensure_capacity
  simp only [mapError_ite, mapError_ok, change_capacity_tracked_erase]

theorem push_back_tracked_erase (mem : Bool) (s : SimpleVector T) (v : T) :
    (push_back_tracked mem s v).mapError Prod.fst = push_back mem s v := by
  unfold push_back_tracked push_back
  simp only [mapError_bind, mapError_at_state, mapError_pure, ensure_capacity_tracked_erase]

theorem insert_tracked_erase (mv : T → T) (mem : Bool) (s : SimpleVector T) (pos : Nat)
    (v : T) : (insert_tracked mv mem s pos v).mapError Prod.fst = insert mv mem s pos v := by
  unfold insert_tracked insert
  simp only [mapError_bind, mapError_at_state, mapError_pure, mapError_ite,
    ensure_capacity_tracked_erase]

theorem reserve_tracked_erase (mem : Bool) (s : SimpleVector T) (n : Nat) :
    (reserve_tracked mem s n).mapError Prod.fst = reserve mem s n := by
  unfold reserve_tracked reserve
  simp only [mapError_ite, mapError_ok, change_capacity_tracked_erase]

/-- A refused request for a larger block leaves the vector as it was. -/
theorem change_capacity_tracked_refused {s : SimpleVector T} {c : Nat}
    (h1 : c ≠ s.capacity_) (h2 : s.size_ ≤ c) (h3 : 0 < c) :
    change_capacity_tracked false s c = .error (.AllocationFailure, s) := by
  have h2' : ¬ c < s.size_ := by omega
  simp only [change_capacity_tracked, h1, h2', if_false, gt_iff_lt, h3, if_true, operator_new]
  rfl

theorem ensure_capacity_tracked_refused {s : SimpleVector T} (hle : s.size_ ≤ s.capacity_)
    {r : Nat} (hr : s.capacity_ < r) :
    ensure_capacity_tracked false s r = .error (.AllocationFailure, s) := by
  have h1 : ¬ r ≤ s.capacity_ := by omega
  have hnc : ∀ g : Nat, (if g < r then r else g) = max r g := by
    intro g
    split <;> omega
  simp only [ensure_capacity_tracked, h1, if_false, hnc]
  apply change_capacity_tracked_refused <;> omega

end SimpleVector

namespace SinglyLinkedList

variable {T : Type}

theorem sll_push_back_tracked_erase (mem : Bool) (h : Heap (Node T)) (l : SinglyLinkedList)
    (v : T) : (push_back_tracked mem h l v).mapError Prod.fst = push_back mem h l v := by
  unfold push_back_tracked push_back
  simp only [mapError_bind, mapError_at_state, mapError_pure, mapError_ite]

theorem sll_push_front_tracked_erase (mem : Bool) (h : Heap (Node T)) (l : SinglyLinkedList)
    (v : T) : (push_front_tracked mem h l v).mapError Prod.fst = push_front mem h l v := by
  unfold push_front_tracked push_front
  simp only [mapError_bind, mapError_at_state, mapError_pure, mapError_ite]

theorem sll_insert_middle_tracked_erase (mem : Bool) (h : Heap (Node T))
    (l : SinglyLinkedList) (pos : Nat) (v : T) :
    (insert_middle_tracked mem h l pos v).mapError Prod.fst = insert_middle mem h l pos v := by
  unfold insert_middle_tracked insert_middle
  simp only [mapError_bind, mapError_at_state, mapError_pure, mapError_ite]

theorem sll_insert_tracked_erase (mem : Bool) (h : Heap (Node T)) (l : SinglyLinkedList)
    (pos : Nat) (v : T) :
    (insert_tracked mem h l pos v).mapError Prod.fst = insert mem h l pos v := by
  unfold insert_tracked insert
  simp only [mapError_bind, mapError_at_state, mapError_ite, sll_push_back_tracked_erase,
    sll_push_front_tracked_erase, sll_insert_middle_tracked_erase]

theorem sll_push_back_tracked_refused (h : Heap (Node T)) (l : SinglyLinkedList) (v : T) :
    push_back_tracked false h l v = .error (.AllocationFailure, (h, l)) := rfl

theorem sll_push_front_tracked_refused (h : Heap (Node T)) (l : SinglyLinkedList) (v : T) :
    push_front_tracked false h l v = .error (.AllocationFailure, (h, l)) := rfl

theorem sll_insert_tracked_refused {h : Heap (Node T)} {l : SinglyLinkedList}
    {cells : List (Nat × T)} (hw : WellFormed h l cells) (pos : Nat)
    (hpos : pos ≤ cells.length) (v : T) :
    insert_tracked false h l pos v = .error (.AllocationFailure, (h, l)) := by
  have hchk : BaseContainer.check_position pos l.size_ = .ok () :=
    BaseContainer.check_position_ok (by rw [hw.size]; exact hpos)
  unfold insert_tracked
  rw [hchk]
  simp only [at_state, ok_bind_tracked]
  by_cases h0 : pos = 0
  · rw [if_pos h0]
    rfl
  · by_cases hn : pos = l.size_
    · rw [if_neg h0, if_pos hn]
      rfl
    · rw [if_neg h0, if_neg hn]
      obtain ⟨A, pc, B, hcells, hA⟩ := split_at cells (pos - 1) (by
        rw [hw.size] at hn
        omega)
      subst hcells
      have hp : pos = A.length + 1 := by omega
      subst hp
      have hseg := (sll_Seg_append h A (pc :: B) none).mp hw.chain
      have hpc : h[pc.1]? = some (some ⟨pc.2, link B none⟩) := hseg.2.1
      simp only [insert_middle_tracked, size_pred_succ, hw.head]
      rw [sll_advance_seg A (pc :: B) none hw.chain]
      simp only [at_state, ok_bind_tracked, link_cons]
      rw [Heap.deref_cell hpc]
      rfl

end SinglyLinkedList

namespace DoublyLinkedList

variable {T : Type}

theorem dll_push_back_tracked_erase (mem : Bool) (h : Heap (Node T)) (l : DoublyLinkedList)
    (v : T) : (push_back_tracked mem h l v).mapError Prod.fst = push_back mem h l v := by
  unfold push_back_tracked push_back
  simp only [mapError_bind, mapError_at_state, mapError_pure, mapError_ite]

theorem dll_push_front_tracked_erase (mem : Bool) (h : Heap (Node T)) (l : DoublyLinkedList)
    (v : T) : (push_front_tracked mem h l v).mapError Prod.fst = push_front mem h l v := by
  unfold push_front_tracked push_front
  simp only [mapError_bind, mapError_at_state, mapError_pure, mapError_ite]

theorem dll_insert_middle_tracked_erase (mem : Bool) (h : Heap (Node T))
    (l : DoublyLinkedList) (pos : Nat) (v : T) :
    (insert_middle_tracked mem h l pos v).mapError Prod.fst = insert_middle mem h l pos v := by
  unfold insert_middle_tracked insert_middle
  simp only [mapError_bind, mapError_at_state, mapError_pure, mapError_ite]

theorem dll_insert_tracked_erase (mem : Bool) (h : Heap (Node T)) (l : DoublyLinkedList)
    (pos : Nat) (v : T) :
    (insert_tracked mem h l pos v).mapError Prod.fst = insert mem h l pos v := by
  unfold insert_tracked insert
  simp only [mapError_bind, mapError_at_state, mapError_ite, dll_push_back_tracked_erase,
    dll_push_front_tracked_erase, dll_insert_middle_tracked_erase]

theorem dll_push_back_tracked_refused (h : Heap (Node T)) (l : DoublyLinkedList) (v : T) :
    push_back_tracked false h l v = .error (.AllocationFailure, (h, l)) := rfl

theorem dll_push_front_tracked_refused (h : Heap (Node T)) (l : DoublyLinkedList) (v : T) :
    push_front_tracked false h l v = .error (.AllocationFailure, (h, l)) := rfl

theorem dll_insert_tracked_refused {h : Heap (Node T)} {l : DoublyLinkedList}
    {cells : List (Nat × T)} (hw : WellFormed h l cells) (pos : Nat)
    (hpos : pos ≤ cells.length) (v : T) :
    insert_tracked false h l pos v = .error (.AllocationFailure, (h, l)) := by
  have hchk : BaseContainer.check_position pos l.size_ = .ok () :=
    BaseContainer.check_position_ok (by rw [hw.size]; exact hpos)
  unfold insert_tracked
  rw [hchk]
  simp only [at_state, ok_bind_tracked]
  by_cases h0 : pos = 0
  · rw [if_pos h0]
    rfl
  · by_cases hn : pos = l.size_
    · rw [if_neg h0, if_pos hn]
      rfl
    · rw [if_neg h0, if_neg hn]
      obtain ⟨A, c, B, hcells, hA⟩ := split_at cells pos (by
        rw [hw.size] at hn
        omega)
      subst hcells
      subst hA
      have hc := dll_cell_at hw
      simp only [insert_middle_tracked, dll_get_node_at_core hw]
      simp only [at_state, ok_bind_tracked]
      rw [Heap.deref_cell hc]
      rfl

end DoublyLinkedList

theorem error_of_tracked {σ α : Type} {x : Except (Error × σ) α} {y : Except Error α} {e : Error}
    {st : σ} (herase : x.mapError Prod.fst = y) (hx : x = .error (e, st)) : y = .error e := by
  rw [← herase, hx]
  rfl

/-- C19. Allocation failure.  When the allocator refuses the request: on a valid
vector with `size() == capacity()`, `push_back` and `insert` at a legal position,
and `reserve(n)` with `n > capacity()`, throw `AllocationFailure` and the vector is
in the state it had before the call; on a well-formed singly or doubly linked list
`push_back` and `insert` at a legal position throw `AllocationFailure` and heap and
list are as before the call.  The state at the throw is the whole state, so size,
elements and capacity are the ones before the call. -/
theorem allocation_failure_leaves_state {T : Type} :
    (∀ (s : SimpleVector T) (xs : List T), s.Holds xs →
      (∀ (v : T), s.size = s.capacity →
        SimpleVector.push_back_tracked false s v = .error (.AllocationFailure, s) ∧
        SimpleVector.push_back false s v = .error .AllocationFailure) ∧
      (∀ (mv : T → T) (pos : Nat) (v : T), pos ≤ xs.length → s.size = s.capacity →
        SimpleVector.insert_tracked mv false s pos v = .error (.AllocationFailure, s) ∧
        SimpleVector.insert mv false s pos v = .error .AllocationFailure) ∧
      (∀ (n : Nat), s.capacity < n →
        SimpleVector.reserve_tracked false s n = .error (.AllocationFailure, s) ∧
        SimpleVector.reserve false s n = .error .AllocationFailure)) ∧
    (∀ (h : Heap (SinglyLinkedList.Node T)) (l : SinglyLinkedList) (cells : List (Nat × T)),
      SinglyLinkedList.WellFormed h l cells →
      (∀ (v : T),
        SinglyLinkedList.push_back_tracked false h l v = .error (.AllocationFailure, (h, l)) ∧
        SinglyLinkedList.push_back false h l v = .error .AllocationFailure) ∧
      (∀ (pos : Nat) (v : T), pos ≤ cells.length →
        SinglyLinkedList.insert_tracked false h l pos v
          = .error (.AllocationFailure, (h, l)) ∧
        SinglyLinkedList.insert false h l pos v = .error .AllocationFailure)) ∧
    (∀ (h : Heap (DoublyLinkedList.Node T)) (l : DoublyLinkedList) (cells : List (Nat × T)),
      DoublyLinkedList.WellFormed h l cells →
      (∀ (v : T),
        DoublyLinkedList.push_back_tracked false h l v = .error (.AllocationFailure, (h, l)) ∧
        DoublyLinkedList.push_back false h l v = .error .AllocationFailure) ∧
      (∀ (pos : Nat) (v : T), pos ≤ cells.length →
        DoublyLinkedList.insert_tracked false h l pos v
          = .error (.AllocationFailure, (h, l)) ∧
        DoublyLinkedList.insert false h l pos v = .error .AllocationFailure)) := by
  refine ⟨?_, ?_, ?_⟩
  · intro s xs hs
    have hle : s.size_ ≤ s.capacity_ := by rw [hs.1]; exact hs.2.1
    refine ⟨?_, ?_, ?_⟩
    · intro v hfull
      simp only [SimpleVector.size, SimpleVector.capacity] at hfull
      have h1 : SimpleVector.push_back_tracked false s v = .error (.AllocationFailure, s) := by
        unfold SimpleVector.push_back_tracked
        rw [SimpleVector.ensure_capacity_tracked_refused hle (by omega)]
        rfl
      exact ⟨h1, error_of_tracked (SimpleVector.push_back_tracked_erase false s v) h1⟩
    · intro mv pos v hpos hfull
      simp only [SimpleVector.size, SimpleVector.capacity] at hfull
      have hchk : BaseContainer.check_position pos s.size_ = .ok () :=
        BaseContainer.check_position_ok (by rw [hs.1]; exact hpos)
      have h1 : SimpleVector.insert_tracked mv false s pos v
          = .error (.AllocationFailure, s) := by
        unfold SimpleVector.insert_tracked
        rw [hchk]
        simp only [at_state, ok_bind_tracked]
        rw [SimpleVector.ensure_capacity_tracked_refused hle (by omega)]
        rfl
      exact ⟨h1, error_of_tracked (SimpleVector.insert_tracked_erase mv false s pos v) h1⟩
    · intro n hn
      simp only [SimpleVector.capacity] at hn
      have h1 : SimpleVector.reserve_tracked false s n = .error (.AllocationFailure, s) := by
        unfold SimpleVector.reserve_tracked
        rw [if_neg (by omega)]
        exact SimpleVector.change_capacity_tracked_refused (by omega) (by omega) (by omega)
      exact ⟨h1, error_of_tracked (SimpleVector.reserve_tracked_erase false s n) h1⟩
  · intro h l cells hw
    refine ⟨fun v => ⟨rfl, rfl⟩, ?_⟩
    intro pos v hpos
    have h1 := SinglyLinkedList.sll_insert_tracked_refused hw pos hpos v
    exact ⟨h1, error_of_tracked (SinglyLinkedList.sll_insert_tracked_erase false h l pos v) h1⟩
  · intro h l cells hw
    refine ⟨fun v => ⟨rfl, rfl⟩, ?_⟩
    intro pos v hpos
    have h1 := DoublyLinkedList.dll_insert_tracked_refused hw pos hpos v
    exact ⟨h1, error_of_tracked (DoublyLinkedList.dll_insert_tracked_erase false h l pos v) h1⟩

theorem allocation_failure_leaves_state_witness :
    SimpleVector.sample.Holds [1, 2, 3] ∧ 1 ≤ [(1 : Int), 2, 3].length ∧
    SimpleVector.sample.size = SimpleVector.sample.capacity ∧
    SimpleVector.insert_tracked id false SimpleVector.sample 1 7
      = .error (.AllocationFailure, SimpleVector.sample) ∧
    SimpleVector.insert id false SimpleVector.sample 1 7 = .error .AllocationFailure :=
  ⟨SimpleVector.sample_holds, by decide, by decide,
    ((@allocation_failure_leaves_state Int).1 SimpleVector.sample [1, 2, 3]
      SimpleVector.sample_holds).2.1 id 1 7 (by decide) (by decide)⟩
/-! ## `print` -/

theorem foldl_append_acc (acc : String) (l : List String) :
    l.foldl (fun r s => r ++ s) acc = acc ++ l.foldl (fun r s => r ++ s) "" := by
  induction l generalizing acc with
  | nil => simp
  | cons a as ih =>
    simp only [List.foldl_cons]
    rw [ih (acc ++ a), ih ("" ++ a)]
    simp [String.append_assoc]

theorem join_cons (a : String) (l : List String) : String.join (a :: l) = a ++ String.join l := by
  simp only [String.join, List.foldl_cons]
  rw [foldl_append_acc]
  simp

theorem intercalate_go_eq (sep : String) (l : List String) (acc : String) :
    String.intercalate.go acc sep l = acc ++ String.join (l.map fun a => sep ++ a) := by
  induction l generalizing acc with
  | nil => simp [String.intercalate.go, String.join]
  | cons a as ih =>
    simp only [String.intercalate.go, List.map_cons]
    rw [ih, join_cons]
    simp [String.append_assoc]

theorem join_intersperse_cons (sep : String) (l : List String) (a : String) :
    String.join ((a :: l).intersperse sep) = a ++ String.join (l.map fun b => sep ++ b) := by
  induction l generalizing a with
  | nil => simp [String.join]
  | cons b bs ih =>
    have e : (a :: b :: bs).intersperse sep = a :: sep :: (b :: bs).intersperse sep := rfl
    rw [e, join_cons, join_cons, ih b, List.map_cons, join_cons]
    simp [String.append_assoc]

/-- The chunks of renderings with one separator between neighbours, written one
after the other, are the renderings joined by the separator. -/
theorem join_intersperse (sep : String) (l : List String) :
    String.join (l.intersperse sep) = sep.intercalate l := by
  cases l with
  | nil => rfl
  | cons a as =>
    simp only [String.intercalate]
    rw [intercalate_go_eq, join_intersperse_cons]

/-- C22. `print`: on a vector holding `xs` and on a well-formed singly or doubly
linked list whose elements are `xs`, `print` writes the renderings of the elements
in index order with one `" "` between neighbours and nothing before the first or
after the last: the text written is the renderings joined by a single space, it is
the rendering of the element alone for one element, and nothing is written for an
empty container. -/
theorem print_format {T : Type} (render : T → String) :
    (∀ (s : SimpleVector T) (xs : List T), s.Holds xs →
      SimpleVector.print render s = .ok ((xs.map render).intersperse " ") ∧
      (SimpleVector.print render s).map String.join
        = .ok (" ".intercalate (xs.map render)) ∧
      (∀ x, xs = [x] → SimpleVector.print render s = .ok [render x]) ∧
      (xs = [] → SimpleVector.print render s = .ok [])) ∧
    (∀ (h : Heap (SinglyLinkedList.Node T)) (l : SinglyLinkedList) (cells : List (Nat × T)),
      SinglyLinkedList.WellFormed h l cells →
      SinglyLinkedList.print render h l
        = .ok (((cells.map Prod.snd).map render).intersperse " ") ∧
      (SinglyLinkedList.print render h l).map String.join
        = .ok (" ".intercalate ((cells.map Prod.snd).map render)) ∧
      (∀ x, cells.map Prod.snd = [x] → SinglyLinkedList.print render h l = .ok [render x]) ∧
      (cells.map Prod.snd = [] → SinglyLinkedList.print render h l = .ok [])) ∧
    (∀ (h : Heap (DoublyLinkedList.Node T)) (l : DoublyLinkedList) (cells : List (Nat × T)),
      DoublyLinkedList.WellFormed h l cells →
      DoublyLinkedList.print render h l
        = .ok (((cells.map Prod.snd).map render).intersperse " ") ∧
      (DoublyLinkedList.print render h l).map String.join
        = .ok (" ".intercalate ((cells.map Prod.snd).map render)) ∧
      (∀ x, cells.map Prod.snd = [x] → DoublyLinkedList.print render h l = .ok [render x]) ∧
      (cells.map Prod.snd = [] → DoublyLinkedList.print render h l = .ok [])) := by
  have key : ∀ (p : Except Error (List String)) (ys : List T),
      p = .ok ((ys.map render).intersperse " ") →
      p = .ok ((ys.map render).intersperse " ") ∧
      p.map String.join = .ok (" ".intercalate (ys.map render)) ∧
      (∀ x, ys = [x] → p = .ok [render x]) ∧ (ys = [] → p = .ok []) := by
    intro p ys hp
    refine ⟨hp, ?_, ?_, ?_⟩
    · rw [hp, ← join_intersperse]
      rfl
    · intro x hx
      rw [hp, hx]
      rfl
    · intro hx
      rw [hp, hx]
      rfl
  refine ⟨?_, ?_, ?_⟩
  · intro s xs hs
    exact key _ xs (SimpleVector.print_holds render hs)
  · intro h l cells hw
    refine key _ (cells.map Prod.snd) ?_
    rw [SinglyLinkedList.sll_print_wf render hw]
    simp [List.map_map, Function.comp_def]
  · intro h l cells hw
    refine key _ (cells.map Prod.snd) ?_
    rw [DoublyLinkedList.dll_print_wf render hw]
    simp [List.map_map, Function.comp_def]

theorem print_format_witness :
    SimpleVector.sample.Holds [1, 2, 3] ∧
    SimpleVector.print toString SimpleVector.sample
      = .ok ((([1, 2, 3] : List Int).map toString).intersperse " ") ∧
    (SimpleVector.print toString SimpleVector.sample).map String.join = .ok "1 2 3" :=
  have h := (@print_format Int toString).1 SimpleVector.sample [1, 2, 3]
    SimpleVector.sample_holds
  ⟨SimpleVector.sample_holds, h.1, h.2.1.trans (by decide)⟩

/-! ## `clear` twice, the branches of the list `insert`, and totality -/

theorem SimpleVector.destroy_range_zero {T : Type} (i : Nat) (d : Option (List (Option T))) :
    SimpleVector.destroy_range 0 i d = .ok d := rfl

theorem SimpleVector.clear_clear {T : Type} {s s1 : SimpleVector T}
    (e : SimpleVector.clear s = .ok s1) :
    s1.size_ = 0 ∧ SimpleVector.clear s1 = .ok s1 := by
  unfold SimpleVector.clear at e
  cases hd : SimpleVector.destroy_elements s with
  | error err => rw [hd] at e; cases e
  | ok d =>
    rw [hd] at e
    cases e
    refine ⟨rfl, ?_⟩
    cases d with
    | none => rfl
    | some b => rfl

theorem SinglyLinkedList.sll_clear_loop_head {T : Type} :
    ∀ (fuel : Nat) (h : Heap (SinglyLinkedList.Node T)) (p : Ptr)
      (r : Heap (SinglyLinkedList.Node T) × Ptr),
      SinglyLinkedList.clear_loop fuel h p = .ok r → r.2 = none := by
  intro fuel
  induction fuel with
  | zero =>
    intro h p r e
    cases p with
    | none => cases e; rfl
    | some a => cases e
  | succ k ih =>
    intro h p r e
    cases p with
    | none => cases e; rfl
    | some a =>
      simp only [SinglyLinkedList.clear_loop] at e
      cases hn : h.deref (some a) with
      | error err => rw [hn] at e; cases e
      | ok n =>
        rw [hn] at e
        exact ih _ _ _ e

theorem SinglyLinkedList.sll_clear_clear {T : Type} {h h1 : Heap (SinglyLinkedList.Node T)}
    {l l1 : SinglyLinkedList} (e : SinglyLinkedList.clear h l = .ok (h1, l1)) :
    l1 = SinglyLinkedList.empty_list ∧ SinglyLinkedList.clear h1 l1 = .ok (h1, l1) := by
  unfold SinglyLinkedList.clear at e
  cases hc : SinglyLinkedList.clear_loop h.length h l.head_ with
  | error err => rw [hc] at e; cases e
  | ok r =>
    rw [hc] at e
    have hr := SinglyLinkedList.sll_clear_loop_head _ _ _ _ hc
    obtain ⟨h2, p⟩ := r
    simp only at hr
    subst hr
    cases e
    refine ⟨rfl, ?_⟩
    unfold SinglyLinkedList.clear
    cases h1.length <;> rfl

theorem DoublyLinkedList.dll_clear_loop_head {T : Type} :
    ∀ (fuel : Nat) (h : Heap (DoublyLinkedList.Node T)) (p : Ptr)
      (r : Heap (DoublyLinkedList.Node T) × Ptr),
      DoublyLinkedList.clear_loop fuel h p = .ok r → r.2 = none := by
  intro fuel
  induction fuel with
  | zero =>
    intro h p r e
    cases p with
    | none => cases e; rfl
    | some a => cases e
  | succ k ih =>
    intro h p r e
    cases p with
    | none => cases e; rfl
    | some a =>
      simp only [DoublyLinkedList.clear_loop] at e
      cases hn : h.deref (some a) with
      | error err => rw [hn] at e; cases e
      | ok n =>
        rw [hn] at e
        exact ih _ _ _ e

theorem DoublyLinkedList.dll_clear_clear {T : Type} {h h1 : Heap (DoublyLinkedList.Node T)}
    {l l1 : DoublyLinkedList} (e : DoublyLinkedList.clear h l = .ok (h1, l1)) :
    l1 = DoublyLinkedList.empty_list ∧ DoublyLinkedList.clear h1 l1 = .ok (h1, l1) := by
  unfold DoublyLinkedList.clear at e
  cases hc : DoublyLinkedList.clear_loop h.length h l.head_ with
  | error err => rw [hc] at e; cases e
  | ok r =>
    rw [hc] at e
    have hr := DoublyLinkedList.dll_clear_loop_head _ _ _ _ hc
    obtain ⟨h2, p⟩ := r
    simp only at hr
    subst hr
    cases e
    refine ⟨rfl, ?_⟩
    unfold DoublyLinkedList.clear
    cases h1.length <;> rfl

/-- C23. `clear` twice.  In every state in which `clear` returns, and so in every
valid state of the three containers, the state after `clear` has `size() == 0` and
`empty()`, and a second `clear` returns and leaves that state as it is (for the
lists: the same heap and the same members). -/
theorem clear_idempotent {T : Type} :
    (∀ (s s1 : SimpleVector T), SimpleVector.clear s = .ok s1 →
      s1.size = 0 ∧ s1.empty = true ∧ SimpleVector.clear s1 = .ok s1) ∧
    (∀ (s : SimpleVector T) (xs : List T), s.Holds xs → ∃ s1, SimpleVector.clear s = .ok s1) ∧
    (∀ (h h1 : Heap (SinglyLinkedList.Node T)) (l l1 : SinglyLinkedList),
      SinglyLinkedList.clear h l = .ok (h1, l1) →
      l1.size = 0 ∧ l1.empty = true ∧ SinglyLinkedList.clear h1 l1 = .ok (h1, l1)) ∧
    (∀ (h : Heap (SinglyLinkedList.Node T)) (l : SinglyLinkedList) (cells : List (Nat × T)),
      SinglyLinkedList.WellFormed h l cells → ∃ h1 l1, SinglyLinkedList.clear h l = .ok (h1, l1)) ∧
    (∀ (h h1 : Heap (DoublyLinkedList.Node T)) (l l1 : DoublyLinkedList),
      DoublyLinkedList.clear h l = .ok (h1, l1) →
      l1.size = 0 ∧ l1.empty = true ∧ DoublyLinkedList.clear h1 l1 = .ok (h1, l1)) ∧
    (∀ (h : Heap (DoublyLinkedList.Node T)) (l : DoublyLinkedList) (cells : List (Nat × T)),
      DoublyLinkedList.WellFormed h l cells →
      ∃ h1 l1, DoublyLinkedList.clear h l = .ok (h1, l1)) := by
  refine ⟨?_, ?_, ?_, ?_, ?_, ?_⟩
  · intro s s1 e
    obtain ⟨h1, h2⟩ := SimpleVector.clear_clear e
    exact ⟨h1, by simp [SimpleVector.empty, h1], h2⟩
  · intro s xs hs
    obtain ⟨s1, e, _⟩ := SimpleVector.clear_holds hs
    exact ⟨s1, e⟩
  · intro h h1 l l1 e
    obtain ⟨e1, e2⟩ := SinglyLinkedList.sll_clear_clear e
    subst e1
    exact ⟨rfl, rfl, e2⟩
  · intro h l cells hw
    obtain ⟨h1, l1, e, _⟩ := SinglyLinkedList.sll_clear_wf hw
    exact ⟨h1, l1, e⟩
  · intro h h1 l l1 e
    obtain ⟨e1, e2⟩ := DoublyLinkedList.dll_clear_clear e
    subst e1
    exact ⟨rfl, rfl, e2⟩
  · intro h l cells hw
    obtain ⟨h1, l1, e, _⟩ := DoublyLinkedList.dll_clear_wf hw
    exact ⟨h1, l1, e⟩

theorem clear_idempotent_witness :
    SimpleVector.clear SimpleVector.sample
      = .ok { size_ := 0, capacity_ := 3, data_ := some [none, none, none] } ∧
    (({ size_ := 0, capacity_ := 3, data_ := some [none, none, none] } : SimpleVector Int).size
        = 0 ∧
      ({ size_ := 0, capacity_ := 3, data_ := some [none, none, none] } : SimpleVector Int).empty
        = true ∧
      SimpleVector.clear
          ({ size_ := 0, capacity_ := 3, data_ := some [none, none, none] } : SimpleVector Int)
        = .ok { size_ := 0, capacity_ := 3, data_ := some [none, none, none] }) :=
  ⟨by decide, (@clear_idempotent Int).1 SimpleVector.sample _ (by decide)⟩

/-- C24. The branches of the list `insert`.  In both lists, in every state,
`insert(0, v)` is `push_front(v)`, and `insert(size(), v)` with `size() > 0` is
`push_back(v)`: the same outcome, heap and members, whatever the allocator
answers.  On a well-formed empty list `insert(0, v)` takes the `push_front`
branch, and `push_front(v)` and `push_back(v)` leave the same state. -/
theorem insert_dispatch {T : Type} :
    (∀ (mem : Bool) (h : Heap (SinglyLinkedList.Node T)) (l : SinglyLinkedList) (v : T),
      SinglyLinkedList.insert mem h l 0 v = SinglyLinkedList.push_front mem h l v ∧
      (0 < l.size →
        SinglyLinkedList.insert mem h l l.size v = SinglyLinkedList.push_back mem h l v) ∧
      (SinglyLinkedList.WellFormed h l ([] : List (Nat × T)) →
        SinglyLinkedList.push_front mem h l v = SinglyLinkedList.push_back mem h l v)) ∧
    (∀ (mem : Bool) (h : Heap (DoublyLinkedList.Node T)) (l : DoublyLinkedList) (v : T),
      DoublyLinkedList.insert mem h l 0 v = DoublyLinkedList.push_front mem h l v ∧
      (0 < l.size →
        DoublyLinkedList.insert mem h l l.size v = DoublyLinkedList.push_back mem h l v) ∧
      (DoublyLinkedList.WellFormed h l ([] : List (Nat × T)) →
        DoublyLinkedList.push_front mem h l v = DoublyLinkedList.push_back mem h l v)) := by
  refine ⟨?_, ?_⟩
  · intro mem h l v
    refine ⟨?_, ?_, ?_⟩
    · simp [SinglyLinkedList.insert, BaseContainer.check_position_ok (Nat.zero_le _)]
    · intro hn
      simp only [SinglyLinkedList.size] at hn ⊢
      have h0 : ¬ l.size_ = 0 := by omega
      simp [SinglyLinkedList.insert, BaseContainer.check_position_ok (le_refl _), h0]
    · intro hw
      have e := hw.sll_eq_empty
      subst e
      cases mem <;> rfl
  · intro mem h l v
    refine ⟨?_, ?_, ?_⟩
    · simp [DoublyLinkedList.insert, BaseContainer.check_position_ok (Nat.zero_le _)]
    · intro hn
      simp only [DoublyLinkedList.size] at hn ⊢
      have h0 : ¬ l.size_ = 0 := by omega
      simp [DoublyLinkedList.insert, BaseContainer.check_position_ok (le_refl _), h0]
    · intro hw
      have e := hw.dll_eq_empty
      subst e
      cases mem <;> rfl

theorem insert_dispatch_witness :
    0 < SinglyLinkedList.sample.size ∧
    SinglyLinkedList.insert true SinglyLinkedList.sample_heap SinglyLinkedList.sample
        SinglyLinkedList.sample.size 7
      = SinglyLinkedList.push_back true SinglyLinkedList.sample_heap SinglyLinkedList.sample 7 :=
  ⟨by decide,
    ((@insert_dispatch Int).1 true SinglyLinkedList.sample_heap SinglyLinkedList.sample 7).2.1
      (by decide)⟩

theorem SinglyLinkedList.sll_insert_refused {T : Type} {h : Heap (SinglyLinkedList.Node T)}
    {l : SinglyLinkedList} {cells : List (Nat × T)} (hw : SinglyLinkedList.WellFormed h l cells)
    (pos : Nat) (hpos : pos ≤ cells.length) (v : T) :
    SinglyLinkedList.insert false h l pos v = .error .AllocationFailure :=
  error_of_tracked (SinglyLinkedList.sll_insert_tracked_erase false h l pos v)
    (SinglyLinkedList.sll_insert_tracked_refused hw pos hpos v)

theorem DoublyLinkedList.dll_insert_refused {T : Type} {h : Heap (DoublyLinkedList.Node T)}
    {l : DoublyLinkedList} {cells : List (Nat × T)} (hw : DoublyLinkedList.WellFormed h l cells)
    (pos : Nat) (hpos : pos ≤ cells.length) (v : T) :
    DoublyLinkedList.insert false h l pos v = .error .AllocationFailure :=
  error_of_tracked (DoublyLinkedList.dll_insert_tracked_erase false h l pos v)
    (DoublyLinkedList.dll_insert_tracked_refused hw pos hpos v)

/-- C25. Totality on valid positions.  On a well-formed singly or doubly linked
list of `n` nodes, `push_back`, `push_front` and `insert` with `pos <= n` return
when the node is granted and throw `AllocationFailure` when it is refused, and
`erase` with `pos < n` and `operator[]` with `idx < n` return: none of them ends in
the dereference of a null or dangling link.  The predecessor walk of the singly
linked list (`pos - 1` steps from `head_`, for `0 < pos <= n`) and `get_node_at` of
the doubly linked list (`idx < n`) end at a node, and `insert_middle` for
`0 < pos < n` and `erase_middle` for `0 < pos < n - 1` return. -/
theorem list_mutators_total {T : Type} :
    (∀ (h : Heap (SinglyLinkedList.Node T)) (l : SinglyLinkedList) (cells : List (Nat × T)),
      SinglyLinkedList.WellFormed h l cells →
      (∀ v, (∃ r, SinglyLinkedList.push_back true h l v = .ok r) ∧
        SinglyLinkedList.push_back false h l v = .error .AllocationFailure) ∧
      (∀ v, (∃ r, SinglyLinkedList.push_front true h l v = .ok r) ∧
        SinglyLinkedList.push_front false h l v = .error .AllocationFailure) ∧
      (∀ pos v, pos ≤ cells.length →
        (∃ r, SinglyLinkedList.insert true h l pos v = .ok r) ∧
        SinglyLinkedList.insert false h l pos v = .error .AllocationFailure) ∧
      (∀ pos, pos < cells.length → ∃ r, SinglyLinkedList.erase h l pos = .ok r) ∧
      (∀ idx, idx < cells.length → ∃ x, SinglyLinkedList.index h l idx = .ok x) ∧
      (∀ pos, 0 < pos → pos ≤ cells.length →
        ∃ a, SinglyLinkedList.advance h (pos - 1) l.head_ = .ok (some a))) ∧
    (∀ (h : Heap (DoublyLinkedList.Node T)) (l : DoublyLinkedList) (cells : List (Nat × T)),
      DoublyLinkedList.WellFormed h l cells →
      (∀ v, (∃ r, DoublyLinkedList.push_back true h l v = .ok r) ∧
        DoublyLinkedList.push_back false h l v = .error .AllocationFailure) ∧
      (∀ v, (∃ r, DoublyLinkedList.push_front true h l v = .ok r) ∧
        DoublyLinkedList.push_front false h l v = .error .AllocationFailure) ∧
      (∀ pos v, pos ≤ cells.length →
        (∃ r, DoublyLinkedList.insert true h l pos v = .ok r) ∧
        DoublyLinkedList.insert false h l pos v = .error .AllocationFailure) ∧
      (∀ pos, pos < cells.length → ∃ r, DoublyLinkedList.erase h l pos = .ok r) ∧
      (∀ idx, idx < cells.length → ∃ x, DoublyLinkedList.index h l idx = .ok x) ∧
      (∀ idx, idx < cells.length → ∃ a, DoublyLinkedList.get_node_at h l idx = .ok (some a)) ∧
      (∀ pos v, 0 < pos → pos < cells.length →
        ∃ r, DoublyLinkedList.insert_middle true h l pos v = .ok r) ∧
      (∀ pos, 0 < pos → pos + 1 < cells.length →
        ∃ r, DoublyLinkedList.erase_middle h l pos = .ok r)) := by
  refine ⟨?_, ?_⟩
  · intro h l cells hw
    refine ⟨?_, ?_, ?_, ?_, ?_, ?_⟩
    · intro v
      obtain ⟨h', l', e, _⟩ := SinglyLinkedList.sll_push_back_wf hw v
      exact ⟨⟨_, e⟩, rfl⟩
    · intro v
      obtain ⟨h', l', e, _⟩ := SinglyLinkedList.sll_push_front_wf hw v
      exact ⟨⟨_, e⟩, rfl⟩
    · intro pos v hpos
      obtain ⟨h', l', e, _⟩ := SinglyLinkedList.sll_insert_wf hw pos hpos v
      exact ⟨⟨_, e⟩, SinglyLinkedList.sll_insert_refused hw pos hpos v⟩
    · intro pos hpos
      obtain ⟨h', l', e, _⟩ := SinglyLinkedList.sll_erase_wf hw pos hpos
      exact ⟨_, e⟩
    · intro idx hidx
      obtain ⟨A, c, B, hcells, hA⟩ := split_at cells idx hidx
      subst hcells
      subst hA
      exact ⟨c.2, SinglyLinkedList.sll_index_core hw⟩
    · intro pos h0 hpos
      obtain ⟨A, c, B, hcells, hA⟩ := split_at cells (pos - 1) (by omega)
      subst hcells
      rw [← hA, hw.head]
      exact ⟨c.1, SinglyLinkedList.sll_advance_seg A (c :: B) none hw.chain⟩
  · intro h l cells hw
    refine ⟨?_, ?_, ?_, ?_, ?_, ?_, ?_, ?_⟩
    · intro v
      obtain ⟨h', l', e, _⟩ := DoublyLinkedList.dll_push_back_wf hw v
      exact ⟨⟨_, e⟩, rfl⟩
    · intro v
      obtain ⟨h', l', e, _⟩ := DoublyLinkedList.dll_push_front_wf hw v
      exact ⟨⟨_, e⟩, rfl⟩
    · intro pos v hpos
      obtain ⟨h', l', e, _⟩ := DoublyLinkedList.dll_insert_wf hw pos hpos v
      exact ⟨⟨_, e⟩, DoublyLinkedList.dll_insert_refused hw pos hpos v⟩
    · intro pos hpos
      obtain ⟨h', l', e, _⟩ := DoublyLinkedList.dll_erase_wf hw pos hpos
      exact ⟨_, e⟩
    · intro idx hidx
      obtain ⟨A, c, B, hcells, hA⟩ := split_at cells idx hidx
      subst hcells
      subst hA
      exact ⟨c.2, DoublyLinkedList.dll_index_core hw⟩
    · intro idx hidx
      obtain ⟨A, c, B, hcells, hA⟩ := split_at cells idx hidx
      subst hcells
      subst hA
      exact ⟨c.1, DoublyLinkedList.dll_get_node_at_core hw⟩
    · intro pos v h0 hpos
      obtain ⟨A, pc, B', hcells, hA⟩ := split_at cells (pos - 1) (by omega)
      subst hcells
      have hp : pos = A.length + 1 := by omega
      subst hp
      cases B' with
      | nil => simp at hpos
      | cons c B =>
        obtain ⟨h', l', e, _⟩ := DoublyLinkedList.dll_insert_middle_core hw v
        exact ⟨_, e⟩
    · intro pos h0 hpos
      obtain ⟨A, pc, B', hcells, hA⟩ := split_at cells (pos - 1) (by omega)
      subst hcells
      have hp : pos = A.length + 1 := by omega
      subst hp
      cases B' with
      | nil => simp at hpos
      | cons e B'' =>
        cases B'' with
        | nil => simp at hpos
        | cons c B =>
          obtain ⟨h', l', e1, _⟩ := DoublyLinkedList.dll_erase_middle_core hw
          exact ⟨_, e1⟩

theorem list_mutators_total_witness :
    DoublyLinkedList.WellFormed DoublyLinkedList.sample_heap DoublyLinkedList.sample
      [(0, 1), (1, 2), (2, 3)] ∧
    0 < 1 ∧ 1 + 1 < [((0 : Nat), (1 : Int)), (1, 2), (2, 3)].length ∧
    ∃ r, DoublyLinkedList.erase_middle DoublyLinkedList.sample_heap DoublyLinkedList.sample 1
      = .ok r :=
  ⟨DoublyLinkedList.dll_sample_wellFormed, by decide, by decide,
    ((@list_mutators_total Int).2 DoublyLinkedList.sample_heap DoublyLinkedList.sample
      [(0, 1), (1, 2), (2, 3)] DoublyLinkedList.dll_sample_wellFormed).2.2.2.2.2.2.2 1
        (by decide) (by decide)⟩

/-! ## `reserve` -/

/-- The wrap of the byte count: `reserve(1 << 62)` on the `SimpleVector<int>`
holding 1, 2, 3 asks for `2^64 mod 2^64 = 0` bytes, and the first move constructs
an object past the block. -/
theorem SimpleVector.reserve_sized_wraps :
    SimpleVector.reserve_sized 4 true SimpleVector.sample (2 ^ 62) = .error .Undefined := by
  decide

/-- C27, with the value a move leaves in its source as a parameter `mv`: on the
vector holding `a b`, `insert(0, "c")` leaves `c a` followed by `mv "b"`, the
moved-from value of the last element, not `c a b`; with `mv` leaving the empty
string the last element reads back as `""`.  The statement before the loop
move-constructs `data_[size_]` from `data_[size_ - 1]`, and the loop starts at
`i = size_`, so its first round move-assigns `data_[size_]` from that moved-from
slot. -/
theorem insert_reads_moved_from_slot :
    (∀ mv : String → String,
      (SimpleVector.insert mv true
          { size_ := 2, capacity_ := 2, data_ := some [some "a", some "b"] } 0 "c"
        >>= fun s => s.contents) = .ok ["c", "a", mv "b"]) ∧
    (SimpleVector.insert (fun _ => "") true
        { size_ := 2, capacity_ := 2, data_ := some [some "a", some "b"] } 0 "c"
      >>= fun s => s.contents) ≠ .ok ["c", "a", "b"] ∧
    (SimpleVector.insert id true
        { size_ := 2, capacity_ := 2, data_ := some [some "a", some "b"] } 0 "c"
      >>= fun s => s.contents) = .ok ["c", "a", "b"] := by
  refine ⟨fun mv => rfl, by decide, by decide⟩

/-! ## `OutOfRange` -/

theorem tracked_error_fst {σ α : Type} {x : Except (Error × σ) α} {y : Except Error α}
    {e : Error} {st : σ} (herase : x.mapError Prod.fst = y) (hx : x = .error (e, st)) :
    y = .error e := by
  rw [← herase, hx]
  rfl

theorem SimpleVector.erase_tracked_erase {T : Type} (mv : T → T) (s : SimpleVector T)
    (pos : Nat) :
    (SimpleVector.erase_tracked mv s pos).mapError Prod.fst = SimpleVector.erase mv s pos := by
  unfold SimpleVector.erase_tracked SimpleVector.erase
  simp only [mapError_bind, mapError_at_state, mapError_pure]

theorem SimpleVector.index_tracked_erase {T : Type} (s : SimpleVector T) (idx : Nat) :
    (SimpleVector.index_tracked s idx).mapError Prod.fst = SimpleVector.index s idx := by
  unfold SimpleVector.index_tracked SimpleVector.index
  simp only [mapError_bind, mapError_at_state]

theorem SinglyLinkedList.sll_erase_tracked_erase {T : Type} (h : Heap (SinglyLinkedList.Node T))
    (l : SinglyLinkedList) (pos : Nat) :
    (SinglyLinkedList.erase_tracked h l pos).mapError Prod.fst
      = SinglyLinkedList.erase h l pos := by
  unfold SinglyLinkedList.erase_tracked SinglyLinkedList.erase
  simp only [mapError_bind, mapError_at_state, mapError_pure, mapError_ite]

theorem SinglyLinkedList.sll_index_tracked_erase {T : Type} (h : Heap (SinglyLinkedList.Node T))
    (l : SinglyLinkedList) (idx : Nat) :
    (SinglyLinkedList.index_tracked h l idx).mapError Prod.fst
      = SinglyLinkedList.index h l idx := by
  unfold SinglyLinkedList.index_tracked SinglyLinkedList.index
  simp only [mapError_bind, mapError_at_state, mapError_pure]

theorem DoublyLinkedList.dll_erase_tracked_erase {T : Type} (h : Heap (DoublyLinkedList.Node T))
    (l : DoublyLinkedList) (pos : Nat) :
    (DoublyLinkedList.erase_tracked h l pos).mapError Prod.fst
      = DoublyLinkedList.erase h l pos := by
  unfold DoublyLinkedList.erase_tracked DoublyLinkedList.erase
  simp only [mapError_bind, mapError_at_state, mapError_ite]

theorem DoublyLinkedList.dll_index_tracked_erase {T : Type} (h : Heap (DoublyLinkedList.Node T))
    (l : DoublyLinkedList) (idx : Nat) :
    (DoublyLinkedList.index_tracked h l idx).mapError Prod.fst
      = DoublyLinkedList.index h l idx := by
  unfold DoublyLinkedList.index_tracked DoublyLinkedList.index
  simp only [mapError_bind, mapError_at_state, mapError_pure]

/-- C28. `OutOfRange` leaves the container as it was.  For the three containers,
in every state: `insert(pos, v)` with `pos > size()`, and `erase(pos)` and
`operator[](pos)` with `pos >= size()`, throw `OutOfRange` with the container in the
state it had before the call; and whenever one of them throws `OutOfRange`, the
state at the throw is the state before the call (members and storage, so size,
elements, links and capacity). -/
theorem out_of_range_leaves_state {T : Type} :
    (∀ (s : SimpleVector T),
      (∀ mv mem pos v, s.size < pos →
        SimpleVector.insert_tracked mv mem s pos v = .error (.OutOfRange, s)) ∧
      (∀ mv pos, s.size ≤ pos → SimpleVector.erase_tracked mv s pos = .error (.OutOfRange, s)) ∧
      (∀ idx, s.size ≤ idx → SimpleVector.index_tracked s idx = .error (.OutOfRange, s)) ∧
      (∀ mv mem pos v st,
        SimpleVector.insert_tracked mv mem s pos v = .error (.OutOfRange, st) → st = s) ∧
      (∀ mv pos st, SimpleVector.erase_tracked mv s pos = .error (.OutOfRange, st) → st = s) ∧
      (∀ idx st, SimpleVector.index_tracked s idx = .error (.OutOfRange, st) → st = s)) ∧
    (∀ (h : Heap (SinglyLinkedList.Node T)) (l : SinglyLinkedList),
      (∀ mem pos v, l.size < pos →
        SinglyLinkedList.insert_tracked mem h l pos v = .error (.OutOfRange, (h, l))) ∧
      (∀ pos, l.size ≤ pos →
        SinglyLinkedList.erase_tracked h l pos = .error (.OutOfRange, (h, l))) ∧
      (∀ idx, l.size ≤ idx →
        SinglyLinkedList.index_tracked h l idx = .error (.OutOfRange, (h, l))) ∧
      (∀ mem pos v st,
        SinglyLinkedList.insert_tracked mem h l pos v = .error (.OutOfRange, st) →
        st = (h, l)) ∧
      (∀ pos st, SinglyLinkedList.erase_tracked h l pos = .error (.OutOfRange, st) →
        st = (h, l)) ∧
      (∀ idx st, SinglyLinkedList.index_tracked h l idx = .error (.OutOfRange, st) →
        st = (h, l))) ∧
    (∀ (h : Heap (DoublyLinkedList.Node T)) (l : DoublyLinkedList),
      (∀ mem pos v, l.size < pos →
        DoublyLinkedList.insert_tracked mem h l pos v = .error (.OutOfRange, (h, l))) ∧
      (∀ pos, l.size ≤ pos →
        DoublyLinkedList.erase_tracked h l pos = .error (.OutOfRange, (h, l))) ∧
      (∀ idx, l.size ≤ idx →
        DoublyLinkedList.index_tracked h l idx = .error (.OutOfRange, (h, l))) ∧
      (∀ mem pos v st,
        DoublyLinkedList.insert_tracked mem h l pos v = .error (.OutOfRange, st) →
        st = (h, l)) ∧
      (∀ pos st, DoublyLinkedList.erase_tracked h l pos = .error (.OutOfRange, st) →
        st = (h, l)) ∧
      (∀ idx st, DoublyLinkedList.index_tracked h l idx = .error (.OutOfRange, st) →
        st = (h, l))) := by
  have back : ∀ {σ α : Type} {x : Except (Error × σ) α} {s st : σ},
      x = .error (.OutOfRange, s) → x = .error (.OutOfRange, st) → st = s := by
    intro σ α x s st h1 h2
    rw [h1] at h2
    cases h2
    rfl
  refine ⟨?_, ?_, ?_⟩
  · intro s
    have i1 : ∀ mv mem pos v, s.size < pos →
        SimpleVector.insert_tracked mv mem s pos v = .error (.OutOfRange, s) := by
      intro mv mem pos v hp
      unfold SimpleVector.insert_tracked
      have hp1 : BaseContainer.check_position pos s.size_ = .error .OutOfRange :=
        BaseContainer.check_position_error hp
      rw [hp1]
      rfl
    have i2 : ∀ mv pos, s.size ≤ pos →
        SimpleVector.erase_tracked mv s pos = .error (.OutOfRange, s) := by
      intro mv pos hp
      unfold SimpleVector.erase_tracked
      have hp1 : BaseContainer.check_index pos s.size_ = .error .OutOfRange :=
        BaseContainer.check_index_error hp
      rw [hp1]
      rfl
    have i3 : ∀ idx, s.size ≤ idx →
        SimpleVector.index_tracked s idx = .error (.OutOfRange, s) := by
      intro idx hp
      unfold SimpleVector.index_tracked
      have hp1 : BaseContainer.check_index idx s.size_ = .error .OutOfRange :=
        BaseContainer.check_index_error hp
      rw [hp1]
      rfl
    refine ⟨i1, i2, i3, ?_, ?_, ?_⟩
    · intro mv mem pos v st e
      have h1 := tracked_error_fst (SimpleVector.insert_tracked_erase mv mem s pos v) e
      exact back (i1 mv mem pos v ((SimpleVector.insert_outOfRange_iff mv mem s pos v).mp h1)) e
    · intro mv pos st e
      have h1 := tracked_error_fst (SimpleVector.erase_tracked_erase mv s pos) e
      exact back (i2 mv pos ((SimpleVector.erase_outOfRange_iff mv s pos).mp h1)) e
    · intro idx st e
      have h1 := tracked_error_fst (SimpleVector.index_tracked_erase s idx) e
      exact back (i3 idx ((SimpleVector.index_outOfRange_iff s idx).mp h1)) e
  · intro h l
    have i1 : ∀ mem pos v, l.size < pos →
        SinglyLinkedList.insert_tracked mem h l pos v = .error (.OutOfRange, (h, l)) := by
      intro mem pos v hp
      unfold SinglyLinkedList.insert_tracked
      have hp1 : BaseContainer.check_position pos l.size_ = .error .OutOfRange :=
        BaseContainer.check_position_error hp
      rw [hp1]
      rfl
    have i2 : ∀ pos, l.size ≤ pos →
        SinglyLinkedList.erase_tracked h l pos = .error (.OutOfRange, (h, l)) := by
      intro pos hp
      unfold SinglyLinkedList.erase_tracked
      have hp1 : BaseContainer.check_index pos l.size_ = .error .OutOfRange :=
        BaseContainer.check_index_error hp
      rw [hp1]
      rfl
    have i3 : ∀ idx, l.size ≤ idx →
        SinglyLinkedList.index_tracked h l idx = .error (.OutOfRange, (h, l)) := by
      intro idx hp
      unfold SinglyLinkedList.index_tracked
      have hp1 : BaseContainer.check_index idx l.size_ = .error .OutOfRange :=
        BaseContainer.check_index_error hp
      rw [hp1]
      rfl
    refine ⟨i1, i2, i3, ?_, ?_, ?_⟩
    · intro mem pos v st e
      have h1 := tracked_error_fst (SinglyLinkedList.sll_insert_tracked_erase mem h l pos v) e
      exact back (i1 mem pos v
        ((SinglyLinkedList.sll_insert_outOfRange_iff mem h l pos v).mp h1)) e
    · intro pos st e
      have h1 := tracked_error_fst (SinglyLinkedList.sll_erase_tracked_erase h l pos) e
      exact back (i2 pos ((SinglyLinkedList.sll_erase_outOfRange_iff h l pos).mp h1)) e
    · intro idx st e
      have h1 := tracked_error_fst (SinglyLinkedList.sll_index_tracked_erase h l idx) e
      exact back (i3 idx ((SinglyLinkedList.sll_index_outOfRange_iff h l idx).mp h1)) e
  · intro h l
    have i1 : ∀ mem pos v, l.size < pos →
        DoublyLinkedList.insert_tracked mem h l pos v = .error (.OutOfRange, (h, l)) := by
      intro mem pos v hp
      unfold DoublyLinkedList.insert_tracked
      have hp1 : BaseContainer.check_position pos l.size_ = .error .OutOfRange :=
        BaseContainer.check_position_error hp
      rw [hp1]
      rfl
    have i2 : ∀ pos, l.size ≤ pos →
        DoublyLinkedList.erase_tracked h l pos = .error (.OutOfRange, (h, l)) := by
      intro pos hp
      unfold DoublyLinkedList.erase_tracked
      have hp1 : BaseContainer.check_index pos l.size_ = .error .OutOfRange :=
        BaseContainer.check_index_error hp
      rw [hp1]
      rfl
    have i3 : ∀ idx, l.size ≤ idx →
        DoublyLinkedList.index_tracked h l idx = .error (.OutOfRange, (h, l)) := by
      intro idx hp
      unfold DoublyLinkedList.index_tracked
      have hp1 : BaseContainer.check_index idx l.size_ = .error .OutOfRange :=
        BaseContainer.check_index_error hp
      rw [hp1]
      rfl
    refine ⟨i1, i2, i3, ?_, ?_, ?_⟩
    · intro mem pos v st e
      have h1 := tracked_error_fst (DoublyLinkedList.dll_insert_tracked_erase mem h l pos v) e
      exact back (i1 mem pos v
        ((DoublyLinkedList.dll_insert_outOfRange_iff mem h l pos v).mp h1)) e
    · intro pos st e
      have h1 := tracked_error_fst (DoublyLinkedList.dll_erase_tracked_erase h l pos) e
      exact back (i2 pos ((DoublyLinkedList.dll_erase_outOfRange_iff h l pos).mp h1)) e
    · intro idx st e
      have h1 := tracked_error_fst (DoublyLinkedList.dll_index_tracked_erase h l idx) e
      exact back (i3 idx ((DoublyLinkedList.dll_index_outOfRange_iff h l idx).mp h1)) e

theorem out_of_range_leaves_state_witness :
    SimpleVector.sample.size < 5 ∧
    SimpleVector.insert_tracked id true SimpleVector.sample 5 7
      = .error (.OutOfRange, SimpleVector.sample) :=
  ⟨by decide,
    ((@out_of_range_leaves_state Int).1 SimpleVector.sample).1 id true 5 7 (by decide)⟩

/-! ## Backward traversal of the doubly linked list -/

/-- C26: decrementing `end()` does not reach the last element.  `operator--` maps
the null iterator, which is `end()`, to the null iterator, in every list.  In the
`DoublyLinkedList<int>` holding 1, 2, 3 the last node is not null and the forward
traversal visits 1, 2, 3, but `--end()` is `end()` again, and both the traversal
that decrements from `end()` down to `begin()` and the one from `rbegin()` to
`rend()` read through the null iterator at their first step. -/
theorem decrement_of_end_is_end :
    (∀ (T : Type) (h : Heap (DoublyLinkedList.Node T)) (l : DoublyLinkedList),
      DoublyLinkedList.decrement h (DoublyLinkedList.end_iterator l)
        = .ok (DoublyLinkedList.end_iterator l)) ∧
    DoublyLinkedList.WellFormed DoublyLinkedList.sample_heap DoublyLinkedList.sample
      [(0, 1), (1, 2), (2, 3)] ∧
    DoublyLinkedList.forward DoublyLinkedList.sample_heap DoublyLinkedList.sample
      = .ok [1, 2, 3] ∧
    DoublyLinkedList.sample.tail_ = some 2 ∧
    DoublyLinkedList.dereference DoublyLinkedList.sample_heap DoublyLinkedList.sample.tail_
      = .ok 3 ∧
    DoublyLinkedList.decrement DoublyLinkedList.sample_heap
      (DoublyLinkedList.end_iterator DoublyLinkedList.sample) ≠ .ok (some 2) ∧
    (DoublyLinkedList.decrement DoublyLinkedList.sample_heap
        (DoublyLinkedList.end_iterator DoublyLinkedList.sample)
      >>= DoublyLinkedList.dereference DoublyLinkedList.sample_heap) = .error .Undefined ∧
    DoublyLinkedList.backward DoublyLinkedList.sample_heap DoublyLinkedList.sample
      = .error .Undefined ∧
    DoublyLinkedList.reverse DoublyLinkedList.sample_heap DoublyLinkedList.sample
      = .error .Undefined ∧
    DoublyLinkedList.backward DoublyLinkedList.sample_heap DoublyLinkedList.sample
      ≠ .ok [3, 2, 1] := by
  refine ⟨fun _ _ _ => rfl, ?_, by decide, rfl, by decide, by decide, by decide, by decide,
    by decide, by decide⟩
  exact ⟨rfl, rfl, rfl, by simp [DoublyLinkedList.Seg, DoublyLinkedList.sample_heap, link],
    by decide⟩

/-! ## Forward iteration and indexing -/

theorem SimpleVector.iterate_holds {T : Type} {s : SimpleVector T} {xs : List T}
    (hs : s.Holds xs) :
    ∀ (fuel it : Nat), it + fuel = xs.length →
      SimpleVector.iterate s fuel it = .ok (xs.drop it) := by
  intro fuel
  induction fuel with
  | zero =>
    intro it hit
    have hsz : s.size_ = xs.length := hs.size_eq
    have e : it = s.size_ := by omega
    simp only [SimpleVector.iterate, if_pos e]
    rw [List.drop_eq_nil_of_le (by omega)]
  | succ k ih =>
    intro it hit
    have hlt : it < xs.length := by omega
    have hsz : s.size_ = xs.length := hs.size_eq
    have ne : it ≠ s.size_ := by omega
    simp only [SimpleVector.iterate, if_neg ne]
    rw [hs.load (List.getElem?_eq_getElem hlt)]
    simp only [ok_bind]
    rw [ih (it + 1) (by omega)]
    rw [List.drop_eq_getElem_cons hlt]
    rfl

/-- The forward traversal from `begin()` visits the element sequence. -/
theorem SimpleVector.forward_holds {T : Type} {s : SimpleVector T} {xs : List T}
    (hs : s.Holds xs) : SimpleVector.forward s = .ok xs := by
  unfold SimpleVector.forward
  have hsz : s.size_ = xs.length := hs.size_eq
  rw [SimpleVector.iterate_holds hs s.size_ 0 (by omega)]
  rfl

theorem link_drop_some {T : Type} (cells : List (Nat × T)) (k : Nat) (hk : k < cells.length) :
    link (cells.drop k) none = some (cells.get ⟨k, hk⟩).1 := by
  rw [List.drop_eq_getElem_cons hk]
  rfl

/-- C30: forward iteration agrees with indexing.  In every state of a program
over `SimpleVector` objects, and for every list of every state of a program over
`SinglyLinkedList` or `DoublyLinkedList` objects, the loop
`for (it = begin(); it != end(); ++it)` ends, visits as many elements as `size()`
says, and the element visited at round `i` is the one `operator[](i)` returns.
For the lists, `size()` applications of `++` to `begin()` give `end()`, the null
iterator, and fewer give an iterator to a node. -/
theorem forward_iteration_agrees_with_index {T : Type} :
    (∀ (mv : T → T) (s : SimpleVector T), SimpleVector.Reachable mv s →
      ∃ xs, SimpleVector.forward s = .ok xs ∧ xs.length = s.size ∧
        ∀ i, i < s.size → ∃ x, xs[i]? = some x ∧ SimpleVector.index s i = .ok x) ∧
    (∀ (w : World (SinglyLinkedList.Node T) SinglyLinkedList), SinglyLinkedList.Reachable w →
      ∀ l, l ∈ w.lists →
      ∃ xs, SinglyLinkedList.forward w.heap l = .ok xs ∧ xs.length = l.size ∧
        (∀ i, i < l.size →
          ∃ x, xs[i]? = some x ∧ SinglyLinkedList.index w.heap l i = .ok x) ∧
        SinglyLinkedList.advance w.heap l.size l.head_ = .ok none ∧
        ∀ k, k < l.size → ∃ a, SinglyLinkedList.advance w.heap k l.head_ = .ok (some a)) ∧
    (∀ (w : World (DoublyLinkedList.Node T) DoublyLinkedList), DoublyLinkedList.Reachable w →
      ∀ l, l ∈ w.lists →
      ∃ xs, DoublyLinkedList.forward w.heap l = .ok xs ∧ xs.length = l.size ∧
        (∀ i, i < l.size →
          ∃ x, xs[i]? = some x ∧ DoublyLinkedList.index w.heap l i = .ok x) ∧
        DoublyLinkedList.advance w.heap l.size l.head_
          = .ok (DoublyLinkedList.end_iterator l) ∧
        ∀ k, k < l.size → ∃ a, DoublyLinkedList.advance w.heap k l.head_ = .ok (some a)) := by
  refine ⟨?_, ?_, ?_⟩
  · intro mv s r
    obtain ⟨xs, hs⟩ := r.holds
    refine ⟨xs, SimpleVector.forward_holds hs, hs.size_eq.symm, ?_⟩
    intro i hi
    have hlt : i < xs.length := by
      have hsz : s.size_ = xs.length := hs.size_eq
      simp only [SimpleVector.size] at hi
      omega
    exact ⟨xs[i], List.getElem?_eq_getElem hlt,
      SimpleVector.index_holds hs (List.getElem?_eq_getElem hlt)⟩
  · intro w r l hl
    obtain ⟨c, inv⟩ := r.sll_inv
    obtain ⟨j, hj⟩ := mem_lists_index hl
    have hw := inv.wf j l hj
    have hsz : l.size = (c j).length := hw.size
    refine ⟨(c j).map Prod.snd, SinglyLinkedList.sll_forward_wf hw, by simp [hsz], ?_, ?_, ?_⟩
    · intro i hi
      have hlt : i < ((c j).map Prod.snd).length := by simp; omega
      exact ⟨((c j).map Prod.snd)[i], List.getElem?_eq_getElem hlt,
        SinglyLinkedList.sll_index_wf hw (List.getElem?_eq_getElem hlt)⟩
    · have := SinglyLinkedList.sll_advance_seg (c j) [] none (by simpa using hw.chain)
      rw [hsz, hw.head]
      simpa using this
    · intro k hk
      have hk' : k < (c j).length := by omega
      have := SinglyLinkedList.sll_advance_seg ((c j).take k) ((c j).drop k) none
        (by rw [List.take_append_drop]; exact hw.chain)
      rw [List.take_append_drop, List.length_take, Nat.min_eq_left (by omega)] at this
      rw [hw.head, this, link_drop_some (c j) k hk']
      exact ⟨_, rfl⟩
  · intro w r l hl
    obtain ⟨c, inv⟩ := r.dll_inv
    obtain ⟨j, hj⟩ := mem_lists_index hl
    have hw := inv.wf j l hj
    have hsz : l.size = (c j).length := hw.size
    refine ⟨(c j).map Prod.snd, DoublyLinkedList.dll_forward_wf hw, by simp [hsz], ?_, ?_, ?_⟩
    · intro i hi
      have hlt : i < ((c j).map Prod.snd).length := by simp; omega
      exact ⟨((c j).map Prod.snd)[i], List.getElem?_eq_getElem hlt,
        DoublyLinkedList.dll_index_wf hw (List.getElem?_eq_getElem hlt)⟩
    · have := DoublyLinkedList.dll_advance_seg (c j) [] none none (by simpa using hw.chain)
      rw [hsz, hw.head]
      simpa using this
    · intro k hk
      have hk' : k < (c j).length := by omega
      have := DoublyLinkedList.dll_advance_seg ((c j).take k) ((c j).drop k) none none
        (by rw [List.take_append_drop]; exact hw.chain)
      rw [List.take_append_drop, List.length_take, Nat.min_eq_left (by omega)] at this
      rw [hw.head, this, link_drop_some (c j) k hk']
      exact ⟨_, rfl⟩

theorem forward_iteration_agrees_with_index_witness :
    SimpleVector.Reachable id
      ({ size_ := 2, capacity_ := 2, data_ := some [some 7, some 9] } : SimpleVector Int) ∧
    ∃ xs, SimpleVector.forward
        ({ size_ := 2, capacity_ := 2, data_ := some [some 7, some 9] } : SimpleVector Int)
          = .ok xs ∧
      xs.length
        = ({ size_ := 2, capacity_ := 2, data_ := some [some 7, some 9] } :
            SimpleVector Int).size ∧
      ∀ i, i < ({ size_ := 2, capacity_ := 2, data_ := some [some 7, some 9] } :
            SimpleVector Int).size →
        ∃ x, xs[i]? = some x ∧
          SimpleVector.index
            ({ size_ := 2, capacity_ := 2, data_ := some [some 7, some 9] } : SimpleVector Int)
            i = .ok x :=
  have r1 : SimpleVector.Reachable id
      ({ size_ := 1, capacity_ := 1, data_ := some [some 7] } : SimpleVector Int) :=
    SimpleVector.Reachable.push_back true SimpleVector.empty_vector 7 _
      SimpleVector.Reachable.default_construct (by decide)
  have r2 : SimpleVector.Reachable id
      ({ size_ := 2, capacity_ := 2, data_ := some [some 7, some 9] } : SimpleVector Int) :=
    SimpleVector.Reachable.push_back true _ 9 _ r1 (by decide)
  ⟨r2, (@forward_iteration_agrees_with_index Int).1 id _ r2⟩

/-! ## Vectors over a store of blocks -/

theorem bind_eq_ok {α β : Type} {x : Except Error α} {f : α → Except Error β} {b : β}
    (e : (x >>= f) = .ok b) : ∃ a, x = .ok a ∧ f a = .ok b := by
  cases x with
  | error err => cases e
  | ok a => exact ⟨a, rfl, e⟩

namespace SimpleVector.Object

variable {T : Type}

theorem block_some {st : Heap (List (Option T))} {a : Nat} {d : Option (List (Option T))}
    (hb : block st (some a) = .ok d) : ∃ b, st[a]? = some (some b) ∧ d = some b := by
  unfold block at hb
  simp only at hb
  split at hb
  · rename_i b hc
    cases hb
    exact ⟨b, hc, rfl⟩
  · cases hb

theorem block_of_cell {st : Heap (List (Option T))} {a : Nat} {b : List (Option T)}
    (hc : st[a]? = some (some b)) : block st (some a) = .ok (some b) := by
  simp only [block, hc]

theorem block_none {st : Heap (List (Option T))} {d : Option (List (Option T))}
    (hb : block st none = .ok d) : d = none := by
  cases hb
  rfl

theorem block_frame {st st' : Heap (List (Option T))} {S : List Nat} {p : Ptr}
    {d : Option (List (Option T))} (f : Heap.Frame st st' S) (hb : block st p = .ok d)
    (hp : ∀ a, p = some a → a ∉ S) : block st' p = .ok d := by
  cases p with
  | none => exact hb
  | some a =>
    obtain ⟨b, hc, rfl⟩ := block_some hb
    exact block_of_cell (f.cell hc (hp a rfl))

theorem on_block_frame {st st' : Heap (List (Option T))} {p : Ptr}
    {f : Option (List (Option T)) → Except Error (Option (List (Option T)))}
    (e : on_block st p f = .ok st') : Heap.Frame st st' p.toList := by
  unfold on_block at e
  obtain ⟨d, _, e⟩ := bind_eq_ok e
  obtain ⟨d', _, e⟩ := bind_eq_ok e
  cases p with
  | none =>
    cases d' with
    | none => cases e; exact Heap.Frame.refl _ _
    | some b => cases e
  | some a =>
    cases d' with
    | none => cases e
    | some b =>
      cases e
      exact (Heap.Frame.refl st _).set _ (Or.inl (by simp))

theorem operator_delete_frame {st st' : Heap (List (Option T))} {p : Ptr}
    (e : operator_delete st p = .ok st') : Heap.Frame st st' p.toList := by
  unfold operator_delete at e
  cases p with
  | none => cases e; exact Heap.Frame.refl _ _
  | some a =>
    simp only at e
    split at e
    · cases e
      exact (Heap.Frame.refl st _).set _ (Or.inl (by simp))
    · cases e

theorem Local.stay (st : Heap (List (Option T))) (o : Object) : Local st o st o :=
  ⟨Heap.Frame.refl _ _, fun _ h => Or.inl h⟩

theorem Local.andThen {st st1 st2 : Heap (List (Option T))} {o o1 o2 : Object}
    (f : Local st o st1 o1) (g : Local st1 o1 st2 o2) : Local st o st2 o2 := by
  refine ⟨f.1.trans g.1 ?_, ?_⟩
  · intro a ha
    have h1 : o1.data_ = some a := by
      cases h : o1.data_ with
      | none => rw [h] at ha; simp at ha
      | some q => rw [h] at ha; simp at ha; rw [ha]
    rcases f.2 a h1 with h2 | h2
    · left
      rw [h2]
      simp
    · exact Or.inr h2
  · intro q hq
    rcases g.2 q hq with h1 | h1
    · exact f.2 q h1
    · right
      have := f.1.1
      omega

theorem Local.of_frame {st st' : Heap (List (Option T))} {o o' : Object}
    (f : Heap.Frame st st' o.data_.toList) (hd : o'.data_ = o.data_) : Local st o st' o' :=
  ⟨f, fun q hq => Or.inl (by rw [← hd]; exact hq)⟩

/-- A step on one object leaves every other object with a block of its own as it
was. -/
theorem Local.other {st st' : Heap (List (Option T))} {a a' b : Object} {sb : SimpleVector T}
    (f : Local st a st' a') (hb : view st b = .ok sb) (hsep : Separate a b) :
    view st' b = .ok sb ∧ Separate a' b := by
  unfold view at hb
  obtain ⟨d, hd, e⟩ := bind_eq_ok hb
  have hd' : block st' b.data_ = .ok d := by
    refine block_frame f.1 hd ?_
    intro q hq hmem
    have : a.data_ = some q := by
      cases h : a.data_ with
      | none => rw [h] at hmem; simp at hmem
      | some r => rw [h] at hmem; simp at hmem; rw [hmem]
    exact hsep q this hq
  refine ⟨?_, ?_⟩
  · unfold view
    rw [hd']
    exact e
  · intro q hq hbq
    rcases f.2 q hq with h1 | h1
    · exact hsep q h1 hbq
    · rw [hbq] at hd
      obtain ⟨blk, hc, _⟩ := block_some hd
      have := Heap.cell_lt hc
      omega

theorem change_capacity_local {mem : Bool} {st st' : Heap (List (Option T))} {o o' : Object}
    {n : Nat} (e : change_capacity mem st o n = .ok (st', o')) : Local st o st' o' := by
  unfold change_capacity at e
  split at e
  · cases e; exact Local.stay _ _
  split at e
  · cases e; exact Local.stay _ _
  dsimp only at e
  split at e
  · obtain ⟨r1, h1, e⟩ := bind_eq_ok e
    obtain ⟨old, _, e⟩ := bind_eq_ok e
    obtain ⟨st1, h3, e⟩ := bind_eq_ok e
    obtain ⟨y, hy, e⟩ := bind_eq_ok e
    cases hy
    obtain ⟨st2, h2, e⟩ := bind_eq_ok e
    cases e
    have f2 := operator_delete_frame h2
    unfold Heap.make_unique at h1
    split at h1
    · cases h1
      have f3 := on_block_frame h3
      have f1 : Heap.Frame st (st ++ [some (List.replicate n none)]) o.data_.toList :=
        (Heap.Frame.refl st _).push _
      have f13 : Heap.Frame st st1 o.data_.toList :=
        f1.trans f3 (by intro a ha; simp at ha; right; omega)
      refine ⟨f13.trans f2 (fun a ha => Or.inl ha), ?_⟩
      intro q hq
      simp only at hq
      cases hq
      exact Or.inr (le_refl _)
    · cases h1
  · obtain ⟨y, hy, e⟩ := bind_eq_ok e
    cases hy
    obtain ⟨st2, h2, e⟩ := bind_eq_ok e
    cases e
    refine ⟨operator_delete_frame h2, ?_⟩
    intro q hq
    cases hq

theorem ensure_capacity_local {mem : Bool} {st st' : Heap (List (Option T))} {o o' : Object}
    {n : Nat} (e : ensure_capacity mem st o n = .ok (st', o')) : Local st o st' o' := by
  unfold ensure_capacity at e
  split at e
  · cases e; exact Local.stay _ _
  · exact change_capacity_local e

theorem push_back_local {mem : Bool} {st st' : Heap (List (Option T))} {o o' : Object} {v : T}
    (e : push_back mem st o v = .ok (st', o')) : Local st o st' o' := by
  unfold push_back at e
  obtain ⟨r, h1, e⟩ := bind_eq_ok e
  obtain ⟨st2, h2, e⟩ := bind_eq_ok e
  cases e
  exact (ensure_capacity_local h1).andThen (Local.of_frame (on_block_frame h2) rfl)

theorem insert_local {mv : T → T} {mem : Bool} {st st' : Heap (List (Option T))}
    {o o' : Object} {pos : Nat} {v : T}
    (e : insert mv mem st o pos v = .ok (st', o')) : Local st o st' o' := by
  unfold insert at e
  obtain ⟨_, _, e⟩ := bind_eq_ok e
  obtain ⟨r, h1, e⟩ := bind_eq_ok e
  refine (ensure_capacity_local h1).andThen ?_
  split at e
  · obtain ⟨st2, h2, e⟩ := bind_eq_ok e
    cases e
    exact Local.of_frame (on_block_frame h2) rfl
  · obtain ⟨st2, h2, e⟩ := bind_eq_ok e
    obtain ⟨st3, h3, e⟩ := bind_eq_ok e
    obtain ⟨st4, h4, e⟩ := bind_eq_ok e
    cases e
    have l2 : Local r.1 r.2 st2 r.2 := Local.of_frame (on_block_frame h2) rfl
    have l3 : Local st2 r.2 st3 r.2 := Local.of_frame (on_block_frame h3) rfl
    have l4 : Local st3 r.2 st' { r.2 with size_ := r.2.size_ + 1 } :=
      Local.of_frame (on_block_frame h4) rfl
    exact (l2.andThen l3).andThen l4

theorem erase_local {mv : T → T} {st st' : Heap (List (Option T))} {o o' : Object} {pos : Nat}
    (e : erase mv st o pos = .ok (st', o')) : Local st o st' o' := by
  unfold erase at e
  obtain ⟨_, _, e⟩ := bind_eq_ok e
  obtain ⟨st2, h2, e⟩ := bind_eq_ok e
  obtain ⟨st3, h3, e⟩ := bind_eq_ok e
  cases e
  have l2 : Local st o st2 o := Local.of_frame (on_block_frame h2) rfl
  have l3 : Local st2 o st' { o with size_ := o.size_ - 1 } :=
    Local.of_frame (on_block_frame h3) rfl
  exact l2.andThen l3

theorem clear_local {st st' : Heap (List (Option T))} {o o' : Object}
    (e : clear st o = .ok (st', o')) : Local st o st' o' := by
  unfold clear at e
  obtain ⟨st2, h2, e⟩ := bind_eq_ok e
  cases e
  exact Local.of_frame (on_block_frame h2) rfl

theorem index_assign_local {st st' : Heap (List (Option T))} {o o' : Object} {idx : Nat} {x : T}
    (e : index_assign st o idx x = .ok (st', o')) : Local st o st' o' := by
  unfold index_assign at e
  obtain ⟨_, _, e⟩ := bind_eq_ok e
  obtain ⟨st2, h2, e⟩ := bind_eq_ok e
  cases e
  exact Local.of_frame (on_block_frame h2) rfl

end SimpleVector.Object

namespace SimpleVector

variable {T : Type}

theorem construct_at_keeps {d d' : Option (List (Option T))} {i : Nat} {x : T}
    (e : construct_at d i x = .ok d') : d' = none ↔ d = none := by
  cases d with
  | none => cases e
  | some b =>
    simp only [construct_at] at e
    split at e
    · cases e; simp
    · cases e

theorem assign_at_keeps {d d' : Option (List (Option T))} {i : Nat} {x : T}
    (e : assign_at d i x = .ok d') : d' = none ↔ d = none := by
  cases d with
  | none => cases e
  | some b =>
    simp only [assign_at] at e
    split at e
    · cases e; simp
    · cases e

theorem destroy_at_keeps {d d' : Option (List (Option T))} {i : Nat}
    (e : destroy_at d i = .ok d') : d' = none ↔ d = none := by
  cases d with
  | none => cases e
  | some b =>
    simp only [destroy_at] at e
    split at e
    · cases e; simp
    · cases e

theorem move_construct_keeps {mv : T → T} {d d' : Option (List (Option T))} {i j : Nat}
    (e : move_construct mv d i j = .ok d') : d' = none ↔ d = none := by
  unfold move_construct at e
  obtain ⟨x, _, e⟩ := bind_eq_ok e
  obtain ⟨d1, h1, e⟩ := bind_eq_ok e
  rw [assign_at_keeps e, construct_at_keeps h1]

theorem move_assign_keeps {mv : T → T} {d d' : Option (List (Option T))} {i j : Nat}
    (e : move_assign mv d i j = .ok d') : d' = none ↔ d = none := by
  unfold move_assign at e
  obtain ⟨x, _, e⟩ := bind_eq_ok e
  obtain ⟨d1, h1, e⟩ := bind_eq_ok e
  rw [assign_at_keeps e, assign_at_keeps h1]

theorem shift_right_keeps {mv : T → T} {pos : Nat} :
    ∀ (i : Nat) {d d' : Option (List (Option T))},
      shift_right mv pos i d = .ok d' → (d' = none ↔ d = none) := by
  intro i
  induction i with
  | zero => intro d d' e; cases e; rfl
  | succ i ih =>
    intro d d' e
    simp only [shift_right] at e
    split at e
    · obtain ⟨d1, h1, e⟩ := bind_eq_ok e
      rw [ih e, move_assign_keeps h1]
    · cases e; rfl

theorem shift_left_keeps {mv : T → T} :
    ∀ (k i : Nat) {d d' : Option (List (Option T))},
      shift_left mv k i d = .ok d' → (d' = none ↔ d = none) := by
  intro k
  induction k with
  | zero => intro i d d' e; cases e; rfl
  | succ k ih =>
    intro i d d' e
    simp only [shift_left] at e
    obtain ⟨d1, h1, e⟩ := bind_eq_ok e
    obtain ⟨d2, h2, e⟩ := bind_eq_ok e
    rw [ih _ e, destroy_at_keeps h2, move_construct_keeps h1]

theorem destroy_range_keeps :
    ∀ (k i : Nat) {d d' : Option (List (Option T))},
      destroy_range k i d = .ok d' → (d' = none ↔ d = none) := by
  intro k
  induction k with
  | zero => intro i d d' e; cases e; rfl
  | succ k ih =>
    intro i d d' e
    simp only [destroy_range] at e
    obtain ⟨d1, h1, e⟩ := bind_eq_ok e
    rw [ih _ e, destroy_at_keeps h1]

theorem destroy_elements_keeps {n c : Nat} {d d' : Option (List (Option T))}
    (e : destroy_elements { size_ := n, capacity_ := c, data_ := d } = .ok d') :
    d' = none ↔ d = none := by
  unfold destroy_elements at e
  cases d with
  | none => cases e; rfl
  | some b => exact destroy_range_keeps _ _ e

theorem relocate_keeps {old : Option (List (Option T))} :
    ∀ (k i : Nat) {d d' : Option (List (Option T))},
      relocate old k i d = .ok d' → (d' = none ↔ d = none) := by
  intro k
  induction k with
  | zero => intro i d d' e; cases e; rfl
  | succ k ih =>
    intro i d d' e
    simp only [relocate] at e
    obtain ⟨x, _, e⟩ := bind_eq_ok e
    obtain ⟨d1, h1, e⟩ := bind_eq_ok e
    rw [ih _ e, construct_at_keeps h1]

theorem copy_elements_keeps {src : Option (List (Option T))} :
    ∀ (k i : Nat) {d d' : Option (List (Option T))},
      copy_elements src k i d = .ok d' → (d' = none ↔ d = none) := by
  intro k
  induction k with
  | zero => intro i d d' e; cases e; rfl
  | succ k ih =>
    intro i d d' e
    simp only [copy_elements] at e
    obtain ⟨x, _, e⟩ := bind_eq_ok e
    obtain ⟨d1, h1, e⟩ := bind_eq_ok e
    rw [ih _ e, construct_at_keeps h1]

end SimpleVector

namespace SimpleVector.Object

variable {T : Type}

theorem view_iff {st : Heap (List (Option T))} {o : Object} {s : SimpleVector T} :
    view st o = .ok s ↔
      block st o.data_ = .ok s.data_ ∧ s.size_ = o.size_ ∧ s.capacity_ = o.capacity_ := by
  unfold view
  constructor
  · intro e
    obtain ⟨d, hd, e⟩ := bind_eq_ok e
    cases e
    exact ⟨hd, rfl, rfl⟩
  · rintro ⟨hd, h1, h2⟩
    rw [hd]
    cases s
    simp only at h1 h2
    subst h1 h2
    rfl

theorem on_block_ok {st : Heap (List (Option T))} {p : Ptr} {d d' : Option (List (Option T))}
    {f : Option (List (Option T)) → Except Error (Option (List (Option T)))}
    (hb : block st p = .ok d) (hf : f d = .ok d') (hk : d' = none ↔ d = none) :
    ∃ st', on_block st p f = .ok st' ∧ block st' p = .ok d' := by
  cases p with
  | none =>
    have hd := block_none hb
    subst hd
    have hd' : d' = none := hk.mpr rfl
    subst hd'
    refine ⟨st, ?_, rfl⟩
    simp only [on_block, hb, ok_bind, hf]
  | some a =>
    obtain ⟨b, hc, rfl⟩ := block_some hb
    cases d' with
    | none => simp at hk
    | some b' =>
      refine ⟨st.set a (some b'), ?_, ?_⟩
      · simp only [on_block, hb, ok_bind, hf]
      · refine block_of_cell ?_
        rw [List.getElem?_set_self (Heap.cell_lt hc)]

theorem on_block_view {st : Heap (List (Option T))} {o : Object} {s : SimpleVector T}
    {d' : Option (List (Option T))}
    {f : Option (List (Option T)) → Except Error (Option (List (Option T)))}
    (hv : view st o = .ok s) (hf : f s.data_ = .ok d') (hk : d' = none ↔ s.data_ = none)
    (n : Nat) :
    ∃ st', on_block st o.data_ f = .ok st' ∧
      view st' { o with size_ := n } = .ok { s with data_ := d', size_ := n } := by
  obtain ⟨hb, h1, h2⟩ := view_iff.mp hv
  obtain ⟨st', e, hb'⟩ := on_block_ok hb hf hk
  exact ⟨st', e, view_iff.mpr ⟨hb', rfl, h2⟩⟩

theorem operator_delete_ok {st : Heap (List (Option T))} {p : Ptr}
    {d : Option (List (Option T))} (hb : block st p = .ok d) :
    ∃ st', operator_delete st p = .ok st' := by
  cases p with
  | none => exact ⟨st, rfl⟩
  | some a =>
    obtain ⟨b, hc, _⟩ := block_some hb
    exact ⟨st.set a none, by simp only [operator_delete, hc]⟩

theorem block_lt {st : Heap (List (Option T))} {p : Ptr} {d : Option (List (Option T))}
    (hb : block st p = .ok d) : ∀ a, p = some a → a < st.length := by
  intro a ha
  subst ha
  obtain ⟨b, hc, _⟩ := block_some hb
  exact Heap.cell_lt hc

theorem mem_toList {p : Ptr} {a : Nat} (h : a ∈ p.toList) : p = some a := by
  cases p with
  | none => simp at h
  | some q => simp at h; rw [h]

/-- What `change_capacity` does to the members and the block of an object in the
store is what it does to them taken alone. -/
theorem change_capacity_sim {mem : Bool} {st : Heap (List (Option T))} {o : Object}
    {s s' : SimpleVector T} {n : Nat} (hv : view st o = .ok s)
    (e : SimpleVector.change_capacity mem s n = .ok s') :
    ∃ st' o', change_capacity mem st o n = .ok (st', o') ∧ view st' o' = .ok s' := by
  obtain ⟨hb, h1, h2⟩ := view_iff.mp hv
  unfold SimpleVector.change_capacity at e
  unfold change_capacity
  rw [h1, h2] at e
  split at e
  · cases e
    rename_i hc
    exact ⟨st, o, by rw [if_pos hc], hv⟩
  rename_i hc
  rw [if_neg hc]
  split at e
  · cases e
    rename_i hs
    exact ⟨st, o, by rw [if_pos hs], hv⟩
  rename_i hs
  rw [if_neg hs]
  dsimp only at e ⊢
  by_cases hn : n > 0
  · rw [if_pos hn] at e ⊢
    obtain ⟨raw, hraw, e⟩ := bind_eq_ok e
    obtain ⟨nd, hnd, e⟩ := bind_eq_ok e
    cases e
    unfold operator_new at hraw
    split at hraw
    · rename_i hm
      cases hraw
      subst hm
      have f1 : Heap.Frame st (st ++ [some (List.replicate n none)]) [] :=
        (Heap.Frame.refl st _).push _
      have hb1 : block (st ++ [some (List.replicate n none)]) o.data_ = .ok s.data_ :=
        block_frame f1 hb (by simp)
      have hnew : block (st ++ [some (List.replicate n none)]) (some st.length)
          = .ok (some (List.replicate n none)) :=
        block_of_cell (by simp)
      obtain ⟨st1, e1, hb2⟩ := on_block_ok hnew hnd (relocate_keeps _ _ hnd)
      have f2 := on_block_frame e1
      have hlt := block_lt hb
      have hb3 : block st1 o.data_ = .ok s.data_ :=
        block_frame f2 hb1 (by
          intro a ha hmem
          simp at hmem
          have := hlt a ha
          omega)
      obtain ⟨st2, e2⟩ := operator_delete_ok hb3
      have f3 := operator_delete_frame e2
      have hb4 : block st2 (some st.length) = .ok nd :=
        block_frame f3 hb2 (by
          intro a ha hmem
          cases ha
          have := hlt _ (mem_toList hmem)
          omega)
      refine ⟨st2, { o with data_ := some st.length, capacity_ := n }, ?_,
        view_iff.mpr ⟨hb4, rfl, rfl⟩⟩
      simp only [Heap.make_unique, if_true, ok_bind, hb1, e1, pure_bind, e2]
      rfl
    · cases hraw
  · rw [if_neg hn] at e ⊢
    cases e
    obtain ⟨st2, e2⟩ := operator_delete_ok hb
    refine ⟨st2, { o with data_ := none, capacity_ := n }, ?_, view_iff.mpr ⟨rfl, rfl, rfl⟩⟩
    simp only [pure_bind, e2]
    rfl

end SimpleVector.Object

namespace SimpleVector.Object

variable {T : Type}

theorem ensure_capacity_sim {mem : Bool} {st : Heap (List (Option T))} {o : Object}
    {s s' : SimpleVector T} {n : Nat} (hv : view st o = .ok s)
    (e : SimpleVector.ensure_capacity mem s n = .ok s') :
    ∃ st' o', ensure_capacity mem st o n = .ok (st', o') ∧ view st' o' = .ok s' := by
  obtain ⟨hb, h1, h2⟩ := view_iff.mp hv
  unfold SimpleVector.ensure_capacity at e
  unfold ensure_capacity
  rw [h2] at e
  split at e
  · cases e
    rename_i hc
    exact ⟨st, o, by rw [if_pos hc], hv⟩
  · rename_i hc
    rw [if_neg hc]
    exact change_capacity_sim hv e

theorem push_back_sim {mem : Bool} {st : Heap (List (Option T))} {o : Object}
    {s s' : SimpleVector T} {v : T} (hv : view st o = .ok s)
    (e : SimpleVector.push_back mem s v = .ok s') :
    ∃ st' o', push_back mem st o v = .ok (st', o') ∧ view st' o' = .ok s' := by
  obtain ⟨hb, h1, h2⟩ := view_iff.mp hv
  unfold SimpleVector.push_back at e
  obtain ⟨s1, e1, e⟩ := bind_eq_ok e
  obtain ⟨d, e2, e⟩ := bind_eq_ok e
  cases e
  rw [h1] at e1
  obtain ⟨st1, o1, p1, hv1⟩ := ensure_capacity_sim hv e1
  obtain ⟨_, h1', _⟩ := view_iff.mp hv1
  rw [h1'] at e2 ⊢
  obtain ⟨st2, p2, hv2⟩ := @on_block_view T st1 o1 s1 d
    (fun d => construct_at d o1.size_ v) hv1 e2 (construct_at_keeps e2) (o1.size_ + 1)
  refine ⟨st2, { o1 with size_ := o1.size_ + 1 }, ?_, hv2⟩
  simp only [push_back, p1, ok_bind, p2]
  rfl

theorem insert_sim {mv : T → T} {mem : Bool} {st : Heap (List (Option T))} {o : Object}
    {s s' : SimpleVector T} {pos : Nat} {v : T} (hv : view st o = .ok s)
    (e : SimpleVector.insert mv mem s pos v = .ok s') :
    ∃ st' o', insert mv mem st o pos v = .ok (st', o') ∧ view st' o' = .ok s' := by
  obtain ⟨hb, h1, h2⟩ := view_iff.mp hv
  unfold SimpleVector.insert at e
  obtain ⟨u, e0, e⟩ := bind_eq_ok e
  obtain ⟨s1, e1, e⟩ := bind_eq_ok e
  rw [h1] at e0 e1
  obtain ⟨st1, o1, p1, hv1⟩ := ensure_capacity_sim hv e1
  obtain ⟨_, h1', _⟩ := view_iff.mp hv1
  rw [h1'] at e
  by_cases hp : pos = o1.size_
  · rw [if_pos hp] at e
    obtain ⟨d, e2, e⟩ := bind_eq_ok e
    cases e
    obtain ⟨st2, p2, hv2⟩ := @on_block_view T st1 o1 s1 d
      (fun d => construct_at d o1.size_ v) hv1 e2 (construct_at_keeps e2) (o1.size_ + 1)
    refine ⟨st2, { o1 with size_ := o1.size_ + 1 }, ?_, hv2⟩
    simp only [insert, e0, p1, ok_bind, if_pos hp, p2]
    rfl
  · rw [if_neg hp] at e
    obtain ⟨d2, e2, e⟩ := bind_eq_ok e
    obtain ⟨d3, e3, e⟩ := bind_eq_ok e
    obtain ⟨d4, e4, e⟩ := bind_eq_ok e
    cases e
    obtain ⟨st2, p2, hv2⟩ := @on_block_view T st1 o1 s1 d2
      (fun d => move_construct mv d o1.size_ (o1.size_ - 1)) hv1 e2 (move_construct_keeps e2)
      o1.size_
    obtain ⟨st3, p3, hv3⟩ := @on_block_view T st2 _ _ d3
      (shift_right mv pos o1.size_) hv2 e3 (shift_right_keeps _ e3) o1.size_
    obtain ⟨st4, p4, hv4⟩ := @on_block_view T st3 _ _ d4
      (fun d => assign_at d pos v) hv3 e4 (assign_at_keeps e4) (o1.size_ + 1)
    refine ⟨st4, { o1 with size_ := o1.size_ + 1 }, ?_, hv4⟩
    have p3' : on_block st2 o1.data_ (shift_right mv pos o1.size_) = .ok st3 := p3
    have p4' : on_block st3 o1.data_ (fun d => assign_at d pos v) = .ok st4 := p4
    simp only [insert, e0, p1, ok_bind, if_neg hp, p2, p3', p4']
    rfl

theorem erase_sim {mv : T → T} {st : Heap (List (Option T))} {o : Object}
    {s s' : SimpleVector T} {pos : Nat} (hv : view st o = .ok s)
    (e : SimpleVector.erase mv s pos = .ok s') :
    ∃ st' o', erase mv st o pos = .ok (st', o') ∧ view st' o' = .ok s' := by
  obtain ⟨hb, h1, h2⟩ := view_iff.mp hv
  unfold SimpleVector.erase at e
  obtain ⟨u, e0, e⟩ := bind_eq_ok e
  obtain ⟨d1, e1, e⟩ := bind_eq_ok e
  obtain ⟨d2, e2, e⟩ := bind_eq_ok e
  cases e
  rw [h1] at e0 e2 ⊢
  obtain ⟨st1, p1, hv1⟩ := @on_block_view T st o s d1
    (fun d => destroy_at d pos) hv e1 (destroy_at_keeps e1) o.size_
  obtain ⟨st2, p2, hv2⟩ := @on_block_view T st1 _ _ d2
    (shift_left mv (o.size_ - 1 - pos) pos) hv1 e2 (shift_left_keeps _ _ e2) (o.size_ - 1)
  refine ⟨st2, { o with size_ := o.size_ - 1 }, ?_, hv2⟩
  have p2' : on_block st1 o.data_ (shift_left mv (o.size_ - 1 - pos) pos) = .ok st2 := p2
  simp only [erase, e0, ok_bind, p1, p2']
  rfl

theorem clear_sim {st : Heap (List (Option T))} {o : Object}
    {s s' : SimpleVector T} (hv : view st o = .ok s)
    (e : SimpleVector.clear s = .ok s') :
    ∃ st' o', clear st o = .ok (st', o') ∧ view st' o' = .ok s' := by
  obtain ⟨hb, h1, h2⟩ := view_iff.mp hv
  unfold SimpleVector.clear at e
  obtain ⟨d1, e1, e⟩ := bind_eq_ok e
  cases e
  have e1' : destroy_elements
      { size_ := o.size_, capacity_ := o.capacity_, data_ := s.data_ } = .ok d1 := by
    rw [← h1, ← h2]
    exact e1
  obtain ⟨st1, p1, hv1⟩ := @on_block_view T st o s d1
    (fun d => destroy_elements { size_ := o.size_, capacity_ := o.capacity_, data_ := d })
    hv e1' (destroy_elements_keeps e1') 0
  refine ⟨st1, { o with size_ := 0 }, ?_, hv1⟩
  simp only [clear, p1, ok_bind]
  rfl

theorem index_assign_sim {st : Heap (List (Option T))} {o : Object}
    {s s' : SimpleVector T} {idx : Nat} {x : T} (hv : view st o = .ok s)
    (e : SimpleVector.index_assign s idx x = .ok s') :
    ∃ st' o', index_assign st o idx x = .ok (st', o') ∧ view st' o' = .ok s' := by
  obtain ⟨hb, h1, h2⟩ := view_iff.mp hv
  unfold SimpleVector.index_assign at e
  obtain ⟨u, e0, e⟩ := bind_eq_ok e
  obtain ⟨d1, e1, e⟩ := bind_eq_ok e
  cases e
  rw [h1] at e0
  obtain ⟨st1, p1, hv1⟩ := @on_block_view T st o s d1
    (fun d => assign_at d idx x) hv e1 (assign_at_keeps e1) o.size_
  refine ⟨st1, o, ?_, ?_⟩
  · simp only [index_assign, e0, ok_bind, p1]
    rfl
  · have hv1' : view st1 o = .ok { s with data_ := d1, size_ := o.size_ } := hv1
    rw [← h1] at hv1'
    exact hv1'

theorem copy_constructor_sim {mem : Bool} {st : Heap (List (Option T))} {o : Object}
    {s s' : SimpleVector T} (hv : view st o = .ok s)
    (e : SimpleVector.copy_constructor mem s = .ok s') :
    ∃ st' o', copy_constructor mem st o = .ok (st', o') ∧ view st' o' = .ok s' ∧
      Heap.Frame st st' [] ∧ ∀ q, o'.data_ = some q → st.length ≤ q := by
  obtain ⟨hb, h1, h2⟩ := view_iff.mp hv
  unfold SimpleVector.copy_constructor at e
  unfold copy_constructor
  rw [h1] at e
  by_cases hn : o.size_ > 0
  · rw [if_pos hn] at e ⊢
    obtain ⟨raw, hraw, e⟩ := bind_eq_ok e
    obtain ⟨nd, hnd, e⟩ := bind_eq_ok e
    cases e
    unfold operator_new at hraw
    split at hraw
    · rename_i hm
      cases hraw
      subst hm
      have f1 : Heap.Frame st (st ++ [some (List.replicate o.size_ none)]) [] :=
        (Heap.Frame.refl st _).push _
      have hb1 : block (st ++ [some (List.replicate o.size_ none)]) o.data_ = .ok s.data_ :=
        block_frame f1 hb (by simp)
      have hnew : block (st ++ [some (List.replicate o.size_ none)]) (some st.length)
          = .ok (some (List.replicate o.size_ none)) :=
        block_of_cell (by simp)
      obtain ⟨st1, e1, hb2⟩ := on_block_ok hnew hnd (copy_elements_keeps _ _ hnd)
      have f2 := on_block_frame e1
      refine ⟨st1, { size_ := o.size_, capacity_ := o.size_, data_ := some st.length }, ?_,
        view_iff.mpr ⟨hb2, rfl, rfl⟩, ?_, ?_⟩
      · simp only [Heap.make_unique, if_true, ok_bind, hb1, e1]
        rfl
      · exact f1.trans f2 (by intro a ha; simp at ha; right; omega)
      · intro q hq
        cases hq
        exact le_refl _
    · cases hraw
  · rw [if_neg hn] at e ⊢
    cases e
    refine ⟨st, _, rfl, view_iff.mpr ⟨rfl, rfl, rfl⟩, Heap.Frame.refl _ _, ?_⟩
    intro q hq
    cases hq

end SimpleVector.Object

namespace SimpleVector.Object

variable {T : Type}

theorem view_frame {st st' : Heap (List (Option T))} {S : List Nat} {o : Object}
    {s : SimpleVector T} (f : Heap.Frame st st' S) (hv : view st o = .ok s)
    (hp : ∀ a, o.data_ = some a → a ∉ S) : view st' o = .ok s := by
  obtain ⟨hb, h1, h2⟩ := view_iff.mp hv
  exact view_iff.mpr ⟨block_frame f hb hp, h1, h2⟩

theorem view_lt {st : Heap (List (Option T))} {o : Object} {s : SimpleVector T}
    (hv : view st o = .ok s) : ∀ a, o.data_ = some a → a < st.length :=
  block_lt (view_iff.mp hv).1

/-- The copy constructor gives the copy a block of its own with the elements of
the source, and changes no block. -/
theorem copy_constructor_owns {st : Heap (List (Option T))} {a : Object} {xs : List T}
    (ha : Owns st a xs) :
    ∃ st' b, copy_constructor true st a = .ok (st', b) ∧ view st' a = view st a ∧
      Owns st' b xs ∧ Separate a b ∧ Heap.Frame st st' [] ∧
      ∀ q, b.data_ = some q → st.length ≤ q := by
  obtain ⟨s, hv, hs⟩ := ha
  obtain ⟨t, e, ht, _⟩ := SimpleVector.copy_constructor_holds hs
  obtain ⟨st', b, e', hvb, f, hfresh⟩ := copy_constructor_sim hv e
  refine ⟨st', b, e', ?_, ⟨t, hvb, ht⟩, ?_, f, hfresh⟩
  · rw [hv]
    exact view_frame f hv (by simp)
  · intro p hp hq
    have h1 := view_lt hv p hp
    have h2 := hfresh p hq
    omega

theorem clear_memory_owns {st : Heap (List (Option T))} {o : Object} {xs : List T}
    (ho : Owns st o xs) :
    ∃ st', clear_memory st o = .ok (st', { size_ := 0, capacity_ := 0, data_ := none }) ∧
      Heap.Frame st st' o.data_.toList := by
  obtain ⟨s, hv, hs⟩ := ho
  obtain ⟨hb, h1, h2⟩ := view_iff.mp hv
  obtain ⟨s', e, _, _⟩ := SimpleVector.clear_holds hs
  unfold SimpleVector.clear at e
  obtain ⟨d1, e1, _⟩ := bind_eq_ok e
  have e1' : destroy_elements
      { size_ := o.size_, capacity_ := o.capacity_, data_ := s.data_ } = .ok d1 := by
    rw [← h1, ← h2]
    exact e1
  obtain ⟨st1, p1, hb1⟩ := @on_block_ok T st o.data_ s.data_ d1
    (fun d => destroy_elements { size_ := o.size_, capacity_ := o.capacity_, data_ := d })
    hb e1' (destroy_elements_keeps e1')
  obtain ⟨st2, p2⟩ := operator_delete_ok hb1
  refine ⟨st2, ?_, (on_block_frame p1).trans (operator_delete_frame p2) (fun a ha => Or.inl ha)⟩
  simp only [clear_memory, p1, ok_bind, p2]
  rfl

/-- Copy assignment gives the target a block of its own with the elements of the
source, and changes no block but the one the target had. -/
theorem copy_assignment_owns {st : Heap (List (Option T))} {a b : Object} {xs ys : List T}
    (ha : Owns st a xs) (hb : Owns st b ys) (hsep : Separate a b) :
    ∃ st' b', copy_assignment true st b a = .ok (st', b') ∧ view st' a = view st a ∧
      Owns st' b' xs ∧ Separate a b' ∧ Heap.Frame st st' b.data_.toList ∧
      ∀ q, b'.data_ = some q → st.length ≤ q := by
  obtain ⟨st1, t, e1, hva, ⟨s_t, hvt, hst⟩, hsep1, f1, hfresh⟩ := copy_constructor_owns ha
  obtain ⟨sb, hvb, hsb⟩ := hb
  have hvb1 : view st1 b = .ok sb := view_frame f1 hvb (by simp)
  obtain ⟨st2, e2, f2⟩ := clear_memory_owns ⟨sb, hvb1, hsb⟩
  have hnb : ∀ q, t.data_ = some q → q ∉ b.data_.toList := by
    intro q hq hmem
    have h1 := view_lt hvb q (mem_toList hmem)
    have h2 := hfresh q hq
    omega
  obtain ⟨sa, hsa, _⟩ := ha
  have hva1 : view st1 a = .ok sa := by rw [hva]; exact hsa
  refine ⟨st2, t, ?_, ?_, ⟨s_t, view_frame f2 hvt hnb, hst⟩, hsep1, ?_, hfresh⟩
  · have e2' : clear_memory st1 (swap b t).2
        = .ok (st2, { size_ := 0, capacity_ := 0, data_ := none }) := e2
    simp only [copy_assignment, e1, ok_bind, e2']
    rfl
  · rw [hsa]
    refine view_frame f2 hva1 ?_
    intro q hq hmem
    exact hsep q hq (mem_toList hmem)
  · exact (f1.mono (by simp)).trans f2 (fun q hq => Or.inl hq)

end SimpleVector.Object

/-! ## Element writes to the lists -/

namespace SinglyLinkedList

variable {T : Type}

theorem sll_index_assign_core {h : Heap (Node T)} {l : SinglyLinkedList}
    {A B : List (Nat × T)} {c : Nat × T} (hw : WellFormed h l (A ++ c :: B)) (x : T) :
    ∃ h', index_assign h l A.length x = .ok h' ∧ WellFormed h' l (A ++ (c.1, x) :: B) ∧
      Heap.Frame h h' ((A ++ c :: B).map Prod.fst) := by
  have hseg := (sll_Seg_append h A (c :: B) none).mp hw.chain
  have hc : h[c.1]? = some (some ⟨c.2, link B none⟩) := hseg.2.1
  have hchk : BaseContainer.check_index A.length (A ++ c :: B).length = .ok () :=
    BaseContainer.check_index_ok (by simp)
  have hnd := hw.nodup
  simp only [List.map_append, List.map_cons] at hnd
  have hA : c.1 ∉ A.map Prod.fst := by
    intro hmem
    have := (List.nodup_append.mp hnd).2.2
    exact this hmem (by simp)
  have hB : c.1 ∉ B.map Prod.fst := by
    have := (List.nodup_append.mp hnd).2.1
    exact (List.nodup_cons.mp this).1
  refine ⟨h.set c.1 (some ⟨x, link B none⟩), ?_, ?_, ?_⟩
  · simp only [index_assign, hw.size, hchk, ok_bind, sll_get_node_at_core hw]
    rw [Heap.modify_cell _ hc]
  · refine ⟨?_, ?_, ?_, ?_, ?_⟩
    · rw [hw.head, link_append, link_append]
      rfl
    · rw [hw.tail, back_append, back_append, back_cons, back_cons]
    · rw [hw.size]
      simp
    · refine (sll_Seg_append _ A ((c.1, x) :: B) none).mpr ⟨?_, ?_, ?_⟩
      · exact sll_Seg_set _ hA hseg.1
      · rw [List.getElem?_set_self (Heap.cell_lt hc)]
      · exact sll_Seg_set _ hB hseg.2.2
    · simpa using hw.nodup
  · exact (Heap.Frame.refl h _).set _ (Or.inl (by simp))

/-- The write `c[idx] = x` replaces the element at `idx` and changes no node of
another list. -/
theorem sll_index_assign_wf_frame {h : Heap (Node T)} {l : SinglyLinkedList}
    {cells : List (Nat × T)} (hw : WellFormed h l cells) (idx : Nat) (hi : idx < cells.length)
    (x : T) :
    ∃ h' cells', index_assign h l idx x = .ok h' ∧ WellFormed h' l cells' ∧
      cells'.map Prod.fst = cells.map Prod.fst ∧
      cells'.map Prod.snd = (cells.map Prod.snd).set idx x ∧
      Heap.Frame h h' (cells.map Prod.fst) := by
  obtain ⟨A, c, B, hcells, hA⟩ := split_at cells idx hi
  subst hcells
  subst hA
  obtain ⟨h', e, hw', f⟩ := sll_index_assign_core hw x
  refine ⟨h', _, e, hw', by simp, ?_, f⟩
  simp [List.set_append]

end SinglyLinkedList

namespace DoublyLinkedList

variable {T : Type}

theorem dll_index_assign_core {h : Heap (Node T)} {l : DoublyLinkedList}
    {A B : List (Nat × T)} {c : Nat × T} (hw : WellFormed h l (A ++ c :: B)) (x : T) :
    ∃ h', index_assign h l A.length x = .ok h' ∧ WellFormed h' l (A ++ (c.1, x) :: B) ∧
      Heap.Frame h h' ((A ++ c :: B).map Prod.fst) := by
  have hseg := (dll_Seg_append h A (c :: B) none none).mp hw.chain
  have hc : h[c.1]? = some (some ⟨c.2, link B none, back none A⟩) := hseg.2.1
  have hchk : BaseContainer.check_index A.length (A ++ c :: B).length = .ok () :=
    BaseContainer.check_index_ok (by simp)
  have hnd := hw.nodup
  simp only [List.map_append, List.map_cons] at hnd
  have hA : c.1 ∉ A.map Prod.fst := by
    intro hmem
    have := (List.nodup_append.mp hnd).2.2
    exact this hmem (by simp)
  have hB : c.1 ∉ B.map Prod.fst := by
    have := (List.nodup_append.mp hnd).2.1
    exact (List.nodup_cons.mp this).1
  refine ⟨h.set c.1 (some ⟨x, link B none, back none A⟩), ?_, ?_, ?_⟩
  · simp only [index_assign, hw.size, hchk, ok_bind, dll_get_node_at_core hw]
    rw [Heap.modify_cell _ hc]
  · refine ⟨?_, ?_, ?_, ?_, ?_⟩
    · rw [hw.head, link_append, link_append]
      rfl
    · rw [hw.tail, back_append, back_append, back_cons, back_cons]
    · rw [hw.size]
      simp
    · refine (dll_Seg_append _ A ((c.1, x) :: B) none none).mpr ⟨?_, ?_, ?_⟩
      · exact dll_Seg_set _ hA hseg.1
      · rw [List.getElem?_set_self (Heap.cell_lt hc)]
      · exact dll_Seg_set _ hB hseg.2.2
    · simpa using hw.nodup
  · exact (Heap.Frame.refl h _).set _ (Or.inl (by simp))

/-- The write `c[idx] = x` replaces the element at `idx` and changes no node of
another list. -/
theorem dll_index_assign_wf_frame {h : Heap (Node T)} {l : DoublyLinkedList}
    {cells : List (Nat × T)} (hw : WellFormed h l cells) (idx : Nat) (hi : idx < cells.length)
    (x : T) :
    ∃ h' cells', index_assign h l idx x = .ok h' ∧ WellFormed h' l cells' ∧
      cells'.map Prod.fst = cells.map Prod.fst ∧
      cells'.map Prod.snd = (cells.map Prod.snd).set idx x ∧
      Heap.Frame h h' (cells.map Prod.fst) := by
  obtain ⟨A, c, B, hcells, hA⟩ := split_at cells idx hi
  subst hcells
  subst hA
  obtain ⟨h', e, hw', f⟩ := dll_index_assign_core hw x
  refine ⟨h', _, e, hw', by simp, ?_, f⟩
  simp [List.set_append]

end DoublyLinkedList

namespace SinglyLinkedList

variable {T : Type}

/-- A change inside the nodes of one list, and at addresses not used before,
leaves a list over other nodes as it was. -/
theorem sll_other_kept {h h' : Heap (Node T)} {ca ca' cb : List (Nat × T)}
    {b : SinglyLinkedList} (f : Heap.Frame h h' (ca.map Prod.fst))
    (hsub : ∀ x, x ∈ ca'.map Prod.fst → x ∈ ca.map Prod.fst ∨ h.length ≤ x)
    (hwb : WellFormed h b cb) (hdis : ∀ x, x ∈ ca.map Prod.fst → x ∉ cb.map Prod.fst) :
    WellFormed h' b cb ∧ ∀ x, x ∈ ca'.map Prod.fst → x ∉ cb.map Prod.fst := by
  refine ⟨hwb.sll_frame f (fun x hx hmem => hdis x hmem hx), ?_⟩
  intro x hx hmem
  rcases hsub x hx with h1 | h1
  · exact hdis x h1 hmem
  · have := hwb.sll_lt x hmem
    omega

theorem sll_copy_constructor_apart {h : Heap (Node T)} {a : SinglyLinkedList}
    {ca : List (Nat × T)} (hwa : WellFormed h a ca) :
    ∃ h' b cb, copy_constructor true h a = .ok (h', b) ∧ WellFormed h' a ca ∧
      WellFormed h' b cb ∧ cb.map Prod.snd = ca.map Prod.snd ∧
      ∀ x, x ∈ ca.map Prod.fst → x ∉ cb.map Prod.fst := by
  obtain ⟨h', b, cb, e, hwb, hv, f, hfresh⟩ := sll_copy_constructor_wf hwa
  refine ⟨h', b, cb, e, hwa.sll_frame f (by simp), hwb, hv, ?_⟩
  intro x hx hmem
  have h1 := hwa.sll_lt x hx
  have h2 := hfresh x hmem
  omega

theorem sll_copy_assignment_apart {h : Heap (Node T)} {a b : SinglyLinkedList}
    {ca cb : List (Nat × T)} (hwa : WellFormed h a ca) (hwb : WellFormed h b cb)
    (hdis : ∀ x, x ∈ ca.map Prod.fst → x ∉ cb.map Prod.fst) :
    ∃ h' b' cb', copy_assignment true h b a = .ok (h', b') ∧ WellFormed h' a ca ∧
      WellFormed h' b' cb' ∧ cb'.map Prod.snd = ca.map Prod.snd ∧
      ∀ x, x ∈ ca.map Prod.fst → x ∉ cb'.map Prod.fst := by
  obtain ⟨h', b', cb', e, hwb', hv, f, hfresh⟩ := sll_copy_assignment_wf hwb hwa
  refine ⟨h', b', cb', e, hwa.sll_frame f (fun x hx hmem => hdis x hx hmem), hwb', hv, ?_⟩
  intro x hx hmem
  have h1 := hwa.sll_lt x hx
  have h2 := hfresh x hmem
  omega

theorem sll_push_back_apart {mem : Bool} {h h' : Heap (Node T)} {a a' b : SinglyLinkedList}
    {ca cb : List (Nat × T)} {v : T} (hwa : WellFormed h a ca) (hwb : WellFormed h b cb)
    (hdis : ∀ x, x ∈ ca.map Prod.fst → x ∉ cb.map Prod.fst)
    (e : push_back mem h a v = .ok (h', a')) :
    ∃ ca', WellFormed h' a' ca' ∧ ca'.map Prod.snd = ca.map Prod.snd ++ [v] ∧
      WellFormed h' b cb ∧ ∀ x, x ∈ ca'.map Prod.fst → x ∉ cb.map Prod.fst := by
  obtain ⟨h2, a2, e2, hw2, f⟩ := sll_push_back_wf_frame hwa v
  rw [sll_push_back_granted e] at e2
  cases e2
  obtain ⟨k1, k2⟩ := @sll_other_kept T h h' ca (ca ++ [(h.length, v)]) cb b f
    (by
      intro x hx
      simp only [List.map_append, List.map_cons, List.map_nil, List.mem_append,
        List.mem_singleton] at hx
      rcases hx with hx | hx
      · exact Or.inl hx
      · exact Or.inr (by omega))
    hwb hdis
  exact ⟨_, hw2, by simp, k1, k2⟩

theorem sll_insert_apart {mem : Bool} {h h' : Heap (Node T)} {a a' b : SinglyLinkedList}
    {ca cb : List (Nat × T)} {pos : Nat} {v : T} (hwa : WellFormed h a ca)
    (hwb : WellFormed h b cb) (hdis : ∀ x, x ∈ ca.map Prod.fst → x ∉ cb.map Prod.fst)
    (e : insert mem h a pos v = .ok (h', a')) :
    ∃ ca', WellFormed h' a' ca' ∧
      ca'.map Prod.snd = (ca.map Prod.snd).take pos ++ v :: (ca.map Prod.snd).drop pos ∧
      WellFormed h' b cb ∧ ∀ x, x ∈ ca'.map Prod.fst → x ∉ cb.map Prod.fst := by
  have hpos : pos ≤ ca.length := by
    by_contra hgt
    have := (sll_insert_outOfRange_iff mem h a pos v).mpr (by
      have := hwa.size
      simp only [size]
      omega)
    rw [this] at e
    cases e
  obtain ⟨h2, a2, e2, hw2, f⟩ := sll_insert_wf_frame hwa pos hpos v
  rw [sll_insert_granted e] at e2
  cases e2
  obtain ⟨k1, k2⟩ := @sll_other_kept T h h' ca
    (ca.take pos ++ (h.length, v) :: ca.drop pos) cb b f
    (by
      intro x hx
      rcases mem_insert_cells hx with hx | hx
      · exact Or.inl hx
      · exact Or.inr (by omega))
    hwb hdis
  exact ⟨_, hw2, by simp [List.map_take, List.map_drop], k1, k2⟩

theorem sll_erase_apart {h h' : Heap (Node T)} {a a' b : SinglyLinkedList}
    {ca cb : List (Nat × T)} {pos : Nat} (hwa : WellFormed h a ca)
    (hwb : WellFormed h b cb) (hdis : ∀ x, x ∈ ca.map Prod.fst → x ∉ cb.map Prod.fst)
    (e : erase h a pos = .ok (h', a')) :
    ∃ ca', WellFormed h' a' ca' ∧
      ca'.map Prod.snd = (ca.map Prod.snd).take pos ++ (ca.map Prod.snd).drop (pos + 1) ∧
      WellFormed h' b cb ∧ ∀ x, x ∈ ca'.map Prod.fst → x ∉ cb.map Prod.fst := by
  have hpos : pos < ca.length := by
    by_contra hge
    have := (sll_erase_outOfRange_iff h a pos).mpr (by
      have := hwa.size
      simp only [size]
      omega)
    rw [this] at e
    cases e
  obtain ⟨h2, a2, e2, hw2, f⟩ := sll_erase_wf_frame hwa pos hpos
  rw [e] at e2
  cases e2
  obtain ⟨k1, k2⟩ := @sll_other_kept T h h' ca
    (ca.take pos ++ ca.drop (pos + 1)) cb b f
    (fun x hx => Or.inl (mem_erase_cells hx)) hwb hdis
  exact ⟨_, hw2, by simp [List.map_take, List.map_drop], k1, k2⟩

theorem sll_clear_apart {h h' : Heap (Node T)} {a a' b : SinglyLinkedList}
    {ca cb : List (Nat × T)} (hwa : WellFormed h a ca)
    (hwb : WellFormed h b cb) (hdis : ∀ x, x ∈ ca.map Prod.fst → x ∉ cb.map Prod.fst)
    (e : clear h a = .ok (h', a')) :
    WellFormed h' a' ([] : List (Nat × T)) ∧ WellFormed h' b cb := by
  obtain ⟨h2, e2, hw2, f⟩ := sll_clear_wf_frame hwa
  rw [e] at e2
  cases e2
  exact ⟨hw2, hwb.sll_frame f (fun x hx hmem => hdis x hmem hx)⟩

theorem sll_index_assign_apart {h h' : Heap (Node T)} {a b : SinglyLinkedList}
    {ca cb : List (Nat × T)} {idx : Nat} {v : T} (hwa : WellFormed h a ca)
    (hwb : WellFormed h b cb) (hdis : ∀ x, x ∈ ca.map Prod.fst → x ∉ cb.map Prod.fst)
    (e : index_assign h a idx v = .ok h') :
    ∃ ca', WellFormed h' a ca' ∧ ca'.map Prod.snd = (ca.map Prod.snd).set idx v ∧
      WellFormed h' b cb ∧ ∀ x, x ∈ ca'.map Prod.fst → x ∉ cb.map Prod.fst := by
  have hpos : idx < ca.length := by
    by_contra hge
    have hchk : BaseContainer.check_index idx a.size_ = .error .OutOfRange :=
      BaseContainer.check_index_error (by have := hwa.size; omega)
    simp only [index_assign, hchk] at e
    cases e
  obtain ⟨h2, ca', e2, hw2, hfst, hsnd, f⟩ := sll_index_assign_wf_frame hwa idx hpos v
  rw [e] at e2
  cases e2
  refine ⟨ca', hw2, hsnd, hwb.sll_frame f (fun x hx hmem => hdis x hmem hx), ?_⟩
  intro x hx
  rw [hfst] at hx
  exact hdis x hx

end SinglyLinkedList

namespace DoublyLinkedList

variable {T : Type}

/-- A change inside the nodes of one list, and at addresses not used before,
leaves a list over other nodes as it was. -/
theorem dll_other_kept {h h' : Heap (Node T)} {ca ca' cb : List (Nat × T)}
    {b : DoublyLinkedList} (f : Heap.Frame h h' (ca.map Prod.fst))
    (hsub : ∀ x, x ∈ ca'.map Prod.fst → x ∈ ca.map Prod.fst ∨ h.length ≤ x)
    (hwb : WellFormed h b cb) (hdis : ∀ x, x ∈ ca.map Prod.fst → x ∉ cb.map Prod.fst) :
    WellFormed h' b cb ∧ ∀ x, x ∈ ca'.map Prod.fst → x ∉ cb.map Prod.fst := by
  refine ⟨hwb.dll_frame f (fun x hx hmem => hdis x hmem hx), ?_⟩
  intro x hx hmem
  rcases hsub x hx with h1 | h1
  · exact hdis x h1 hmem
  · have := hwb.dll_lt x hmem
    omega

theorem dll_copy_constructor_apart {h : Heap (Node T)} {a : DoublyLinkedList}
    {ca : List (Nat × T)} (hwa : WellFormed h a ca) :
    ∃ h' b cb, copy_constructor true h a = .ok (h', b) ∧ WellFormed h' a ca ∧
      WellFormed h' b cb ∧ cb.map Prod.snd = ca.map Prod.snd ∧
      ∀ x, x ∈ ca.map Prod.fst → x ∉ cb.map Prod.fst := by
  obtain ⟨h', b, cb, e, hwb, hv, f, hfresh⟩ := dll_copy_constructor_wf hwa
  refine ⟨h', b, cb, e, hwa.dll_frame f (by simp), hwb, hv, ?_⟩
  intro x hx hmem
  have h1 := hwa.dll_lt x hx
  have h2 := hfresh x hmem
  omega

theorem dll_copy_assignment_apart {h : Heap (Node T)} {a b : DoublyLinkedList}
    {ca cb : List (Nat × T)} (hwa : WellFormed h a ca) (hwb : WellFormed h b cb)
    (hdis : ∀ x, x ∈ ca.map Prod.fst → x ∉ cb.map Prod.fst) :
    ∃ h' b' cb', copy_assignment true h b a = .ok (h', b') ∧ WellFormed h' a ca ∧
      WellFormed h' b' cb' ∧ cb'.map Prod.snd = ca.map Prod.snd ∧
      ∀ x, x ∈ ca.map Prod.fst → x ∉ cb'.map Prod.fst := by
  obtain ⟨h', b', cb', e, hwb', hv, f, hfresh⟩ := dll_copy_assignment_wf hwb hwa
  refine ⟨h', b', cb', e, hwa.dll_frame f (fun x hx hmem => hdis x hx hmem), hwb', hv, ?_⟩
  intro x hx hmem
  have h1 := hwa.dll_lt x hx
  have h2 := hfresh x hmem
  omega

theorem dll_push_back_apart {mem : Bool} {h h' : Heap (Node T)} {a a' b : DoublyLinkedList}
    {ca cb : List (Nat × T)} {v : T} (hwa : WellFormed h a ca) (hwb : WellFormed h b cb)
    (hdis : ∀ x, x ∈ ca.map Prod.fst → x ∉ cb.map Prod.fst)
    (e : push_back mem h a v = .ok (h', a')) :
    ∃ ca', WellFormed h' a' ca' ∧ ca'.map Prod.snd = ca.map Prod.snd ++ [v] ∧
      WellFormed h' b cb ∧ ∀ x, x ∈ ca'.map Prod.fst → x ∉ cb.map Prod.fst := by
  obtain ⟨h2, a2, e2, hw2, f⟩ := dll_push_back_wf_frame hwa v
  rw [dll_push_back_granted e] at e2
  cases e2
  obtain ⟨k1, k2⟩ := @dll_other_kept T h h' ca (ca ++ [(h.length, v)]) cb b f
    (by
      intro x hx
      simp only [List.map_append, List.map_cons, List.map_nil, List.mem_append,
        List.mem_singleton] at hx
      rcases hx with hx | hx
      · exact Or.inl hx
      · exact Or.inr (by omega))
    hwb hdis
  exact ⟨_, hw2, by simp, k1, k2⟩

theorem dll_insert_apart {mem : Bool} {h h' : Heap (Node T)} {a a' b : DoublyLinkedList}
    {ca cb : List (Nat × T)} {pos : Nat} {v : T} (hwa : WellFormed h a ca)
    (hwb : WellFormed h b cb) (hdis : ∀ x, x ∈ ca.map Prod.fst → x ∉ cb.map Prod.fst)
    (e : insert mem h a pos v = .ok (h', a')) :
    ∃ ca', WellFormed h' a' ca' ∧
      ca'.map Prod.snd = (ca.map Prod.snd).take pos ++ v :: (ca.map Prod.snd).drop pos ∧
      WellFormed h' b cb ∧ ∀ x, x ∈ ca'.map Prod.fst → x ∉ cb.map Prod.fst := by
  have hpos : pos ≤ ca.length := by
    by_contra hgt
    have := (dll_insert_outOfRange_iff mem h a pos v).mpr (by
      have := hwa.size
      simp only [size]
      omega)
    rw [this] at e
    cases e
  obtain ⟨h2, a2, e2, hw2, f⟩ := dll_insert_wf_frame hwa pos hpos v
  rw [dll_insert_granted e] at e2
  cases e2
  obtain ⟨k1, k2⟩ := @dll_other_kept T h h' ca
    (ca.take pos ++ (h.length, v) :: ca.drop pos) cb b f
    (by
      intro x hx
      rcases mem_insert_cells hx with hx | hx
      · exact Or.inl hx
      · exact Or.inr (by omega))
    hwb hdis
  exact ⟨_, hw2, by simp [List.map_take, List.map_drop], k1, k2⟩

theorem dll_erase_apart {h h' : Heap (Node T)} {a a' b : DoublyLinkedList}
    {ca cb : List (Nat × T)} {pos : Nat} (hwa : WellFormed h a ca)
    (hwb : WellFormed h b cb) (hdis : ∀ x, x ∈ ca.map Prod.fst → x ∉ cb.map Prod.fst)
    (e : erase h a pos = .ok (h', a')) :
    ∃ ca', WellFormed h' a' ca' ∧
      ca'.map Prod.snd = (ca.map Prod.snd).take pos ++ (ca.map Prod.snd).drop (pos + 1) ∧
      WellFormed h' b cb ∧ ∀ x, x ∈ ca'.map Prod.fst → x ∉ cb.map Prod.fst := by
  have hpos : pos < ca.length := by
    by_contra hge
    have := (dll_erase_outOfRange_iff h a pos).mpr (by
      have := hwa.size
      simp only [size]
      omega)
    rw [this] at e
    cases e
  obtain ⟨h2, a2, e2, hw2, f⟩ := dll_erase_wf_frame hwa pos hpos
  rw [e] at e2
  cases e2
  obtain ⟨k1, k2⟩ := @dll_other_kept T h h' ca
    (ca.take pos ++ ca.drop (pos + 1)) cb b f
    (fun x hx => Or.inl (mem_erase_cells hx)) hwb hdis
  exact ⟨_, hw2, by simp [List.map_take, List.map_drop], k1, k2⟩

theorem dll_clear_apart {h h' : Heap (Node T)} {a a' b : DoublyLinkedList}
    {ca cb : List (Nat × T)} (hwa : WellFormed h a ca)
    (hwb : WellFormed h b cb) (hdis : ∀ x, x ∈ ca.map Prod.fst → x ∉ cb.map Prod.fst)
    (e : clear h a = .ok (h', a')) :
    WellFormed h' a' ([] : List (Nat × T)) ∧ WellFormed h' b cb := by
  obtain ⟨h2, e2, hw2, f⟩ := dll_clear_wf_frame hwa
  rw [e] at e2
  cases e2
  exact ⟨hw2, hwb.dll_frame f (fun x hx hmem => hdis x hmem hx)⟩

theorem dll_index_assign_apart {h h' : Heap (Node T)} {a b : DoublyLinkedList}
    {ca cb : List (Nat × T)} {idx : Nat} {v : T} (hwa : WellFormed h a ca)
    (hwb : WellFormed h b cb) (hdis : ∀ x, x ∈ ca.map Prod.fst → x ∉ cb.map Prod.fst)
    (e : index_assign h a idx v = .ok h') :
    ∃ ca', WellFormed h' a ca' ∧ ca'.map Prod.snd = (ca.map Prod.snd).set idx v ∧
      WellFormed h' b cb ∧ ∀ x, x ∈ ca'.map Prod.fst → x ∉ cb.map Prod.fst := by
  have hpos : idx < ca.length := by
    by_contra hge
    have hchk : BaseContainer.check_index idx a.size_ = .error .OutOfRange :=
      BaseContainer.check_index_error (by have := hwa.size; omega)
    simp only [index_assign, hchk] at e
    cases e
  obtain ⟨h2, ca', e2, hw2, hfst, hsnd, f⟩ := dll_index_assign_wf_frame hwa idx hpos v
  rw [e] at e2
  cases e2
  refine ⟨ca', hw2, hsnd, hwb.dll_frame f (fun x hx hmem => hdis x hmem hx), ?_⟩
  intro x hx
  rw [hfst] at hx
  exact hdis x hx

end DoublyLinkedList

/-! ## Copies are independent -/

/-- C21: a copy shares nothing with its source.  For a `SimpleVector` object `a`
with a block of its own holding `xs`, a `SinglyLinkedList` and a `DoublyLinkedList`
`a` well formed over the nodes `ca`: the copy constructor returns a container `b`
holding the same element sequence, over a block or nodes of its own, and `a` is
as it was; copy assignment of `a` to a container `b` that shares nothing with `a`
does the same to `b`.  For any two containers `a` and `b` that share nothing, a
`push_back`, `insert`, `erase`, `clear` or write `a[idx] = x` on `a` that returns
leaves `b` with the members, block or nodes and values it had, so with its element
sequence and size, and the two still share nothing.  For the vectors, each of
these calls does to an object in the store what it does to the members and the
block taken alone. -/
theorem copy_independence {T : Type} :
    (∀ (st : Heap (List (Option T))) (a : SimpleVector.Object) (xs : List T),
      SimpleVector.Object.Owns st a xs →
      (∃ st' b, SimpleVector.Object.copy_constructor true st a = .ok (st', b) ∧
        SimpleVector.Object.view st' a = SimpleVector.Object.view st a ∧
        SimpleVector.Object.Owns st' b xs ∧ SimpleVector.Object.Separate a b) ∧
      ∀ (b : SimpleVector.Object) (ys : List T), SimpleVector.Object.Owns st b ys →
        SimpleVector.Object.Separate a b →
        (∃ st' b', SimpleVector.Object.copy_assignment true st b a = .ok (st', b') ∧
          SimpleVector.Object.view st' a = SimpleVector.Object.view st a ∧
          SimpleVector.Object.Owns st' b' xs ∧ SimpleVector.Object.Separate a b') ∧
        (∀ mem v st' a', SimpleVector.Object.push_back mem st a v = .ok (st', a') →
          SimpleVector.Object.view st' b = SimpleVector.Object.view st b ∧
          SimpleVector.Object.Separate a' b) ∧
        (∀ mv mem pos v st' a',
          SimpleVector.Object.insert mv mem st a pos v = .ok (st', a') →
          SimpleVector.Object.view st' b = SimpleVector.Object.view st b ∧
          SimpleVector.Object.Separate a' b) ∧
        (∀ mv pos st' a', SimpleVector.Object.erase mv st a pos = .ok (st', a') →
          SimpleVector.Object.view st' b = SimpleVector.Object.view st b ∧
          SimpleVector.Object.Separate a' b) ∧
        (∀ st' a', SimpleVector.Object.clear st a = .ok (st', a') →
          SimpleVector.Object.view st' b = SimpleVector.Object.view st b ∧
          SimpleVector.Object.Separate a' b) ∧
        (∀ idx x st' a', SimpleVector.Object.index_assign st a idx x = .ok (st', a') →
          SimpleVector.Object.view st' b = SimpleVector.Object.view st b ∧
          SimpleVector.Object.Separate a' b)) ∧
    (∀ (st : Heap (List (Option T))) (a : SimpleVector.Object) (s : SimpleVector T),
      SimpleVector.Object.view st a = .ok s →
      (∀ mem v s', SimpleVector.push_back mem s v = .ok s' →
        ∃ st' a', SimpleVector.Object.push_back mem st a v = .ok (st', a') ∧
          SimpleVector.Object.view st' a' = .ok s') ∧
      (∀ mv mem pos v s', SimpleVector.insert mv mem s pos v = .ok s' →
        ∃ st' a', SimpleVector.Object.insert mv mem st a pos v = .ok (st', a') ∧
          SimpleVector.Object.view st' a' = .ok s') ∧
      (∀ mv pos s', SimpleVector.erase mv s pos = .ok s' →
        ∃ st' a', SimpleVector.Object.erase mv st a pos = .ok (st', a') ∧
          SimpleVector.Object.view st' a' = .ok s') ∧
      (∀ s', SimpleVector.clear s = .ok s' →
        ∃ st' a', SimpleVector.Object.clear st a = .ok (st', a') ∧
          SimpleVector.Object.view st' a' = .ok s') ∧
      (∀ idx x s', SimpleVector.index_assign s idx x = .ok s' →
        ∃ st' a', SimpleVector.Object.index_assign st a idx x = .ok (st', a') ∧
          SimpleVector.Object.view st' a' = .ok s')) ∧
    (∀ (h : Heap (SinglyLinkedList.Node T)) (a : SinglyLinkedList) (ca : List (Nat × T)),
      SinglyLinkedList.WellFormed h a ca →
      (∃ h' b cb, SinglyLinkedList.copy_constructor true h a = .ok (h', b) ∧
        SinglyLinkedList.WellFormed h' a ca ∧ SinglyLinkedList.WellFormed h' b cb ∧
        cb.map Prod.snd = ca.map Prod.snd ∧
        ∀ x, x ∈ ca.map Prod.fst → x ∉ cb.map Prod.fst) ∧
      ∀ (b : SinglyLinkedList) (cb : List (Nat × T)), SinglyLinkedList.WellFormed h b cb →
        (∀ x, x ∈ ca.map Prod.fst → x ∉ cb.map Prod.fst) →
        (∃ h' b' cb', SinglyLinkedList.copy_assignment true h b a = .ok (h', b') ∧
          SinglyLinkedList.WellFormed h' a ca ∧ SinglyLinkedList.WellFormed h' b' cb' ∧
          cb'.map Prod.snd = ca.map Prod.snd ∧
          ∀ x, x ∈ ca.map Prod.fst → x ∉ cb'.map Prod.fst) ∧
        (∀ mem v h' a', SinglyLinkedList.push_back mem h a v = .ok (h', a') →
          ∃ ca', SinglyLinkedList.WellFormed h' a' ca' ∧
            ca'.map Prod.snd = ca.map Prod.snd ++ [v] ∧
            SinglyLinkedList.WellFormed h' b cb ∧
            ∀ x, x ∈ ca'.map Prod.fst → x ∉ cb.map Prod.fst) ∧
        (∀ mem pos v h' a', SinglyLinkedList.insert mem h a pos v = .ok (h', a') →
          ∃ ca', SinglyLinkedList.WellFormed h' a' ca' ∧
            ca'.map Prod.snd
              = (ca.map Prod.snd).take pos ++ v :: (ca.map Prod.snd).drop pos ∧
            SinglyLinkedList.WellFormed h' b cb ∧
            ∀ x, x ∈ ca'.map Prod.fst → x ∉ cb.map Prod.fst) ∧
        (∀ pos h' a', SinglyLinkedList.erase h a pos = .ok (h', a') →
          ∃ ca', SinglyLinkedList.WellFormed h' a' ca' ∧
            ca'.map Prod.snd
              = (ca.map Prod.snd).take pos ++ (ca.map Prod.snd).drop (pos + 1) ∧
            SinglyLinkedList.WellFormed h' b cb ∧
            ∀ x, x ∈ ca'.map Prod.fst → x ∉ cb.map Prod.fst) ∧
        (∀ h' a', SinglyLinkedList.clear h a = .ok (h', a') →
          SinglyLinkedList.WellFormed h' a' ([] : List (Nat × T)) ∧
          SinglyLinkedList.WellFormed h' b cb) ∧
        (∀ idx x h', SinglyLinkedList.index_assign h a idx x = .ok h' →
          ∃ ca', SinglyLinkedList.WellFormed h' a ca' ∧
            ca'.map Prod.snd = (ca.map Prod.snd).set idx x ∧
            SinglyLinkedList.WellFormed h' b cb ∧
            ∀ x, x ∈ ca'.map Prod.fst → x ∉ cb.map Prod.fst)) ∧
    (∀ (h : Heap (DoublyLinkedList.Node T)) (a : DoublyLinkedList) (ca : List (Nat × T)),
      DoublyLinkedList.WellFormed h a ca →
      (∃ h' b cb, DoublyLinkedList.copy_constructor true h a = .ok (h', b) ∧
        DoublyLinkedList.WellFormed h' a ca ∧ DoublyLinkedList.WellFormed h' b cb ∧
        cb.map Prod.snd = ca.map Prod.snd ∧
        ∀ x, x ∈ ca.map Prod.fst → x ∉ cb.map Prod.fst) ∧
      ∀ (b : DoublyLinkedList) (cb : List (Nat × T)), DoublyLinkedList.WellFormed h b cb →
        (∀ x, x ∈ ca.map Prod.fst → x ∉ cb.map Prod.fst) →
        (∃ h' b' cb', DoublyLinkedList.copy_assignment true h b a = .ok (h', b') ∧
          DoublyLinkedList.WellFormed h' a ca ∧ DoublyLinkedList.WellFormed h' b' cb' ∧
          cb'.map Prod.snd = ca.map Prod.snd ∧
          ∀ x, x ∈ ca.map Prod.fst → x ∉ cb'.map Prod.fst) ∧
        (∀ mem v h' a', DoublyLinkedList.push_back mem h a v = .ok (h', a') →
          ∃ ca', DoublyLinkedList.WellFormed h' a' ca' ∧
            ca'.map Prod.snd = ca.map Prod.snd ++ [v] ∧
            DoublyLinkedList.WellFormed h' b cb ∧
            ∀ x, x ∈ ca'.map Prod.fst → x ∉ cb.map Prod.fst) ∧
        (∀ mem pos v h' a', DoublyLinkedList.insert mem h a pos v = .ok (h', a') →
          ∃ ca', DoublyLinkedList.WellFormed h' a' ca' ∧
            ca'.map Prod.snd
              = (ca.map Prod.snd).take pos ++ v :: (ca.map Prod.snd).drop pos ∧
            DoublyLinkedList.WellFormed h' b cb ∧
            ∀ x, x ∈ ca'.map Prod.fst → x ∉ cb.map Prod.fst) ∧
        (∀ pos h' a', DoublyLinkedList.erase h a pos = .ok (h', a') →
          ∃ ca', DoublyLinkedList.WellFormed h' a' ca' ∧
            ca'.map Prod.snd
              = (ca.map Prod.snd).take pos ++ (ca.map Prod.snd).drop (pos + 1) ∧
            DoublyLinkedList.WellFormed h' b cb ∧
            ∀ x, x ∈ ca'.map Prod.fst → x ∉ cb.map Prod.fst) ∧
        (∀ h' a', DoublyLinkedList.clear h a = .ok (h', a') →
          DoublyLinkedList.WellFormed h' a' ([] : List (Nat × T)) ∧
          DoublyLinkedList.WellFormed h' b cb) ∧
        (∀ idx x h', DoublyLinkedList.index_assign h a idx x = .ok h' →
          ∃ ca', DoublyLinkedList.WellFormed h' a ca' ∧
            ca'.map Prod.snd = (ca.map Prod.snd).set idx x ∧
            DoublyLinkedList.WellFormed h' b cb ∧
            ∀ x, x ∈ ca'.map Prod.fst → x ∉ cb.map Prod.fst)) := by
  refine ⟨?_, ?_, ?_, ?_⟩
  · intro st a xs ha
    refine ⟨?_, ?_⟩
    · obtain ⟨st', b, e, hv, hb, hsep, _, _⟩ := SimpleVector.Object.copy_constructor_owns ha
      exact ⟨st', b, e, hv, hb, hsep⟩
    · intro b ys hb hsep
      obtain ⟨sb, hvb, _⟩ := hb
      have key : ∀ {st' : Heap (List (Option T))} {a' : SimpleVector.Object},
          SimpleVector.Object.Local st a st' a' →
          SimpleVector.Object.view st' b = SimpleVector.Object.view st b ∧
          SimpleVector.Object.Separate a' b := by
        intro st' a' l
        obtain ⟨k1, k2⟩ := l.other hvb hsep
        exact ⟨by rw [k1, hvb], k2⟩
      refine ⟨?_, ?_, ?_, ?_, ?_, ?_⟩
      · obtain ⟨st', b', e, hv, hb', hsep', _, _⟩ :=
          SimpleVector.Object.copy_assignment_owns ha ⟨sb, hvb, by assumption⟩ hsep
        exact ⟨st', b', e, hv, hb', hsep'⟩
      · intro mem v st' a' e
        exact key (SimpleVector.Object.push_back_local e)
      · intro mv mem pos v st' a' e
        exact key (SimpleVector.Object.insert_local e)
      · intro mv pos st' a' e
        exact key (SimpleVector.Object.erase_local e)
      · intro st' a' e
        exact key (SimpleVector.Object.clear_local e)
      · intro idx x st' a' e
        exact key (SimpleVector.Object.index_assign_local e)
  · intro st a s hv
    exact ⟨fun _ _ _ e => SimpleVector.Object.push_back_sim hv e,
      fun _ _ _ _ _ e => SimpleVector.Object.insert_sim hv e,
      fun _ _ _ e => SimpleVector.Object.erase_sim hv e,
      fun _ e => SimpleVector.Object.clear_sim hv e,
      fun _ _ _ e => SimpleVector.Object.index_assign_sim hv e⟩
  · intro h a ca hwa
    refine ⟨SinglyLinkedList.sll_copy_constructor_apart hwa, ?_⟩
    intro b cb hwb hdis
    exact ⟨SinglyLinkedList.sll_copy_assignment_apart hwa hwb hdis,
      fun _ _ _ _ e => SinglyLinkedList.sll_push_back_apart hwa hwb hdis e,
      fun _ _ _ _ _ e => SinglyLinkedList.sll_insert_apart hwa hwb hdis e,
      fun _ _ _ e => SinglyLinkedList.sll_erase_apart hwa hwb hdis e,
      fun _ _ e => SinglyLinkedList.sll_clear_apart hwa hwb hdis e,
      fun _ _ _ e => SinglyLinkedList.sll_index_assign_apart hwa hwb hdis e⟩
  · intro h a ca hwa
    refine ⟨DoublyLinkedList.dll_copy_constructor_apart hwa, ?_⟩
    intro b cb hwb hdis
    exact ⟨DoublyLinkedList.dll_copy_assignment_apart hwa hwb hdis,
      fun _ _ _ _ e => DoublyLinkedList.dll_push_back_apart hwa hwb hdis e,
      fun _ _ _ _ _ e => DoublyLinkedList.dll_insert_apart hwa hwb hdis e,
      fun _ _ _ e => DoublyLinkedList.dll_erase_apart hwa hwb hdis e,
      fun _ _ e => DoublyLinkedList.dll_clear_apart hwa hwb hdis e,
      fun _ _ _ e => DoublyLinkedList.dll_index_assign_apart hwa hwb hdis e⟩

theorem copy_independence_witness :
    SimpleVector.Object.Owns SimpleVector.Object.sample_store SimpleVector.Object.sample
      [1, 2, 3] ∧
    ∃ st' b, SimpleVector.Object.copy_constructor true SimpleVector.Object.sample_store
        SimpleVector.Object.sample = .ok (st', b) ∧
      SimpleVector.Object.view st' SimpleVector.Object.sample
        = SimpleVector.Object.view SimpleVector.Object.sample_store
            SimpleVector.Object.sample ∧
      SimpleVector.Object.Owns st' b [1, 2, 3] ∧
      SimpleVector.Object.Separate SimpleVector.Object.sample b :=
  ⟨⟨SimpleVector.sample, rfl, SimpleVector.sample_holds⟩,
    ((@copy_independence Int).1 SimpleVector.Object.sample_store SimpleVector.Object.sample
      [1, 2, 3] ⟨SimpleVector.sample, rfl, SimpleVector.sample_holds⟩).1⟩
